import Mathlib

/-! # LoopAuditioneer: sustain detection, pitch windows, loop search and buffer editing

A shallow embedding of the analysis and editing code of `FileHandling.cpp` and
`AutoLooping.cpp`.

Modelling conventions

* A sample value is a rational number (`ℚ`), and the sums, differences,
  products and blends of sample values are exact; `fabs` is the absolute
  value. Halving and quartering a value, which the scans do, is exact in
  `double`s as well.
* Where a `double` decides a count, an index, a threshold, a weight of a fade
  curve or a pitch reading, every operation is rounded as the machine rounds
  it: `rnd x` is the `double` nearest to `x` (IEEE 754 binary64, round to
  nearest, ties to even), and a decimal constant or a parameter such as
  `0.1` enters as the `double` nearest to it. This holds for the sample
  counts of `TrimStart`, `TrimEnd`, `PerformFade` and `PerformCrossfade`,
  the percentages of the search range, the index of the reduced candidate
  list, the thresholds of the loop search and the entries of the curve
  tables. The pitch readings, their sort, the outlier test, their averages
  and the peak interpolation are computed in `F64`, which adds the signed
  zeros, the infinities and the values that are not numbers.
* Library functions whose values are irrational (`sqrt`, `cos`, `sin`) or whose
  source is not part of the translated files (`WindowFunc`, `PowerSpectrum`)
  are parameters of the definitions that call them; such a parameter stands
  for the library function together with the rounding of the expression it
  is applied to.
* In the fade code, which divides by `samplesToFade - 1`, a `double` is a
  rational number or `none`, a value that is not a finite number: the result
  of a division by zero, and of every sum and product with such a value.
* A `double data[]` argument is a map from offsets to values (`Nat → ℚ`); its
  length travels separately, exactly as in the C++ signatures. A read past
  the length yields whatever the map holds there. In `PerformCrossfade` and
  `PerformFade`, whose claims are about the indices, every access is checked
  instead: an index outside the array makes the call `none`.
* An array allocated with `new` holds unknown values until it is written; its
  initial content is a parameter (`Fresh`).
* `unsigned` is a natural number below `2^32`; every `+` and `-` the source
  performs on `unsigned` operands is written `uadd` / `usub` and wraps.
* Every `for`/`while` loop is an instance of `forLoop`, which runs the loop
  with `2^32` units of fuel; `none` means the fuel ran out (the loop of the
  source does not come to an end within `2^32` rounds).
* An `int` that only counts upwards from 0 (the bins of the harmonic product
  spectrum) is a natural number; `abs` of a difference of two of them is
  `Int.natAbs`.
* Where a claim speaks of window maxima, running maxima, local peaks or mean
  squares, these are defined a second time from the samples (`windowPeak`,
  `runningMax`, `peaksRight`, `meanSquare`, ...) and the loops are proved to
  compute them.
-/

namespace LoopAuditioneer

/-! ## Machine arithmetic -/

/-- Number of values of a 32 bit `unsigned`. -/
def U32 : Nat := 4294967296

/-- Sum of two `unsigned` values. -/
def uadd (a b : Nat) : Nat := (a + b) % U32

/-- Difference of two `unsigned` values (both below `U32`). -/
def usub (a b : Nat) : Nat := (a + U32 - b) % U32

/-- Product of two `unsigned` values. -/
def umul (a b : Nat) : Nat := (a * b) % U32

/-- The C library function `fabs`. -/
def fabs (x : ℚ) : ℚ := if x < 0 then -x else x

/-- Number of binary digits of `n`; the first argument bounds the number of halvings. -/
def bitLength : Nat → Nat → Nat
  | 0, _ => 0
  | fuel + 1, n => if n = 0 then 0 else bitLength fuel (n / 2) + 1

/-- The binary exponent of a non-zero number `x`: the `e` with `2 ^ e ≤ |x| < 2 ^ (e + 1)`. -/
def binade (x : ℚ) : Int :=
  if (2 : ℚ) ^ ((bitLength x.num.natAbs x.num.natAbs : Int) - (bitLength x.den x.den : Int)) ≤ |x|
  then (bitLength x.num.natAbs x.num.natAbs : Int) - (bitLength x.den x.den : Int)
  else (bitLength x.num.natAbs x.num.natAbs : Int) - (bitLength x.den x.den : Int) - 1

/-- The integer nearest to `y`, the even one of the two when `y` lies half way. -/
def roundHalfEven (y : ℚ) : Int :=
  if y - ⌊y⌋ < 1 / 2 then ⌊y⌋
  else if 1 / 2 < y - ⌊y⌋ then ⌊y⌋ + 1
  else if ⌊y⌋ % 2 = 0 then ⌊y⌋ else ⌊y⌋ + 1

/-- The exponent of the unit in the last place of the `double`s around `x`: 52 binary
places below the exponent of `x`, and `-1074` for the subnormal numbers. -/
def ulpExponent (x : ℚ) : Int := max (binade x) (-1022) - 52

/-- The result of an arithmetic operation on `double`s whose exact value is `x`: the nearest
number with a 53 bit significand (IEEE 754 binary64, round to nearest, ties to even). The
exponent is not bounded above; `F64.round` adds the overflow to infinity. -/
def rnd (x : ℚ) : ℚ := (roundHalfEven (x / 2 ^ ulpExponent x) : ℚ) * 2 ^ ulpExponent x

/-- A `double` with its special values: a finite value given by its sign and its magnitude
(so that `-0.0` is a value of its own), an infinity with its sign, or a value that is not a
number. -/
inductive F64 where
  | fin (neg : Bool) (mag : ℚ) : F64
  | inf (neg : Bool) : F64
  | nan : F64
  deriving DecidableEq

/-- The `double` nearest to a number of the given sign and magnitude; a magnitude that
rounds above the largest `double` gives an infinity. -/
def F64.round (neg : Bool) (mag : ℚ) : F64 :=
  if rnd mag < 2 ^ (1024 : Nat) then F64.fin neg (rnd mag) else F64.inf neg

/-- Conversion of an integer or of a decimal constant to `double`. -/
def F64.ofRat (q : ℚ) : F64 := F64.round (decide (q < 0)) |q|

/-- The number that a finite `double` with the given sign and magnitude stands for. -/
def F64.signed (neg : Bool) (mag : ℚ) : ℚ := if neg then -mag else mag

/-- The operator `-` with one operand. -/
def F64.neg : F64 → F64
  | F64.fin s m => F64.fin (!s) m
  | F64.inf s => F64.inf (!s)
  | F64.nan => F64.nan

/-- The operator `+` of two `double`s. -/
def F64.add : F64 → F64 → F64
  | F64.nan, _ => F64.nan
  | _, F64.nan => F64.nan
  | F64.inf s, F64.inf t => if s = t then F64.inf s else F64.nan
  | F64.inf s, F64.fin _ _ => F64.inf s
  | F64.fin _ _, F64.inf t => F64.inf t
  | F64.fin s a, F64.fin t b =>
    if F64.signed s a + F64.signed t b = 0 then F64.fin (s && t) 0
    else F64.round (decide (F64.signed s a + F64.signed t b < 0))
      |F64.signed s a + F64.signed t b|

/-- The operator `-` of two `double`s. -/
def F64.sub (x y : F64) : F64 := F64.add x (F64.neg y)

/-- The operator `*` of two `double`s. -/
def F64.mul : F64 → F64 → F64
  | F64.nan, _ => F64.nan
  | _, F64.nan => F64.nan
  | F64.inf s, F64.inf t => F64.inf (xor s t)
  | F64.inf s, F64.fin t b => if b = 0 then F64.nan else F64.inf (xor s t)
  | F64.fin s a, F64.inf t => if a = 0 then F64.nan else F64.inf (xor s t)
  | F64.fin s a, F64.fin t b => F64.round (xor s t) (a * b)

/-- The operator `/` of two `double`s. -/
def F64.div : F64 → F64 → F64
  | F64.nan, _ => F64.nan
  | _, F64.nan => F64.nan
  | F64.inf _, F64.inf _ => F64.nan
  | F64.inf s, F64.fin t _ => F64.inf (xor s t)
  | F64.fin s _, F64.inf t => F64.fin (xor s t) 0
  | F64.fin s a, F64.fin t b =>
    if b = 0 then (if a = 0 then F64.nan else F64.inf (xor s t))
    else F64.round (xor s t) (a / b)

/-- The operator `<` of two `double`s (`x > y` is `F64.lt y x`). -/
def F64.lt : F64 → F64 → Bool
  | F64.nan, _ => false
  | _, F64.nan => false
  | F64.inf s, F64.inf t => s && !t
  | F64.inf s, F64.fin _ _ => s
  | F64.fin _ _, F64.inf t => !t
  | F64.fin s a, F64.fin t b => decide (F64.signed s a < F64.signed t b)

/-- The `double` `0.0`. -/
def F64.zero : F64 := F64.fin false 0

/-- The magnitude of a finite `double`, and 0 for the other values. -/
def F64.mag : F64 → ℚ
  | F64.fin _ m => m
  | _ => 0

/-- The `double` `x` is finite and stands for the number `v`. -/
def F64.IsNumber (x : F64) (v : ℚ) : Prop :=
  ∃ s m, x = F64.fin s m ∧ F64.signed s m = v

/-! ## Loops -/

/-- Outcome of one round of a loop body: go on with the next round
(also the effect of `continue`), or leave the loop (`break`). -/
inductive Step (σ : Type) where
  | next : σ → Step σ
  | brk : σ → Step σ

/-- The loop `for (i = start; cond i; i = incr i) body`, with the variables the
body assigns collected in the state `σ`. The first argument after the body
is the fuel. -/
def forLoop {σ : Type} (cond : Nat → Bool) (incr : Nat → Nat)
    (body : Nat → σ → Option (Step σ)) : Nat → Nat → σ → Option σ
  | 0, _, _ => none
  | fuel + 1, i, s =>
    if cond i then
      match body i s with
      | none => none
      | some (Step.next s') => forLoop cond incr body fuel (incr i) s'
      | some (Step.brk s') => some s'
    else some s

/-! ## FileHandling -/

/-- The members of `FileHandling` that the analysis routines read. -/
structure FileHandling where
  ArrayLength : Nat
  m_channels : Nat
  m_samplerate : Nat

/-- The local `numberOfSamples = ArrayLength / m_channels`. -/
def FileHandling.numberOfSamples (fh : FileHandling) : Nat :=
  fh.ArrayLength / fh.m_channels

/-- First loop nest of `SeparateStrongestChannel`: the channel holding the
first sample (channel by channel) that is strictly larger in absolute value
than everything before it. The state is `(strongestValue, channel_idx)`. -/
def detectStrongestChannel (fh : FileHandling) (inData : Nat → ℚ) : Option (ℚ × Nat) :=
  forLoop (fun i => i < fh.m_channels) (fun i => i + 1)
    (fun i st =>
      (forLoop (fun j => j < fh.ArrayLength) (fun j => uadd j fh.m_channels)
        (fun j (st : ℚ × Nat) =>
          if fabs (inData j) > st.1 then some (Step.next (fabs (inData j), i))
          else some (Step.next st))
        U32 i st).map Step.next)
    U32 0 (0, 0)

/-- Second loop of `SeparateStrongestChannel`: the values written to
`outData[0]`, `outData[1]`, ... in this order. -/
def copyChannel (fh : FileHandling) (inData : Nat → ℚ) (channel_idx : Nat) : Option (List ℚ) :=
  forLoop (fun data_idx => data_idx < fh.ArrayLength) (fun data_idx => uadd data_idx fh.m_channels)
    (fun data_idx (outData : List ℚ) => some (Step.next (outData ++ [inData data_idx])))
    U32 channel_idx []

/-- `FileHandling::SeparateStrongestChannel`: the contents of `outData` that
the call writes, from index 0 on. -/
def SeparateStrongestChannel (fh : FileHandling) (inData : Nat → ℚ) : Option (List ℚ) :=
  (detectStrongestChannel fh inData).bind fun st => copyChannel fh inData st.2

/-- Largest absolute value of the samples an inner window loop visits.
`cond`/`incr` give the loop header, `start` its first index. -/
def windowMax (ch_data : Nat → ℚ) (cond : Nat → Bool) (incr : Nat → Nat) (start : Nat) :
    Option ℚ :=
  forLoop cond incr
    (fun j (maxValueInThisWindow : ℚ) =>
      if fabs (ch_data j) > maxValueInThisWindow then some (Step.next (fabs (ch_data j)))
      else some (Step.next maxValueInThisWindow))
    U32 start 0

/-- "Find strongest value" loop of `GetSustainStartAndEnd`; the state is
`(maxValue, indexWithMaxValue)`. -/
def findStrongestValue (ch_data : Nat → ℚ) (numberOfSamples : Nat) : Option (ℚ × Nat) :=
  forLoop (fun idx => idx < numberOfSamples) (fun idx => uadd idx 1)
    (fun idx (st : ℚ × Nat) =>
      if fabs (ch_data idx) > st.1 then some (Step.next (fabs (ch_data idx), idx))
      else some (Step.next st))
    U32 0 (0, 0)

/-- Forward envelope scan of `GetSustainStartAndEnd`; the state is
`(maxAmplitudeValue, sustainsection.first)`. -/
def scanSustainStart (ch_data : Nat → ℚ) (numberOfSamples windowSize : Nat) : Option (ℚ × Nat) :=
  forLoop (fun idx => idx < usub numberOfSamples windowSize) (fun idx => uadd idx windowSize)
    (fun idx (st : ℚ × Nat) =>
      match windowMax ch_data (fun j => j < uadd idx windowSize) (fun j => uadd j 1) idx with
      | none => none
      | some maxValueInThisWindow =>
        if maxValueInThisWindow > st.1 then some (Step.next (maxValueInThisWindow, st.2))
        else some (Step.brk (st.1, uadd idx windowSize)))
    U32 0 (0, 0)

/-- Backward envelope scan of `GetSustainStartAndEnd`; the state is
`(maxAmplitudeValue, sustainsection.second)`. -/
def scanSustainEnd (ch_data : Nat → ℚ) (numberOfSamples windowSize : Nat) (maxValue : ℚ) :
    Option (ℚ × Nat) :=
  forLoop (fun idx => idx > windowSize) (fun idx => usub idx windowSize)
    (fun idx (st : ℚ × Nat) =>
      match windowMax ch_data (fun j => j > usub idx windowSize) (fun j => usub j 1) idx with
      | none => none
      | some maxValueInThisWindow =>
        if maxValueInThisWindow < maxValue / 4 then some (Step.next (maxValueInThisWindow, st.2))
        else if maxValueInThisWindow > st.1 then some (Step.next (maxValueInThisWindow, st.2))
        else some (Step.brk (st.1, idx)))
    U32 (usub numberOfSamples 1) (0, 0)

/-- The two peak collecting loops of the fallback branch of
`GetSustainStartAndEnd`. The state is `(lastValue, middleValue, absolutePeaks)`;
`peakAt i` is the index stored with a peak seen at loop index `i`. -/
def collectPeaks (ch_data : Nat → ℚ) (cond : Nat → Bool) (incr : Nat → Nat) (peakAt : Nat → Nat)
    (start : Nat) (lastValue middleValue : ℚ) : Option (ℚ × ℚ × List (Nat × ℚ)) :=
  forLoop cond incr
    (fun i (st : ℚ × ℚ × List (Nat × ℚ)) =>
      let currentValue := fabs (ch_data i)
      if st.2.1 > currentValue ∧ st.2.1 > st.1 then
        some (Step.next (st.2.1, currentValue, st.2.2 ++ [(peakAt i, st.2.1)]))
      else some (Step.next (st.2.1, currentValue, st.2.2)))
    U32 start (lastValue, middleValue, [])

/-- The loop `for (unsigned i = absolutePeaks.size() - 1; i > 0; i--)` of the
fallback branch: `target` is overwritten with the index of the first peak,
from the back, that is larger than `maxValue / 2`. -/
def lastPeakAbove (absolutePeaks : List (Nat × ℚ)) (maxValue : ℚ) (target : Nat) : Option Nat :=
  forLoop (fun i => i > 0) (fun i => usub i 1)
    (fun i (t : Nat) =>
      if (absolutePeaks.getD i (0, 0)).2 > maxValue / 2 then
        some (Step.brk (absolutePeaks.getD i (0, 0)).1)
      else some (Step.next t))
    U32 (usub (absolutePeaks.length % U32) 1) target

/-- Fallback branch of `GetSustainStartAndEnd` (taken when
`sustainsection.second < sustainsection.first`). -/
def sustainFallback (ch_data : Nat → ℚ) (numberOfSamples : Nat) (maxValue : ℚ)
    (indexWithMaxValue first second : Nat) : Option (Nat × Nat) :=
  (collectPeaks ch_data (fun i => i < numberOfSamples) (fun i => uadd i 1)
      (fun i => usub i 1) (uadd indexWithMaxValue 2) maxValue
      (fabs (ch_data (uadd indexWithMaxValue 1)))).bind fun after =>
    if after.2.2.isEmpty = false then
      (lastPeakAbove after.2.2 maxValue second).bind fun second' =>
        (collectPeaks ch_data (fun i => i > 0) (fun i => usub i 1)
            (fun i => uadd i 1) (usub indexWithMaxValue 2) maxValue
            (fabs (ch_data (usub indexWithMaxValue 1)))).bind fun before =>
          if before.2.2.isEmpty = false then
            (lastPeakAbove before.2.2 maxValue first).bind fun first' =>
              if first' < second' then some (first', second') else some (0, 0)
          else some (0, 0)
    else some (0, 0)

/-- The end of `GetSustainStartAndEnd`, from the test `second < first` on. -/
def sustainDecision (ch_data : Nat → ℚ) (numberOfSamples : Nat) (maxValue : ℚ)
    (indexWithMaxValue first second : Nat) : Option (Nat × Nat) :=
  if second < first then
    sustainFallback ch_data numberOfSamples maxValue indexWithMaxValue first second
  else if first < second then some (first, second)
  else some (0, 0)

/-- The statement `if (second > first) second -= m_samplerate / 4`. -/
def removeOffset (first second m_samplerate : Nat) : Nat :=
  if second > first then usub second (m_samplerate / 4) else second

/-- `FileHandling::GetSustainStartAndEnd`. The three loops give `strongest = (maxValue,
indexWithMaxValue)`, `fwd = (maxAmplitudeValue, sustainsection.first)` and
`bwd = (maxAmplitudeValue, sustainsection.second)`; the window is `m_samplerate / 20`. -/
def GetSustainStartAndEnd (fh : FileHandling) (ch_data : Nat → ℚ) : Option (Nat × Nat) :=
  (findStrongestValue ch_data fh.numberOfSamples).bind fun strongest =>
    (scanSustainStart ch_data fh.numberOfSamples (fh.m_samplerate / 20)).bind fun fwd =>
      (scanSustainEnd ch_data fh.numberOfSamples (fh.m_samplerate / 20) strongest.1).bind
        fun bwd =>
          sustainDecision ch_data fh.numberOfSamples strongest.1 strongest.2
            (uadd fwd.2 (fh.m_samplerate / 4))
            (removeOffset (uadd fwd.2 (fh.m_samplerate / 4)) bwd.2 fh.m_samplerate)

/-- The loop `while (cond) body`, the variables of the loop collected in the state `σ`.
The argument after the body is the fuel. -/
def whileLoop {σ : Type} (cond : σ → Bool) (body : σ → Option σ) : Nat → σ → Option σ
  | 0, _ => none
  | fuel + 1, s =>
    if cond s then
      match body s with
      | none => none
      | some s' => whileLoop cond body fuel s'
    else some s

/-- The array `channel_data` that both pitch detectors analyse: the strongest channel when
there are several, a copy of the first `numberOfSamples` samples otherwise. `junk` is the
content of the freshly allocated array, seen wherever nothing was written. -/
def prepareChannelData (fh : FileHandling) (junk : Nat → ℚ) (data : Nat → ℚ) :
    Option (Nat → ℚ) :=
  if fh.m_channels > 1 then
    (SeparateStrongestChannel fh data).bind fun outData =>
      some (fun i => if i < outData.length then outData.getD i 0 else junk i)
  else some (fun i => if i < fh.numberOfSamples then data i else junk i)

/-- The loop "find out how large the analyze window can be" of `DetectPitchByFFT`; the state
is `(analyzeWindowSize, keepIncreasing)`. -/
def chooseAnalyzeWindowSize (first second m_samplerate : Nat) : Option Nat :=
  (whileLoop (fun (st : Nat × Bool) => st.2)
    (fun st =>
      if umul st.1 2 < usub second first then
        if st.1 < m_samplerate then
          if st.1 < 65536 then some (umul st.1 2, true)
          else some (st.1, false)
        else some (st.1, false)
      else some (st.1, false))
    U32 (2, true)).map (fun st => st.1)

/-- The statement "if not more than one window will be analyzed put it in the middle":
the new value of `sustainStartAndEnd.first`. -/
def centreFirst (first second analyzeWindowSize : Nat) : Nat :=
  if usub second first / analyzeWindowSize < 2 then
    uadd first (usub (usub second first) analyzeWindowSize / 2)
  else first

/-- The main loop `while (current_idx < second - analyzeWindowSize)` of `DetectPitchByFFT`:
the list of the values `perWindow current_idx`, one for each window the loop processes.
The state is `(current_idx, values pushed so far)`. -/
def windowLoop {α : Type} (first second analyzeWindowSize : Nat) (perWindow : Nat → Option α) :
    Option (List α) :=
  (whileLoop (fun (st : Nat × List α) => st.1 < usub second analyzeWindowSize)
    (fun st => (perWindow st.1).map fun r => (uadd st.1 (analyzeWindowSize / 2), st.2 ++ [r]))
    U32 (first, [])).map (fun st => st.2)

/-- The loop filling `in[]` with the samples of the window starting at `current_idx`. -/
def fillWindow (channel_data : Nat → ℚ) (current_idx analyzeWindowSize : Nat) :
    Option (List ℚ) :=
  forLoop (fun x => x < uadd current_idx analyzeWindowSize) (fun x => uadd x 1)
    (fun x (inp : List ℚ) => some (Step.next (inp ++ [channel_data x])))
    U32 current_idx []

/-- The three assignments that exchange the entries `i` and `j` of a vector
(`temp = v[i]; v[i] = v[j]; v[j] = temp`). -/
def swapAt {α : Type} (l : List α) (i j : Nat) (d : α) : List α :=
  (l.set i (l.getD j d)).set j (l.getD i d)

/-- The ascending exchange sort that `DetectPitchByFFT` applies to `harmonicProductPitches`. -/
def sortPitches (h : List F64) : Option (List F64) :=
  forLoop (fun i => i < h.length - 1) (fun i => uadd i 1)
    (fun i h1 =>
      (forLoop (fun j => j < h.length) (fun j => uadd j 1)
        (fun j (h2 : List F64) =>
          if F64.lt (h2.getD j F64.zero) (h2.getD i F64.zero) then
            some (Step.next (swapAt h2 i j F64.zero))
          else some (Step.next h2))
        U32 (uadd i 1) h1).map Step.next)
    U32 0 h

/-- The outlier loop `for (int i = size - 1; i > 0; i--)` with its `pop_back`; the quotient
and the constant `1.05` are `double`s. -/
def dropOutliers (h : List F64) : Option (List F64) :=
  forLoop (fun i => i > 0) (fun i => i - 1)
    (fun i (h1 : List F64) =>
      if F64.lt (F64.ofRat 1.05) (F64.div (h1.getD i F64.zero) (h1.getD 0 F64.zero)) then
        some (Step.next h1.dropLast)
      else some (Step.next h1))
    U32 (h.length - 1) h

/-- The block "try removing obvious pitch error values if still present for hps". -/
def cleanHarmonicProductPitches (harmonicProductPitches : List F64) : Option (List F64) :=
  if harmonicProductPitches.isEmpty = false then
    (sortPitches harmonicProductPitches).bind dropOutliers
  else some harmonicProductPitches

/-- The end of `DetectPitchByFFT`: the two averages, each the sum of the `double`s from
`pitchSum = 0` on, divided by the size as a `double`; or `none` for `return false`. -/
def averagePitches (detectedPitches harmonicProductPitches : List F64) :
    Option (F64 × F64) :=
  if detectedPitches.isEmpty = false then
    some (F64.div (detectedPitches.foldl F64.add F64.zero)
        (F64.ofRat detectedPitches.length),
      F64.div (harmonicProductPitches.foldl F64.add F64.zero)
        (F64.ofRat harmonicProductPitches.length))
  else none

/-- The part of `DetectPitchByFFT` after the sustain section was found valid. -/
def analyseSustain (analyze : List ℚ → Nat → F64 × F64) (m_samplerate : Nat)
    (channel_data : Nat → ℚ) (first second : Nat) : Option (Option (F64 × F64)) :=
  (chooseAnalyzeWindowSize first second m_samplerate).bind fun analyzeWindowSize =>
    (windowLoop (centreFirst first second analyzeWindowSize) second analyzeWindowSize
        (fun current_idx => (fillWindow channel_data current_idx analyzeWindowSize).map
          (fun inp => analyze inp analyzeWindowSize))).bind fun readings =>
      (cleanHarmonicProductPitches (readings.map (fun r => r.2))).bind fun hps =>
        some (averagePitches (readings.map (fun r => r.1)) hps)

/-- `FileHandling::DetectPitchByFFT`. The work done on one window (Gaussian taper, power
spectrum, peak search, harmonic product spectrum) is the parameter `analyze`, which maps the
window contents and the window size to the `double`s `(finalFrequency, hpsFrequency)`, which
need not be numbers. The result is
`some (m_fftPitch, m_fftHPS)` when the call returns `true` and `none` when it returns
`false`. -/
def DetectPitchByFFT (analyze : List ℚ → Nat → F64 × F64) (fh : FileHandling)
    (junk : Nat → ℚ) (data : Nat → ℚ) : Option (Option (F64 × F64)) :=
  (prepareChannelData fh junk data).bind fun channel_data =>
    (GetSustainStartAndEnd fh channel_data).bind fun sustainStartAndEnd =>
      if sustainStartAndEnd.1 = 0 ∧ sustainStartAndEnd.2 = 0 then some none
      else analyseSustain analyze fh.m_samplerate channel_data
        sustainStartAndEnd.1 sustainStartAndEnd.2

/-- The start indices `current_idx` of the windows that the main loop of `DetectPitchByFFT`
processes, in order. -/
def processedWindows (first second analyzeWindowSize : Nat) : Option (List Nat) :=
  windowLoop first second analyzeWindowSize (fun current_idx => some current_idx)

/-- `FileHandling::GetFFTPitch`: the return value and, on success, `pitches[0]`,
`pitches[1]`. -/
def GetFFTPitch (analyze : List ℚ → Nat → F64 × F64) (fh : FileHandling) (junk : Nat → ℚ)
    (data : Nat → ℚ) : Option (Option (F64 × F64)) :=
  DetectPitchByFFT analyze fh junk data

/-- The loop "HPS using 4 harmonics" of `DetectPitchByFFT` on the array `hps`, which holds a
copy of the power spectrum; the state is `(hps, maxBin)`. -/
def harmonicProductLoop (hps : Nat → ℚ) (originalSize : Nat) : Option ((Nat → ℚ) × Nat) :=
  forLoop (fun i => i < originalSize / 4) (fun i => i + 1)
    (fun i (st : (Nat → ℚ) × Nat) =>
      (forLoop (fun j => j ≤ 4) (fun j => j + 1)
        (fun j (h : Nat → ℚ) => some (Step.next (Function.update h i (h i * h (i * j)))))
        U32 2 st.1).map fun h => Step.next (h, if h i > h st.2 then i else st.2))
    U32 0 (hps, 0)

/-- The loop "try fixing possible lower fundamental errors" of `DetectPitchByFFT`; the state
is `correctMaxBin`. The `abs` of an `int` is `Int.natAbs`. -/
def correctMaxBinLoop (hps : Nat → ℚ) (maxBin : Nat) : Option Nat :=
  forLoop (fun i => i < maxBin * 3 / 4) (fun i => i + 1)
    (fun i (correctMaxBin : Nat) =>
      if hps i > hps correctMaxBin ∧ Int.natAbs ((i : Int) * 2 - (maxBin : Int)) < 4 then
        some (Step.next i)
      else if hps i > hps correctMaxBin ∧
          Int.natAbs ((i : Int) * 3 / 2 - (maxBin : Int)) < 4 then
        some (Step.next i)
      else some (Step.next correctMaxBin))
    U32 1 0

/-- The comparison `a / b > 0.001` of two `double`s; with the divisor zero the quotient is
infinite with the sign of `a`, or not a number when `a` is zero too. -/
def ratioAbove (a b : ℚ) : Bool :=
  if b = 0 then decide (a > 0) else decide (a / b > 0.001)

/-- The octave and fifth correction of `DetectPitchByFFT`: the value of `maxBin` after the
statement `if ((hps[correctMaxBin] / hps[maxBin]) > 0.001) maxBin = correctMaxBin`. -/
def correctedMaxBin (hps : Nat → ℚ) (maxBin : Nat) : Option Nat :=
  (correctMaxBinLoop hps maxBin).map fun correctMaxBin =>
    if ratioAbove (hps correctMaxBin) (hps maxBin) then correctMaxBin else maxBin

/-- The bin that `DetectPitchByFFT` translates into `hpsFrequency`, from the power spectrum
of one window. -/
def hpsMaxBin (out : Nat → ℚ) (originalSize : Nat) : Option Nat :=
  (harmonicProductLoop out originalSize).bind fun st => correctedMaxBin st.1 st.2

/-- The loop over `j < len` of `DetectPitchInTimeDomain`; the state is `(rms, error_rms)`. -/
def periodError (channel_data : Nat → ℚ) (prev_start_point i len : Nat) : Option (ℚ × ℚ) :=
  forLoop (fun j => j < len) (fun j => uadd j 1)
    (fun j (st : ℚ × ℚ) =>
      let error := channel_data (uadd j prev_start_point) - channel_data (uadd j i)
      let d := channel_data (uadd j prev_start_point)
      some (Step.next (st.1 * j / ((j : ℚ) + 1) + d * d / ((j : ℚ) + 1),
        st.2 * j / ((j : ℚ) + 1) + error * error / ((j : ℚ) + 1))))
    U32 0 (0, 0)

/-- The zero crossing loop of `DetectPitchInTimeDomain`; the state is
`(prev, end_point, allDetectedPitches)`. -/
def crossingLoop (sqrt : ℚ → ℚ) (m_samplerate : Nat) (channel_data : Nat → ℚ)
    (first second : Nat) : Option (ℚ × Nat × List ℚ) :=
  forLoop (fun i => i > first) (fun i => usub i 1)
    (fun i (st : ℚ × Nat × List ℚ) =>
      let v := channel_data i
      if v > 0 ∧ st.1 ≤ 0 then
        if st.2.1 = 0 then some (Step.next (v, i, st.2.2))
        else
          let len := usub st.2.1 i
          if i > len then
            match periodError channel_data (usub i len) i len with
            | none => none
            | some (rms, error_rms) =>
              if error_rms > 0 ∧ rms > 0 then
                if sqrt error_rms / sqrt rms < 0.55 then
                  some (Step.next (v, i, st.2.2 ++ [(m_samplerate : ℚ) / (len : ℚ)]))
                else some (Step.next (v, st.2.1, st.2.2))
              else some (Step.next (v, st.2.1, st.2.2))
          else some (Step.next (v, st.2.1, st.2.2))
      else some (Step.next (v, st.2.1, st.2.2)))
    U32 (usub second 2) (channel_data second, 0, [])

/-- One round of the zero crossing loop of `DetectPitchInTimeDomain`, the body of the loop
of `crossingLoop`, at index `i` in the state `(prev, end_point, allDetectedPitches)`. -/
def crossingStep (sqrt : ℚ → ℚ) (m_samplerate : Nat) (channel_data : Nat → ℚ) (i : Nat)
    (st : ℚ × Nat × List ℚ) : Option (Step (ℚ × Nat × List ℚ)) :=
  let v := channel_data i
  if v > 0 ∧ st.1 ≤ 0 then
    if st.2.1 = 0 then some (Step.next (v, i, st.2.2))
    else
      let len := usub st.2.1 i
      if i > len then
        match periodError channel_data (usub i len) i len with
        | none => none
        | some (rms, error_rms) =>
          if error_rms > 0 ∧ rms > 0 then
            if sqrt error_rms / sqrt rms < 0.55 then
              some (Step.next (v, i, st.2.2 ++ [(m_samplerate : ℚ) / (len : ℚ)]))
            else some (Step.next (v, st.2.1, st.2.2))
          else some (Step.next (v, st.2.1, st.2.2))
      else some (Step.next (v, st.2.1, st.2.2))
  else some (Step.next (v, st.2.1, st.2.2))

/-- The statement that limits the analysed span to two seconds: the new value of
`sustainStartAndEnd.second`. -/
def clampSpan (first second m_samplerate : Nat) : Nat :=
  if usub second first > umul m_samplerate 2 then uadd first (umul m_samplerate 2)
  else second

/-- The end of `DetectPitchInTimeDomain`: the average, or `none` for `return false`. -/
def averagePeriods (allDetectedPitches : List ℚ) : Option ℚ :=
  if allDetectedPitches.isEmpty = false then
    some (allDetectedPitches.sum / allDetectedPitches.length)
  else none

/-- `FileHandling::DetectPitchInTimeDomain`, with the library function `sqrt` as a
parameter. The result is `some m_timeDomainPitch` when the call returns `true` and `none`
when it returns `false`. -/
def DetectPitchInTimeDomain (sqrt : ℚ → ℚ) (fh : FileHandling) (junk : Nat → ℚ)
    (audio : Nat → ℚ) : Option (Option ℚ) :=
  (prepareChannelData fh junk audio).bind fun channel_data =>
    (GetSustainStartAndEnd fh channel_data).bind fun sustainStartAndEnd =>
      if sustainStartAndEnd.1 = 0 ∧ sustainStartAndEnd.2 = 0 then some none
      else if usub sustainStartAndEnd.2 sustainStartAndEnd.1 < 2 then some none
      else
        (crossingLoop sqrt fh.m_samplerate channel_data sustainStartAndEnd.1
            (clampSpan sustainStartAndEnd.1 sustainStartAndEnd.2 fh.m_samplerate)).bind
          fun st => some (averagePeriods st.2.2)

/-- `FileHandling::GetTDPitch`. -/
def GetTDPitch (sqrt : ℚ → ℚ) (fh : FileHandling) (junk : Nat → ℚ) (data : Nat → ℚ) :
    Option ℚ :=
  (DetectPitchInTimeDomain sqrt fh junk data).bind fun gotPitch =>
    some (gotPitch.getD 0)

/-- A buffer given by the list of its samples (zero elsewhere). -/
def bufferOf (l : List ℚ) : Nat → ℚ := fun i => l.getD i 0


/-! ## AutoLooping -/

/-- The members of `AutoLooping`. -/
structure AutoLooping where
  m_derivativeThreshold : ℚ
  m_minLoopDuration : ℚ
  m_distanceBetweenLoops : ℚ
  m_qualityFactor : ℚ
  m_maxCandidates : Int
  m_loopsToReturn : Int
  m_maxLoopsMultiple : Int

/-- The values that the locals `strongestChannel`, `sustainStartIndex`, `sustainEndIndex`
and `correlationValue` of `AutoFindLoops` hold before their first assignment (the source
declares them without an initial value). -/
structure Indeterminate where
  strongestChannel : Nat
  sustainStartIndex : Nat
  sustainEndIndex : Nat
  correlationValue : ℚ

/-- An entry `{{start, end}, quality}` of the vectors `foundLoops` and `loops`. -/
abbrev LoopCandidate : Type := (Nat × Nat) × ℚ

/-- Conversion of an `int` to `size_t` (64 bit), as in the comparisons of a vector size
with an `int`. -/
def toSizeT (x : Int) : Nat := (x % 18446744073709551616).toNat

/-- The loop nest "find out which channel is strongest" of `AutoFindLoops`; the state is
`(maxValue, strongestChannel)`. -/
def findStrongestChannel (data : Nat → ℚ) (arrayLength numberOfChannels : Nat)
    (strongestChannel : Nat) : Option (ℚ × Nat) :=
  forLoop (fun i => i < arrayLength) (fun i => uadd i numberOfChannels)
    (fun i st =>
      (forLoop (fun j => j < numberOfChannels) (fun j => j + 1)
        (fun j (st : ℚ × Nat) =>
          if fabs (data (uadd i j)) > st.1 then some (Step.next (fabs (data (uadd i j)), j))
          else some (Step.next st))
        U32 0 st).map Step.next)
    U32 0 (0, strongestChannel)

/-- Forward envelope scan of `AutoFindLoops` with the two adjustments that follow it; the
loop state is `(maxAmplitudeValue, sustainStartIndex)`. -/
def autoSustainStart (data : Nat → ℚ) (arrayLength numberOfChannels samplerate : Nat)
    (sustainStartIndex : Nat) : Option Nat :=
  (forLoop (fun i => i < usub arrayLength (samplerate / 20 * numberOfChannels))
    (fun i => uadd i (samplerate / 20 * numberOfChannels))
    (fun i (st : ℚ × Nat) =>
      (windowMax data (fun j => j < uadd i (samplerate / 20 * numberOfChannels))
        (fun j => uadd j 1) i).bind fun maxValueInThisWindow =>
          if maxValueInThisWindow > st.1 then some (Step.next (maxValueInThisWindow, st.2))
          else some (Step.brk (st.1, uadd i (samplerate / 20 * numberOfChannels))))
    U32 0 (0, sustainStartIndex)).map fun st =>
      uadd (usub st.2 (st.2 % numberOfChannels)) (samplerate * numberOfChannels / 4)

/-- Backward envelope scan of `AutoFindLoops`; the loop state is
`(maxAmplitudeValue, sustainEndIndex)`. -/
def autoSustainEndScan (data : Nat → ℚ) (arrayLength numberOfChannels samplerate : Nat)
    (maxValue : ℚ) (sustainEndIndex : Nat) : Option (ℚ × Nat) :=
  forLoop (fun i => i > samplerate / 20 * numberOfChannels)
    (fun i => usub i (samplerate / 20 * numberOfChannels))
    (fun i (st : ℚ × Nat) =>
      (windowMax data (fun j => j > usub i (samplerate / 20 * numberOfChannels))
        (fun j => usub j 1) i).bind fun maxValueInThisWindow =>
          if maxValueInThisWindow < maxValue / 4 then
            some (Step.next (maxValueInThisWindow, st.2))
          else if maxValueInThisWindow > st.1 then
            some (Step.next (maxValueInThisWindow, st.2))
          else some (Step.brk (st.1, i)))
    U32 arrayLength (0, sustainEndIndex)

/-- The backward envelope scan of `AutoFindLoops` with the adjustment that follows it
(`sustainEndIndex -= sustainEndIndex % numberOfChannels`). -/
def autoSustainEnd (data : Nat → ℚ) (arrayLength numberOfChannels samplerate : Nat)
    (maxValue : ℚ) (sustainEndIndex : Nat) : Option Nat :=
  (autoSustainEndScan data arrayLength numberOfChannels samplerate maxValue
    sustainEndIndex).map fun st => usub st.2 (st.2 % numberOfChannels)

/-- The conversion `((double) percentage / 100.0) * arrayLength` to `unsigned`: the quotient
and the product are each rounded to a `double`, and the conversion cuts the fraction off. -/
def percentIndex (percentage : Int) (arrayLength : Nat) : Nat :=
  (⌊rnd (rnd ((percentage : ℚ) / 100) * (arrayLength : ℚ))⌋).toNat % U32

/-- The search range `(sustainStartIndex, sustainEndIndex)` of `AutoFindLoops`; the inner
`none` stands for the two `return false` of this part. -/
def searchRange (data : Nat → ℚ) (arrayLength numberOfChannels samplerate : Nat)
    (maxValue : ℚ) (indet : Indeterminate) (autosearchSustainsection : Bool)
    (startPercentage endPercentage : Int) : Option (Option (Nat × Nat)) :=
  if autosearchSustainsection then
    (autoSustainStart data arrayLength numberOfChannels samplerate
        indet.sustainStartIndex).bind fun sustainStartIndex =>
      (autoSustainEnd data arrayLength numberOfChannels samplerate maxValue
          indet.sustainEndIndex).bind fun sustainEndIndex =>
        if sustainStartIndex > sustainEndIndex then some none
        else some (some (sustainStartIndex, sustainEndIndex))
  else
    if endPercentage < startPercentage then some none
    else some (some (percentIndex startPercentage arrayLength,
      percentIndex endPercentage arrayLength))

/-- The loop that finds the maximum derivative in the strongest channel. -/
def maxDerivativeLoop (data : Nat → ℚ) (sustainStartIndex sustainEndIndex numberOfChannels
    strongestChannel : Nat) : Option ℚ :=
  forLoop (fun i => i < usub sustainEndIndex numberOfChannels)
    (fun i => uadd i numberOfChannels)
    (fun i (maxDerivative : ℚ) =>
      if fabs (data (uadd i numberOfChannels) - data i) > maxDerivative then
        some (Step.next (fabs (data (uadd i numberOfChannels) - data i)))
      else some (Step.next maxDerivative))
    U32 (uadd sustainStartIndex strongestChannel) 0

/-- The loop that fills `everyLoopCandidates`. -/
def collectCandidates (data : Nat → ℚ) (sustainStartIndex sustainEndIndex numberOfChannels
    strongestChannel : Nat) (derivativeThreshold : ℚ) : Option (List Nat) :=
  forLoop (fun i => i < usub sustainEndIndex numberOfChannels)
    (fun i => uadd i numberOfChannels)
    (fun i (everyLoopCandidates : List Nat) =>
      if fabs (data (uadd i numberOfChannels) - data i) < derivativeThreshold then
        some (Step.next (everyLoopCandidates ++ [i]))
      else some (Step.next everyLoopCandidates))
    U32 (uadd sustainStartIndex strongestChannel) []

/-- The index `int indexToUse = i * increment` with `double increment =
(double) totalAmountOfCandidates / (double) m_maxCandidates`: the quotient and the product
are rounded to `double`s and the conversion to `int` cuts the fraction off. -/
def indexToUse (totalAmountOfCandidates : Nat) (m_maxCandidates : Int) (i : Nat) : Int :=
  ⌊rnd ((i : ℚ) * rnd ((totalAmountOfCandidates : ℚ) / (m_maxCandidates : ℚ)))⌋

/-- The block that limits the number of candidates to `m_maxCandidates`: the vector
`loopCandidates`. -/
def reduceCandidates (m_maxCandidates : Int) (everyLoopCandidates : List Nat) :
    Option (List Nat) :=
  if everyLoopCandidates.length > toSizeT m_maxCandidates then
    forLoop (fun i => (i : Int) < m_maxCandidates) (fun i => i + 1)
      (fun i (loopCandidates : List Nat) =>
        if indexToUse everyLoopCandidates.length m_maxCandidates i <
            (everyLoopCandidates.length : Int) - 1 then
          some (Step.next (loopCandidates ++ [everyLoopCandidates.getD
            (indexToUse everyLoopCandidates.length m_maxCandidates i).toNat 0]))
        else some (Step.next loopCandidates))
      U32 0 []
  else some everyLoopCandidates

/-- The loop over `k` that compares the two windows; the state is
`(sum, correlationValue)`. -/
def crossCorrelate (sqrt : ℚ → ℚ) (data : Nat → ℚ) (compareStartIndex compareEndIndex
    numberOfChannels : Nat) (correlationValue : ℚ) : Option (ℚ × ℚ) :=
  forLoop (fun k => k < 5 * numberOfChannels) (fun k => k + 1)
    (fun k (st : ℚ × ℚ) =>
      some (Step.next
        (st.1 + (data (uadd compareStartIndex k) - data (uadd compareEndIndex k)) ^ 2,
          sqrt ((st.1 + (data (uadd compareStartIndex k) - data (uadd compareEndIndex k)) ^ 2)
            / (5 * (numberOfChannels : ℚ))))))
    U32 0 (0, correlationValue)

/-- The loop over the end point candidates `j` of one start candidate `i`; the state is the
loop pushed to `foundLoops`, if any. The two thresholds are `double`s: each product and the
quotient is rounded. -/
def findLoopEnd (cfg : AutoLooping) (sqrt : ℚ → ℚ) (correlationValue : ℚ) (data : Nat → ℚ)
    (numberOfChannels samplerate strongestChannel : Nat) (loopCandidates : List Nat)
    (i loopStartIndex : Nat) : Option (Option LoopCandidate) :=
  forLoop (fun j => j < loopCandidates.length) (fun j => j + 1)
    (fun j (pushed : Option LoopCandidate) =>
      if ((usub (usub (loopCandidates.getD j 0) strongestChannel) loopStartIndex : Nat) : ℚ) <
          rnd (rnd ((samplerate : ℚ) * cfg.m_minLoopDuration) *
            (numberOfChannels : ℚ)) then
        some (Step.next pushed)
      else
        (crossCorrelate sqrt data (usub loopStartIndex (umul 2 numberOfChannels))
          (usub (usub (loopCandidates.getD j 0) strongestChannel) (umul 2 numberOfChannels))
          numberOfChannels correlationValue).bind fun st =>
            if st.2 < rnd (rnd (cfg.m_qualityFactor / 32767) * (numberOfChannels : ℚ)) then
              some (Step.brk (some
                ((loopStartIndex / numberOfChannels,
                  usub (usub (loopCandidates.getD j 0) strongestChannel / numberOfChannels) 1),
                  st.2)))
            else some (Step.next pushed))
    U32 (i + 1) none

/-- The loop over the start point candidates `i`; the state is `foundLoops`. The threshold
of the distance test is a `double`: each product is rounded. -/
def pairCandidates (cfg : AutoLooping) (sqrt : ℚ → ℚ) (correlationValue : ℚ)
    (data : Nat → ℚ) (numberOfChannels samplerate strongestChannel : Nat)
    (loopCandidates : List Nat) : Option (List LoopCandidate) :=
  forLoop (fun i => i < loopCandidates.length - 1) (fun i => i + 1)
    (fun i (foundLoops : List LoopCandidate) =>
      if foundLoops.isEmpty = false ∧
          ((usub (usub (loopCandidates.getD i 0) strongestChannel)
            (umul (foundLoops.getLastD ((0, 0), 0)).1.1 numberOfChannels) : Nat) : ℚ) <
            rnd (rnd ((samplerate : ℚ) * cfg.m_distanceBetweenLoops) *
              (numberOfChannels : ℚ)) then
        some (Step.next foundLoops)
      else
        (findLoopEnd cfg sqrt correlationValue data numberOfChannels samplerate
          strongestChannel loopCandidates i
          (usub (loopCandidates.getD i 0) strongestChannel)).bind fun pushed =>
            if (foundLoops ++ pushed.toList).length >
                toSizeT (cfg.m_loopsToReturn * cfg.m_maxLoopsMultiple - 1) then
              some (Step.brk (foundLoops ++ pushed.toList))
            else some (Step.next (foundLoops ++ pushed.toList)))
    U32 0 []

/-- The inner loop of the ranking sort: the index `best` of the first smallest quality
value among the entries from `i` on. -/
def findBest (foundLoops : List LoopCandidate) (i : Nat) : Option Nat :=
  forLoop (fun j => j < foundLoops.length) (fun j => j + 1)
    (fun j (best : Nat) =>
      if (foundLoops.getD j ((0, 0), 0)).2 < (foundLoops.getD best ((0, 0), 0)).2 then
        some (Step.next j)
      else some (Step.next best))
    U32 (i + 1) i

/-- The ranking sort of `foundLoops` (best quality first). -/
def sortLoops (foundLoops : List LoopCandidate) : Option (List LoopCandidate) :=
  forLoop (fun i => i < foundLoops.length) (fun i => i + 1)
    (fun i (fl : List LoopCandidate) =>
      (findBest fl i).map fun best => Step.next (swapAt fl i best ((0, 0), 0)))
    U32 0 foundLoops

/-- The end of `AutoFindLoops`: the return value and the vector `loops` after the call. -/
def returnLoops (m_loopsToReturn : Int) (foundLoops loops : List LoopCandidate) :
    Option (Bool × List LoopCandidate) :=
  if foundLoops.length > toSizeT m_loopsToReturn then
    (forLoop (fun i => (i : Int) < m_loopsToReturn) (fun i => i + 1)
      (fun i (ls : List LoopCandidate) =>
        some (Step.next (ls ++ [foundLoops.getD i ((0, 0), 0)])))
      U32 0 loops).map fun ls => (true, ls)
  else if foundLoops.isEmpty = false then
    (forLoop (fun i => i < foundLoops.length) (fun i => i + 1)
      (fun i (ls : List LoopCandidate) =>
        some (Step.next (ls ++ [foundLoops.getD i ((0, 0), 0)])))
      U32 0 loops).map fun ls => (true, ls)
  else some (false, loops)

/-- The vector `loopCandidates` of `AutoFindLoops` for the search range
`(sustainStartIndex, sustainEndIndex)`; the threshold `derivativeThreshold` is the product
`maxDerivative * m_derivativeThreshold` rounded to a `double`. -/
def loopCandidatesOf (cfg : AutoLooping) (data : Nat → ℚ) (numberOfChannels
    strongestChannel sustainStartIndex sustainEndIndex : Nat) : Option (List Nat) :=
  (maxDerivativeLoop data sustainStartIndex sustainEndIndex numberOfChannels
      strongestChannel).bind fun maxDerivative =>
    (collectCandidates data sustainStartIndex sustainEndIndex numberOfChannels
        strongestChannel (rnd (maxDerivative * cfg.m_derivativeThreshold))).bind
      (reduceCandidates cfg.m_maxCandidates)

/-- The part of `AutoFindLoops` that follows the vector `loopCandidates`. -/
def correlateAndReturn (cfg : AutoLooping) (sqrt : ℚ → ℚ) (correlationValue : ℚ)
    (data : Nat → ℚ) (numberOfChannels samplerate strongestChannel : Nat)
    (loops : List LoopCandidate) (loopCandidates : List Nat) :
    Option (Bool × List LoopCandidate) :=
  if loopCandidates.isEmpty = true then some (false, loops)
  else
    (pairCandidates cfg sqrt correlationValue data numberOfChannels samplerate
        strongestChannel loopCandidates).bind fun foundLoops =>
      (sortLoops foundLoops).bind fun sorted =>
        returnLoops cfg.m_loopsToReturn sorted loops

/-- The part of `AutoFindLoops` that follows the search range. -/
def searchLoops (cfg : AutoLooping) (sqrt : ℚ → ℚ) (correlationValue : ℚ) (data : Nat → ℚ)
    (numberOfChannels samplerate strongestChannel : Nat) (loops : List LoopCandidate) :
    Option (Nat × Nat) → Option (Bool × List LoopCandidate)
  | none => some (false, loops)
  | some range =>
    (loopCandidatesOf cfg data numberOfChannels strongestChannel range.1 range.2).bind
      (correlateAndReturn cfg sqrt correlationValue data numberOfChannels samplerate
        strongestChannel loops)

/-- `AutoLooping::AutoFindLoops`, with the library function `sqrt` and the values of the
uninitialised locals as parameters. The result is the return value and the vector `loops`
after the call. -/
def AutoFindLoops (cfg : AutoLooping) (sqrt : ℚ → ℚ) (indet : Indeterminate)
    (data : Nat → ℚ) (arrayLength numberOfChannels samplerate : Nat)
    (loops : List LoopCandidate) (autosearchSustainsection : Bool)
    (startPercentage endPercentage : Int) : Option (Bool × List LoopCandidate) :=
  (findStrongestChannel data arrayLength numberOfChannels indet.strongestChannel).bind
    fun strongest =>
      (searchRange data arrayLength numberOfChannels samplerate strongest.1 indet
          autosearchSustainsection startPercentage endPercentage).bind
        (searchLoops cfg sqrt indet.correlationValue data numberOfChannels samplerate
          strongest.2 loops)

/-! ## The crossfade and the fades -/

/-- A `double` of the fade computations: `none` is a value that is not a finite number, the
result of a division by zero and of every operation on such a value. -/
abbrev Double : Type := Option ℚ

/-- Sum of two `double`s. -/
def dadd (x y : Double) : Double := x.bind fun a => y.map fun b => a + b

/-- Product of two `double`s. -/
def dmul (x y : Double) : Double := x.bind fun a => y.map fun b => a * b

/-- Quotient of two `double`s; the divisor zero gives a value that is not a number. -/
def ddiv (x y : Double) : Double :=
  x.bind fun a => y.bind fun b => if b = 0 then none else some (a / b)

/-- Conversion of a `double` to `unsigned`. -/
def toUnsigned (x : ℚ) : Nat := (⌊x⌋).toNat % U32

/-- The functions and the constant of `<cmath>` that the curves use, each function taken
together with the rounding of the expression it is applied to. -/
structure CMath where
  cos : ℚ → ℚ
  sin : ℚ → ℚ
  sqrt : ℚ → ℚ
  M_PI : ℚ

/-- The fields of `LOOPDATA` that the editing code reads. -/
structure LOOPDATA where
  dwStart : Nat
  dwEnd : Nat

/-- The expression `i * 1.0 / (samplesToFade - 1)` of the curve tables: the quotient of two
whole numbers, rounded to a `double`. -/
def linearAt (samplesToFade i : Nat) : Double :=
  (ddiv (some ((i : ℚ) * 1)) (some ((usub samplesToFade 1 : Nat) : ℚ))).map rnd

/-- Entry `i` of a curve table of `PerformCrossfade`, by the `switch` on `fadeType`: 1 is
the S curve, 2 equal power, 3 the sine curve, everything else linear. The sum, the product
and the quotient that are applied to the value of a library function are rounded to
`double`s; the rounding of the expression that is passed to a library function counts as
part of that function, which is a parameter. -/
def curveValue (m : CMath) (fadeType : Int) (samplesToFade i : Nat) : Double :=
  if fadeType = 1 then
    (linearAt samplesToFade i).map fun linear =>
      rnd (1 / 2 * rnd (1 + m.cos ((1 - linear) * m.M_PI)))
  else if fadeType = 2 then
    (linearAt samplesToFade i).bind fun linear =>
      (ddiv (some linear) (some (m.sqrt (linear ^ 2 + (1 - linear) ^ 2)))).map rnd
  else if fadeType = 3 then
    (linearAt samplesToFade i).map fun linear => m.sin (m.M_PI / 2 * linear)
  else linearAt samplesToFade i

/-- The loop that fills a curve table of `samplesToFade` entries. -/
def fadeTable (curve : Nat → Double) (samplesToFade : Nat) : Option (List Double) :=
  forLoop (fun i => i < samplesToFade) (fun i => i + 1)
    (fun i (fadeData : List Double) => some (Step.next (fadeData ++ [curve i])))
    U32 0 []

/-- The number `samplesToFade` of `PerformCrossfade` after the check "to not read outside
the audiodata array". -/
def samplesToFade (fh : FileHandling) (loopToCrossfade : LOOPDATA) (fadeLength : ℚ) : Nat :=
  if toUnsigned (rnd ((fh.m_samplerate : ℚ) * fadeLength)) > loopToCrossfade.dwStart then
    loopToCrossfade.dwStart
  else toUnsigned (rnd ((fh.m_samplerate : ℚ) * fadeLength))

/-- The number `samplesToFadeOut` of `PerformCrossfade` after the check "to not write
outside the audiodata array". -/
def samplesToFadeOut (fh : FileHandling) (loopToCrossfade : LOOPDATA) (fadeLength : ℚ) :
    Nat :=
  if umul (uadd (uadd (toUnsigned (rnd ((fh.m_samplerate : ℚ) * fadeLength)))
      loopToCrossfade.dwEnd) 1) fh.m_channels > fh.ArrayLength then
    usub (fh.ArrayLength / fh.m_channels) (uadd loopToCrossfade.dwEnd 1)
  else toUnsigned (rnd ((fh.m_samplerate : ℚ) * fadeLength))

/-- The loop over the channels `j` of one frame of a crossfade:
`audioData[target + j] = audioData[target + j] * table[iTarget] +
audioData[source + j] * table[iSource]`. An index outside the array it indexes makes the
call fail. -/
def blendFrame (ArrayLength m_channels : Nat) (table : List Double) (iTarget iSource : Nat)
    (target source : Nat) (audioData : Nat → Double) : Option (Nat → Double) :=
  forLoop (fun j => j < m_channels) (fun j => j + 1)
    (fun j (a : Nat → Double) =>
      if uadd target j < ArrayLength ∧ uadd source j < ArrayLength then
        (table[iTarget]?).bind fun wTarget =>
          (table[iSource]?).map fun wSource =>
            Step.next (Function.update a (uadd target j)
              (dadd (dmul (a (uadd target j)) wTarget) (dmul (a (uadd source j)) wSource)))
      else none)
    U32 0 audioData

/-- A crossfade loop of `PerformCrossfade` over `n` frames; the state is the array and the
two running indices. `iTarget i` and `iSource i` are the table positions of the weights of
round `i`. -/
def crossfadeLoop (fh : FileHandling) (table : List Double) (n : Nat)
    (iTarget iSource : Nat → Nat) (targetIdx sourceIdx : Nat) (audioData : Nat → Double) :
    Option (Nat → Double) :=
  (forLoop (fun i => i < n) (fun i => uadd i 1)
    (fun i (st : (Nat → Double) × Nat × Nat) =>
      (blendFrame fh.ArrayLength fh.m_channels table (iTarget i) (iSource i) st.2.1 st.2.2
        st.1).map fun a =>
          Step.next (a, uadd st.2.1 fh.m_channels, uadd st.2.2 fh.m_channels))
    U32 0 (audioData, targetIdx, sourceIdx)).map fun st => st.1

/-- `FileHandling::PerformCrossfade` on the loop that `GetLoopData` hands over; the result
is the array `audioData` after the call. -/
def PerformCrossfade (m : CMath) (fh : FileHandling) (audioData : Nat → Double)
    (loopToCrossfade : LOOPDATA) (fadeLength : ℚ) (fadeType : Int) :
    Option (Nat → Double) :=
  (fadeTable (curveValue m fadeType (samplesToFade fh loopToCrossfade fadeLength))
      (samplesToFade fh loopToCrossfade fadeLength)).bind fun fadeData =>
    (fadeTable (curveValue m fadeType (samplesToFadeOut fh loopToCrossfade fadeLength))
        (samplesToFadeOut fh loopToCrossfade fadeLength)).bind fun fadeOutData =>
      (crossfadeLoop fh fadeData (samplesToFade fh loopToCrossfade fadeLength)
          (fun i => usub (usub (samplesToFade fh loopToCrossfade fadeLength) 1) i)
          (fun i => i)
          (umul (usub loopToCrossfade.dwEnd
            (usub (samplesToFade fh loopToCrossfade fadeLength) 1)) fh.m_channels)
          (umul (usub loopToCrossfade.dwStart
            (samplesToFade fh loopToCrossfade fadeLength)) fh.m_channels)
          audioData).bind fun faded =>
        crossfadeLoop fh fadeOutData (samplesToFadeOut fh loopToCrossfade fadeLength)
          (fun i => i)
          (fun i => usub (usub (samplesToFadeOut fh loopToCrossfade fadeLength) 1) i)
          (umul (uadd loopToCrossfade.dwEnd 1) fh.m_channels)
          (umul loopToCrossfade.dwStart fh.m_channels)
          faded

/-- The loop over the channels `j` of one frame of `PerformFade`:
`audioData[index j] *= fadeData[i]`. -/
def scaleFrame (ArrayLength m_channels : Nat) (fadeData : List Double) (i : Nat)
    (index : Nat → Nat) (audioData : Nat → Double) : Option (Nat → Double) :=
  forLoop (fun j => j < m_channels) (fun j => j + 1)
    (fun j (a : Nat → Double) =>
      if index j < ArrayLength then
        (fadeData[i]?).map fun w =>
          Step.next (Function.update a (index j) (dmul (a (index j)) w))
      else none)
    U32 0 audioData

/-- `FileHandling::PerformFade`: `fadeType` 0 is a fade in, anything else a fade out. -/
def PerformFade (fh : FileHandling) (audioData : Nat → Double) (fadeLength : Nat)
    (fadeType : Int) : Option (Nat → Double) :=
  (fadeTable (linearAt (toUnsigned (rnd (rnd ((fadeLength : ℚ) / 1000) * (fh.m_samplerate : ℚ)))))
      (toUnsigned (rnd (rnd ((fadeLength : ℚ) / 1000) * (fh.m_samplerate : ℚ))))).bind fun fadeData =>
    if fadeType = 0 then
      forLoop (fun i => i < toUnsigned (rnd (rnd ((fadeLength : ℚ) / 1000) * (fh.m_samplerate : ℚ))))
        (fun i => uadd i 1)
        (fun i (a : Nat → Double) =>
          (scaleFrame fh.ArrayLength fh.m_channels fadeData i
            (fun j => uadd (umul i fh.m_channels) j) a).map Step.next)
        U32 0 audioData
    else
      forLoop (fun i => i < toUnsigned (rnd (rnd ((fadeLength : ℚ) / 1000) * (fh.m_samplerate : ℚ))))
        (fun i => uadd i 1)
        (fun i (a : Nat → Double) =>
          (scaleFrame fh.ArrayLength fh.m_channels fadeData i
            (fun j => usub (usub fh.ArrayLength 1) (uadd i j)) a).map Step.next)
        U32 0 audioData

/-- The local `centerPeakBin` of `TranslateIndexToPitch`:
`(valueAfterPeak - valueBeforePeak) / (2 * (2 * valueAtPeak - valueBeforePeak -
valueAfterPeak))` in `double`s. -/
def centerPeakBin (valueBeforePeak valueAtPeak valueAfterPeak : F64) : F64 :=
  F64.div (F64.sub valueAfterPeak valueBeforePeak)
    (F64.mul (F64.ofRat 2)
      (F64.sub (F64.sub (F64.mul (F64.ofRat 2) valueAtPeak) valueBeforePeak)
        valueAfterPeak))

/-- `FileHandling::TranslateIndexToPitch`:
`(idxAtPeak + centerPeakBin) * m_samplerate / (double) wSize` in `double`s. -/
def TranslateIndexToPitch (fh : FileHandling) (idxAtPeak : Int)
    (valueBeforePeak valueAtPeak valueAfterPeak : F64) (wSize : Nat) : F64 :=
  F64.div
    (F64.mul
      (F64.add (F64.ofRat idxAtPeak)
        (centerPeakBin valueBeforePeak valueAtPeak valueAfterPeak))
      (F64.ofRat fh.m_samplerate))
    (F64.ofRat wSize)

/-! ## Trimming the buffer -/

/-- The field of `CUEPOINT` that the editing code reads. -/
structure CUEPOINT where
  dwSampleOffset : Nat

/-- The members of `FileHandling` that the trimming methods read and change: the length,
the three sample arrays of which `m_minorFormat` selects one, the loops and the cues. -/
structure FileHandlingMembers where
  ArrayLength : Nat
  m_channels : Nat
  m_samplerate : Nat
  m_minorFormat : Int
  doubleAudioData : Nat → ℚ
  shortAudioData : Nat → Int
  intAudioData : Nat → Int
  m_loops : List LOOPDATA
  m_cues : List CUEPOINT

/-- The contents of the arrays that the trimming methods allocate with `new`, before
anything is written to them: the temporary `audioData` and the new sample array, for each
of the three element types. -/
structure Fresh where
  doubleTemp : Nat → ℚ
  doubleNew : Nat → ℚ
  shortTemp : Nat → Int
  shortNew : Nat → Int
  intTemp : Nat → Int
  intNew : Nat → Int

/-- The methods of the loop and cue containers that `TrimStart` and `TrimEnd` call; the
classes are not part of the sources. -/
structure Markers where
  MoveLoops : Nat → List LOOPDATA → List LOOPDATA
  MoveCues : Nat → List CUEPOINT → List CUEPOINT
  AreLoopsStillValid : Nat → List LOOPDATA → List LOOPDATA
  AreCuesValidStill : Nat → List CUEPOINT → List CUEPOINT

/-- The constants of `sndfile.h` that select the sample array. -/
def SF_FORMAT_PCM_S8 : Int := 1

def SF_FORMAT_PCM_16 : Int := 2

def SF_FORMAT_PCM_U8 : Int := 5

def SF_FORMAT_FLOAT : Int := 6

def SF_FORMAT_DOUBLE : Int := 7

/-- Modelled from the spec: the class of `m_loops` is not part of the sources; the spec
gives the caller "a set of existing loop definitions", and `GetLoopData(i, loop)` hands
over the loop with index `i`. -/
def GetLoopData (m_loops : List LOOPDATA) (i : Nat) : LOOPDATA := m_loops.getD i ⟨0, 0⟩

/-- Modelled from the spec: the class of `m_cues` is not part of the sources; the spec
gives the caller "cue definitions `{id, frameOffset}`", and `GetCuePoint(i, cue)` hands
over the cue with index `i`. -/
def GetCuePoint (m_cues : List CUEPOINT) (i : Nat) : CUEPOINT := m_cues.getD i ⟨0⟩

/-- Modelled from the spec: `ChangePosition(newPosition, i)` of the absent class of
`m_cues` gives the cue with index `i` the offset `newPosition` ("shifting affected cue
positions"). -/
def ChangePosition (m_cues : List CUEPOINT) (newPosition i : Nat) : List CUEPOINT :=
  m_cues.set i ⟨newPosition⟩

/-- The loop `for (unsigned i = 0; i < n; i++) target[i] = source[index i]`. -/
def copyLoop {α : Type} (n : Nat) (index : Nat → Nat) (source target : Nat → α) :
    Option (Nat → α) :=
  forLoop (fun i => i < n) (fun i => uadd i 1)
    (fun i (t : Nat → α) => some (Step.next (Function.update t i (source (index i)))))
    U32 0 target

/-- The number `samples` of `TrimStart` and `TrimEnd`. -/
def trimSamples (st : FileHandlingMembers) (timeToTrim : Nat) : Nat :=
  toUnsigned (rnd (rnd ((timeToTrim : ℚ) / 1000) * (st.m_samplerate : ℚ)))

/-- The number `samplesToCut` of `TrimStart` and `TrimEnd`. -/
def samplesToCut (st : FileHandlingMembers) (timeToTrim : Nat) : Nat :=
  umul (trimSamples st timeToTrim) st.m_channels

/-- One branch of `TrimStart` or `TrimEnd`: the samples `index 0`, `index 1`, ... of the
old array go to the temporary array and from there to the new array. -/
def trimArray {α : Type} (newArrayLength : Nat) (index : Nat → Nat) (old temp new : Nat → α) :
    Option (Nat → α) :=
  (copyLoop newArrayLength index old temp).bind fun audioData =>
    copyLoop newArrayLength (fun i => i) audioData new

/-- The three branches on `m_minorFormat` of `TrimStart` and `TrimEnd`: the selected array
is cut to `ArrayLength - samplesToCut` samples. -/
def trimSelected (fresh : Fresh) (st : FileHandlingMembers) (cut : Nat) (index : Nat → Nat) :
    Option FileHandlingMembers :=
  if st.m_minorFormat = SF_FORMAT_DOUBLE ∨ st.m_minorFormat = SF_FORMAT_FLOAT then
    (trimArray (st.ArrayLength - cut) index st.doubleAudioData fresh.doubleTemp
      fresh.doubleNew).map fun d =>
        { st with doubleAudioData := d, ArrayLength := st.ArrayLength - cut }
  else if st.m_minorFormat = SF_FORMAT_PCM_16 ∨ st.m_minorFormat = SF_FORMAT_PCM_S8 ∨
      st.m_minorFormat = SF_FORMAT_PCM_U8 then
    (trimArray (st.ArrayLength - cut) index st.shortAudioData fresh.shortTemp
      fresh.shortNew).map fun d =>
        { st with shortAudioData := d, ArrayLength := st.ArrayLength - cut }
  else
    (trimArray (st.ArrayLength - cut) index st.intAudioData fresh.intTemp
      fresh.intNew).map fun d =>
        { st with intAudioData := d, ArrayLength := st.ArrayLength - cut }

/-- `FileHandling::TrimStart`: the return value and the members after the call. -/
def TrimStart (ext : Markers) (fresh : Fresh) (st : FileHandlingMembers) (timeToTrim : Nat) :
    Option (Bool × FileHandlingMembers) :=
  if samplesToCut st timeToTrim < st.ArrayLength then
    (trimSelected fresh st (samplesToCut st timeToTrim)
      (fun i => uadd (samplesToCut st timeToTrim) i)).map fun st' =>
        (true, { st' with
          m_loops := ext.MoveLoops (trimSamples st timeToTrim) st'.m_loops,
          m_cues := ext.MoveCues (trimSamples st timeToTrim) st'.m_cues })
  else some (false, st)

/-- `FileHandling::TrimEnd`: the return value and the members after the call. -/
def TrimEnd (ext : Markers) (fresh : Fresh) (st : FileHandlingMembers) (timeToTrim : Nat) :
    Option (Bool × FileHandlingMembers) :=
  if samplesToCut st timeToTrim < st.ArrayLength then
    (trimSelected fresh st (samplesToCut st timeToTrim) (fun i => i)).map fun st' =>
      (true, { st' with
        m_loops := ext.AreLoopsStillValid st'.ArrayLength st'.m_loops,
        m_cues := ext.AreCuesValidStill st'.ArrayLength st'.m_cues })
  else some (false, st)

/-- The loop of `TrimExcessData` that finds the last loop end. -/
def lastEndSample (m_loops : List LOOPDATA) : Option Nat :=
  forLoop (fun i => i < m_loops.length) (fun i => i + 1)
    (fun i (last : Nat) =>
      if (GetLoopData m_loops i).dwEnd > last then
        some (Step.next (GetLoopData m_loops i).dwEnd)
      else some (Step.next last))
    U32 0 0

/-- The loop of `TrimExcessData` that finds the first cue after the last loop end (0 when
there is none). -/
def firstCuePosAfter (m_cues : List CUEPOINT) (lastEnd : Nat) : Option Nat :=
  forLoop (fun i => i < m_cues.length) (fun i => uadd i 1)
    (fun i (first : Nat) =>
      if (GetCuePoint m_cues i).dwSampleOffset > lastEnd then
        if first = 0 then some (Step.next (GetCuePoint m_cues i).dwSampleOffset)
        else if (GetCuePoint m_cues i).dwSampleOffset < first then
          some (Step.next (GetCuePoint m_cues i).dwSampleOffset)
        else some (Step.next first)
      else some (Step.next first))
    U32 0 0

/-- The loop of `TrimExcessData` that moves the cues after the last loop end; the number of
cues stays what it is. -/
def moveCuesAfter (m_cues : List CUEPOINT) (lastEnd samplesToRemove : Nat) :
    Option (List CUEPOINT) :=
  forLoop (fun i => i < m_cues.length) (fun i => uadd i 1)
    (fun i (cues : List CUEPOINT) =>
      if (GetCuePoint cues i).dwSampleOffset > lastEnd then
        some (Step.next (ChangePosition cues
          (usub (GetCuePoint cues i).dwSampleOffset samplesToRemove) i))
      else some (Step.next cues))
    U32 0 m_cues

/-- The value of `newArrayLength` in `TrimExcessData`. -/
def excessLength (st : FileHandlingMembers) (lastEnd firstCue : Nat) : Nat :=
  if firstCue ≠ 0 then
    umul (uadd lastEnd 3) st.m_channels +
      usub st.ArrayLength (umul (usub firstCue 1) st.m_channels)
  else umul (uadd lastEnd 3) st.m_channels

/-- One branch of `TrimExcessData`: the head of the old array and, with a cue after the
last loop end, its tail from the frame before that cue go to the temporary array and from
there to the new array. -/
def spliceArray {α : Type} (ArrayLength m_channels lastEnd firstCue newArrayLength : Nat)
    (old temp new : Nat → α) : Option (Nat → α) :=
  (copyLoop (umul (uadd lastEnd 3) m_channels) (fun i => i) old temp).bind fun head =>
    (if firstCue ≠ 0 then
      (forLoop (fun i => i < ArrayLength) (fun i => uadd i 1)
        (fun i (st : (Nat → α) × Nat) =>
          some (Step.next (Function.update st.1 st.2 (old i), uadd st.2 1)))
        U32 (umul (usub firstCue 1) m_channels)
        (head, umul (uadd lastEnd 3) m_channels)).map fun st => st.1
    else some head).bind fun audioData =>
      copyLoop newArrayLength (fun i => i) audioData new

/-- The three branches on `m_minorFormat` of `TrimExcessData`. -/
def spliceSelected (fresh : Fresh) (st : FileHandlingMembers) (lastEnd firstCue : Nat) :
    Option FileHandlingMembers :=
  if st.m_minorFormat = SF_FORMAT_DOUBLE ∨ st.m_minorFormat = SF_FORMAT_FLOAT then
    (spliceArray st.ArrayLength st.m_channels lastEnd firstCue
      (excessLength st lastEnd firstCue) st.doubleAudioData fresh.doubleTemp
      fresh.doubleNew).map fun d =>
        { st with doubleAudioData := d, ArrayLength := excessLength st lastEnd firstCue }
  else if st.m_minorFormat = SF_FORMAT_PCM_16 ∨ st.m_minorFormat = SF_FORMAT_PCM_S8 ∨
      st.m_minorFormat = SF_FORMAT_PCM_U8 then
    (spliceArray st.ArrayLength st.m_channels lastEnd firstCue
      (excessLength st lastEnd firstCue) st.shortAudioData fresh.shortTemp
      fresh.shortNew).map fun d =>
        { st with shortAudioData := d, ArrayLength := excessLength st lastEnd firstCue }
  else
    (spliceArray st.ArrayLength st.m_channels lastEnd firstCue
      (excessLength st lastEnd firstCue) st.intAudioData fresh.intTemp
      fresh.intNew).map fun d =>
        { st with intAudioData := d, ArrayLength := excessLength st lastEnd firstCue }

/-- `FileHandling::TrimExcessData`: the members after the call. -/
def TrimExcessData (fresh : Fresh) (st : FileHandlingMembers) : Option FileHandlingMembers :=
  (lastEndSample st.m_loops).bind fun lastEnd =>
    if lastEnd ≠ 0 then
      (firstCuePosAfter st.m_cues lastEnd).bind fun firstCue =>
        (if firstCue ≠ 0 then
          moveCuesAfter st.m_cues lastEnd (usub (usub firstCue 1) (uadd lastEnd 3))
        else some st.m_cues).bind fun cues =>
          spliceSelected fresh { st with m_cues := cues } lastEnd firstCue
    else some st

/-! ## Predicates used by the proofs -/

/-- What the strongest-channel scan knows after it has visited the samples in `V`, the
current channel being `i`: `st.1` bounds all visited samples, and `st.2` is the lowest
channel with a visited sample of that size (channel 0 while everything was zero). -/
def ScanInv (d : Nat → ℚ) (c : Nat) (V : Nat → Prop) (i : Nat) (st : ℚ × Nat) : Prop :=
  (∀ j, V j → fabs (d j) ≤ st.1) ∧ st.2 ≤ i ∧ (st.1 = 0 → st.2 = 0) ∧ 0 ≤ st.1 ∧
  (0 < st.1 → (∃ j, V j ∧ j % c = st.2 ∧ fabs (d j) = st.1) ∧
    ∀ j, V j → j % c < st.2 → fabs (d j) < st.1)

/-- Every reading is a finite number above zero. -/
def PositiveReadings (l : List F64) : Prop :=
  ∀ x, x ∈ l → ∃ m, 0 < m ∧ x = F64.fin false m

/-- The entries before position `i` are in ascending order and not above any later entry. -/
def PrefixSorted (l : List F64) (i : Nat) : Prop :=
  ∀ a b, a < i → a < b → b < l.length →
    F64.mag (l.getD a F64.zero) ≤ F64.mag (l.getD b F64.zero)

/-- A candidate index of the search range that starts at `a`: a sample of channel
`strongestChannel` of some frame counted from `a`. -/
def IsCandidate (a strongestChannel numberOfChannels c : Nat) : Prop :=
  ∃ t, c = a + strongestChannel + t * numberOfChannels

/-- A recorded loop keeps the minimum duration when its end is counted one frame further,
that is at the matched end candidate: its samples are not fewer than the `double` product
`samplerate * m_minLoopDuration * numberOfChannels`, so that it lasts `m_minLoopDuration`
seconds but for the fraction `2 ^ -52` that the two roundings of the product can take. -/
def MeetsDuration (cfg : AutoLooping) (samplerate numberOfChannels : Nat)
    (l : LoopCandidate) : Prop :=
  l.1.1 < l.1.2 + 1 ∧
    rnd (rnd ((samplerate : ℚ) * cfg.m_minLoopDuration) * (numberOfChannels : ℚ)) ≤
      ((l.1.2 : ℚ) + 1 - (l.1.1 : ℚ)) * (numberOfChannels : ℚ) ∧
    cfg.m_minLoopDuration * (1 - (2 : ℚ) ^ (-52 : Int)) ≤
      ((l.1.2 : ℚ) + 1 - (l.1.1 : ℚ)) / (samplerate : ℚ)

/-- The facts about the vector `loopCandidates` that the pairing loops rely on. -/
def CandidatesOk (a b ch sc : Nat) (cands : List Nat) : Prop :=
  cands.Pairwise (fun x y => x < y) ∧ ∀ c, c ∈ cands → IsCandidate a sc ch c ∧ c < b

/-- The entries before position `i` are in order of quality and not above any later
entry. -/
def PrefixRanked (l : List LoopCandidate) (i : Nat) : Prop :=
  ∀ a b, a < i → a < b → b < l.length →
    (l.getD a ((0, 0), 0)).2 ≤ (l.getD b ((0, 0), 0)).2

/-- The RMS distance between the window of `5 * numberOfChannels` samples that starts at
`compareStartIndex` and the one that starts at `compareEndIndex`, in the words of the
specification: the root of the mean squared difference. -/
def rmsDistance (sqrt : ℚ → ℚ) (data : Nat → ℚ) (compareStartIndex compareEndIndex
    numberOfChannels : Nat) : ℚ :=
  sqrt ((((List.range (5 * numberOfChannels)).map fun k =>
    (data (compareStartIndex + k) - data (compareEndIndex + k)) ^ 2).sum) /
      (5 * (numberOfChannels : ℚ)))

/-- The end candidate `j` is far enough from the start candidate `i`: the samples of the
frames between them are not fewer than the `double` product
`samplerate * m_minLoopDuration * numberOfChannels`. -/
def FarEnough (cfg : AutoLooping) (numberOfChannels samplerate strongestChannel : Nat)
    (loopCandidates : List Nat) (i j : Nat) : Prop :=
  rnd (rnd ((samplerate : ℚ) * cfg.m_minLoopDuration) * (numberOfChannels : ℚ)) ≤
    ((((loopCandidates.getD j 0 - strongestChannel) / numberOfChannels : Nat) : ℚ) -
      (((loopCandidates.getD i 0 - strongestChannel) / numberOfChannels : Nat) : ℚ)) *
        (numberOfChannels : ℚ)

/-- The end candidate `j` matches the start candidate `i`: it is far enough, and the window
of five frames that starts two frames before it is nearer to the window of `i` than the
quality threshold, the `double` value of `m_qualityFactor / 32767 * numberOfChannels`. -/
def Matches (cfg : AutoLooping) (sqrt : ℚ → ℚ) (data : Nat → ℚ) (numberOfChannels samplerate
    strongestChannel : Nat) (loopCandidates : List Nat) (i j : Nat) : Prop :=
  FarEnough cfg numberOfChannels samplerate strongestChannel loopCandidates i j ∧
    rmsDistance sqrt data
      (loopCandidates.getD i 0 - strongestChannel - 2 * numberOfChannels)
      (loopCandidates.getD j 0 - strongestChannel - 2 * numberOfChannels) numberOfChannels <
      rnd (rnd (cfg.m_qualityFactor / 32767) * (numberOfChannels : ℚ))

/-- The loop `l` is the one recorded for the start candidate `i` and its first matching end
candidate `j`. -/
def RecordedFor (cfg : AutoLooping) (sqrt : ℚ → ℚ) (data : Nat → ℚ) (numberOfChannels
    samplerate strongestChannel : Nat) (loopCandidates : List Nat) (l : LoopCandidate)
    (i j : Nat) : Prop :=
  i < j ∧ j < loopCandidates.length ∧
    Matches cfg sqrt data numberOfChannels samplerate strongestChannel loopCandidates i j ∧
    (∀ j', i < j' → j' < j →
      ¬ Matches cfg sqrt data numberOfChannels samplerate strongestChannel loopCandidates
        i j') ∧
    l = (((loopCandidates.getD i 0 - strongestChannel) / numberOfChannels,
        (loopCandidates.getD j 0 - strongestChannel) / numberOfChannels - 1),
      rmsDistance sqrt data
        (loopCandidates.getD i 0 - strongestChannel - 2 * numberOfChannels)
        (loopCandidates.getD j 0 - strongestChannel - 2 * numberOfChannels)
        numberOfChannels)

/-- The values of `cos`, `sin` and `sqrt` at the two ends of a curve are exact. -/
def ExactEnds (m : CMath) : Prop :=
  m.cos 0 = 1 ∧ m.cos m.M_PI = -1 ∧ m.sin 0 = 0 ∧ m.sin (m.M_PI / 2) = 1 ∧ m.sqrt 1 = 1

/-- The value `sqrt v` is the root of `v` to a relative error of `2 ^ -49` in its square,
which is what a root rounded to the nearest `double` gives when its argument is computed in
`double`s. -/
def RootAccurate (sqrt : ℚ → ℚ) (v : ℚ) : Prop :=
  0 < sqrt v ∧ |sqrt v ^ 2 - v| ≤ v * (2 : ℚ) ^ (-49 : Int)

/-- The fade length is not negative, the loop lies in the buffer and the requested fade
does not overflow the check "to not write outside the audiodata array". -/
def CrossfadeInput (fh : FileHandling) (loopToCrossfade : LOOPDATA) (fadeLength : ℚ) : Prop :=
  0 ≤ fadeLength ∧ 1 ≤ fh.m_channels ∧ fh.ArrayLength < U32 ∧
    loopToCrossfade.dwStart ≤ loopToCrossfade.dwEnd ∧
    (loopToCrossfade.dwEnd + 1) * fh.m_channels ≤ fh.ArrayLength ∧
    (toUnsigned (rnd ((fh.m_samplerate : ℚ) * fadeLength)) + loopToCrossfade.dwEnd + 1) *
      fh.m_channels < U32

/-- The number of samples to cut in the words of the specification: the milliseconds
converted to frames with the sample rate in exact arithmetic, rounded down, times the
channels. -/
def cutOf (st : FileHandlingMembers) (ms : Nat) : Nat :=
  (⌊(ms : ℚ) * (st.m_samplerate : ℚ) / 1000⌋).toNat * st.m_channels

/-- Sample `i` of the selected array of `new` is sample `k` of the selected array of
`old`. -/
def SampleEq (old new : FileHandlingMembers) (k i : Nat) : Prop :=
  if old.m_minorFormat = SF_FORMAT_DOUBLE ∨ old.m_minorFormat = SF_FORMAT_FLOAT then
    new.doubleAudioData i = old.doubleAudioData k
  else if old.m_minorFormat = SF_FORMAT_PCM_16 ∨ old.m_minorFormat = SF_FORMAT_PCM_S8 ∨
      old.m_minorFormat = SF_FORMAT_PCM_U8 then
    new.shortAudioData i = old.shortAudioData k
  else new.intAudioData i = old.intAudioData k

/-- Largest absolute value of the `w` samples `d idx`, `d (idx + 1)`, ... -/
def windowPeak (d : Nat → ℚ) (idx w : Nat) : ℚ :=
  ((List.range w).map fun j => fabs (d (idx + j))).foldl max 0

/-- Largest absolute value of the `w` samples `d idx`, `d (idx - 1)`, ... -/
def windowPeakDown (d : Nat → ℚ) (idx w : Nat) : ℚ :=
  ((List.range w).map fun j => fabs (d (idx - j))).foldl max 0

/-- The running maximum of the forward envelope scan when it reaches window number `t`: the
largest peak of the windows `0 .. t - 1`, each `ws` samples long (0 before the first). -/
def runningMax (d : Nat → ℚ) (ws t : Nat) : ℚ :=
  ((List.range t).map fun u => windowPeak d (u * ws) ws).foldl max 0

/-- Window number `k` is the first window of the forward envelope scan over `n` samples
whose peak does not exceed the running maximum, and the scan reaches it. -/
def PlateauAt (d : Nat → ℚ) (n ws k : Nat) : Prop :=
  k * ws + ws < n ∧ (∀ t, t < k → runningMax d ws t < windowPeak d (t * ws) ws) ∧
    windowPeak d (k * ws) ws ≤ runningMax d ws k

/-- The peak of the window that the backward scan from index `a` visited just before its
window number `t` (0 before the first). Window `u` holds the `ws` samples from index
`a - u * ws` downwards. -/
def previousPeak (d : Nat → ℚ) (a ws t : Nat) : ℚ :=
  if t = 0 then 0 else windowPeakDown d (a - (t - 1) * ws) ws

/-- Window number `k` of the backward scan from index `a` is the first one whose peak is
neither below a quarter of `maxValue` nor above the peak of the window before it, and the
scan reaches it. -/
def BackPlateauAt (d : Nat → ℚ) (a ws : Nat) (maxValue : ℚ) (k : Nat) : Prop :=
  k * ws + ws < a ∧
    (∀ t, t < k → windowPeakDown d (a - t * ws) ws < maxValue / 4 ∨
      previousPeak d a ws t < windowPeakDown d (a - t * ws) ws) ∧
    ¬ windowPeakDown d (a - k * ws) ws < maxValue / 4 ∧
    windowPeakDown d (a - k * ws) ws ≤ previousPeak d a ws k

/-- The backward envelope scan in the words of the specification: a window whose maximum is
below a quarter of the global peak is skipped without updating the running maximum. -/
def scanSustainEndKeeping (ch_data : Nat → ℚ) (numberOfSamples windowSize : Nat)
    (maxValue : ℚ) : Option (ℚ × Nat) :=
  forLoop (fun idx => idx > windowSize) (fun idx => usub idx windowSize)
    (fun idx (st : ℚ × Nat) =>
      (windowMax ch_data (fun j => j > usub idx windowSize) (fun j => usub j 1) idx).bind
        fun maxValueInThisWindow =>
          if maxValueInThisWindow < maxValue / 4 then some (Step.next st)
          else if maxValueInThisWindow > st.1 then some (Step.next (maxValueInThisWindow, st.2))
          else some (Step.brk (st.1, idx)))
    U32 (usub numberOfSamples 1) (0, 0)

/-- The mean of the squares of `f 0`, ..., `f (len - 1)`. -/
def meanSquare (f : Nat → ℚ) (len : Nat) : ℚ :=
  ((List.range len).map fun j => f j ^ 2).sum / (len : ℚ)

/-- The acceptance test of the time domain detector for the period of `len` samples between
the crossing at `i` and the one at `i + len`: the mean square of the earlier segment
(from `i - len`) and that of the difference of the two segments are both positive, and
the quotient of their roots is below 0.55. -/
def PeriodAccepted (sqrt : ℚ → ℚ) (channel_data : Nat → ℚ) (i len : Nat) : Prop :=
  0 < meanSquare (fun j => channel_data (j + (i - len)) - channel_data (j + i)) len ∧
    0 < meanSquare (fun j => channel_data (j + (i - len))) len ∧
    sqrt (meanSquare (fun j => channel_data (j + (i - len)) - channel_data (j + i)) len) /
      sqrt (meanSquare (fun j => channel_data (j + (i - len))) len) < 0.55

/-- What the frame by frame scan of `AutoFindLoops` knows after the samples before index `k`:
`st.1` bounds them, and `st.2` is the channel of the first sample of that size (the initial
value `sc0` while everything was zero). -/
def FirstInv (d : Nat → ℚ) (c sc0 k : Nat) (st : ℚ × Nat) : Prop :=
  (∀ j, j < k → fabs (d j) ≤ st.1) ∧ 0 ≤ st.1 ∧ (st.1 = 0 → st.2 = sc0) ∧
    (0 < st.1 → ∃ j, j < k ∧ j % c = st.2 ∧ fabs (d j) = st.1 ∧
      ∀ j', j' < j → fabs (d j') < st.1)

/-- Sample `p` is a local peak of the magnitudes: larger than both its neighbours. -/
def isPeak (d : Nat → ℚ) (p : Nat) : Bool :=
  decide (fabs (d p) > fabs (d (p + 1)) ∧ fabs (d p) > fabs (d (p - 1)))

/-- The local peaks to the right of the global peak at `imax` in a buffer of `n` samples,
each with its magnitude, the nearest first: the positions `imax + 1` to `n - 2`. -/
def peaksRight (d : Nat → ℚ) (n imax : Nat) : List (Nat × ℚ) :=
  ((List.range (n - (imax + 2))).filter fun t => isPeak d (imax + 1 + t)).map
    fun t => (imax + 1 + t, fabs (d (imax + 1 + t)))

/-- The local peaks to the left of the global peak at `imax`, each with its magnitude, the
nearest first: the positions `imax - 1` down to 2. -/
def peaksLeft (d : Nat → ℚ) (imax : Nat) : List (Nat × ℚ) :=
  ((List.range (imax - 2)).filter fun t => isPeak d (imax - 1 - t)).map
    fun t => (imax - 1 - t, fabs (d (imax - 1 - t)))

/-- The position `r` is the one stored in the last entry of `peaks`, its first entry apart,
whose magnitude exceeds `maxValue / 2`; it is `dflt` when there is no such entry. -/
def LastAbove (peaks : List (Nat × ℚ)) (maxValue : ℚ) (dflt r : Nat) : Prop :=
  (∃ i, 1 ≤ i ∧ i < peaks.length ∧ (peaks.getD i (0, 0)).2 > maxValue / 2 ∧
    (∀ i', i < i' → i' < peaks.length → ¬ (peaks.getD i' (0, 0)).2 > maxValue / 2) ∧
    r = (peaks.getD i (0, 0)).1) ∨
  ((∀ i, 1 ≤ i → i < peaks.length → ¬ (peaks.getD i (0, 0)).2 > maxValue / 2) ∧ r = dflt)

/-- The value that the harmonic product loop leaves in bin `i` of a spectrum `P`: the
product of the bins `i`, `2 i`, `3 i`, `4 i` for `i >= 1`, and the eighth power of `P 0`
in bin 0. -/
def hpsValue (P : Nat → ℚ) (i : Nat) : ℚ :=
  if i = 0 then P 0 ^ 8 else P i * P (i * 2) * P (i * 3) * P (i * 4)

/-- The lowest index among `0 .. t - 1` at which `v` is largest (0 when `t = 0`). -/
def leadBin (v : Nat → ℚ) : Nat → Nat
  | 0 => 0
  | t + 1 => if v t > v (leadBin v t) then t else leadBin v t

/-- A pitch that the zero crossing loop over the span `(first, second)` has recorded: it is
`m_samplerate / len` for a period of `len >= 2` samples that was accepted at a crossing `i`
with `first < i`, the compared segments `[i - len, i)` and `[i, i + len)` starting at index 1
or later and ending at least two samples before `second`. -/
def RecordedPeriod (sqrt : ℚ → ℚ) (m_samplerate : Nat) (channel_data : Nat → ℚ)
    (first second : Nat) (p : ℚ) : Prop :=
  ∃ i len : Nat, p = (m_samplerate : ℚ) / (len : ℚ) ∧ 2 ≤ len ∧ first < i ∧ len < i ∧
    i + len + 2 ≤ second ∧ PeriodAccepted sqrt channel_data i len

/-- What the zero crossing loop knows before the round at index `i`, in the state
`(prev, end_point, allDetectedPitches)`: a crossing kept in `end_point` lies above `i` and two
samples below `second`, it is positive when it is the sample next to `i`, and every pitch
recorded so far is a `RecordedPeriod`. -/
def CrossingInv (sqrt : ℚ → ℚ) (m_samplerate : Nat) (channel_data : Nat → ℚ)
    (first second i : Nat) (st : ℚ × Nat × List ℚ) : Prop :=
  i + 2 ≤ second ∧
    (st.2.1 = 0 ∨ (i < st.2.1 ∧ st.2.1 + 2 ≤ second ∧ (st.2.1 = i + 1 → 0 < st.1))) ∧
    ∀ p, p ∈ st.2.2 → RecordedPeriod sqrt m_samplerate channel_data first second p

/-- The position `r` is the one stored in the last entry of `peaks` whose magnitude exceeds
`maxValue / 2`: with the peaks listed nearest first, the farthest such peak. -/
def FarthestAbove (peaks : List (Nat × ℚ)) (maxValue : ℚ) (r : Nat) : Prop :=
  ∃ i, i < peaks.length ∧ (peaks.getD i (0, 0)).2 > maxValue / 2 ∧
    (∀ i', i < i' → i' < peaks.length → ¬ (peaks.getD i' (0, 0)).2 > maxValue / 2) ∧
    r = (peaks.getD i (0, 0)).1

/-! ## Reasoning about loops -/

theorem fabs_eq_abs (x : ℚ) : fabs x = |x| := by
  unfold fabs
  split
  · rename_i h; rw [abs_of_neg h]
  · rename_i h; rw [abs_of_nonneg (not_lt.mp h)]

theorem fabs_nonneg (x : ℚ) : 0 ≤ fabs x := by
  rw [fabs_eq_abs]; exact abs_nonneg x

theorem forLoop_succ {σ : Type} (cond : Nat → Bool) (incr : Nat → Nat)
    (body : Nat → σ → Option (Step σ)) (fuel i : Nat) (s : σ) :
    forLoop cond incr body (fuel + 1) i s =
      if cond i then
        match body i s with
        | none => none
        | some (Step.next s') => forLoop cond incr body fuel (incr i) s'
        | some (Step.brk s') => some s'
      else some s := rfl

/-- Invariant rule: whatever a loop returns satisfies `Q`, when `P` holds at entry, is kept
by every round that goes on, and gives `Q` at a `break` and at the exit test. -/
theorem forLoop_inv {σ : Type} {cond : Nat → Bool} {incr : Nat → Nat}
    {body : Nat → σ → Option (Step σ)} (P : Nat → σ → Prop) (Q : σ → Prop)
    (hnext : ∀ i s s', P i s → cond i = true → body i s = some (Step.next s') → P (incr i) s')
    (hbrk : ∀ i s s', P i s → cond i = true → body i s = some (Step.brk s') → Q s')
    (hexit : ∀ i s, P i s → cond i = false → Q s) :
    ∀ (fuel i : Nat) (s r : σ), P i s → forLoop cond incr body fuel i s = some r → Q r := by
  intro fuel
  induction fuel with
  | zero => intro i s r _ h; simp [forLoop] at h
  | succ n ih =>
    intro i s r hP h
    rw [forLoop_succ] at h
    cases hc : cond i with
    | false =>
      rw [hc] at h
      simp at h
      subst h
      exact hexit i s hP hc
    | true =>
      rw [hc] at h
      simp only [if_true] at h
      cases hb : body i s with
      | none => rw [hb] at h; simp at h
      | some st =>
        rw [hb] at h
        cases st with
        | next s' => exact ih (incr i) s' r (hnext i s s' hP hc hb) h
        | brk s' =>
          simp at h
          subst h
          exact hbrk i s s' hP hc hb

/-- Total correctness rule: a loop whose rounds never fail and decrease the measure `m`
returns a state satisfying `Q` as soon as the fuel exceeds the measure. -/
theorem forLoop_total {σ : Type} {cond : Nat → Bool} {incr : Nat → Nat}
    {body : Nat → σ → Option (Step σ)} (P : Nat → σ → Prop) (Q : σ → Prop) (m : Nat → Nat)
    (hstep : ∀ i s, P i s → cond i = true →
      (∃ s', body i s = some (Step.next s') ∧ P (incr i) s' ∧ m (incr i) < m i) ∨
      (∃ s', body i s = some (Step.brk s') ∧ Q s'))
    (hexit : ∀ i s, P i s → cond i = false → Q s) :
    ∀ (fuel i : Nat) (s : σ), P i s → m i < fuel →
      ∃ r, forLoop cond incr body fuel i s = some r ∧ Q r := by
  intro fuel
  induction fuel with
  | zero => intro i s _ h; omega
  | succ n ih =>
    intro i s hP hm
    rw [forLoop_succ]
    cases hc : cond i with
    | false => exact ⟨s, by simp, hexit i s hP hc⟩
    | true =>
      simp only [if_true]
      rcases hstep i s hP hc with ⟨s', hb, hP', hlt⟩ | ⟨s', hb, hQ⟩
      · rw [hb]
        exact ih (incr i) s' hP' (by omega)
      · rw [hb]
        exact ⟨s', rfl, hQ⟩

theorem whileLoop_succ {σ : Type} (cond : σ → Bool) (body : σ → Option σ) (fuel : Nat) (s : σ) :
    whileLoop cond body (fuel + 1) s =
      if cond s then
        match body s with
        | none => none
        | some s' => whileLoop cond body fuel s'
      else some s := rfl

/-- Invariant rule for `while` loops. -/
theorem whileLoop_inv {σ : Type} {cond : σ → Bool} {body : σ → Option σ}
    (P : σ → Prop) (Q : σ → Prop)
    (hnext : ∀ s s', P s → cond s = true → body s = some s' → P s')
    (hexit : ∀ s, P s → cond s = false → Q s) :
    ∀ (fuel : Nat) (s r : σ), P s → whileLoop cond body fuel s = some r → Q r := by
  intro fuel
  induction fuel with
  | zero => intro s r _ h; simp [whileLoop] at h
  | succ n ih =>
    intro s r hP h
    rw [whileLoop_succ] at h
    cases hc : cond s with
    | false =>
      rw [hc] at h
      simp at h
      subst h
      exact hexit s hP hc
    | true =>
      rw [hc] at h
      simp only [if_true] at h
      cases hb : body s with
      | none => rw [hb] at h; simp at h
      | some s' =>
        rw [hb] at h
        exact ih s' r (hnext s s' hP hc hb) h

/-- Total correctness rule for `while` loops. -/
theorem whileLoop_total {σ : Type} {cond : σ → Bool} {body : σ → Option σ}
    (P : σ → Prop) (Q : σ → Prop) (m : σ → Nat)
    (hstep : ∀ s, P s → cond s = true → ∃ s', body s = some s' ∧ P s' ∧ m s' < m s)
    (hexit : ∀ s, P s → cond s = false → Q s) :
    ∀ (fuel : Nat) (s : σ), P s → m s < fuel →
      ∃ r, whileLoop cond body fuel s = some r ∧ Q r := by
  intro fuel
  induction fuel with
  | zero => intro s _ h; omega
  | succ n ih =>
    intro s hP hm
    rw [whileLoop_succ]
    cases hc : cond s with
    | false => exact ⟨s, by simp, hexit s hP hc⟩
    | true =>
      simp only [if_true]
      obtain ⟨s', hb, hP', hlt⟩ := hstep s hP hc
      rw [hb]
      exact ih s' hP' (by omega)

/-! ## Rounding to double -/

theorem bitLength_zero (fuel : Nat) : bitLength fuel 0 = 0 := by
  cases fuel <;> simp [bitLength]

theorem bitLength_spec (fuel n : Nat) (h : n ≤ fuel) (hn : 0 < n) :
    1 ≤ bitLength fuel n ∧ 2 ^ (bitLength fuel n - 1) ≤ n ∧ n < 2 ^ bitLength fuel n := by
  induction fuel generalizing n with
  | zero => omega
  | succ f ih =>
    have hdef : bitLength (f + 1) n = bitLength f (n / 2) + 1 := by
      simp [bitLength, Nat.pos_iff_ne_zero.mp hn]
    rw [hdef]
    rcases Nat.eq_zero_or_pos (n / 2) with h0 | hpos
    · rw [h0, bitLength_zero]
      have : n = 1 := by omega
      subst this
      simp
    · obtain ⟨h1, h2, h3⟩ := ih (n / 2) (by omega) hpos
      refine ⟨by omega, ?_, ?_⟩
      · have e : bitLength f (n / 2) + 1 - 1 = (bitLength f (n / 2) - 1) + 1 := by omega
        rw [e, pow_succ]
        omega
      · rw [pow_succ]
        omega

theorem binade_spec (x : ℚ) (hx : x ≠ 0) :
    (2 : ℚ) ^ binade x ≤ |x| ∧ |x| < (2 : ℚ) ^ (binade x + 1) := by
  have hnum : 0 < x.num.natAbs := Int.natAbs_pos.mpr (Rat.num_ne_zero.mpr hx)
  have hden : 0 < x.den := x.den_pos
  obtain ⟨a1, a2, a3⟩ := bitLength_spec x.num.natAbs x.num.natAbs (le_refl _) hnum
  obtain ⟨b1, b2, b3⟩ := bitLength_spec x.den x.den (le_refl _) hden
  have habs : |x| = (x.num.natAbs : ℚ) / (x.den : ℚ) := by
    calc |x| = |(x.num : ℚ) / (x.den : ℚ)| := by rw [Rat.num_div_den]
      _ = _ := by rw [abs_div, Nat.abs_cast, Nat.cast_natAbs, Int.cast_abs]
  have hdq : (0 : ℚ) < (x.den : ℚ) := by exact_mod_cast hden
  have two_pos : ∀ k : Int, (0 : ℚ) < (2 : ℚ) ^ k := fun k => zpow_pos (by norm_num) k
  -- bounds in ℚ
  have A2 : (2 : ℚ) ^ ((bitLength x.num.natAbs x.num.natAbs : Int) - 1) ≤ (x.num.natAbs : ℚ) := by
    have : ((bitLength x.num.natAbs x.num.natAbs : Int) - 1) =
        ((bitLength x.num.natAbs x.num.natAbs - 1 : Nat) : Int) := by omega
    rw [this, zpow_natCast]
    exact_mod_cast a2
  have A3 : (x.num.natAbs : ℚ) < (2 : ℚ) ^ (bitLength x.num.natAbs x.num.natAbs : Int) := by
    rw [zpow_natCast]
    exact_mod_cast a3
  have B2 : (2 : ℚ) ^ ((bitLength x.den x.den : Int) - 1) ≤ (x.den : ℚ) := by
    have : ((bitLength x.den x.den : Int) - 1) = ((bitLength x.den x.den - 1 : Nat) : Int) := by
      omega
    rw [this, zpow_natCast]
    exact_mod_cast b2
  have B3 : (x.den : ℚ) < (2 : ℚ) ^ (bitLength x.den x.den : Int) := by
    rw [zpow_natCast]
    exact_mod_cast b3
  have hlow : (2 : ℚ) ^ ((bitLength x.num.natAbs x.num.natAbs : Int) -
      (bitLength x.den x.den : Int) - 1) ≤ |x| := by
    rw [habs, le_div_iff₀ hdq]
    have e : (2 : ℚ) ^ ((bitLength x.num.natAbs x.num.natAbs : Int) -
        (bitLength x.den x.den : Int) - 1) * (2 : ℚ) ^ (bitLength x.den x.den : Int) =
        (2 : ℚ) ^ ((bitLength x.num.natAbs x.num.natAbs : Int) - 1) := by
      rw [← zpow_add₀ (by norm_num : (2 : ℚ) ≠ 0)]
      congr 1
      ring
    calc _ ≤ (2 : ℚ) ^ ((bitLength x.num.natAbs x.num.natAbs : Int) -
          (bitLength x.den x.den : Int) - 1) * (2 : ℚ) ^ (bitLength x.den x.den : Int) :=
          mul_le_mul_of_nonneg_left (le_of_lt B3) (le_of_lt (two_pos _))
      _ = _ := e
      _ ≤ _ := A2
  have hhigh : |x| < (2 : ℚ) ^ ((bitLength x.num.natAbs x.num.natAbs : Int) -
      (bitLength x.den x.den : Int) + 1) := by
    rw [habs, div_lt_iff₀ hdq]
    have e : (2 : ℚ) ^ ((bitLength x.num.natAbs x.num.natAbs : Int) -
        (bitLength x.den x.den : Int) + 1) * (2 : ℚ) ^ ((bitLength x.den x.den : Int) - 1) =
        (2 : ℚ) ^ (bitLength x.num.natAbs x.num.natAbs : Int) := by
      rw [← zpow_add₀ (by norm_num : (2 : ℚ) ≠ 0)]
      congr 1
      ring
    calc (x.num.natAbs : ℚ) < (2 : ℚ) ^ (bitLength x.num.natAbs x.num.natAbs : Int) := A3
      _ = _ := e.symm
      _ ≤ _ := mul_le_mul_of_nonneg_left B2 (le_of_lt (two_pos _))
  unfold binade
  by_cases hc : (2 : ℚ) ^ ((bitLength x.num.natAbs x.num.natAbs : Int) -
      (bitLength x.den x.den : Int)) ≤ |x|
  · rw [if_pos hc]
    exact ⟨hc, hhigh⟩
  · rw [if_neg hc]
    refine ⟨hlow, ?_⟩
    have : (bitLength x.num.natAbs x.num.natAbs : Int) - (bitLength x.den x.den : Int) - 1 + 1 =
        (bitLength x.num.natAbs x.num.natAbs : Int) - (bitLength x.den x.den : Int) := by ring
    rw [this]
    exact not_le.mp hc

/-- The binade of a non-zero number is determined by the powers of two around it. -/
theorem binade_unique (x : ℚ) (e : Int) (h1 : (2 : ℚ) ^ e ≤ |x|) (h2 : |x| < (2 : ℚ) ^ (e + 1)) :
    binade x = e := by
  have hx : x ≠ 0 := by
    intro h
    rw [h, abs_zero] at h1
    exact absurd h1 (not_le.mpr (zpow_pos (by norm_num) e))
  obtain ⟨s1, s2⟩ := binade_spec x hx
  have hlt1 : (2 : ℚ) ^ e < (2 : ℚ) ^ (binade x + 1) := lt_of_le_of_lt h1 s2
  have hlt2 : (2 : ℚ) ^ binade x < (2 : ℚ) ^ (e + 1) := lt_of_le_of_lt s1 h2
  have k1 := (zpow_lt_zpow_iff_right₀ (by norm_num : (1 : ℚ) < 2)).mp hlt1
  have k2 := (zpow_lt_zpow_iff_right₀ (by norm_num : (1 : ℚ) < 2)).mp hlt2
  omega

theorem roundHalfEven_bounds (y : ℚ) :
    (roundHalfEven y : ℚ) - 1 / 2 ≤ y ∧ y ≤ (roundHalfEven y : ℚ) + 1 / 2 := by
  have h0 : (⌊y⌋ : ℚ) ≤ y := Int.floor_le y
  have h1 : y < (⌊y⌋ : ℚ) + 1 := Int.lt_floor_add_one y
  unfold roundHalfEven
  by_cases c1 : y - ⌊y⌋ < 1 / 2
  · rw [if_pos c1]
    constructor <;> linarith
  · rw [if_neg c1]
    by_cases c2 : 1 / 2 < y - ⌊y⌋
    · rw [if_pos c2]
      push_cast
      constructor <;> linarith
    · rw [if_neg c2]
      have he : y - ⌊y⌋ = 1 / 2 := le_antisymm (not_lt.mp c2) (not_lt.mp c1)
      by_cases c3 : ⌊y⌋ % 2 = 0
      · rw [if_pos c3]
        constructor <;> linarith
      · rw [if_neg c3]
        push_cast
        constructor <;> linarith

theorem roundHalfEven_intCast (n : Int) : roundHalfEven (n : ℚ) = n := by
  unfold roundHalfEven
  rw [Int.floor_intCast, sub_self, if_pos (by norm_num)]

theorem roundHalfEven_mono {y1 y2 : ℚ} (h : y1 ≤ y2) : roundHalfEven y1 ≤ roundHalfEven y2 := by
  by_contra hcon
  have hlt : roundHalfEven y2 + 1 ≤ roundHalfEven y1 := by omega
  have hq : (roundHalfEven y2 : ℚ) + 1 ≤ (roundHalfEven y1 : ℚ) := by exact_mod_cast hlt
  obtain ⟨a1, a2⟩ := roundHalfEven_bounds y1
  obtain ⟨b1, b2⟩ := roundHalfEven_bounds y2
  have heq : y1 = y2 := le_antisymm h (by linarith)
  rw [heq] at hlt
  omega

theorem roundHalfEven_nonneg {y : ℚ} (h : 0 ≤ y) : 0 ≤ roundHalfEven y := by
  have := roundHalfEven_mono h
  rw [show ((0 : ℚ)) = ((0 : Int) : ℚ) by norm_num, roundHalfEven_intCast] at this
  exact this

theorem roundHalfEven_neg (y : ℚ) : roundHalfEven (-y) = - roundHalfEven y := by
  by_cases hint : (⌊y⌋ : ℚ) = y
  · rw [← hint, ← Int.cast_neg, roundHalfEven_intCast, roundHalfEven_intCast]
  · have h0 : (⌊y⌋ : ℚ) < y := lt_of_le_of_ne (Int.floor_le y) hint
    have h1 : y < (⌊y⌋ : ℚ) + 1 := Int.lt_floor_add_one y
    have hfl : ⌊-y⌋ = -⌊y⌋ - 1 := by
      rw [Int.floor_eq_iff]
      push_cast
      constructor <;> linarith
    unfold roundHalfEven
    rw [hfl]
    push_cast
    by_cases c1 : y - ⌊y⌋ < 1 / 2
    · rw [if_pos c1, if_neg (by linarith), if_pos (by linarith)]
      ring
    · rw [if_neg c1]
      by_cases c2 : 1 / 2 < y - ⌊y⌋
      · rw [if_pos c2, if_pos (by linarith)]
        ring
      · rw [if_neg c2]
        have he : y - ⌊y⌋ = 1 / 2 := le_antisymm (not_lt.mp c2) (not_lt.mp c1)
        rw [if_neg (by linarith), if_neg (by linarith)]
        by_cases c3 : ⌊y⌋ % 2 = 0
        · rw [if_pos c3, if_neg (by omega)]
          ring
        · rw [if_neg c3, if_pos (by omega)]
          ring

theorem two_zpow_pos (k : Int) : (0 : ℚ) < (2 : ℚ) ^ k := zpow_pos (by norm_num) k

theorem binade_neg (x : ℚ) : binade (-x) = binade x := by
  unfold binade
  rw [Rat.num_neg_eq_neg_num, Int.natAbs_neg, abs_neg]
  rfl

theorem ulpExponent_neg (x : ℚ) : ulpExponent (-x) = ulpExponent x := by
  unfold ulpExponent
  rw [binade_neg]

theorem rnd_zero : rnd 0 = 0 := by
  unfold rnd
  rw [zero_div, show ((0 : ℚ)) = ((0 : Int) : ℚ) by norm_num, roundHalfEven_intCast]
  simp

theorem rnd_neg (x : ℚ) : rnd (-x) = - rnd x := by
  unfold rnd
  rw [ulpExponent_neg, neg_div, roundHalfEven_neg]
  push_cast
  ring

theorem rnd_nonneg {x : ℚ} (h : 0 ≤ x) : 0 ≤ rnd x := by
  unfold rnd
  have h1 : 0 ≤ x / 2 ^ ulpExponent x := div_nonneg h (le_of_lt (two_zpow_pos _))
  have h2 : (0 : ℚ) ≤ (roundHalfEven (x / 2 ^ ulpExponent x) : ℚ) := by
    exact_mod_cast roundHalfEven_nonneg h1
  exact mul_nonneg h2 (le_of_lt (two_zpow_pos _))

/-- Rounding moves a number by at most half a unit in the last place. -/
theorem rnd_error (x : ℚ) : |rnd x - x| ≤ (2 : ℚ) ^ ulpExponent x / 2 := by
  have hp := two_zpow_pos (ulpExponent x)
  obtain ⟨b1, b2⟩ := roundHalfEven_bounds (x / 2 ^ ulpExponent x)
  have e : rnd x - x =
      ((roundHalfEven (x / 2 ^ ulpExponent x) : ℚ) - x / 2 ^ ulpExponent x) *
        2 ^ ulpExponent x := by
    unfold rnd
    field_simp
  rw [e, abs_mul, abs_of_pos hp]
  have : |(roundHalfEven (x / 2 ^ ulpExponent x) : ℚ) - x / 2 ^ ulpExponent x| ≤ 1 / 2 := by
    rw [abs_le]
    constructor <;> linarith
  calc _ ≤ 1 / 2 * 2 ^ ulpExponent x := mul_le_mul_of_nonneg_right this (le_of_lt hp)
    _ = _ := by ring

/-- In the normal range the relative rounding error is at most `2 ^ -53`. -/
theorem rnd_relative (x : ℚ) (hx : (2 : ℚ) ^ (-1022 : Int) ≤ |x|) :
    |rnd x - x| ≤ |x| * (2 : ℚ) ^ (-53 : Int) := by
  have hx0 : x ≠ 0 := by
    intro h
    rw [h, abs_zero] at hx
    exact absurd hx (not_le.mpr (two_zpow_pos _))
  obtain ⟨s1, s2⟩ := binade_spec x hx0
  have hb : -1022 ≤ binade x := by
    have : (2 : ℚ) ^ (-1022 : Int) < (2 : ℚ) ^ (binade x + 1) := lt_of_le_of_lt hx s2
    have := (zpow_lt_zpow_iff_right₀ (by norm_num : (1 : ℚ) < 2)).mp this
    omega
  have hu : ulpExponent x = binade x - 52 := by
    unfold ulpExponent
    rw [max_eq_left hb]
  have h := rnd_error x
  rw [hu] at h
  have e : (2 : ℚ) ^ (binade x - 52) / 2 = (2 : ℚ) ^ binade x * (2 : ℚ) ^ (-53 : Int) := by
    rw [← zpow_add₀ (by norm_num : (2 : ℚ) ≠ 0), div_eq_mul_inv,
      show ((2 : ℚ))⁻¹ = (2 : ℚ) ^ (-1 : Int) by norm_num,
      ← zpow_add₀ (by norm_num : (2 : ℚ) ≠ 0)]
    congr 1
    ring
  rw [e] at h
  exact le_trans h (mul_le_mul_of_nonneg_right s1 (le_of_lt (two_zpow_pos _)))

/-- A number `m * 2 ^ k` with `|m| < 2 ^ 53` and `k ≥ -1074` is a `double` (up to the
largest one) and is not changed by rounding. -/
theorem rnd_exact (m : Int) (k : Int) (hm : |m| < 2 ^ 53) (hk : -1074 ≤ k) :
    rnd ((m : ℚ) * 2 ^ k) = (m : ℚ) * 2 ^ k := by
  by_cases hm0 : m = 0
  · rw [hm0]
    simp [rnd_zero]
  have hx0 : (m : ℚ) * 2 ^ k ≠ 0 := by
    apply mul_ne_zero
    · exact_mod_cast hm0
    · exact ne_of_gt (two_zpow_pos k)
  obtain ⟨s1, s2⟩ := binade_spec _ hx0
  have habs : |(m : ℚ) * 2 ^ k| < (2 : ℚ) ^ (53 + k) := by
    rw [abs_mul, abs_of_pos (two_zpow_pos k), zpow_add₀ (by norm_num : (2 : ℚ) ≠ 0)]
    apply mul_lt_mul_of_pos_right _ (two_zpow_pos k)
    have : ((|m| : Int) : ℚ) < ((2 ^ 53 : Int) : ℚ) := by exact_mod_cast hm
    rw [Int.cast_abs] at this
    calc |(m : ℚ)| < ((2 ^ 53 : Int) : ℚ) := this
      _ = (2 : ℚ) ^ (53 : Int) := by norm_num
  have hb : binade ((m : ℚ) * 2 ^ k) < 53 + k := by
    have : (2 : ℚ) ^ binade ((m : ℚ) * 2 ^ k) < (2 : ℚ) ^ (53 + k) := lt_of_le_of_lt s1 habs
    exact (zpow_lt_zpow_iff_right₀ (by norm_num : (1 : ℚ) < 2)).mp this
  have hu : ulpExponent ((m : ℚ) * 2 ^ k) ≤ k := by
    unfold ulpExponent
    have : max (binade ((m : ℚ) * 2 ^ k)) (-1022) ≤ 52 + k := max_le (by omega) (by omega)
    omega
  obtain ⟨j, hj⟩ := Int.eq_ofNat_of_zero_le (show 0 ≤ k - ulpExponent ((m : ℚ) * 2 ^ k) by omega)
  have hk' : k = ulpExponent ((m : ℚ) * 2 ^ k) + (j : Int) := by omega
  have hscaled : (m : ℚ) * 2 ^ k / 2 ^ ulpExponent ((m : ℚ) * 2 ^ k) =
      ((m * 2 ^ j : Int) : ℚ) := by
    rw [div_eq_iff (ne_of_gt (two_zpow_pos _))]
    conv_lhs => rw [hk', zpow_add₀ (by norm_num : (2 : ℚ) ≠ 0), zpow_natCast]
    push_cast
    ring
  unfold rnd
  rw [hscaled, roundHalfEven_intCast]
  conv_rhs => rw [hk', zpow_add₀ (by norm_num : (2 : ℚ) ≠ 0), zpow_natCast]
  push_cast
  ring

/-- The integers up to `2 ^ 53` in absolute value are not changed by rounding. -/
theorem rnd_intCast (m : Int) (hm : |m| < 2 ^ 53) : rnd (m : ℚ) = (m : ℚ) := by
  have := rnd_exact m 0 hm (by norm_num)
  simpa using this

theorem rnd_natCast (n : Nat) (hn : n < 2 ^ 53) : rnd (n : ℚ) = (n : ℚ) := by
  have := rnd_intCast (n : Int) (by rw [abs_of_nonneg (by positivity)]; exact_mod_cast hn)
  simpa using this

theorem binade_mono {x y : ℚ} (hx : 0 < x) (hxy : x ≤ y) : binade x ≤ binade y := by
  obtain ⟨s1, _⟩ := binade_spec x (ne_of_gt hx)
  obtain ⟨_, t2⟩ := binade_spec y (ne_of_gt (lt_of_lt_of_le hx hxy))
  rw [abs_of_pos hx] at s1
  rw [abs_of_pos (lt_of_lt_of_le hx hxy)] at t2
  have : (2 : ℚ) ^ binade x < (2 : ℚ) ^ (binade y + 1) :=
    lt_of_le_of_lt s1 (lt_of_le_of_lt hxy t2)
  have := (zpow_lt_zpow_iff_right₀ (by norm_num : (1 : ℚ) < 2)).mp this
  omega

theorem rnd_mono_pos {x y : ℚ} (hx : 0 < x) (hxy : x ≤ y) : rnd x ≤ rnd y := by
  have hy : 0 < y := lt_of_lt_of_le hx hxy
  have hb := binade_mono hx hxy
  by_cases hu : ulpExponent x = ulpExponent y
  · unfold rnd
    rw [hu]
    apply mul_le_mul_of_nonneg_right _ (le_of_lt (two_zpow_pos _))
    have : x / 2 ^ ulpExponent y ≤ y / 2 ^ ulpExponent y :=
      div_le_div_of_nonneg_right hxy (le_of_lt (two_zpow_pos _))
    exact_mod_cast roundHalfEven_mono this
  · -- the binade of `y` is higher and normal; `2 ^ binade y` separates the two values
    have hby : -1022 < binade y ∧ binade x < binade y := by
      unfold ulpExponent at hu
      constructor
      · by_contra hcon
        apply hu
        rw [max_eq_right (by omega), max_eq_right (by omega)]
      · by_contra hcon
        apply hu
        have : binade x = binade y := by omega
        rw [this]
    have huy : ulpExponent y = binade y - 52 := by
      unfold ulpExponent
      rw [max_eq_left (by omega)]
    have hux : ulpExponent x ≤ binade y - 52 := by
      unfold ulpExponent
      have : max (binade x) (-1022) ≤ binade y := max_le (by omega) (by omega)
      omega
    obtain ⟨_, s2⟩ := binade_spec x (ne_of_gt hx)
    obtain ⟨t1, _⟩ := binade_spec y (ne_of_gt hy)
    rw [abs_of_pos hx] at s2
    rw [abs_of_pos hy] at t1
    have hxle : x ≤ (2 : ℚ) ^ binade y := by
      have : (2 : ℚ) ^ (binade x + 1) ≤ (2 : ℚ) ^ binade y :=
        (zpow_le_zpow_iff_right₀ (by norm_num : (1 : ℚ) < 2)).mpr (by omega)
      linarith
    -- `rnd x ≤ 2 ^ binade y`
    have h1 : rnd x ≤ (2 : ℚ) ^ binade y := by
      obtain ⟨j, hj⟩ := Int.eq_ofNat_of_zero_le (show 0 ≤ binade y - ulpExponent x by omega)
      have hby' : binade y = ulpExponent x + (j : Int) := by omega
      have hsc : x / 2 ^ ulpExponent x ≤ (((2 : Int) ^ j : Int) : ℚ) := by
        rw [div_le_iff₀ (two_zpow_pos _)]
        push_cast
        rw [← zpow_natCast, ← zpow_add₀ (by norm_num : (2 : ℚ) ≠ 0),
          show (j : Int) + ulpExponent x = binade y by omega]
        exact hxle
      have := roundHalfEven_mono hsc
      rw [roundHalfEven_intCast] at this
      have hq : (roundHalfEven (x / 2 ^ ulpExponent x) : ℚ) ≤ (2 : ℚ) ^ j := by
        exact_mod_cast this
      unfold rnd
      calc _ ≤ (2 : ℚ) ^ j * 2 ^ ulpExponent x :=
            mul_le_mul_of_nonneg_right hq (le_of_lt (two_zpow_pos _))
        _ = _ := by
            rw [← zpow_natCast, ← zpow_add₀ (by norm_num : (2 : ℚ) ≠ 0),
              show (j : Int) + ulpExponent x = binade y by omega]
    -- `2 ^ binade y ≤ rnd y`
    have h2 : (2 : ℚ) ^ binade y ≤ rnd y := by
      have hsc : (((2 : Int) ^ 52 : Int) : ℚ) ≤ y / 2 ^ ulpExponent y := by
        rw [le_div_iff₀ (two_zpow_pos _), huy]
        push_cast
        rw [show (4503599627370496 : ℚ) = (2 : ℚ) ^ (52 : Int) by norm_num,
          ← zpow_add₀ (by norm_num : (2 : ℚ) ≠ 0),
          show (52 : Int) + (binade y - 52) = binade y by ring]
        exact t1
      have := roundHalfEven_mono hsc
      rw [roundHalfEven_intCast] at this
      have hq : (2 : ℚ) ^ (52 : Int) ≤ (roundHalfEven (y / 2 ^ ulpExponent y) : ℚ) := by
        have : (((2 : Int) ^ 52 : Int) : ℚ) ≤ (roundHalfEven (y / 2 ^ ulpExponent y) : ℚ) := by
          exact_mod_cast this
        calc (2 : ℚ) ^ (52 : Int) = (((2 : Int) ^ 52 : Int) : ℚ) := by norm_num
          _ ≤ _ := this
      unfold rnd
      calc (2 : ℚ) ^ binade y = (2 : ℚ) ^ (52 : Int) * 2 ^ ulpExponent y := by
            rw [huy, ← zpow_add₀ (by norm_num : (2 : ℚ) ≠ 0)]
            congr 1
            ring
        _ ≤ _ := mul_le_mul_of_nonneg_right hq (le_of_lt (two_zpow_pos _))
    exact le_trans h1 h2

/-- Rounding is monotone. -/
theorem rnd_mono {x y : ℚ} (hxy : x ≤ y) : rnd x ≤ rnd y := by
  rcases lt_trichotomy 0 x with hx | hx | hx
  · exact rnd_mono_pos hx hxy
  · rw [← hx, rnd_zero]
    exact rnd_nonneg (by rw [hx]; exact hxy)
  · rcases le_or_lt 0 y with hy | hy
    · have h1 : rnd x ≤ 0 := by
        have := rnd_nonneg (show 0 ≤ -x by linarith)
        rw [rnd_neg] at this
        linarith
      exact le_trans h1 (rnd_nonneg hy)
    · have := rnd_mono_pos (show 0 < -y by linarith) (show -y ≤ -x by linarith)
      rw [rnd_neg, rnd_neg] at this
      linarith

/-- The error of the `double` expression `(p / D) * q` for natural numbers `p`, `q` and a
divisor `1 ≤ D ≤ 2 ^ 64`: at most `2 ^ -51` of the exact value. -/
theorem scaled_product_error (p q D : Nat) (hD1 : 1 ≤ D) (hD : D ≤ 2 ^ 64) :
    |rnd (rnd ((p : ℚ) / (D : ℚ)) * (q : ℚ)) - (p : ℚ) * (q : ℚ) / (D : ℚ)| ≤
      (p : ℚ) * (q : ℚ) / (D : ℚ) * (2 : ℚ) ^ (-51 : Int) := by
  have hDq : (0 : ℚ) < (D : ℚ) := by exact_mod_cast hD1
  have hDle : (D : ℚ) ≤ 2 ^ 64 := by exact_mod_cast hD
  have hsmall : (2 : ℚ) ^ (-1022 : Int) ≤ 1 / 2 ^ 65 := by
    have h1 : (2 : ℚ) ^ (-1022 : Int) ≤ (2 : ℚ) ^ (-65 : Int) :=
      (zpow_le_zpow_iff_right₀ (by norm_num : (1 : ℚ) < 2)).mpr (by norm_num)
    have h2 : (2 : ℚ) ^ (-65 : Int) = 1 / 2 ^ 65 := by norm_num
    rw [h2] at h1
    exact h1
  have hu : (2 : ℚ) ^ (-53 : Int) = 1 / 9007199254740992 := by norm_num
  have hu51 : (2 : ℚ) ^ (-51 : Int) = 1 / 2251799813685248 := by norm_num
  rcases Nat.eq_zero_or_pos p with hp0 | hp
  · subst hp0
    simp [rnd_zero]
  rcases Nat.eq_zero_or_pos q with hq0 | hq
  · subst hq0
    simp [rnd_zero]
  have hpq : (1 : ℚ) ≤ (p : ℚ) := by exact_mod_cast hp
  have hqq : (1 : ℚ) ≤ (q : ℚ) := by exact_mod_cast hq
  have hx : (1 : ℚ) / 2 ^ 64 ≤ (p : ℚ) / (D : ℚ) := by
    rw [div_le_div_iff₀ (by norm_num) hDq]
    nlinarith
  have hxpos : 0 < (p : ℚ) / (D : ℚ) := lt_of_lt_of_le (by norm_num) hx
  have h65 : (1 : ℚ) / 2 ^ 65 = 1 / 2 ^ 64 / 2 := by norm_num
  have e1 := rnd_relative ((p : ℚ) / (D : ℚ))
    (by rw [abs_of_pos hxpos]; refine le_trans hsmall ?_; rw [h65]; linarith)
  rw [abs_of_pos hxpos, hu] at e1
  obtain ⟨e1a, e1b⟩ := abs_le.mp e1
  have ha : (p : ℚ) / (D : ℚ) / 2 ≤ rnd ((p : ℚ) / (D : ℚ)) := by linarith
  have hapos : 0 < rnd ((p : ℚ) / (D : ℚ)) := by linarith
  have hy : (1 : ℚ) / 2 ^ 65 ≤ rnd ((p : ℚ) / (D : ℚ)) * (q : ℚ) := by
    have : rnd ((p : ℚ) / (D : ℚ)) ≤ rnd ((p : ℚ) / (D : ℚ)) * (q : ℚ) :=
      le_mul_of_one_le_right (le_of_lt hapos) hqq
    rw [h65]
    linarith
  have hypos : 0 < rnd ((p : ℚ) / (D : ℚ)) * (q : ℚ) := lt_of_lt_of_le (by norm_num) hy
  have e2 := rnd_relative (rnd ((p : ℚ) / (D : ℚ)) * (q : ℚ))
    (by rw [abs_of_pos hypos]; exact le_trans hsmall hy)
  rw [abs_of_pos hypos, hu] at e2
  obtain ⟨e2a, e2b⟩ := abs_le.mp e2
  have hexact : (p : ℚ) * (q : ℚ) / (D : ℚ) = (p : ℚ) / (D : ℚ) * (q : ℚ) := by ring
  rw [hexact, hu51, abs_le]
  generalize rnd (rnd ((p : ℚ) / (D : ℚ)) * (q : ℚ)) = c at *
  generalize rnd ((p : ℚ) / (D : ℚ)) = a at *
  generalize (p : ℚ) / (D : ℚ) = x at *
  have hq0 : (0 : ℚ) ≤ (q : ℚ) := by linarith
  have h1 := mul_le_mul_of_nonneg_right e1a hq0
  have h2 := mul_le_mul_of_nonneg_right e1b hq0
  have hxq : 0 ≤ x * (q : ℚ) := mul_nonneg (le_of_lt hxpos) hq0
  constructor <;> nlinarith

/-- The `double` expression `(p / D) * q`, truncated, is the exact quotient `p * q / D`
rounded down, or one less than it when the quotient is an integer (`D` divides `p * q`);
for natural numbers `p`, `q` with a product below `2 ^ 51` and a divisor
`1 ≤ D ≤ 2 ^ 64`. -/
theorem scaled_count (p q D : Nat) (hD1 : 1 ≤ D) (hD : D ≤ 2 ^ 64)
    (hv : p * q < 2 ^ 51) :
    (⌊rnd (rnd ((p : ℚ) / (D : ℚ)) * (q : ℚ))⌋).toNat ≤ p * q / D ∧
      p * q / D ≤ (⌊rnd (rnd ((p : ℚ) / (D : ℚ)) * (q : ℚ))⌋).toNat + 1 ∧
      (¬ D ∣ p * q → (⌊rnd (rnd ((p : ℚ) / (D : ℚ)) * (q : ℚ))⌋).toNat = p * q / D) := by
  have hDq : (0 : ℚ) < (D : ℚ) := by exact_mod_cast hD1
  have herr := scaled_product_error p q D hD1 hD
  have hu51 : (2 : ℚ) ^ (-51 : Int) = 1 / 2251799813685248 := by norm_num
  rw [hu51] at herr
  obtain ⟨el, er⟩ := abs_le.mp herr
  -- the exact value as quotient and remainder
  have hdm : D * (p * q / D) + p * q % D = p * q := Nat.div_add_mod (p * q) D
  have hrem : p * q % D < D := Nat.mod_lt _ (by omega)
  have hvq : (p : ℚ) * (q : ℚ) / (D : ℚ) =
      ((p * q / D : Nat) : ℚ) + ((p * q % D : Nat) : ℚ) / (D : ℚ) := by
    rw [eq_comm, ← sub_eq_zero]
    field_simp
    have : ((D * (p * q / D) + p * q % D : Nat) : ℚ) = ((p * q : Nat) : ℚ) := by rw [hdm]
    push_cast at this
    linarith
  have hr0 : (0 : ℚ) ≤ ((p * q % D : Nat) : ℚ) / (D : ℚ) := by positivity
  have hr1 : ((p * q % D : Nat) : ℚ) / (D : ℚ) ≤ 1 - 1 / (D : ℚ) := by
    rw [div_le_iff₀ hDq]
    have : ((p * q % D : Nat) : ℚ) + 1 ≤ (D : ℚ) := by exact_mod_cast hrem
    have h1 : (1 - 1 / (D : ℚ)) * (D : ℚ) = (D : ℚ) - 1 := by field_simp
    rw [h1]
    linarith
  have hc0 : 0 ≤ rnd (rnd ((p : ℚ) / (D : ℚ)) * (q : ℚ)) :=
    rnd_nonneg (mul_nonneg (rnd_nonneg (by positivity)) (by positivity))
  have hfl0 : 0 ≤ ⌊rnd (rnd ((p : ℚ) / (D : ℚ)) * (q : ℚ))⌋ := Int.floor_nonneg.mpr hc0
  have hverr : (p : ℚ) * (q : ℚ) / (D : ℚ) * (1 / 2251799813685248) < 1 / (D : ℚ) := by
    have hpq : ((p * q : Nat) : ℚ) < 2251799813685248 := by exact_mod_cast hv
    push_cast at hpq
    rw [div_mul_eq_mul_div, div_lt_div_iff₀ hDq hDq]
    have : (p : ℚ) * (q : ℚ) * (1 / 2251799813685248) < 1 := by linarith
    nlinarith
  have hupper : rnd (rnd ((p : ℚ) / (D : ℚ)) * (q : ℚ)) < ((p * q / D : Nat) : ℚ) + 1 := by
    rw [hvq] at el er
    rw [hvq] at hverr
    linarith
  have hD0 : (0 : ℚ) < 1 / (D : ℚ) := by positivity
  have hD1le : (1 : ℚ) / (D : ℚ) ≤ 1 := by
    rw [div_le_iff₀ hDq, one_mul]
    exact_mod_cast hD1
  have hlower : ((p * q / D : Nat) : ℚ) - 1 < rnd (rnd ((p : ℚ) / (D : ℚ)) * (q : ℚ)) := by
    rw [hvq] at el er
    rw [hvq] at hverr
    linarith
  have hfu : ⌊rnd (rnd ((p : ℚ) / (D : ℚ)) * (q : ℚ))⌋ < ((p * q / D : Nat) : Int) + 1 := by
    rw [Int.floor_lt]
    push_cast
    exact hupper
  have hfl : ((p * q / D : Nat) : Int) - 1 ≤ ⌊rnd (rnd ((p : ℚ) / (D : ℚ)) * (q : ℚ))⌋ := by
    rw [Int.le_floor]
    push_cast
    exact le_of_lt hlower
  refine ⟨by omega, by omega, ?_⟩
  intro hdvd
  have hrpos : 1 ≤ p * q % D := by
    rcases Nat.eq_zero_or_pos (p * q % D) with h0 | h0
    · exact absurd (Nat.dvd_of_mod_eq_zero h0) hdvd
    · exact h0
  have hrq : (1 : ℚ) / (D : ℚ) ≤ ((p * q % D : Nat) : ℚ) / (D : ℚ) := by
    apply div_le_div_of_nonneg_right _ (le_of_lt hDq)
    exact_mod_cast hrpos
  have hge : ((p * q / D : Nat) : ℚ) ≤ rnd (rnd ((p : ℚ) / (D : ℚ)) * (q : ℚ)) := by
    rw [hvq] at el er
    rw [hvq] at hverr
    linarith
  have hfl' : ((p * q / D : Nat) : Int) ≤ ⌊rnd (rnd ((p : ℚ) / (D : ℚ)) * (q : ℚ))⌋ := by
    rw [Int.le_floor]
    push_cast
    exact hge
  omega

theorem roundHalfEven_ge_even (z : ℚ) (M : Int) (hM : M % 2 = 0) (hz : (M : ℚ) - 1 / 2 ≤ z) :
    M ≤ roundHalfEven z := by
  have h1 : roundHalfEven ((M : ℚ) - 1 / 2) = M := by
    have hfl : ⌊(M : ℚ) - 1 / 2⌋ = M - 1 := by
      rw [Int.floor_eq_iff]
      push_cast
      constructor <;> linarith
    unfold roundHalfEven
    rw [hfl]
    push_cast
    rw [if_neg (by norm_num), if_neg (by norm_num), if_neg (by omega)]
    ring
  rw [← h1]
  exact roundHalfEven_mono hz

/-- Below `2 ^ 52` the truncated `double` grows by one or more when the number grows by
one. -/
theorem floor_rnd_succ (x : ℚ) (hx : 0 ≤ x) (hx1 : x + 1 < 2 ^ 52) :
    ⌊rnd x⌋ + 1 ≤ ⌊rnd (x + 1)⌋ := by
  by_contra hcon
  have hlt : ⌊rnd (x + 1)⌋ < ⌊rnd x⌋ + 1 := by omega
  have hn0 : 0 ≤ ⌊rnd x⌋ := Int.floor_nonneg.mpr (rnd_nonneg hx)
  obtain ⟨n, hn⟩ : ∃ n : Nat, ⌊rnd x⌋ = (n : Int) := ⟨(⌊rnd x⌋).toNat, by omega⟩
  rw [hn] at hlt
  have h1 : rnd (x + 1) < (n : ℚ) + 1 := by
    have := Int.floor_lt.mp hlt
    push_cast at this
    exact this
  have hnx : (n : ℚ) ≤ rnd x := by
    have := Int.floor_le (rnd x)
    rw [hn] at this
    exact_mod_cast this
  -- the number lies below the integer `n`
  have hxn : x < (n : ℚ) := by
    by_contra hge
    have hge' : (n : ℚ) + 1 ≤ x + 1 := by linarith [not_lt.mp hge]
    have hnlt : n + 1 < 2 ^ 53 := by
      have : ((n + 1 : Nat) : ℚ) < 2 ^ 52 := by push_cast; linarith
      have : n + 1 < 2 ^ 52 := by exact_mod_cast this
      omega
    have := rnd_mono hge'
    rw [show (n : ℚ) + 1 = ((n + 1 : Nat) : ℚ) by push_cast; ring, rnd_natCast _ hnlt] at this
    push_cast at this
    linarith
  have hxpos : 0 < x := by
    rcases eq_or_lt_of_le hx with h0 | h0
    · rw [← h0, rnd_zero] at hnx
      rw [← h0] at hxn
      linarith
    · exact h0
  have hdelta : (n : ℚ) - x ≤ (2 : ℚ) ^ ulpExponent x / 2 := by
    have := rnd_error x
    have h2 := (abs_le.mp this).2
    linarith
  have hulp : ulpExponent x ≤ ulpExponent (x + 1) := by
    unfold ulpExponent
    have := binade_mono hxpos (show x ≤ x + 1 by linarith)
    omega
  have hpow : (2 : ℚ) ^ ulpExponent x ≤ (2 : ℚ) ^ ulpExponent (x + 1) :=
    (zpow_le_zpow_iff_right₀ (by norm_num : (1 : ℚ) < 2)).mpr hulp
  have hy0 : x + 1 ≠ 0 := by linarith
  obtain ⟨s1, s2⟩ := binade_spec (x + 1) hy0
  rw [abs_of_pos (by linarith)] at s1
  have hb : binade (x + 1) ≤ 51 := by
    have h52 : (2 : ℚ) ^ binade (x + 1) < (2 : ℚ) ^ (52 : Int) := by
      have e : (2 : ℚ) ^ (52 : Int) = 2 ^ 52 := by norm_num
      rw [e]
      linarith
    have := (zpow_lt_zpow_iff_right₀ (by norm_num : (1 : ℚ) < 2)).mp h52
    omega
  have hk : ulpExponent (x + 1) ≤ -1 := by
    unfold ulpExponent
    omega
  -- `n + 1` is an even multiple of the unit in the last place of `x + 1`
  obtain ⟨j, hj⟩ : ∃ j : Nat, ulpExponent (x + 1) = -((j : Int) + 1) :=
    ⟨(-(ulpExponent (x + 1)) - 1).toNat, by omega⟩
  have hup := two_zpow_pos (ulpExponent (x + 1))
  have hM : ((n : ℚ) + 1) / 2 ^ ulpExponent (x + 1) =
      ((((n + 1) * 2 ^ (j + 1) : Nat) : Int) : ℚ) := by
    rw [hj, zpow_neg, div_inv_eq_mul]
    push_cast
    have : (2 : ℚ) ^ ((j : Int) + 1) = 2 ^ (j + 1) := by
      rw [← Nat.cast_one, ← Nat.cast_add, zpow_natCast]
    rw [this]
  have hMeven : ((((n + 1) * 2 ^ (j + 1) : Nat) : Int)) % 2 = 0 := by
    have : ((n + 1) * 2 ^ (j + 1)) % 2 = 0 := by
      rw [pow_succ, ← mul_assoc]
      exact Nat.mul_mod_left _ _
    omega
  have hz : ((((n + 1) * 2 ^ (j + 1) : Nat) : Int) : ℚ) - 1 / 2 ≤
      (x + 1) / 2 ^ ulpExponent (x + 1) := by
    rw [← hM, le_div_iff₀ hup, sub_mul, div_mul_cancel₀ _ (ne_of_gt hup)]
    linarith
  have hr := roundHalfEven_ge_even _ _ hMeven hz
  have hrq : ((((n + 1) * 2 ^ (j + 1) : Nat) : Int) : ℚ) ≤
      (roundHalfEven ((x + 1) / 2 ^ ulpExponent (x + 1)) : ℚ) := by exact_mod_cast hr
  have hfin : (n : ℚ) + 1 ≤ rnd (x + 1) := by
    unfold rnd
    rw [← hM] at hrq
    rw [div_le_iff₀ hup] at hrq
    exact hrq
  linarith

/-- The truncated `double` is monotone. -/
theorem floor_rnd_mono {x y : ℚ} (h : x ≤ y) : ⌊rnd x⌋ ≤ ⌊rnd y⌋ :=
  Int.floor_le_floor (rnd_mono h)

/-- The `double` product `x * c` of a number `x` in the normal range, itself rounded, and a
factor `c ≥ 1` is not below the exact product by more than the fraction `2 ^ -52`. -/
theorem rnd_product_lower (x c : ℚ) (hx : (2 : ℚ) ^ (-1022 : Int) ≤ x) (hc : 1 ≤ c) :
    x * c * (1 - (2 : ℚ) ^ (-52 : Int)) ≤ rnd (rnd x * c) := by
  have hp := two_zpow_pos (-1022)
  have hxpos : 0 < x := lt_of_lt_of_le hp hx
  have hu : (2 : ℚ) ^ (-53 : Int) = 1 / 9007199254740992 := by norm_num
  have hu52 : (2 : ℚ) ^ (-52 : Int) = 1 / 4503599627370496 := by norm_num
  have e1 := rnd_relative x (by rw [abs_of_pos hxpos]; exact hx)
  rw [abs_of_pos hxpos, hu] at e1
  obtain ⟨e1a, _⟩ := abs_le.mp e1
  have hmin : (2 : ℚ) ^ (-1022 : Int) ≤ rnd x := by
    have := rnd_mono hx
    rw [show (2 : ℚ) ^ (-1022 : Int) = ((1 : Int) : ℚ) * 2 ^ (-1022 : Int) by simp,
      rnd_exact 1 (-1022) (by norm_num) (by norm_num)] at this
    simpa using this
  have hy : (2 : ℚ) ^ (-1022 : Int) ≤ rnd x * c :=
    le_trans hmin (le_mul_of_one_le_right (le_trans (le_of_lt hp) hmin) hc)
  have hypos : 0 < rnd x * c := lt_of_lt_of_le hp hy
  have e2 := rnd_relative (rnd x * c) (by rw [abs_of_pos hypos]; exact hy)
  rw [abs_of_pos hypos, hu] at e2
  obtain ⟨e2a, _⟩ := abs_le.mp e2
  rw [hu52]
  have hc0 : (0 : ℚ) ≤ c := by linarith
  have h1 : x * (1 - 1 / 9007199254740992) ≤ rnd x := by linarith
  have h2 : x * (1 - 1 / 9007199254740992) * c ≤ rnd x * c :=
    mul_le_mul_of_nonneg_right h1 hc0
  have h3 : rnd x * c * (1 - 1 / 9007199254740992) ≤ rnd (rnd x * c) := by linarith
  have h4 : x * (1 - 1 / 9007199254740992) * c * (1 - 1 / 9007199254740992) ≤
      rnd x * c * (1 - 1 / 9007199254740992) :=
    mul_le_mul_of_nonneg_right h2 (by norm_num)
  have hxc : 0 ≤ x * c := mul_nonneg (le_of_lt hxpos) hc0
  nlinarith

/-- A span of `N ≥ 1` frames whose samples are not fewer than the `double` product
`samplerate * duration * channels` lasts the duration but for the fraction `2 ^ -52`. -/
theorem duration_bound (m : ℚ) (sr ch N : Nat) (hsr : 1 ≤ sr) (hch : 1 ≤ ch) (hN : 1 ≤ N)
    (h : rnd (rnd ((sr : ℚ) * m) * (ch : ℚ)) ≤ (N : ℚ) * (ch : ℚ)) :
    m * (1 - (2 : ℚ) ^ (-52 : Int)) ≤ (N : ℚ) / (sr : ℚ) := by
  have hsrq : (1 : ℚ) ≤ (sr : ℚ) := by exact_mod_cast hsr
  have hchq : (1 : ℚ) ≤ (ch : ℚ) := by exact_mod_cast hch
  have hNq : (1 : ℚ) ≤ (N : ℚ) := by exact_mod_cast hN
  have hu52 : (2 : ℚ) ^ (-52 : Int) = 1 / 4503599627370496 := by norm_num
  have hsmall : (2 : ℚ) ^ (-1022 : Int) ≤ 1 := by
    have : (2 : ℚ) ^ (-1022 : Int) ≤ (2 : ℚ) ^ (0 : Int) :=
      (zpow_le_zpow_iff_right₀ (by norm_num : (1 : ℚ) < 2)).mpr (by norm_num)
    simpa using this
  rw [le_div_iff₀ (by linarith)]
  rcases le_or_lt m 0 with hm | hm
  · have : m * (1 - (2 : ℚ) ^ (-52 : Int)) ≤ 0 := by
      rw [hu52]
      nlinarith
    nlinarith
  rcases lt_or_le ((sr : ℚ) * m) ((2 : ℚ) ^ (-1022 : Int)) with hx | hx
  · rw [hu52]
    nlinarith
  · have hlow := rnd_product_lower ((sr : ℚ) * m) (ch : ℚ) hx hchq
    have h5 : (sr : ℚ) * m * (ch : ℚ) * (1 - (2 : ℚ) ^ (-52 : Int)) ≤ (N : ℚ) * (ch : ℚ) :=
      le_trans hlow h
    have h6 : m * (1 - (2 : ℚ) ^ (-52 : Int)) * (sr : ℚ) * (ch : ℚ) ≤ (N : ℚ) * (ch : ℚ) := by
      linarith
    exact le_of_mul_le_mul_right h6 (by linarith)

/-- A number that rounding does not change is a whole multiple `m * 2 ^ k` of a power of
two, with `|m| < 2 ^ 53` and `k ≥ -1074`. -/
theorem double_repr (x : ℚ) (hx : rnd x = x) :
    ∃ (m : Int) (k : Int), |m| < 2 ^ 53 ∧ -1074 ≤ k ∧ x = (m : ℚ) * 2 ^ k := by
  by_cases hx0 : x = 0
  · exact ⟨0, 0, by norm_num, by norm_num, by rw [hx0]; simp⟩
  obtain ⟨s1, s2⟩ := binade_spec x hx0
  have hp := two_zpow_pos (ulpExponent x)
  have hu : binade x - 52 ≤ ulpExponent x ∧ -1074 ≤ ulpExponent x := by
    unfold ulpExponent
    constructor
    · have := le_max_left (binade x) (-1022)
      omega
    · have := le_max_right (binade x) (-1022)
      omega
  refine ⟨roundHalfEven (x / 2 ^ ulpExponent x), ulpExponent x, ?_, hu.2, ?_⟩
  · have hk : ((roundHalfEven (x / 2 ^ ulpExponent x) : Int) : ℚ) = x / 2 ^ ulpExponent x := by
      rw [eq_div_iff (ne_of_gt hp)]
      exact hx
    have hlt : |x / 2 ^ ulpExponent x| < (2 : ℚ) ^ (53 : Int) := by
      rw [abs_div, abs_of_pos hp, div_lt_iff₀ hp, ← zpow_add₀ (by norm_num : (2 : ℚ) ≠ 0)]
      refine lt_of_lt_of_le s2 ?_
      exact (zpow_le_zpow_iff_right₀ (by norm_num : (1 : ℚ) < 2)).mpr (by omega)
    rw [← hk] at hlt
    have h2 : (2 : ℚ) ^ (53 : Int) = ((2 ^ 53 : Int) : ℚ) := by norm_num
    rw [h2, ← Int.cast_abs] at hlt
    exact_mod_cast hlt
  · exact hx.symm

/-- Twice a `double` is a `double` (no upper bound on the exponent). -/
theorem rnd_two_mul (x : ℚ) (hx : rnd x = x) : rnd (2 * x) = 2 * x := by
  obtain ⟨m, k, hm, hk, rfl⟩ := double_repr x hx
  have e : 2 * ((m : ℚ) * 2 ^ k) = (m : ℚ) * 2 ^ (k + 1) := by
    rw [zpow_add₀ (by norm_num : (2 : ℚ) ≠ 0)]
    ring
  rw [e]
  exact rnd_exact m (k + 1) hm (by omega)

theorem rnd_abs (x : ℚ) : rnd |x| = |rnd x| := by
  rcases le_or_lt 0 x with h | h
  · rw [abs_of_nonneg h, abs_of_nonneg (rnd_nonneg h)]
  · have h1 : 0 ≤ rnd (-x) := rnd_nonneg (by linarith)
    rw [rnd_neg] at h1
    rw [abs_of_neg h, rnd_neg, abs_of_nonpos (by linarith)]

theorem rnd_two_pow (k : Nat) : rnd ((2 : ℚ) ^ k) = (2 : ℚ) ^ k := by
  have := rnd_exact 1 (k : Int) (by norm_num) (by omega)
  simpa using this

/-- A number of magnitude at most `2 ^ k` rounds to a `double` of magnitude at most
`2 ^ k`. -/
theorem rnd_abs_le_two_pow (x : ℚ) (k : Nat) (h : |x| ≤ (2 : ℚ) ^ k) :
    |rnd x| ≤ (2 : ℚ) ^ k := by
  rw [← rnd_abs, ← rnd_two_pow k]
  exact rnd_mono h

theorem two_pow_lt_big (k : Nat) (hk : k < 1024) : (2 : ℚ) ^ k < 2 ^ (1024 : Nat) :=
  pow_lt_pow_right₀ (by norm_num) hk

theorem round_fin (s : Bool) (m : ℚ) (h : rnd m < 2 ^ (1024 : Nat)) :
    F64.round s m = F64.fin s (rnd m) := by
  unfold F64.round
  rw [if_pos h]

theorem signed_neg (s : Bool) (m : ℚ) : F64.signed (!s) m = - F64.signed s m := by
  unfold F64.signed
  cases s <;> simp

theorem signed_zero (s : Bool) : F64.signed s 0 = 0 := by
  unfold F64.signed
  cases s <;> simp

/-- The number that the `double` of sign `v < 0` and magnitude `rnd |v|` stands for is
`rnd v`. -/
theorem signed_rnd_abs (v : ℚ) : F64.signed (decide (v < 0)) (rnd |v|) = rnd v := by
  unfold F64.signed
  by_cases h : v < 0
  · rw [decide_eq_true h, if_pos rfl, abs_of_neg h, rnd_neg, neg_neg]
  · rw [decide_eq_false h, abs_of_nonneg (not_lt.mp h)]
    rfl

theorem signed_xor_mul (s t : Bool) (a b : ℚ) :
    F64.signed (xor s t) (rnd (a * b)) = rnd (F64.signed s a * F64.signed t b) := by
  unfold F64.signed
  cases s <;> cases t <;> simp [rnd_neg]

theorem signed_xor_div (s t : Bool) (a b : ℚ) :
    F64.signed (xor s t) (rnd (a / b)) = rnd (F64.signed s a / F64.signed t b) := by
  unfold F64.signed
  cases s <;> cases t <;> simp [rnd_neg, neg_div, div_neg]

theorem isNumber_ofRat (v : ℚ) (hb : |rnd v| < 2 ^ (1024 : Nat)) :
    F64.IsNumber (F64.ofRat v) (rnd v) := by
  unfold F64.ofRat
  rw [round_fin _ _ (by rw [rnd_abs]; exact hb)]
  exact ⟨_, _, rfl, signed_rnd_abs v⟩

theorem isNumber_neg {x : F64} {v : ℚ} (hx : F64.IsNumber x v) :
    F64.IsNumber (F64.neg x) (-v) := by
  obtain ⟨s, m, rfl, hv⟩ := hx
  exact ⟨!s, m, rfl, by rw [signed_neg, hv]⟩

theorem isNumber_add {x y : F64} {vx vy : ℚ} (hx : F64.IsNumber x vx)
    (hy : F64.IsNumber y vy) (hb : |rnd (vx + vy)| < 2 ^ (1024 : Nat)) :
    F64.IsNumber (F64.add x y) (rnd (vx + vy)) := by
  obtain ⟨s, a, rfl, hva⟩ := hx
  obtain ⟨t, b, rfl, hvb⟩ := hy
  by_cases h0 : F64.signed s a + F64.signed t b = 0
  · refine ⟨s && t, 0, ?_, ?_⟩
    · simp [F64.add, h0]
    · rw [signed_zero, ← hva, ← hvb, h0, rnd_zero]
  · refine ⟨decide (F64.signed s a + F64.signed t b < 0),
      rnd |F64.signed s a + F64.signed t b|, ?_, ?_⟩
    · have hr : rnd |F64.signed s a + F64.signed t b| < 2 ^ (1024 : Nat) := by
        rw [rnd_abs, hva, hvb]
        exact hb
      simp only [F64.add, if_neg h0]
      exact round_fin _ _ hr
    · rw [signed_rnd_abs, hva, hvb]

theorem isNumber_sub {x y : F64} {vx vy : ℚ} (hx : F64.IsNumber x vx)
    (hy : F64.IsNumber y vy) (hb : |rnd (vx - vy)| < 2 ^ (1024 : Nat)) :
    F64.IsNumber (F64.sub x y) (rnd (vx - vy)) := by
  unfold F64.sub
  rw [sub_eq_add_neg] at hb ⊢
  exact isNumber_add hx (isNumber_neg hy) hb

theorem isNumber_mul {x y : F64} {vx vy : ℚ} (hx : F64.IsNumber x vx)
    (hy : F64.IsNumber y vy) (hb : |rnd (vx * vy)| < 2 ^ (1024 : Nat)) :
    F64.IsNumber (F64.mul x y) (rnd (vx * vy)) := by
  obtain ⟨s, a, rfl, hva⟩ := hx
  obtain ⟨t, b, rfl, hvb⟩ := hy
  have hval := signed_xor_mul s t a b
  rw [hva, hvb] at hval
  have hr : rnd (a * b) < 2 ^ (1024 : Nat) := by
    have h1 : |F64.signed (xor s t) (rnd (a * b))| = |rnd (a * b)| := by
      unfold F64.signed
      split
      · exact abs_neg _
      · rfl
    have h2 : |rnd (a * b)| < 2 ^ (1024 : Nat) := by
      rw [← h1, hval]
      exact hb
    exact lt_of_le_of_lt (le_abs_self _) h2
  refine ⟨xor s t, rnd (a * b), ?_, hval⟩
  simp only [F64.mul]
  exact round_fin _ _ hr

theorem isNumber_div {x y : F64} {vx vy : ℚ} (hx : F64.IsNumber x vx)
    (hy : F64.IsNumber y vy) (hy0 : vy ≠ 0) (hb : |rnd (vx / vy)| < 2 ^ (1024 : Nat)) :
    F64.IsNumber (F64.div x y) (rnd (vx / vy)) := by
  obtain ⟨s, a, rfl, hva⟩ := hx
  obtain ⟨t, b, rfl, hvb⟩ := hy
  have hb0 : b ≠ 0 := by
    intro h
    rw [h, signed_zero] at hvb
    exact hy0 hvb.symm
  have hval := signed_xor_div s t a b
  rw [hva, hvb] at hval
  have hr : rnd (a / b) < 2 ^ (1024 : Nat) := by
    have h1 : |F64.signed (xor s t) (rnd (a / b))| = |rnd (a / b)| := by
      unfold F64.signed
      split
      · exact abs_neg _
      · rfl
    have h2 : |rnd (a / b)| < 2 ^ (1024 : Nat) := by
      rw [← h1, hval]
      exact hb
    exact lt_of_le_of_lt (le_abs_self _) h2
  refine ⟨xor s t, rnd (a / b), ?_, hval⟩
  simp only [F64.div, if_neg hb0]
  exact round_fin _ _ hr

/-- A finite `double` stands for one number only. -/
theorem isNumber_unique {x : F64} {v w : ℚ} (hv : F64.IsNumber x v) (hw : F64.IsNumber x w) :
    v = w := by
  obtain ⟨s, m, rfl, h1⟩ := hv
  obtain ⟨t, n, h, h2⟩ := hw
  injection h with hs hm
  rw [← h1, ← h2, hs, hm]

/-! ## SeparateStrongestChannel -/

theorem uadd_eq {a b : Nat} (h : a + b < U32) : uadd a b = a + b := by
  unfold uadd; exact Nat.mod_eq_of_lt h

theorem usub_eq {a b : Nat} (hb : b ≤ a) (ha : a < U32) : usub a b = a - b := by
  unfold usub U32 at *; omega

/-- A loop that counts up by one to `n < 2^32`, with rounds that never fail, returns. -/
theorem forLoop_count {σ : Type} (n : Nat) (body : Nat → σ → Option (Step σ))
    (P : Nat → σ → Prop) (Q : σ → Prop)
    (hstep : ∀ i s, P i s → i < n →
      (∃ s', body i s = some (Step.next s') ∧ P (i + 1) s') ∨
      (∃ s', body i s = some (Step.brk s') ∧ Q s'))
    (hexit : ∀ i s, P i s → n ≤ i → Q s) (hn : n < U32) (i : Nat) (s : σ) (hP : P i s) :
    ∃ r, forLoop (fun i => decide (i < n)) (fun i => i + 1) body U32 i s = some r ∧ Q r := by
  refine forLoop_total P Q (fun i => n - i) ?_ ?_ U32 i s hP (show n - i < U32 by omega)
  · intro j st hPj hc
    have hj : j < n := by simpa using hc
    rcases hstep j st hPj hj with ⟨s', hb, hP'⟩ | ⟨s', hb, hQ⟩
    · left
      exact ⟨s', hb, hP', show n - (j + 1) < n - j by omega⟩
    · right
      exact ⟨s', hb, hQ⟩
  · intro j st hPj hc
    have hj : ¬ j < n := by simpa using hc
    exact hexit j st hPj (by omega)

/-- A loop that steps by `ch ≥ 1` up to a bound `B` with `B + ch ≤ 2^32` (the counter does
not wrap), with rounds that never fail, returns. -/
theorem forLoop_stride {σ : Type} (B ch : Nat) (hch : 1 ≤ ch) (hB : B + ch ≤ U32)
    (body : Nat → σ → Option (Step σ)) (P : Nat → σ → Prop) (Q : σ → Prop)
    (hstep : ∀ i s, P i s → i < B →
      (∃ s', body i s = some (Step.next s') ∧ P (i + ch) s') ∨
      (∃ s', body i s = some (Step.brk s') ∧ Q s'))
    (hexit : ∀ i s, P i s → B ≤ i → Q s) (i : Nat) (s : σ) (hP : P i s) :
    ∃ r, forLoop (fun i => decide (i < B)) (fun i => uadd i ch) body U32 i s = some r ∧
      Q r := by
  refine forLoop_total P Q (fun i => B - i) ?_ ?_ U32 i s hP (show B - i < U32 by omega)
  · intro j st hPj hc
    have hj : j < B := by simpa using hc
    have hnext : uadd j ch = j + ch := uadd_eq (by omega)
    rcases hstep j st hPj hj with ⟨s', hb, hP'⟩ | ⟨s', hb, hQ⟩
    · left
      refine ⟨s', hb, ?_, ?_⟩
      · show P (uadd j ch) s'
        rw [hnext]; exact hP'
      · show B - uadd j ch < B - j
        rw [hnext]; omega
    · right
      exact ⟨s', hb, hQ⟩
  · intro j st hPj hc
    have hj : ¬ j < B := by simpa using hc
    exact hexit j st hPj (by omega)

theorem eq_of_mod_eq_of_lt {c j j' : Nat} (hmod : j' % c = j % c) (h1 : j ≤ j')
    (h2 : j' < j + c) : j' = j := by
  obtain ⟨t, rfl⟩ := Nat.exists_eq_add_of_le h1
  have ht : t < c := by omega
  have h3 : (j + t) ≡ (j + 0) [MOD c] := by simpa [Nat.ModEq] using hmod
  have h4 : t % c = 0 % c := Nat.ModEq.add_left_cancel' j h3
  rw [Nat.mod_eq_of_lt ht] at h4
  simp at h4
  omega

theorem ScanInv_visit {d : Nat → ℚ} {c : Nat} {V V' : Nat → Prop} {i j : Nat} {st : ℚ × Nat}
    (h : ScanInv d c V i st) (hj : j % c = i)
    (hV' : ∀ x, V' x ↔ V x ∨ x = j) :
    ScanInv d c V' i (if fabs (d j) > st.1 then (fabs (d j), i) else st) := by
  obtain ⟨h1, h2, h3, h4, h5⟩ := h
  by_cases hgt : fabs (d j) > st.1
  · rw [if_pos hgt]
    refine ⟨?_, le_refl _, ?_, fabs_nonneg _, ?_⟩
    · intro x hx
      rcases (hV' x).1 hx with hx | rfl
      · exact le_trans (h1 x hx) (le_of_lt hgt)
      · exact le_refl _
    · intro h0
      simp only at h0
      rw [h0] at hgt
      exact absurd hgt (not_lt.mpr h4)
    · intro _
      refine ⟨⟨j, (hV' j).2 (Or.inr rfl), hj, rfl⟩, ?_⟩
      intro x hx hlt
      rcases (hV' x).1 hx with hx | rfl
      · exact lt_of_le_of_lt (h1 x hx) hgt
      · simp only at hlt; omega
  · rw [if_neg hgt]
    refine ⟨?_, h2, h3, h4, ?_⟩
    · intro x hx
      rcases (hV' x).1 hx with hx | rfl
      · exact h1 x hx
      · exact not_lt.mp hgt
    · intro hpos
      obtain ⟨⟨w, hw, hwc, hwv⟩, hlow⟩ := h5 hpos
      refine ⟨⟨w, (hV' w).2 (Or.inl hw), hwc, hwv⟩, ?_⟩
      intro x hx hlt
      rcases (hV' x).1 hx with hx | rfl
      · exact hlow x hx hlt
      · omega

theorem ScanInv_congr {d : Nat → ℚ} {c : Nat} {V V' : Nat → Prop} {i i' : Nat} {st : ℚ × Nat}
    (h : ScanInv d c V i st) (hi : i ≤ i') (hV : ∀ x, V' x ↔ V x) : ScanInv d c V' i' st := by
  obtain ⟨h1, h2, h3, h4, h5⟩ := h
  refine ⟨fun x hx => h1 x ((hV x).1 hx), le_trans h2 hi, h3, h4, ?_⟩
  intro hpos
  obtain ⟨⟨w, hw, hwc, hwv⟩, hlow⟩ := h5 hpos
  exact ⟨⟨w, (hV w).2 hw, hwc, hwv⟩, fun x hx hlt => hlow x ((hV x).1 hx) hlt⟩

/-- The inner loop of the scan, for channel `i`. -/
theorem scanChannel_total (fh : FileHandling) (inData : Nat → ℚ) (i : Nat) (st : ℚ × Nat)
    (hi : i < fh.m_channels) (hfit : fh.ArrayLength + fh.m_channels < U32)
    (h : ScanInv inData fh.m_channels
      (fun x => x < fh.ArrayLength ∧ x % fh.m_channels < i) i st) :
    ∃ r, forLoop (fun j => j < fh.ArrayLength) (fun j => uadd j fh.m_channels)
        (fun j (st : ℚ × Nat) =>
          if fabs (inData j) > st.1 then some (Step.next (fabs (inData j), i))
          else some (Step.next st)) U32 i st = some r ∧
      ScanInv inData fh.m_channels
        (fun x => x < fh.ArrayLength ∧ x % fh.m_channels < i + 1) (i + 1) r := by
  refine forLoop_total
    (fun j st => j % fh.m_channels = i ∧ ScanInv inData fh.m_channels
      (fun x => x < fh.ArrayLength ∧
        (x % fh.m_channels < i ∨ (x % fh.m_channels = i ∧ x < j))) i st)
    (fun r => ScanInv inData fh.m_channels
        (fun x => x < fh.ArrayLength ∧ x % fh.m_channels < i + 1) (i + 1) r)
    (fun j => fh.ArrayLength + fh.m_channels - 1 - j)
    ?_ ?_ U32 i st ?_ ?_
  · intro j s ⟨hj, hinv⟩ hc
    have hjl : j < fh.ArrayLength := by simpa using hc
    left
    refine ⟨if fabs (inData j) > s.1 then (fabs (inData j), i) else s, ?_, ⟨?_, ?_⟩, ?_⟩
    · split <;> rfl
    · show uadd j fh.m_channels % fh.m_channels = i
      rw [uadd_eq (by omega), Nat.add_mod_right]; exact hj
    · show ScanInv inData fh.m_channels (fun x => x < fh.ArrayLength ∧
        (x % fh.m_channels < i ∨ x % fh.m_channels = i ∧ x < uadd j fh.m_channels)) i _
      rw [uadd_eq (by omega)]
      refine ScanInv_visit hinv hj ?_
      intro x
      constructor
      · rintro ⟨hx, hx' | ⟨hx1, hx2⟩⟩
        · exact Or.inl ⟨hx, Or.inl hx'⟩
        · by_cases hxj : x < j
          · exact Or.inl ⟨hx, Or.inr ⟨hx1, hxj⟩⟩
          · right
            exact eq_of_mod_eq_of_lt (by rw [hx1, hj]) (by omega) hx2
      · rintro (⟨hx, hx' | ⟨hx1, hx2⟩⟩ | rfl)
        · exact ⟨hx, Or.inl hx'⟩
        · exact ⟨hx, Or.inr ⟨hx1, by omega⟩⟩
        · exact ⟨hjl, Or.inr ⟨hj, by omega⟩⟩
    · show fh.ArrayLength + fh.m_channels - 1 - uadd j fh.m_channels <
        fh.ArrayLength + fh.m_channels - 1 - j
      rw [uadd_eq (by omega)]; omega
  · intro j s ⟨_, hinv⟩ hc
    have hjl : ¬ j < fh.ArrayLength := by simpa using hc
    refine ScanInv_congr hinv (Nat.le_succ i) ?_
    intro x
    constructor
    · rintro ⟨hx, hx'⟩
      refine ⟨hx, ?_⟩
      rcases Nat.lt_or_ge (x % fh.m_channels) i with h' | h'
      · exact Or.inl h'
      · exact Or.inr ⟨by omega, by omega⟩
    · rintro ⟨hx, hx' | ⟨hx1, _⟩⟩
      · exact ⟨hx, by omega⟩
      · exact ⟨hx, by omega⟩
  · refine ⟨Nat.mod_eq_of_lt hi, ScanInv_congr h (le_refl _) ?_⟩
    intro x
    constructor
    · rintro ⟨hx, hx' | ⟨hx1, hx2⟩⟩
      · exact ⟨hx, hx'⟩
      · exfalso
        have := Nat.mod_le x fh.m_channels
        omega
    · rintro ⟨hx, hx'⟩
      exact ⟨hx, Or.inl hx'⟩
  · show fh.ArrayLength + fh.m_channels - 1 - i < U32
    omega

/-- The whole scan: it returns, and its result describes all samples below `ArrayLength`. -/
theorem detectStrongestChannel_total (fh : FileHandling) (inData : Nat → ℚ)
    (hc : 1 ≤ fh.m_channels) (hfit : fh.ArrayLength + fh.m_channels < U32) :
    ∃ r, detectStrongestChannel fh inData = some r ∧
      ScanInv inData fh.m_channels (fun x => x < fh.ArrayLength) fh.m_channels r := by
  unfold detectStrongestChannel
  refine forLoop_total
    (fun i st => i ≤ fh.m_channels ∧ ScanInv inData fh.m_channels
      (fun x => x < fh.ArrayLength ∧ x % fh.m_channels < i) i st)
    (fun r => ScanInv inData fh.m_channels (fun x => x < fh.ArrayLength) fh.m_channels r)
    (fun i => fh.m_channels - i) ?_ ?_ U32 0 (0, 0) ?_ ?_
  · intro i s ⟨_, hinv⟩ hcond
    have hi : i < fh.m_channels := by simpa using hcond
    obtain ⟨r, hr, hr'⟩ := scanChannel_total fh inData i s hi hfit hinv
    left
    refine ⟨r, ?_, ⟨hi, hr'⟩, ?_⟩
    · simp only [hr, Option.map_some']
    · show fh.m_channels - (i + 1) < fh.m_channels - i
      omega
  · intro i s ⟨hi, hinv⟩ hcond
    have hi' : ¬ i < fh.m_channels := by simpa using hcond
    refine ScanInv_congr hinv hi ?_
    intro x
    constructor
    · intro hx
      exact ⟨hx, by have := Nat.mod_lt x (show fh.m_channels > 0 by omega); omega⟩
    · exact fun hx => hx.1
  · refine ⟨Nat.zero_le _, ?_, le_refl _, fun _ => rfl, le_refl _, ?_⟩
    · rintro j ⟨_, hj⟩; omega
    · intro h; exact absurd h (lt_irrefl _)
  · show fh.m_channels - 0 < U32
    omega

/-- The copy loop: it returns the samples of channel `ch`, one per frame. -/
theorem copyChannel_total (fh : FileHandling) (inData : Nat → ℚ) (ch : Nat)
    (hch : ch < fh.m_channels) (hdiv : fh.m_channels ∣ fh.ArrayLength)
    (hfit : fh.ArrayLength + fh.m_channels < U32) :
    ∃ out, copyChannel fh inData ch = some out ∧
      out.length = fh.ArrayLength / fh.m_channels ∧
      ∀ k, k < fh.ArrayLength / fh.m_channels →
        out[k]? = some (inData (ch + k * fh.m_channels)) := by
  have hq : fh.ArrayLength / fh.m_channels * fh.m_channels = fh.ArrayLength :=
    Nat.div_mul_cancel hdiv
  generalize fh.ArrayLength / fh.m_channels = q at hq ⊢
  unfold copyChannel
  refine forLoop_total
    (fun j out => ∃ k, j = ch + k * fh.m_channels ∧ k ≤ q ∧ out.length = k ∧
      ∀ k', k' < k → out[k']? = some (inData (ch + k' * fh.m_channels)))
    (fun out => out.length = q ∧
      ∀ k, k < q → out[k]? = some (inData (ch + k * fh.m_channels)))
    (fun j => fh.ArrayLength + fh.m_channels - 1 - j) ?_ ?_ U32 ch [] ?_ ?_
  · rintro j out ⟨k, rfl, hk, hlen, hget⟩ hcond
    have hjl : ch + k * fh.m_channels < fh.ArrayLength := by simpa using hcond
    have hkq : k < q := by
      by_contra hcon
      have : q * fh.m_channels ≤ k * fh.m_channels :=
        Nat.mul_le_mul_right _ (not_lt.mp hcon)
      omega
    left
    refine ⟨out ++ [inData (ch + k * fh.m_channels)], rfl, ⟨k + 1, ?_, hkq, ?_, ?_⟩, ?_⟩
    · show uadd (ch + k * fh.m_channels) fh.m_channels = ch + (k + 1) * fh.m_channels
      rw [uadd_eq (by omega), Nat.add_mul]; omega
    · simp [hlen]
    · intro k' hk'
      by_cases hlt : k' < k
      · rw [List.getElem?_append_left (by omega)]
        exact hget k' hlt
      · have hkk : k' = k := by omega
        subst hkk
        rw [List.getElem?_append_right (by omega)]
        simp [hlen]
    · show fh.ArrayLength + fh.m_channels - 1 - uadd (ch + k * fh.m_channels) fh.m_channels <
        fh.ArrayLength + fh.m_channels - 1 - (ch + k * fh.m_channels)
      rw [uadd_eq (by omega)]; omega
  · rintro j out ⟨k, rfl, hk, hlen, hget⟩ hcond
    have hjl : ¬ ch + k * fh.m_channels < fh.ArrayLength := by simpa using hcond
    have hkq : k = q := by
      by_contra hcon
      have hlt : k + 1 ≤ q := by omega
      have : (k + 1) * fh.m_channels ≤ q * fh.m_channels := Nat.mul_le_mul_right _ hlt
      rw [Nat.add_mul] at this
      omega
    subst hkq
    exact ⟨hlen, hget⟩
  · exact ⟨0, by simp, Nat.zero_le _, rfl, fun k' hk' => absurd hk' (Nat.not_lt_zero _)⟩
  · show fh.ArrayLength + fh.m_channels - 1 - ch < U32
    omega

/-- C3. On an interleaved buffer whose length is a multiple of the channel count `c ≥ 1`,
`SeparateStrongestChannel` returns, writes exactly `length / c` samples, the `k`-th being
`inData[ch + k*c]`, where the selected channel `ch` is the lowest channel containing a sample
of globally maximal absolute value (every lower channel stays strictly below that maximum);
`ch = 0` on an all-zero buffer, and `ch = 1` on a stereo buffer whose channel 0 is silent and
whose channel 1 is not. -/
theorem SeparateStrongestChannel_spec (fh : FileHandling) (inData : Nat → ℚ)
    (hc : 1 ≤ fh.m_channels) (hdiv : fh.m_channels ∣ fh.ArrayLength)
    (hfit : fh.ArrayLength + fh.m_channels < U32) :
    ∃ (strongestValue : ℚ) (ch : Nat) (outData : List ℚ),
      detectStrongestChannel fh inData = some (strongestValue, ch) ∧
      SeparateStrongestChannel fh inData = some outData ∧
      outData.length = fh.ArrayLength / fh.m_channels ∧
      (∀ k, k < fh.ArrayLength / fh.m_channels →
        outData[k]? = some (inData (ch + k * fh.m_channels))) ∧
      ch < fh.m_channels ∧
      (0 < fh.ArrayLength →
        (∃ k, k < fh.ArrayLength / fh.m_channels ∧
          ∀ j, j < fh.ArrayLength → |inData j| ≤ |inData (ch + k * fh.m_channels)|) ∧
        (∀ ch' k, ch' < ch → k < fh.ArrayLength / fh.m_channels →
          ∃ j, j < fh.ArrayLength ∧ |inData (ch' + k * fh.m_channels)| < |inData j|)) ∧
      ((∀ j, j < fh.ArrayLength → inData j = 0) → ch = 0) ∧
      (fh.m_channels = 2 → (∀ k, k < fh.ArrayLength / 2 → inData (2 * k) = 0) →
        (∃ k, k < fh.ArrayLength / 2 ∧ inData (2 * k + 1) ≠ 0) → ch = 1) := by
  obtain ⟨⟨sv, ch⟩, hdet, h1, h2, h3, h4, h5⟩ := detectStrongestChannel_total fh inData hc hfit
  simp only at h1 h2 h3 h4 h5
  have hq : fh.ArrayLength / fh.m_channels * fh.m_channels = fh.ArrayLength :=
    Nat.div_mul_cancel hdiv
  have hcpos : 0 < fh.m_channels := hc
  -- a sample index below the length, split into channel and frame
  have hsplit : ∀ j, j < fh.ArrayLength →
      j / fh.m_channels < fh.ArrayLength / fh.m_channels ∧
      j = j % fh.m_channels + j / fh.m_channels * fh.m_channels := by
    intro j hj
    refine ⟨?_, ?_⟩
    · exact (Nat.div_lt_iff_lt_mul hcpos).2 (by rw [hq]; exact hj)
    · have := Nat.mod_add_div j fh.m_channels
      rw [Nat.mul_comm] at this
      exact this.symm
  have hjoin : ∀ c' k, c' < fh.m_channels → k < fh.ArrayLength / fh.m_channels →
      c' + k * fh.m_channels < fh.ArrayLength ∧ (c' + k * fh.m_channels) % fh.m_channels = c' := by
    intro c' k hc' hk
    refine ⟨?_, ?_⟩
    · have : (k + 1) * fh.m_channels ≤ fh.ArrayLength / fh.m_channels * fh.m_channels :=
        Nat.mul_le_mul_right _ hk
      rw [Nat.add_mul] at this
      omega
    · rw [Nat.add_mul_mod_self_right, Nat.mod_eq_of_lt hc']
  have hchlt : ch < fh.m_channels := by
    rcases (lt_or_eq_of_le h4) with hpos | hzero
    · obtain ⟨⟨w, _, hw, _⟩, _⟩ := h5 hpos
      rw [← hw]; exact Nat.mod_lt _ hcpos
    · rw [h3 hzero.symm]; exact hcpos
  obtain ⟨out, hout, hlen, hget⟩ := copyChannel_total fh inData ch hchlt hdiv hfit
  refine ⟨sv, ch, out, hdet, ?_, hlen, hget, hchlt, ?_, ?_, ?_⟩
  · unfold SeparateStrongestChannel
    rw [hdet, Option.some_bind]
    exact hout
  · intro hL
    rcases (lt_or_eq_of_le h4) with hpos | hzero
    · obtain ⟨⟨w, hwL, hw, hwv⟩, hlow⟩ := h5 hpos
      obtain ⟨hw1, hw2⟩ := hsplit w hwL
      rw [hw] at hw2
      refine ⟨⟨w / fh.m_channels, hw1, ?_⟩, ?_⟩
      · intro j hj
        rw [← hw2, ← fabs_eq_abs, ← fabs_eq_abs, hwv]
        exact h1 j hj
      · intro ch' k hch' hk
        obtain ⟨hj1, hj2⟩ := hjoin ch' k (by omega) hk
        refine ⟨w, hwL, ?_⟩
        rw [← fabs_eq_abs, ← fabs_eq_abs, hwv]
        exact hlow _ hj1 (by rw [hj2]; exact hch')
    · have hch0 : ch = 0 := h3 hzero.symm
      subst hch0
      have hk0 : 0 < fh.ArrayLength / fh.m_channels := by
        rcases Nat.eq_zero_or_pos (fh.ArrayLength / fh.m_channels) with h0 | h0
        · rw [h0] at hq; omega
        · exact h0
      refine ⟨⟨0, hk0, ?_⟩, ?_⟩
      · intro j hj
        have := h1 j hj
        rw [← hzero, fabs_eq_abs] at this
        exact le_trans this (abs_nonneg _)
      · intro ch' k hch'
        exact absurd hch' (Nat.not_lt_zero _)
  · intro hall
    rcases (lt_or_eq_of_le h4) with hpos | hzero
    · obtain ⟨⟨w, hwL, _, hwv⟩, _⟩ := h5 hpos
      rw [hall w hwL] at hwv
      simp [fabs] at hwv
      rw [← hwv] at hpos
      exact absurd hpos (lt_irrefl _)
    · exact h3 hzero.symm
  · intro hc2 hsilent ⟨k, hk, hne⟩
    rw [hc2] at hjoin h5 hsplit
    obtain ⟨hj1, _⟩ := hjoin 1 k (by omega) hk
    have hbig : 0 < sv := by
      have hle := h1 (1 + k * 2) hj1
      have : 0 < fabs (inData (1 + k * 2)) := by
        rw [fabs_eq_abs]
        apply abs_pos.mpr
        rw [show 1 + k * 2 = 2 * k + 1 by omega]
        exact hne
      exact lt_of_lt_of_le this hle
    obtain ⟨⟨w, hwL, hw, hwv⟩, _⟩ := h5 hbig
    have hch2 : ch < 2 := by rw [← hc2]; exact hchlt
    by_contra hcon
    have hch0 : ch = 0 := by omega
    rw [hch0] at hw
    obtain ⟨hw1, hw2⟩ := hsplit w hwL
    rw [hw] at hw2
    have hz := hsilent (w / 2) hw1
    rw [show 2 * (w / 2) = w by omega] at hz
    rw [hz] at hwv
    simp [fabs] at hwv
    rw [← hwv] at hbig
    exact absurd hbig (lt_irrefl _)

/-- Witness for `SeparateStrongestChannel_spec`: a stereo buffer of three frames. -/
theorem SeparateStrongestChannel_spec_witness :
    ∃ (strongestValue : ℚ) (ch : Nat) (outData : List ℚ),
      detectStrongestChannel ⟨6, 2, 40⟩ (bufferOf [0, 1, 0, -3, 0, 2]) =
        some (strongestValue, ch) ∧
      SeparateStrongestChannel ⟨6, 2, 40⟩ (bufferOf [0, 1, 0, -3, 0, 2]) = some outData ∧
      outData.length = 6 / 2 ∧ ch = 1 :=
  have h := SeparateStrongestChannel_spec ⟨6, 2, 40⟩ (bufferOf [0, 1, 0, -3, 0, 2])
    (by decide) (by decide) (by decide)
  match h with
  | ⟨sv, ch, out, h1, h2, h3, _, _, _, _, h8⟩ =>
    ⟨sv, ch, out, h1, h2, h3, h8 rfl (by decide!) ⟨0, by decide, by decide!⟩⟩

/-! ## GetSustainStartAndEnd -/

theorem findStrongestValue_index_lt (ch_data : Nat → ℚ) (n : Nat) (hn : 0 < n)
    (r : ℚ × Nat) (h : findStrongestValue ch_data n = some r) : r.2 < n := by
  unfold findStrongestValue at h
  refine forLoop_inv (fun _ st => st.2 < n) (fun st => st.2 < n) ?_ ?_ ?_ U32 0 (0, 0) r hn h
  · intro i s s' hP hc hb
    have hi : i < n := by simpa using hc
    split at hb
    · simp only [Option.some.injEq, Step.next.injEq] at hb
      subst hb
      exact hi
    · simp only [Option.some.injEq, Step.next.injEq] at hb
      subst hb
      exact hP
  · intro i s s' _ _ hb
    split at hb <;> simp at hb
  · intro i s hP _
    exact hP

theorem scanSustainStart_lt (ch_data : Nat → ℚ) (n W : Nat) (hW : W < n) (hn : n < U32)
    (r : ℚ × Nat) (h : scanSustainStart ch_data n W = some r) : r.2 < n := by
  unfold scanSustainStart at h
  refine forLoop_inv (fun _ st => st.2 = 0) (fun st => st.2 < n) ?_ ?_ ?_ U32 0 (0, 0) r rfl h
  · intro i s s' hP hc hb
    split at hb
    · simp at hb
    · split at hb
      · simp only [Option.some.injEq, Step.next.injEq] at hb
        subst hb
        exact hP
      · simp at hb
  · intro i s s' hP hc hb
    have hi : i < usub n W := by simpa using hc
    rw [usub_eq (le_of_lt hW) hn] at hi
    split at hb
    · simp at hb
    · split at hb
      · simp at hb
      · simp only [Option.some.injEq, Step.brk.injEq] at hb
        subst hb
        show uadd i W < n
        rw [uadd_eq (by omega)]
        omega
  · intro i s hP _
    rw [hP]
    omega

theorem scanSustainEnd_lt (ch_data : Nat → ℚ) (n W : Nat) (maxValue : ℚ) (hpos : 0 < n)
    (hn : n < U32) (r : ℚ × Nat) (h : scanSustainEnd ch_data n W maxValue = some r) :
    r.2 < n := by
  unfold scanSustainEnd at h
  refine forLoop_inv (fun i st => i < n ∧ st.2 = 0) (fun st => st.2 < n) ?_ ?_ ?_
    U32 (usub n 1) (0, 0) r ⟨?_, rfl⟩ h
  · intro i s s' ⟨hi, hP⟩ hc hb
    have hiW : i > W := by simpa using hc
    refine ⟨?_, ?_⟩
    · show usub i W < n
      rw [usub_eq (le_of_lt hiW) (by omega)]
      omega
    · split at hb
      · simp at hb
      · split at hb
        · simp only [Option.some.injEq, Step.next.injEq] at hb
          subst hb
          exact hP
        · split at hb
          · simp only [Option.some.injEq, Step.next.injEq] at hb
            subst hb
            exact hP
          · simp at hb
  · intro i s s' ⟨hi, _⟩ _ hb
    split at hb
    · simp at hb
    · split at hb
      · simp at hb
      · split at hb
        · simp at hb
        · simp only [Option.some.injEq, Step.brk.injEq] at hb
          subst hb
          exact hi
  · intro i s ⟨_, hP⟩ _
    rw [hP]
    exact hpos
  · rw [usub_eq hpos hn]
    omega

/-- Every index stored by a peak collecting loop is `peakAt i` for a loop index `i` that
passed the loop test. -/
theorem collectPeaks_index (ch_data : Nat → ℚ) (cond : Nat → Bool) (incr : Nat → Nat)
    (peakAt : Nat → Nat) (start : Nat) (lastValue middleValue : ℚ)
    (R : Nat → Prop) (T : Nat → Prop) (hstart : R start)
    (hstep : ∀ i, R i → cond i = true → R (incr i))
    (hT : ∀ i, R i → cond i = true → T (peakAt i))
    (r : ℚ × ℚ × List (Nat × ℚ))
    (h : collectPeaks ch_data cond incr peakAt start lastValue middleValue = some r) :
    ∀ p, p ∈ r.2.2 → T p.1 := by
  unfold collectPeaks at h
  refine forLoop_inv (fun i st => R i ∧ ∀ p, p ∈ st.2.2 → T p.1)
    (fun st => ∀ p, p ∈ st.2.2 → T p.1) ?_ ?_ ?_ U32 start (lastValue, middleValue, []) r
    ⟨hstart, ?_⟩ h
  · intro i s s' ⟨hR, hP⟩ hc hb
    refine ⟨hstep i hR hc, ?_⟩
    dsimp only at hb
    split at hb
    · simp only [Option.some.injEq, Step.next.injEq] at hb
      subst hb
      intro p hp
      simp only [List.mem_append, List.mem_singleton] at hp
      rcases hp with hp | rfl
      · exact hP p hp
      · exact hT i hR hc
    · simp only [Option.some.injEq, Step.next.injEq] at hb
      subst hb
      exact hP
  · intro i s s' _ _ hb
    dsimp only at hb
    split at hb <;> simp at hb
  · intro i s ⟨_, hP⟩ _
    exact hP
  · intro p hp
    simp at hp

theorem lastPeakAbove_prop (absolutePeaks : List (Nat × ℚ)) (maxValue : ℚ) (target : Nat)
    (T : Nat → Prop) (ht : T target) (h0 : T 0) (hp : ∀ p, p ∈ absolutePeaks → T p.1)
    (r : Nat) (h : lastPeakAbove absolutePeaks maxValue target = some r) : T r := by
  unfold lastPeakAbove at h
  refine forLoop_inv (fun _ t => T t) T ?_ ?_ ?_ U32 _ target r ht h
  · intro i s s' hP _ hb
    split at hb
    · simp at hb
    · simp only [Option.some.injEq, Step.next.injEq] at hb
      subst hb
      exact hP
  · intro i s s' _ _ hb
    split at hb
    · simp only [Option.some.injEq, Step.brk.injEq] at hb
      subst hb
      by_cases hi : i < absolutePeaks.length
      · rw [List.getD_eq_getElem _ _ hi]
        exact hp _ (List.getElem_mem hi)
      · rw [List.getD_eq_default _ _ (not_lt.mp hi)]
        exact h0
    · simp at hb
  · intro i s hP _
    exact hP

theorem sustainFallback_valid (ch_data : Nat → ℚ) (n : Nat) (maxValue : ℚ)
    (indexWithMaxValue first second : Nat) (hn : n < 2147483648)
    (hidx : indexWithMaxValue < n) (hsecond : second < n) (s e : Nat)
    (h : sustainFallback ch_data n maxValue indexWithMaxValue first second = some (s, e))
    (hne : (s, e) ≠ (0, 0)) : s < e ∧ e < n := by
  have hzero : some ((0 : Nat), (0 : Nat)) = some (s, e) → s < e ∧ e < n := by
    intro h1
    simp only [Option.some.injEq, Prod.mk.injEq] at h1
    obtain ⟨h2, h3⟩ := h1
    exact absurd (by rw [← h2, ← h3]) hne
  unfold sustainFallback at h
  rw [Option.bind_eq_some] at h
  obtain ⟨after, hafter, h⟩ := h
  by_cases hemp : after.2.2.isEmpty = false
  · rw [if_pos hemp, Option.bind_eq_some] at h
    obtain ⟨second', hsecond', h⟩ := h
    have hs' : second' < n := by
      refine lastPeakAbove_prop after.2.2 maxValue second (fun x => x < n) hsecond
        (by omega) ?_ second' hsecond'
      refine collectPeaks_index ch_data _ _ _ _ _ _ (fun i => 1 ≤ i) (fun x => x < n)
        ?_ ?_ ?_ _ hafter
      · rw [uadd_eq (by unfold U32; omega)]; omega
      · intro i hi hc
        have hin : i < n := by simpa using hc
        show 1 ≤ uadd i 1
        rw [uadd_eq (by unfold U32; omega)]; omega
      · intro i hi hc
        have hin : i < n := by simpa using hc
        show usub i 1 < n
        rw [usub_eq hi (by unfold U32; omega)]; omega
    rw [Option.bind_eq_some] at h
    obtain ⟨before, _, h⟩ := h
    by_cases hemp' : before.2.2.isEmpty = false
    · rw [if_pos hemp', Option.bind_eq_some] at h
      obtain ⟨first', _, h⟩ := h
      by_cases hlt : first' < second'
      · rw [if_pos hlt] at h
        simp only [Option.some.injEq, Prod.mk.injEq] at h
        obtain ⟨h2, h3⟩ := h
        rw [← h2, ← h3]
        exact ⟨hlt, hs'⟩
      · rw [if_neg hlt] at h
        exact hzero h
    · rw [if_neg hemp'] at h
      exact hzero h
  · rw [if_neg hemp] at h
    exact hzero h

/-- C1. For a mono buffer of `n` samples with `n` larger than the `m_samplerate / 20`
window (`n` and the rate in the range of `int`), every result of `GetSustainStartAndEnd`
other than `(0, 0)` has `start < end`, and both indices lie in `[0, n)`. -/
theorem GetSustainStartAndEnd_valid (fh : FileHandling) (ch_data : Nat → ℚ) (s e : Nat)
    (hwin : fh.m_samplerate / 20 < fh.numberOfSamples)
    (hn : fh.numberOfSamples < 2147483648) (hsr : fh.m_samplerate < 2147483648)
    (hres : GetSustainStartAndEnd fh ch_data = some (s, e)) (hne : (s, e) ≠ (0, 0)) :
    s < e ∧ s < fh.numberOfSamples ∧ e < fh.numberOfSamples := by
  have hpos : 0 < fh.numberOfSamples := by omega
  have hU : fh.numberOfSamples < U32 := by unfold U32; omega
  suffices hmain : s < e ∧ e < fh.numberOfSamples by
    exact ⟨hmain.1, by omega, hmain.2⟩
  unfold GetSustainStartAndEnd at hres
  rw [Option.bind_eq_some] at hres
  obtain ⟨strongest, hmax, hres⟩ := hres
  rw [Option.bind_eq_some] at hres
  obtain ⟨fwd, hfwd, hres⟩ := hres
  rw [Option.bind_eq_some] at hres
  obtain ⟨bwd, hbwd, hres⟩ := hres
  have hidx := findStrongestValue_index_lt ch_data _ hpos _ hmax
  have hf0 := scanSustainStart_lt ch_data _ _ hwin hU _ hfwd
  have hs0 := scanSustainEnd_lt ch_data _ _ strongest.1 hpos hU _ hbwd
  have hfirst_eq : uadd fwd.2 (fh.m_samplerate / 4) = fwd.2 + fh.m_samplerate / 4 :=
    uadd_eq (by unfold U32; omega)
  rw [hfirst_eq] at hres
  have hsecond_lt : removeOffset (fwd.2 + fh.m_samplerate / 4) bwd.2 fh.m_samplerate <
      fh.numberOfSamples := by
    unfold removeOffset
    split
    · rename_i hgt
      rw [usub_eq (by omega) (by unfold U32; omega)]
      omega
    · exact hs0
  unfold sustainDecision at hres
  by_cases hlt : removeOffset (fwd.2 + fh.m_samplerate / 4) bwd.2 fh.m_samplerate <
      fwd.2 + fh.m_samplerate / 4
  · rw [if_pos hlt] at hres
    exact sustainFallback_valid ch_data _ strongest.1 strongest.2 _ _ hn hidx
      hsecond_lt s e hres hne
  · rw [if_neg hlt] at hres
    by_cases hlt' : fwd.2 + fh.m_samplerate / 4 <
        removeOffset (fwd.2 + fh.m_samplerate / 4) bwd.2 fh.m_samplerate
    · rw [if_pos hlt'] at hres
      simp only [Option.some.injEq, Prod.mk.injEq] at hres
      obtain ⟨h2, h3⟩ := hres
      rw [← h2, ← h3]
      exact ⟨hlt', hsecond_lt⟩
    · rw [if_neg hlt'] at hres
      simp only [Option.some.injEq, Prod.mk.injEq] at hres
      obtain ⟨h2, h3⟩ := hres
      exact absurd (by rw [← h2, ← h3]) hne

/-- Witness for `GetSustainStartAndEnd_valid`: a tone of 40 samples at rate 40 that rises,
holds and decays; the range found is `(22, 23)`. -/
theorem GetSustainStartAndEnd_valid_witness :
    GetSustainStartAndEnd ⟨40, 1, 40⟩
      (bufferOf [0, 1, 2, 3, 4, 5, 6, 7, 8, 9, 9, 9, 9, 9, 9, 9, 9, 9, 9, 9,
        9, 9, 9, 9, 9, 9, 9, 9, 9, 9, 9, 9, 9, 9, 9, 9, 6, 3, 2, 1]) = some (22, 23) ∧
    (22 < 23 ∧ 22 < (FileHandling.mk 40 1 40).numberOfSamples ∧
      23 < (FileHandling.mk 40 1 40).numberOfSamples) :=
  ⟨by decide!, GetSustainStartAndEnd_valid ⟨40, 1, 40⟩
      (bufferOf [0, 1, 2, 3, 4, 5, 6, 7, 8, 9, 9, 9, 9, 9, 9, 9, 9, 9, 9, 9,
        9, 9, 9, 9, 9, 9, 9, 9, 9, 9, 9, 9, 9, 9, 9, 9, 6, 3, 2, 1]) 22 23
      (by decide) (by decide) (by decide) (by decide!) (by decide)⟩

/-! ## Silent buffers -/

theorem eq_some_of_exists {α : Type} {o : Option α} {v : α} (h : ∃ r, o = some r ∧ r = v) :
    o = some v := by
  obtain ⟨r, hr, hv⟩ := h
  rw [hr, hv]

theorem map_eq_some_of_exists {α β : Type} {o : Option α} {f : α → β} {Q : β → Prop}
    (h : ∃ r, o = some r ∧ Q (f r)) : ∃ b, o.map f = some b ∧ Q b := by
  obtain ⟨r, hr, hv⟩ := h
  exact ⟨f r, by rw [hr]; rfl, hv⟩

theorem fabs_zero : fabs 0 = 0 := by
  unfold fabs; simp

theorem windowMax_zero_up (ch_data : Nat → ℚ) (n idx W : Nat) (hn : n < U32)
    (hle : idx + W ≤ n) (hz : ∀ i, i < n → ch_data i = 0) :
    windowMax ch_data (fun j => j < uadd idx W) (fun j => uadd j 1) idx = some 0 := by
  have hb : uadd idx W = idx + W := uadd_eq (by omega)
  rw [hb]
  unfold windowMax
  apply eq_some_of_exists
  refine forLoop_total (fun j (st : ℚ) => j ≤ idx + W ∧ st = 0)
    (fun st => st = 0) (fun j => idx + W - j) ?_ ?_ U32 idx 0 ⟨by omega, rfl⟩
    (show idx + W - idx < U32 by omega)
  · intro j st ⟨hj, hst⟩ hc
    have hjlt : j < idx + W := by simpa using hc
    left
    refine ⟨0, ?_, ⟨?_, rfl⟩, ?_⟩
    · show (if fabs (ch_data j) > st then some (Step.next (fabs (ch_data j)))
        else some (Step.next st)) = some (Step.next 0)
      rw [hz j (by omega), fabs_zero, hst, if_neg (lt_irrefl _)]
    · show uadd j 1 ≤ idx + W
      rw [uadd_eq (by omega)]; omega
    · show idx + W - uadd j 1 < idx + W - j
      rw [uadd_eq (by omega)]; omega
  · intro j st ⟨_, hst⟩ _
    exact hst

theorem windowMax_zero_down (ch_data : Nat → ℚ) (n idx W : Nat) (hn : n < U32)
    (hidx : idx < n) (hW : W ≤ idx) (hz : ∀ i, i < n → ch_data i = 0) :
    windowMax ch_data (fun j => j > usub idx W) (fun j => usub j 1) idx = some 0 := by
  have hb : usub idx W = idx - W := usub_eq hW (by omega)
  rw [hb]
  unfold windowMax
  apply eq_some_of_exists
  refine forLoop_total (fun j (st : ℚ) => j ≤ idx ∧ st = 0)
    (fun st => st = 0) (fun j => j) ?_ ?_ U32 idx 0 ⟨le_refl _, rfl⟩
    (show idx < U32 by omega)
  · intro j st ⟨hj, hst⟩ hc
    have hjgt : j > idx - W := by simpa using hc
    left
    refine ⟨0, ?_, ⟨?_, rfl⟩, ?_⟩
    · show (if fabs (ch_data j) > st then some (Step.next (fabs (ch_data j)))
        else some (Step.next st)) = some (Step.next 0)
      rw [hz j (by omega), fabs_zero, hst, if_neg (lt_irrefl _)]
    · show usub j 1 ≤ idx
      rw [usub_eq (by omega) (by omega)]; omega
    · show usub j 1 < j
      rw [usub_eq (by omega) (by omega)]; omega
  · intro j st ⟨_, hst⟩ _
    exact hst

theorem findStrongestValue_zero (ch_data : Nat → ℚ) (n : Nat) (hn : n < U32)
    (hz : ∀ i, i < n → ch_data i = 0) : findStrongestValue ch_data n = some (0, 0) := by
  unfold findStrongestValue
  apply eq_some_of_exists
  refine forLoop_total (fun j (st : ℚ × Nat) => j ≤ n ∧ st = (0, 0))
    (fun st => st = (0, 0)) (fun j => n - j) ?_ ?_ U32 0 (0, 0) ⟨Nat.zero_le _, rfl⟩
    (show n - 0 < U32 by omega)
  · intro j st ⟨hj, hst⟩ hc
    have hjlt : j < n := by simpa using hc
    left
    refine ⟨(0, 0), ?_, ⟨?_, rfl⟩, ?_⟩
    · show (if fabs (ch_data j) > st.1 then some (Step.next (fabs (ch_data j), j))
        else some (Step.next st)) = some (Step.next (0, 0))
      rw [hz j hjlt, fabs_zero, hst, if_neg (lt_irrefl _)]
    · show uadd j 1 ≤ n
      rw [uadd_eq (by omega)]; omega
    · show n - uadd j 1 < n - j
      rw [uadd_eq (by omega)]; omega
  · intro j st ⟨_, hst⟩ _
    exact hst

theorem scanSustainStart_zero (ch_data : Nat → ℚ) (n W : Nat) (hn : n < U32) (hW : W < n)
    (hz : ∀ i, i < n → ch_data i = 0) : scanSustainStart ch_data n W = some (0, W) := by
  unfold scanSustainStart
  apply eq_some_of_exists
  refine forLoop_total (fun j (st : ℚ × Nat) => j = 0 ∧ st = (0, 0))
    (fun st => st = (0, W)) (fun _ => 0) ?_ ?_ U32 0 (0, 0) ⟨rfl, rfl⟩
    (show 0 < U32 by unfold U32; omega)
  · intro j st ⟨hj, hst⟩ _
    right
    refine ⟨(0, W), ?_, rfl⟩
    subst hj
    show (match windowMax ch_data (fun j => j < uadd 0 W) (fun j => uadd j 1) 0 with
      | none => none
      | some maxValueInThisWindow =>
        if maxValueInThisWindow > st.1 then some (Step.next (maxValueInThisWindow, st.2))
        else some (Step.brk (st.1, uadd 0 W))) = some (Step.brk (0, W))
    rw [windowMax_zero_up ch_data n 0 W hn (by omega) hz, hst]
    show (if (0 : ℚ) > 0 then some (Step.next ((0 : ℚ), 0)) else some (Step.brk (0, uadd 0 W))) =
      some (Step.brk (0, W))
    rw [if_neg (lt_irrefl _), uadd_eq (by omega), Nat.zero_add]
  · intro j st ⟨hj, _⟩ hc
    exfalso
    subst hj
    have : ¬ (0 < usub n W) := by simpa using hc
    rw [usub_eq (le_of_lt hW) hn] at this
    omega

theorem scanSustainEnd_zero (ch_data : Nat → ℚ) (n W : Nat) (hn : n < U32) (hW : W + 1 < n)
    (hz : ∀ i, i < n → ch_data i = 0) : scanSustainEnd ch_data n W 0 = some (0, n - 1) := by
  unfold scanSustainEnd
  rw [usub_eq (by omega) hn]
  apply eq_some_of_exists
  refine forLoop_total (fun j (st : ℚ × Nat) => j = n - 1 ∧ st = (0, 0))
    (fun st => st = (0, n - 1)) (fun _ => 0) ?_ ?_ U32 (n - 1) (0, 0) ⟨rfl, rfl⟩
    (show 0 < U32 by unfold U32; omega)
  · intro j st ⟨hj, hst⟩ _
    right
    refine ⟨(0, n - 1), ?_, rfl⟩
    subst hj
    show (match windowMax ch_data (fun j => j > usub (n - 1) W) (fun j => usub j 1) (n - 1) with
      | none => none
      | some maxValueInThisWindow =>
        if maxValueInThisWindow < 0 / 4 then some (Step.next (maxValueInThisWindow, st.2))
        else if maxValueInThisWindow > st.1 then some (Step.next (maxValueInThisWindow, st.2))
        else some (Step.brk (st.1, n - 1))) = some (Step.brk (0, n - 1))
    rw [windowMax_zero_down ch_data n (n - 1) W hn (by omega) (by omega) hz, hst]
    show (if (0 : ℚ) < 0 / 4 then some (Step.next ((0 : ℚ), 0))
        else if (0 : ℚ) > 0 then some (Step.next ((0 : ℚ), 0))
        else some (Step.brk ((0 : ℚ), n - 1))) = some (Step.brk (0, n - 1))
    rw [if_neg (by norm_num), if_neg (lt_irrefl _)]
  · intro j st ⟨hj, _⟩ hc
    exfalso
    subst hj
    have : ¬ (n - 1 > W) := by simpa using hc
    omega

/-- On a buffer of zeros the two envelope scans stop at their first window, so the result
is the whole buffer less the window and the two quarter second offsets. -/
theorem GetSustainStartAndEnd_zero (fh : FileHandling) (ch_data : Nat → ℚ)
    (hn : fh.numberOfSamples < 2147483648) (hsr : fh.m_samplerate < 2147483648)
    (hlen : fh.m_samplerate / 20 + 2 * (fh.m_samplerate / 4) + 1 < fh.numberOfSamples)
    (hz : ∀ i, i < fh.numberOfSamples → ch_data i = 0) :
    GetSustainStartAndEnd fh ch_data =
      some (fh.m_samplerate / 20 + fh.m_samplerate / 4,
        fh.numberOfSamples - 1 - fh.m_samplerate / 4) := by
  have hU : fh.numberOfSamples < U32 := by unfold U32; omega
  unfold GetSustainStartAndEnd
  rw [findStrongestValue_zero ch_data _ hU hz, Option.some_bind,
    scanSustainStart_zero ch_data _ _ hU (by omega) hz, Option.some_bind,
    scanSustainEnd_zero ch_data _ _ hU (by omega) hz, Option.some_bind]
  show sustainDecision ch_data fh.numberOfSamples 0 0
      (uadd (fh.m_samplerate / 20) (fh.m_samplerate / 4))
      (removeOffset (uadd (fh.m_samplerate / 20) (fh.m_samplerate / 4))
        (fh.numberOfSamples - 1) fh.m_samplerate) = _
  rw [uadd_eq (by unfold U32; omega)]
  unfold removeOffset
  rw [if_pos (by omega), usub_eq (by omega) (by omega)]
  unfold sustainDecision
  rw [if_neg (by omega), if_pos (by omega)]

/-! ## The analysis window of DetectPitchByFFT -/

theorem umul_eq {a b : Nat} (h : a * b < U32) : umul a b = a * b := by
  unfold umul; exact Nat.mod_eq_of_lt h

/-- The window size loop returns, and its result is a power of two between 2 and 65536 that,
unless it is still 2, was doubled under the three tests of the loop. -/
theorem chooseAnalyzeWindowSize_total (first second m_samplerate : Nat) :
    ∃ aws, chooseAnalyzeWindowSize first second m_samplerate = some aws ∧
      (∃ k, 1 ≤ k ∧ k ≤ 16 ∧ aws = 2 ^ k) ∧
      (aws = 2 ∨ (aws < usub second first ∧ aws / 2 < m_samplerate)) := by
  unfold chooseAnalyzeWindowSize
  apply map_eq_some_of_exists
  refine whileLoop_total
    (fun (st : Nat × Bool) => (∃ k, 1 ≤ k ∧ k ≤ 16 ∧ st.1 = 2 ^ k) ∧
      (st.1 = 2 ∨ (st.1 < usub second first ∧ st.1 / 2 < m_samplerate)))
    (fun (st : Nat × Bool) => (∃ k, 1 ≤ k ∧ k ≤ 16 ∧ st.1 = 2 ^ k) ∧
      (st.1 = 2 ∨ (st.1 < usub second first ∧ st.1 / 2 < m_samplerate)))
    (fun (st : Nat × Bool) => if st.2 = true then 131073 - st.1 else 0)
    ?_ ?_ U32 (2, true) ⟨⟨1, le_refl _, by omega, rfl⟩, Or.inl rfl⟩
    (by show (if true = true then 131073 - 2 else 0) < U32; unfold U32; simp)
  · intro st hP hc
    obtain ⟨a, b⟩ := st
    simp only at hc
    subst hc
    obtain ⟨⟨k, hk1, hk16, hk⟩, hrest⟩ := hP
    simp only at hk hrest
    have ha : a ≤ 65536 := by
      rw [hk, show (65536 : Nat) = 2 ^ 16 by norm_num]
      exact Nat.pow_le_pow_right (by norm_num) hk16
    have ha1 : 2 ≤ a := by
      rw [hk]
      calc 2 = 2 ^ 1 := by norm_num
        _ ≤ 2 ^ k := Nat.pow_le_pow_right (by norm_num) hk1
    have hmul : umul a 2 = a * 2 := umul_eq (by unfold U32; omega)
    by_cases h1 : umul a 2 < usub second first
    · by_cases h2 : a < m_samplerate
      · by_cases h3 : a < 65536
        · refine ⟨(umul a 2, true), ?_, ⟨⟨k + 1, by omega, ?_, ?_⟩, Or.inr ⟨h1, ?_⟩⟩, ?_⟩
          · simp only [h1, h2, h3, if_true]
          · by_contra hcon
            have hk' : k = 16 := by omega
            rw [hk', show (2 : Nat) ^ 16 = 65536 by norm_num] at hk
            omega
          · show umul a 2 = 2 ^ (k + 1)
            rw [hmul, hk, pow_succ]
          · show umul a 2 / 2 < m_samplerate
            rw [hmul]; omega
          · show (if true = true then 131073 - umul a 2 else 0) <
              (if true = true then 131073 - a else 0)
            rw [hmul]; simp only [if_true]; omega
        · refine ⟨(a, false), ?_, ⟨⟨k, hk1, hk16, hk⟩, hrest⟩, ?_⟩
          · simp only [h1, h2, h3, if_true, if_false]
          · show (if false = true then 131073 - a else 0) <
              (if true = true then 131073 - a else 0)
            simp; omega
      · refine ⟨(a, false), ?_, ⟨⟨k, hk1, hk16, hk⟩, hrest⟩, ?_⟩
        · simp only [h1, h2, if_true, if_false]
        · show (if false = true then 131073 - a else 0) <
            (if true = true then 131073 - a else 0)
          simp; omega
    · refine ⟨(a, false), ?_, ⟨⟨k, hk1, hk16, hk⟩, hrest⟩, ?_⟩
      · simp only [h1, if_false]
      · show (if false = true then 131073 - a else 0) <
          (if true = true then 131073 - a else 0)
        simp; omega
  · intro st hP _
    exact hP

/-- C4 (amended). Whatever the sustain range and the sample rate, the window size loop of
`DetectPitchByFFT` returns a power of two that is at least 2 and at most 65536, and that is
either 2 or less than twice the sample rate (the test against the rate is made before the
last doubling, so the window may be longer than the sample rate). -/
theorem analyzeWindowSize_bounds (first second m_samplerate : Nat) :
    ∃ aws, chooseAnalyzeWindowSize first second m_samplerate = some aws ∧
      (∃ k, aws = 2 ^ k) ∧ 2 ≤ aws ∧ aws ≤ 65536 ∧ (aws = 2 ∨ aws < 2 * m_samplerate) := by
  obtain ⟨aws, h, ⟨k, hk1, hk16, hk⟩, hrest⟩ :=
    chooseAnalyzeWindowSize_total first second m_samplerate
  refine ⟨aws, h, ⟨k, hk⟩, ?_, ?_, ?_⟩
  · rw [hk]
    calc 2 = 2 ^ 1 := by norm_num
      _ ≤ 2 ^ k := Nat.pow_le_pow_right (by norm_num) hk1
  · rw [hk, show (65536 : Nat) = 2 ^ 16 by norm_num]
    exact Nat.pow_le_pow_right (by norm_num) hk16
  · rcases hrest with h2 | ⟨_, h3⟩
    · exact Or.inl h2
    · right
      have h1 : 1 ≤ k := hk1
      have hpow : 2 ^ k = 2 * 2 ^ (k - 1) := by
        rw [← pow_succ']
        congr 1
        omega
      rw [hk, hpow] at h3 ⊢
      omega

/-- Counterexample to C4 as stated: at 44100 Hz a sustain range of 70000 samples gets a
window of 65536 samples, which is more than the sample rate. -/
theorem analyzeWindowSize_exceeds_rate :
    chooseAnalyzeWindowSize 1000 71000 44100 = some 65536 ∧ ¬ (65536 ≤ 44100) :=
  ⟨by decide!, by decide⟩

/-! ## The windows of DetectPitchByFFT -/

/-- The loop that fills `in[]` always comes to an end. -/
theorem fillWindow_total (channel_data : Nat → ℚ) (current_idx analyzeWindowSize : Nat) :
    ∃ inp, fillWindow channel_data current_idx analyzeWindowSize = some inp := by
  unfold fillWindow
  have hb : uadd current_idx analyzeWindowSize < U32 := by
    unfold uadd
    exact Nat.mod_lt _ (by unfold U32; omega)
  obtain ⟨r, hr, _⟩ : ∃ r, forLoop (fun x => decide (x < uadd current_idx analyzeWindowSize))
      (fun x => uadd x 1)
      (fun x (inp : List ℚ) => some (Step.next (inp ++ [channel_data x])))
      U32 current_idx [] = some r ∧ True := by
    refine forLoop_total (fun _ _ => True) (fun _ => True)
      (fun x => uadd current_idx analyzeWindowSize - x) ?_ ?_ U32 current_idx [] trivial ?_
    · intro x inp _ hc
      have hx : x < uadd current_idx analyzeWindowSize := by simpa using hc
      left
      refine ⟨inp ++ [channel_data x], rfl, trivial, ?_⟩
      show uadd current_idx analyzeWindowSize - uadd x 1 <
        uadd current_idx analyzeWindowSize - x
      rw [show uadd x 1 = x + 1 from uadd_eq (by omega)]; omega
    · intro _ _ _ _
      trivial
    · show uadd current_idx analyzeWindowSize - current_idx < U32
      omega
  exact ⟨r, hr⟩

/-- The main loop pushes one reading per processed window: with a per-window computation
that always succeeds, its result is the list of processed windows mapped by it. -/
theorem windowLoop_map {α : Type} (first second analyzeWindowSize : Nat)
    (perWindow : Nat → Option α) (g : Nat → α) (hg : ∀ idx, perWindow idx = some (g idx)) :
    windowLoop first second analyzeWindowSize perWindow =
      (processedWindows first second analyzeWindowSize).map (List.map g) := by
  have aux : ∀ (fuel i : Nat) (l : List Nat),
      whileLoop (fun (st : Nat × List α) => decide (st.1 < usub second analyzeWindowSize))
        (fun st => (perWindow st.1).map fun r =>
          (uadd st.1 (analyzeWindowSize / 2), st.2 ++ [r])) fuel (i, l.map g) =
      (whileLoop (fun (st : Nat × List Nat) => decide (st.1 < usub second analyzeWindowSize))
        (fun st => (some st.1).map fun r =>
          (uadd st.1 (analyzeWindowSize / 2), st.2 ++ [r])) fuel (i, l)).map
        (fun st => (st.1, st.2.map g)) := by
    intro fuel
    induction fuel with
    | zero => intro i l; rfl
    | succ n ih =>
      intro i l
      rw [whileLoop_succ, whileLoop_succ]
      by_cases hc : i < usub second analyzeWindowSize
      · have h1 : (fun (st : Nat × List α) =>
            decide (st.1 < usub second analyzeWindowSize)) (i, l.map g) = true := by
          simpa using hc
        have h2 : (fun (st : Nat × List Nat) =>
            decide (st.1 < usub second analyzeWindowSize)) (i, l) = true := by
          simpa using hc
        rw [if_pos h1, if_pos h2]
        dsimp only
        rw [hg i, Option.map_some', Option.map_some']
        have := ih (uadd i (analyzeWindowSize / 2)) (l ++ [i])
        rw [List.map_append, List.map_singleton] at this
        exact this
      · have h1 : ¬ ((fun (st : Nat × List α) =>
            decide (st.1 < usub second analyzeWindowSize)) (i, l.map g) = true) := by
          simpa using hc
        have h2 : ¬ ((fun (st : Nat × List Nat) =>
            decide (st.1 < usub second analyzeWindowSize)) (i, l) = true) := by
          simpa using hc
        rw [if_neg h1, if_neg h2]
        rfl
  unfold processedWindows windowLoop
  have h := aux U32 first []
  rw [List.map_nil] at h
  rw [h, Option.map_map, Option.map_map]
  rfl

/-- The processed windows: the loop returns when its counter cannot wrap, every window
starts in `[first, second - analyzeWindowSize)`, and there is one as soon as `first` itself
lies below `second - analyzeWindowSize`. -/
theorem processedWindows_total (first second analyzeWindowSize : Nat)
    (hh : 1 ≤ analyzeWindowSize / 2)
    (hB : usub second analyzeWindowSize + analyzeWindowSize / 2 ≤ U32) :
    ∃ ws, processedWindows first second analyzeWindowSize = some ws ∧
      (∀ idx, idx ∈ ws → first ≤ idx ∧ idx < usub second analyzeWindowSize) ∧
      (first < usub second analyzeWindowSize → ws ≠ []) ∧
      (¬ first < usub second analyzeWindowSize → ws = []) ∧ ws.length < U32 := by
  unfold processedWindows windowLoop
  apply map_eq_some_of_exists
  refine whileLoop_total
    (fun (st : Nat × List Nat) => first ≤ st.1 ∧
      (∀ idx, idx ∈ st.2 → first ≤ idx ∧ idx < usub second analyzeWindowSize) ∧
      (st.2 = [] → st.1 = first) ∧ (st.2 ≠ [] → first < usub second analyzeWindowSize) ∧
      st.2.length + first ≤ st.1 ∧
      (st.2 = [] ∨ st.1 < usub second analyzeWindowSize + analyzeWindowSize / 2))
    _ (fun st => usub second analyzeWindowSize - st.1) ?_ ?_ U32 (first, [])
    ⟨le_refl _, ?_, fun _ => rfl, fun h => absurd rfl h, by simp, Or.inl rfl⟩ ?_
  · intro st ⟨h1, h2, h3, h4, h5, h6⟩ hc
    have hlt : st.1 < usub second analyzeWindowSize := by simpa using hc
    have hadd : uadd st.1 (analyzeWindowSize / 2) = st.1 + analyzeWindowSize / 2 :=
      uadd_eq (by omega)
    refine ⟨(uadd st.1 (analyzeWindowSize / 2), st.2 ++ [st.1]), rfl,
      ⟨?_, ?_, ?_, ?_, ?_, ?_⟩, ?_⟩
    · show first ≤ uadd st.1 (analyzeWindowSize / 2)
      rw [hadd]; omega
    · intro idx hidx
      simp only [List.mem_append, List.mem_singleton] at hidx
      rcases hidx with hidx | rfl
      · exact h2 idx hidx
      · exact ⟨h1, hlt⟩
    · intro hnil
      simp at hnil
    · intro _
      omega
    · show (st.2 ++ [st.1]).length + first ≤ uadd st.1 (analyzeWindowSize / 2)
      rw [hadd, List.length_append, List.length_singleton]; omega
    · right
      show uadd st.1 (analyzeWindowSize / 2) < _
      rw [hadd]; omega
    · show usub second analyzeWindowSize - uadd st.1 (analyzeWindowSize / 2) <
        usub second analyzeWindowSize - st.1
      rw [hadd]; omega
  · intro st ⟨h1, h2, h3, h4, h5, h6⟩ hc
    have hlt : ¬ st.1 < usub second analyzeWindowSize := by simpa using hc
    refine ⟨h2, ?_, ?_, ?_⟩
    · intro hf hnil
      rw [h3 hnil] at hlt
      exact hlt hf
    · intro hf
      by_contra hne
      exact hf (h4 hne)
    · rcases h6 with h6 | h6
      · rw [h6]
        show 0 < U32
        unfold U32; omega
      · omega
  · intro idx hidx
    simp at hidx
  · show usub second analyzeWindowSize - first < U32
    have : usub second analyzeWindowSize < U32 := by
      unfold usub
      exact Nat.mod_lt _ (by unfold U32; omega)
    omega

/-! ## Exchanging two entries -/

theorem swapAt_length {α : Type} (l : List α) (i j : Nat) (d : α) :
    (swapAt l i j d).length = l.length := by
  unfold swapAt
  simp

theorem swapAt_getD {α : Type} (l : List α) (i j k : Nat) (d : α) (hi : i < l.length)
    (hj : j < l.length) :
    (swapAt l i j d).getD k d =
      if k = j then l.getD i d else if k = i then l.getD j d else l.getD k d := by
  unfold swapAt
  simp only [List.getD_eq_getElem?_getD, List.getElem?_set, List.length_set]
  by_cases hkj : k = j
  · subst hkj
    simp [hj]
  · by_cases hki : k = i
    · subst hki
      simp [hkj, Ne.symm hkj, hi]
    · simp [hkj, hki, Ne.symm hkj, Ne.symm hki]

theorem swapAt_perm {α : Type} [DecidableEq α] (l : List α) (i j : Nat) (d : α)
    (hi : i < l.length) (hj : j < l.length) : (swapAt l i j d).Perm l := by
  rw [List.perm_iff_count]
  intro b
  unfold swapAt
  rw [List.count_set _ _ _ _ (by simpa using hj), List.count_set _ _ _ _ hi]
  have hx : l.getD i d = l[i] := List.getD_eq_getElem _ _ hi
  have hy : l.getD j d = l[j] := List.getD_eq_getElem _ _ hj
  have hj2 : j < (l.set i (l.getD j d)).length := by simpa using hj
  have hset : (l.set i (l.getD j d))[j] = l[j] := by
    rw [List.getElem_set]
    split
    · exact hy
    · rfl
  rw [hset, hx, hy]
  have hcount : (if (l[i] == b) = true then 1 else 0) ≤ List.count b l := by
    split
    · rename_i heq
      have : l[i] = b := by simpa using heq
      have hmem : b ∈ l := this ▸ List.getElem_mem hi
      exact List.count_pos_iff.mpr hmem
    · exact Nat.zero_le _
  omega

/-! ## The sort and the outlier pass of the HPS readings -/

theorem positive_getD (h l : List F64) (hpos : PositiveReadings h) (hperm : l.Perm h) (k : Nat)
    (hk : k < l.length) :
    0 < F64.mag (l.getD k F64.zero) ∧
      l.getD k F64.zero = F64.fin false (F64.mag (l.getD k F64.zero)) := by
  rw [List.getD_eq_getElem _ _ hk]
  obtain ⟨m, hm, hx⟩ := hpos _ (hperm.subset (List.getElem_mem hk))
  rw [hx]
  exact ⟨hm, rfl⟩

theorem lt_fin_iff (a b : ℚ) : F64.lt (F64.fin false a) (F64.fin false b) = true ↔ a < b := by
  unfold F64.lt F64.signed
  simp

theorem sortPitches_inner (h h1 : List F64) (i : Nat) (hlen : h.length < U32)
    (hi : i < h.length - 1) (h1len : h1.length = h.length) (h1perm : h1.Perm h)
    (h1sorted : PositiveReadings h → PrefixSorted h1 i) :
    ∃ h2, forLoop (fun j => decide (j < h.length)) (fun j => uadd j 1)
        (fun j (h2 : List F64) =>
          if F64.lt (h2.getD j F64.zero) (h2.getD i F64.zero) then
            some (Step.next (swapAt h2 i j F64.zero))
          else some (Step.next h2))
        U32 (uadd i 1) h1 = some h2 ∧
      h2.length = h.length ∧ h2.Perm h ∧ (PositiveReadings h → PrefixSorted h2 (i + 1)) := by
  rw [show uadd i 1 = i + 1 from uadd_eq (by omega)]
  refine forLoop_total
    (fun j (h2 : List F64) => i < j ∧ j ≤ h.length ∧ h2.length = h.length ∧ h2.Perm h ∧
      (PositiveReadings h → PrefixSorted h2 i ∧ ∀ b, i < b → b < j →
        F64.mag (h2.getD i F64.zero) ≤ F64.mag (h2.getD b F64.zero)))
    _ (fun j => h.length - j) ?_ ?_ U32 (i + 1) h1
    ⟨Nat.lt_succ_self i, by omega, h1len, h1perm,
      fun hp => ⟨h1sorted hp, fun b hb1 hb2 => by omega⟩⟩
    (show h.length - (i + 1) < U32 by omega)
  · intro j h2 ⟨hij, hjle, h2len, h2perm, h2inv⟩ hc
    have hjlt : j < h.length := by simpa using hc
    have hnext : uadd j 1 = j + 1 := uadd_eq (by omega)
    left
    by_cases hswap : F64.lt (h2.getD j F64.zero) (h2.getD i F64.zero) = true
    · refine ⟨swapAt h2 i j F64.zero, by rw [if_pos hswap], ⟨by omega, ?_, ?_, ?_, ?_⟩, ?_⟩
      · show uadd j 1 ≤ h.length
        omega
      · rw [swapAt_length]; exact h2len
      · exact (swapAt_perm h2 i j F64.zero (by omega) (by omega)).trans h2perm
      · intro hp
        obtain ⟨h2sorted, h2min⟩ := h2inv hp
        have hlt : F64.mag (h2.getD j F64.zero) < F64.mag (h2.getD i F64.zero) := by
          obtain ⟨_, ej⟩ := positive_getD h h2 hp h2perm j (by omega)
          obtain ⟨_, ei⟩ := positive_getD h h2 hp h2perm i (by omega)
          rw [ej, ei] at hswap
          exact (lt_fin_iff _ _).mp hswap
        refine ⟨?_, ?_⟩
        · intro a b ha hab hb
          rw [swapAt_length] at hb
          rw [swapAt_getD h2 i j a F64.zero (by omega) (by omega),
            swapAt_getD h2 i j b F64.zero (by omega) (by omega)]
          rw [if_neg (by omega), if_neg (by omega)]
          split
          · exact h2sorted a i ha (by omega) (by omega)
          · split
            · exact h2sorted a j ha (by omega) (by omega)
            · exact h2sorted a b ha hab hb
        · intro b hb1 hb2
          rw [hnext] at hb2
          rw [swapAt_getD h2 i j i F64.zero (by omega) (by omega),
            swapAt_getD h2 i j b F64.zero (by omega) (by omega)]
          rw [if_neg (by omega), if_pos rfl]
          split
          · exact le_of_lt hlt
          · rw [if_neg (by omega)]
            exact le_trans (le_of_lt hlt) (h2min b hb1 (by omega))
      · show h.length - uadd j 1 < h.length - j
        omega
    · refine ⟨h2, by rw [if_neg hswap], ⟨by omega, ?_, h2len, h2perm, ?_⟩, ?_⟩
      · show uadd j 1 ≤ h.length
        omega
      · intro hp
        obtain ⟨h2sorted, h2min⟩ := h2inv hp
        refine ⟨h2sorted, ?_⟩
        intro b hb1 hb2
        rw [hnext] at hb2
        by_cases hbj : b = j
        · subst hbj
          obtain ⟨_, ej⟩ := positive_getD h h2 hp h2perm b (by omega)
          obtain ⟨_, ei⟩ := positive_getD h h2 hp h2perm i (by omega)
          rw [ej, ei] at hswap
          exact not_lt.mp (fun hcon => hswap ((lt_fin_iff _ _).mpr hcon))
        · exact h2min b hb1 (by omega)
      · show h.length - uadd j 1 < h.length - j
        omega
  · intro j h2 ⟨hij, hjle, h2len, h2perm, h2inv⟩ hc
    have hjlt : ¬ j < h.length := by simpa using hc
    refine ⟨h2len, h2perm, ?_⟩
    intro hp
    obtain ⟨h2sorted, h2min⟩ := h2inv hp
    intro a b ha hab hb
    by_cases hai : a < i
    · exact h2sorted a b hai hab hb
    · have : a = i := by omega
      subst this
      exact h2min b hab (by omega)

/-- The exchange sort returns a permutation of its input, in ascending order when every
reading is a finite number above zero. -/
theorem sortPitches_total (h : List F64) (hlen : h.length < U32) :
    ∃ sorted, sortPitches h = some sorted ∧ sorted.length = h.length ∧ sorted.Perm h ∧
      (PositiveReadings h → PrefixSorted sorted sorted.length) := by
  unfold sortPitches
  refine forLoop_total
    (fun i (h1 : List F64) => i ≤ h.length - 1 ∧ h1.length = h.length ∧ h1.Perm h ∧
      (PositiveReadings h → PrefixSorted h1 i))
    _ (fun i => h.length - i) ?_ ?_ U32 0 h
    ⟨Nat.zero_le _, rfl, List.Perm.refl _, fun _ a b ha => by omega⟩
    (show h.length - 0 < U32 by omega)
  · intro i h1 ⟨hile, h1len, h1perm, h1sorted⟩ hc
    have hilt : i < h.length - 1 := by simpa using hc
    obtain ⟨h2, hrun, h2len, h2perm, h2sorted⟩ :=
      sortPitches_inner h h1 i hlen hilt h1len h1perm h1sorted
    left
    refine ⟨h2, ?_, ⟨?_, h2len, h2perm, ?_⟩, ?_⟩
    · show (forLoop _ _ _ U32 (uadd i 1) h1).map Step.next = _
      rw [hrun]; rfl
    · show uadd i 1 ≤ h.length - 1
      rw [uadd_eq (by omega)]; omega
    · show PositiveReadings h → PrefixSorted h2 (uadd i 1)
      rw [uadd_eq (by omega)]; exact h2sorted
    · show h.length - uadd i 1 < h.length - i
      rw [uadd_eq (by omega)]; omega
  · intro i h1 ⟨hile, h1len, h1perm, h1sorted⟩ hc
    have hilt : ¬ i < h.length - 1 := by simpa using hc
    refine ⟨h1len, h1perm, ?_⟩
    intro hp a b ha hab hb
    exact h1sorted hp a b (by omega) hab hb

theorem getD_take (l : List F64) (m k : Nat) (hk : k < m) :
    (l.take m).getD k F64.zero = l.getD k F64.zero := by
  simp only [List.getD_eq_getElem?_getD]
  rw [List.getElem?_take_of_lt hk]

/-- The test of the outlier loop on two finite numbers above zero: the `double` quotient
lies above the `double` `1.05`. -/
theorem outlier_test_iff (a b : ℚ) (hb : 0 < b) :
    F64.lt (F64.ofRat 1.05) (F64.div (F64.fin false a) (F64.fin false b)) = true ↔
      rnd 1.05 < rnd (a / b) := by
  have h21 : (1.05 : ℚ) = 21 / 20 := by norm_num
  rw [h21]
  have h105 : rnd (21 / 20 : ℚ) ≤ 2 := by
    have := rnd_mono (show (21 / 20 : ℚ) ≤ ((2 : Nat) : ℚ) by norm_num)
    rw [rnd_natCast 2 (by norm_num)] at this
    exact_mod_cast this
  have hbig : (2 : ℚ) < 2 ^ (1024 : Nat) := by
    calc (2 : ℚ) = 2 ^ (1 : Nat) := by norm_num
      _ < 2 ^ (1024 : Nat) := pow_lt_pow_right₀ (by norm_num) (by norm_num)
  have hc : F64.ofRat (21 / 20) = F64.fin false (rnd (21 / 20)) := by
    unfold F64.ofRat F64.round
    rw [abs_of_pos (show (0 : ℚ) < 21 / 20 by norm_num), if_pos (lt_of_le_of_lt h105 hbig)]
    have hneg : decide ((21 / 20 : ℚ) < 0) = false := decide_eq_false (by norm_num)
    rw [hneg]
  have hd : F64.div (F64.fin false a) (F64.fin false b) = F64.round false (a / b) := by
    simp [F64.div, ne_of_gt hb]
  rw [hc, hd]
  unfold F64.round
  by_cases hfin : rnd (a / b) < 2 ^ (1024 : Nat)
  · rw [if_pos hfin]
    exact lt_fin_iff _ _
  · rw [if_neg hfin]
    constructor
    · intro _
      linarith [not_lt.mp hfin]
    · intro _
      rfl

/-- A quotient that the outlier test lets pass is at most `1.05`, but for the fraction
`2 ^ -51` that the roundings of the quotient and of the constant can add. -/
theorem outlier_bound (q : ℚ) (hq : 0 < q) (h : ¬ rnd 1.05 < rnd q) :
    q ≤ 1.05 * (1 + (2 : ℚ) ^ (-51 : Int)) := by
  have h21 : (1.05 : ℚ) = 21 / 20 := by norm_num
  rw [h21] at h ⊢
  have hu : (2 : ℚ) ^ (-53 : Int) = 1 / 9007199254740992 := by norm_num
  have hu51 : (2 : ℚ) ^ (-51 : Int) = 1 / 2251799813685248 := by norm_num
  have hsmall : (2 : ℚ) ^ (-1022 : Int) ≤ 1 := by
    have : (2 : ℚ) ^ (-1022 : Int) ≤ (2 : ℚ) ^ (0 : Int) :=
      (zpow_le_zpow_iff_right₀ (by norm_num : (1 : ℚ) < 2)).mpr (by norm_num)
    simpa using this
  rw [hu51]
  rcases le_or_lt q 1 with h1 | h1
  · linarith
  · have e1 := rnd_relative q (by rw [abs_of_pos hq]; linarith)
    rw [abs_of_pos hq, hu] at e1
    have hpos : (0 : ℚ) < 21 / 20 := by norm_num
    have e2 := rnd_relative (21 / 20 : ℚ) (by rw [abs_of_pos hpos]; linarith)
    rw [abs_of_pos hpos, hu] at e2
    have := (abs_le.mp e1).1
    have := (abs_le.mp e2).2
    have := not_lt.mp h
    linarith

/-- The outlier loop keeps a non-empty initial segment of its list; on an ascending list of
finite numbers above zero no entry of that segment has a quotient by the first entry that
compares above `1.05`. -/
theorem dropOutliers_total (s : List F64) (hne : s ≠ []) (hlen : s.length < U32) :
    ∃ m, 1 ≤ m ∧ m ≤ s.length ∧ dropOutliers s = some (s.take m) ∧
      (PositiveReadings s → PrefixSorted s s.length → ∀ k, k < m →
        F64.lt (F64.ofRat 1.05) (F64.div (s.getD k F64.zero) (s.getD 0 F64.zero)) = false) := by
  have hpos : 0 < s.length := List.length_pos.mpr hne
  have key : ∃ r, dropOutliers s = some r ∧ ∃ m, r = s.take m ∧ 1 ≤ m ∧ m ≤ s.length ∧
      (PositiveReadings s → PrefixSorted s s.length → ∀ k, k < m →
        F64.lt (F64.ofRat 1.05) (F64.div (s.getD k F64.zero) (s.getD 0 F64.zero)) =
          false) := by
    unfold dropOutliers
    refine forLoop_total
      (fun i (h1 : List F64) => ∃ m, h1 = s.take m ∧ i + 1 ≤ m ∧ m ≤ s.length ∧
        (PositiveReadings s → PrefixSorted s s.length → ∀ k, i < k → k < m →
          F64.lt (F64.ofRat 1.05) (F64.div (s.getD k F64.zero) (s.getD 0 F64.zero)) =
            false))
      _ (fun i => i) ?_ ?_ U32 (s.length - 1) s
      ⟨s.length, (List.take_length s).symm, by omega, le_refl _,
        fun _ _ k h1 h2 => by omega⟩
      (show s.length - 1 < U32 by omega)
    · rintro i h1 ⟨m, rfl, him, hms, hk⟩ hc
      have hi0 : 0 < i := by simpa using hc
      have hgi : (s.take m).getD i F64.zero = s.getD i F64.zero := getD_take s m i (by omega)
      have hg0 : (s.take m).getD 0 F64.zero = s.getD 0 F64.zero := getD_take s m 0 (by omega)
      left
      by_cases hratio : F64.lt (F64.ofRat 1.05)
          (F64.div (s.getD i F64.zero) (s.getD 0 F64.zero)) = true
      · refine ⟨(s.take m).dropLast, ?_, ⟨m - 1, ?_, by omega, by omega, ?_⟩, ?_⟩
        · show (if F64.lt (F64.ofRat 1.05)
              (F64.div ((s.take m).getD i F64.zero) ((s.take m).getD 0 F64.zero)) = true then
            some (Step.next (s.take m).dropLast)
            else some (Step.next (s.take m))) = _
          rw [hgi, hg0, if_pos hratio]
        · rw [List.dropLast_eq_take, List.take_take, List.length_take]
          congr 1
          omega
        · intro hp hs k hk1 hk2
          -- on an ascending list the entry tested is the last one
          have hm : m = i + 1 := by
            by_contra hcon
            have hfalse := hk hp hs (i + 1) (by omega) (by omega)
            obtain ⟨p0, e0⟩ := positive_getD s s hp (List.Perm.refl _) 0 (by omega)
            obtain ⟨pi, ei⟩ := positive_getD s s hp (List.Perm.refl _) i (by omega)
            obtain ⟨pj, ej⟩ := positive_getD s s hp (List.Perm.refl _) (i + 1) (by omega)
            rw [ei, e0, outlier_test_iff _ _ p0] at hratio
            have hnot : ¬ rnd 1.05 < rnd (F64.mag (s.getD (i + 1) F64.zero) /
                F64.mag (s.getD 0 F64.zero)) := by
              intro hcon2
              rw [ej, e0, (outlier_test_iff _ _ p0).mpr hcon2] at hfalse
              exact absurd hfalse (by simp)
            have hle : F64.mag (s.getD i F64.zero) / F64.mag (s.getD 0 F64.zero) ≤
                F64.mag (s.getD (i + 1) F64.zero) / F64.mag (s.getD 0 F64.zero) :=
              div_le_div_of_nonneg_right (hs i (i + 1) (by omega) (by omega) (by omega))
                (le_of_lt p0)
            exact hnot (lt_of_lt_of_le hratio (rnd_mono hle))
          omega
        · show i - 1 < i
          omega
      · refine ⟨s.take m, ?_, ⟨m, rfl, by omega, hms, ?_⟩, ?_⟩
        · show (if F64.lt (F64.ofRat 1.05)
              (F64.div ((s.take m).getD i F64.zero) ((s.take m).getD 0 F64.zero)) = true then
            some (Step.next (s.take m).dropLast)
            else some (Step.next (s.take m))) = _
          rw [hgi, hg0, if_neg hratio]
        · intro hp hs k hk1 hk2
          by_cases hki : k = i
          · subst hki
            simpa using hratio
          · exact hk hp hs k (by omega) hk2
        · show i - 1 < i
          omega
    · rintro i h1 ⟨m, rfl, him, hms, hk⟩ hc
      have hi0 : ¬ 0 < i := by simpa using hc
      refine ⟨m, rfl, by omega, hms, ?_⟩
      intro hp hs k hkm
      rcases Nat.eq_zero_or_pos k with hk0 | hk0
      · subst hk0
        obtain ⟨p0, e0⟩ := positive_getD s s hp (List.Perm.refl _) 0 (by omega)
        have hnot : ¬ rnd 1.05 < rnd (F64.mag (s.getD 0 F64.zero) /
            F64.mag (s.getD 0 F64.zero)) := by
          rw [div_self (ne_of_gt p0)]
          have h1 : rnd (1 : ℚ) = 1 := by
            have := rnd_natCast 1 (by norm_num)
            simpa using this
          have := rnd_mono (show (1 : ℚ) ≤ 1.05 by norm_num)
          rw [h1] at this
          rw [h1]
          exact not_lt.mpr this
        rw [e0]
        cases hcase : F64.lt (F64.ofRat 1.05)
            (F64.div (F64.fin false (F64.mag (s.getD 0 F64.zero)))
              (F64.fin false (F64.mag (s.getD 0 F64.zero)))) with
        | false => rfl
        | true => exact absurd ((outlier_test_iff _ _ p0).mp hcase) hnot
      · exact hk hp hs k (by omega) hkm
  obtain ⟨r, hr, m, hrm, h1, h2, h3⟩ := key
  exact ⟨m, h1, h2, by rw [hr, hrm], h3⟩

/-- C5 (amended). For every non-empty list of per-window HPS frequencies, the block that
sorts them and pops the outliers returns; what it keeps is a non-empty initial segment of
the list that the exchange sort leaves, which is a permutation of the readings, and the
first entry of that list is always kept. When every reading is a finite number above zero,
that list is ascending, its first entry is the minimum of the readings, and no kept reading
`x` has a `double` quotient `x / min` that compares above the `double` `1.05`, so that
`x / min ≤ 1.05 * (1 + 2 ^ -51)` for the numbers themselves. -/
theorem cleanHarmonicProductPitches_spec (readings : List F64) (hne : readings ≠ [])
    (hlen : readings.length < U32) :
    ∃ sorted kept mn, sortPitches readings = some sorted ∧ sorted.Perm readings ∧
      cleanHarmonicProductPitches readings = some kept ∧ kept <+: sorted ∧
      sorted.head? = some mn ∧ kept.head? = some mn ∧ mn ∈ readings ∧
      (PositiveReadings readings →
        sorted.Pairwise (fun a b => F64.lt b a = false) ∧
        (∀ x, x ∈ readings → F64.lt x mn = false) ∧
        ∀ x, x ∈ kept →
          F64.lt (F64.ofRat 1.05) (F64.div x mn) = false ∧
          F64.mag x / F64.mag mn ≤ 1.05 * (1 + (2 : ℚ) ^ (-51 : Int))) := by
  obtain ⟨sorted, hsort, hslen, hperm, hpair⟩ := sortPitches_total readings hlen
  have hsne : sorted ≠ [] := by
    intro h
    rw [h] at hperm
    exact hne hperm.symm.eq_nil
  obtain ⟨m, hm1, hm2, hdrop, hratio⟩ :=
    dropOutliers_total sorted hsne (by rw [hslen]; exact hlen)
  have hpos : 0 < sorted.length := List.length_pos.mpr hsne
  have hhead : sorted.getD 0 F64.zero = sorted[0] := List.getD_eq_getElem _ _ hpos
  refine ⟨sorted, sorted.take m, sorted.getD 0 F64.zero, hsort, hperm, ?_,
    List.take_prefix _ _, ?_, ?_, ?_, ?_⟩
  · unfold cleanHarmonicProductPitches
    rw [if_pos (by simpa using hne), hsort, Option.some_bind]
    exact hdrop
  · rw [List.head?_eq_getElem?, hhead, List.getElem?_eq_getElem hpos]
  · rw [List.head?_take, if_neg (by omega), List.head?_eq_getElem?, hhead,
      List.getElem?_eq_getElem hpos]
  · rw [hhead]
    exact hperm.subset (List.getElem_mem hpos)
  · intro hp
    have hps : PositiveReadings sorted := fun x hx => hp x (hperm.subset hx)
    have hsorted := hpair hp
    have hmagle : ∀ a b, a ≤ b → b < sorted.length →
        F64.mag (sorted.getD a F64.zero) ≤ F64.mag (sorted.getD b F64.zero) := by
      intro a b hab hb
      rcases Nat.lt_or_eq_of_le hab with hlt | heq
      · exact hsorted a b (by omega) hlt hb
      · subst heq; exact le_refl _
    have hltfalse : ∀ a b, a ≤ b → b < sorted.length →
        F64.lt (sorted.getD b F64.zero) (sorted.getD a F64.zero) = false := by
      intro a b hab hb
      obtain ⟨_, ea⟩ := positive_getD sorted sorted hps (List.Perm.refl _) a (by omega)
      obtain ⟨_, eb⟩ := positive_getD sorted sorted hps (List.Perm.refl _) b hb
      rw [ea, eb]
      cases hcase : F64.lt (F64.fin false (F64.mag (sorted.getD b F64.zero)))
          (F64.fin false (F64.mag (sorted.getD a F64.zero))) with
      | false => rfl
      | true =>
        exact absurd ((lt_fin_iff _ _).mp hcase) (not_lt.mpr (hmagle a b hab hb))
    refine ⟨?_, ?_, ?_⟩
    · rw [List.pairwise_iff_getElem]
      intro a b ha hb hab
      have := hltfalse a b (le_of_lt hab) hb
      rw [List.getD_eq_getElem _ _ ha, List.getD_eq_getElem _ _ hb] at this
      exact this
    · intro x hx
      have hxs : x ∈ sorted := hperm.symm.subset hx
      obtain ⟨k, hk, rfl⟩ := List.getElem_of_mem hxs
      have := hltfalse 0 k (Nat.zero_le _) hk
      rw [List.getD_eq_getElem _ _ hk] at this
      exact this
    · intro x hx
      obtain ⟨k, hk, rfl⟩ := List.getElem_of_mem hx
      have hkm : k < m := by
        rw [List.length_take] at hk
        omega
      have htest := hratio hps hsorted k hkm
      rw [List.getElem_take]
      have hkl : k < sorted.length := by omega
      rw [List.getD_eq_getElem _ _ hkl] at htest
      refine ⟨htest, ?_⟩
      obtain ⟨p0, e0⟩ := positive_getD sorted sorted hps (List.Perm.refl _) 0 hpos
      obtain ⟨pk, ek⟩ := positive_getD sorted sorted hps (List.Perm.refl _) k hkl
      rw [List.getD_eq_getElem _ _ hkl] at pk ek
      apply outlier_bound _ (div_pos pk p0)
      intro hcon
      rw [ek, e0, (outlier_test_iff _ _ p0).mpr hcon] at htest
      exact absurd htest (by simp)

/-- Witness for `cleanHarmonicProductPitches_spec`: seven readings, of which three are
kept. -/
theorem cleanHarmonicProductPitches_spec_witness :
    cleanHarmonicProductPitches [F64.fin false 100, F64.fin false 441, F64.fin false 99,
      F64.fin false 103, F64.fin false 104, F64.fin false 110, F64.fin false 98] =
      some [F64.fin false 98, F64.fin false 99, F64.fin false 100] ∧
    ∃ sorted kept mn,
      sortPitches [F64.fin false 100, F64.fin false 441, F64.fin false 99,
        F64.fin false 103, F64.fin false 104, F64.fin false 110, F64.fin false 98] =
        some sorted ∧
      sorted.Perm [F64.fin false 100, F64.fin false 441, F64.fin false 99,
        F64.fin false 103, F64.fin false 104, F64.fin false 110, F64.fin false 98] ∧
      cleanHarmonicProductPitches [F64.fin false 100, F64.fin false 441, F64.fin false 99,
        F64.fin false 103, F64.fin false 104, F64.fin false 110, F64.fin false 98] =
        some kept ∧
      kept <+: sorted ∧ sorted.head? = some mn ∧ kept.head? = some mn ∧
      mn ∈ [F64.fin false 100, F64.fin false 441, F64.fin false 99,
        F64.fin false 103, F64.fin false 104, F64.fin false 110, F64.fin false 98] ∧
      (PositiveReadings [F64.fin false 100, F64.fin false 441, F64.fin false 99,
          F64.fin false 103, F64.fin false 104, F64.fin false 110, F64.fin false 98] →
        sorted.Pairwise (fun a b => F64.lt b a = false) ∧
        (∀ x, x ∈ [F64.fin false 100, F64.fin false 441, F64.fin false 99,
          F64.fin false 103, F64.fin false 104, F64.fin false 110, F64.fin false 98] →
          F64.lt x mn = false) ∧
        ∀ x, x ∈ kept →
          F64.lt (F64.ofRat 1.05) (F64.div x mn) = false ∧
          F64.mag x / F64.mag mn ≤ 1.05 * (1 + (2 : ℚ) ^ (-51 : Int))) :=
  ⟨by decide!, cleanHarmonicProductPitches_spec [F64.fin false 100, F64.fin false 441,
    F64.fin false 99, F64.fin false 103, F64.fin false 104, F64.fin false 110,
    F64.fin false 98] (by simp) (by unfold U32; decide)⟩

/-- C5 at counterexamples. With the readings 1, a value that is not a number, and 2, the
sort moves nothing and the outlier pass pops only the 2: the value that is not a number
remains, and its quotient by the first entry is not a number. With the readings 0 and 5
the pass pops the 5 (`5.0 / 0.0` is infinite) and keeps the 0, whose quotient `0.0 / 0.0`
is not a number either. No comparison with a value that is not a number holds. Such a reading
arises where the spectrum is zero around the bin: `TranslateIndexToPitch` then divides zero
by zero. -/
theorem outlier_pass_keeps_nan :
    cleanHarmonicProductPitches [F64.fin false 1, F64.nan, F64.fin false 2] =
      some [F64.fin false 1, F64.nan] ∧
    F64.div F64.nan (F64.fin false 1) = F64.nan ∧
    cleanHarmonicProductPitches [F64.fin false 0, F64.fin false 5] = some [F64.fin false 0] ∧
    F64.div (F64.fin false 5) (F64.fin false 0) = F64.inf false ∧
    F64.div (F64.fin false 0) (F64.fin false 0) = F64.nan ∧
    (∀ y, F64.lt F64.nan y = false ∧ F64.lt y F64.nan = false) ∧
    TranslateIndexToPitch ⟨0, 1, 44100⟩ 5 (F64.fin false 0) (F64.fin false 0) (F64.fin false 0)
      4096 = F64.nan := by
  refine ⟨by decide!, by decide!, by decide!, by decide!, by decide!, ?_, by decide!⟩
  intro y
  cases y <;> exact ⟨rfl, rfl⟩

/-! ## DetectPitchByFFT as a whole -/

theorem cleanHarmonicProductPitches_total (l : List F64) (hlen : l.length < U32) :
    ∃ kept, cleanHarmonicProductPitches l = some kept := by
  unfold cleanHarmonicProductPitches
  by_cases hemp : l.isEmpty = false
  · rw [if_pos hemp]
    have hne : l ≠ [] := by
      intro h
      rw [h] at hemp
      simp at hemp
    obtain ⟨sorted, hsort, hslen, hperm, hpair⟩ := sortPitches_total l hlen
    have hsne : sorted ≠ [] := by
      intro h
      rw [h] at hperm
      exact hne hperm.symm.eq_nil
    obtain ⟨m, _, _, hdrop, _⟩ :=
      dropOutliers_total sorted hsne (by rw [hslen]; exact hlen)
    exact ⟨sorted.take m, by rw [hsort, Option.some_bind]; exact hdrop⟩
  · rw [if_neg hemp]
    exact ⟨l, rfl⟩

/-- The part of `DetectPitchByFFT` that follows a valid sustain range `first < second`:
it returns, it fails exactly when no window was processed, and the window and the processed
windows are as the three loops leave them. -/
theorem analyseSustain_total (analyze : List ℚ → Nat → F64 × F64) (m_samplerate : Nat)
    (channel_data : Nat → ℚ) (first second : Nat) (hlt : first < second)
    (hs : second < 2147483648) :
    ∃ aws ws res, chooseAnalyzeWindowSize first second m_samplerate = some aws ∧
      processedWindows (centreFirst first second aws) second aws = some ws ∧
      analyseSustain analyze m_samplerate channel_data first second = some res ∧
      (res = none ↔ ws = []) ∧ 2 ≤ aws ∧ aws ≤ 65536 ∧ (aws = 2 ∨ aws < second - first) ∧
      (∀ idx, idx ∈ ws → centreFirst first second aws ≤ idx ∧ idx < usub second aws) ∧
      (centreFirst first second aws < usub second aws → ws ≠ []) := by
  obtain ⟨aws, hchoose, ⟨k, hk1, hk16, hk⟩, hrest⟩ :=
    chooseAnalyzeWindowSize_total first second m_samplerate
  have hR : usub second first = second - first := usub_eq (le_of_lt hlt) (by unfold U32; omega)
  rw [hR] at hrest
  have h2 : 2 ≤ aws := by
    rw [hk]
    calc 2 = 2 ^ 1 := by norm_num
      _ ≤ 2 ^ k := Nat.pow_le_pow_right (by norm_num) hk1
  have h65 : aws ≤ 65536 := by
    rw [hk, show (65536 : Nat) = 2 ^ 16 by norm_num]
    exact Nat.pow_le_pow_right (by norm_num) hk16
  have hrest' : aws = 2 ∨ aws < second - first := by
    rcases hrest with h | ⟨h, _⟩
    · exact Or.inl h
    · exact Or.inr h
  have hB : usub second aws + aws / 2 ≤ U32 := by
    unfold usub U32
    rcases hrest' with h | h
    · subst h; omega
    · omega
  obtain ⟨ws, hws, hmem, hnonempty, _, hwslen⟩ :=
    processedWindows_total (centreFirst first second aws) second aws (by omega) hB
  have hfill : ∀ idx, (fillWindow channel_data idx aws).map (fun inp => analyze inp aws) =
      some (analyze ((fillWindow channel_data idx aws).getD []) aws) := by
    intro idx
    obtain ⟨inp, hinp⟩ := fillWindow_total channel_data idx aws
    rw [hinp]
    rfl
  have hloop := windowLoop_map (centreFirst first second aws) second aws _ _ hfill
  rw [hws, Option.map_some'] at hloop
  obtain ⟨hps, hhps⟩ := cleanHarmonicProductPitches_total
    ((ws.map (fun idx => analyze ((fillWindow channel_data idx aws).getD []) aws)).map
      (fun r => r.2)) (by simpa using hwslen)
  refine ⟨aws, ws, averagePitches ((ws.map (fun idx =>
      analyze ((fillWindow channel_data idx aws).getD []) aws)).map (fun r => r.1)) hps,
    hchoose, hws, ?_, ?_, h2, h65, hrest', hmem, hnonempty⟩
  · unfold analyseSustain
    rw [hchoose, Option.some_bind, hloop, Option.some_bind, hhps, Option.some_bind]
  · unfold averagePitches
    constructor
    · intro h
      by_contra hne
      rw [if_pos (by simpa using hne)] at h
      simp at h
    · intro h
      rw [h]
      rfl

theorem centreFirst_bounds (first second aws : Nat) (hs : second < 2147483648)
    (haws : aws < second - first) :
    first ≤ centreFirst first second aws ∧ centreFirst first second aws < second - aws := by
  have hR : usub second first = second - first := usub_eq (by omega) (by unfold U32; omega)
  unfold centreFirst
  rw [hR]
  split
  · rw [usub_eq (by omega) (by unfold U32; omega), uadd_eq (by unfold U32; omega)]
    omega
  · omega

/-- C6. `DetectPitchByFFT`, called with a sustain range that is `(0, 0)` or valid
(`first < second`), returns, and it reports failure exactly when the range is `(0, 0)` or
the main loop processed no window. When the valid range is at least 3 samples long, the
chosen window is strictly shorter than the range, at least one window is processed, every
processed window `[idx, idx + analyzeWindowSize)` lies inside `[first, second)`, and the call
reports success. -/
theorem DetectPitchByFFT_failure_iff (analyze : List ℚ → Nat → F64 × F64) (fh : FileHandling)
    (junk data channel_data : Nat → ℚ) (first second : Nat)
    (hprep : prepareChannelData fh junk data = some channel_data)
    (hsus : GetSustainStartAndEnd fh channel_data = some (first, second))
    (hvalid : (first = 0 ∧ second = 0) ∨ first < second) (hs : second < 2147483648) :
    (∃ res, DetectPitchByFFT analyze fh junk data = some res ∧
      (res = none ↔ (first = 0 ∧ second = 0) ∨
        ∃ aws, chooseAnalyzeWindowSize first second fh.m_samplerate = some aws ∧
          processedWindows (centreFirst first second aws) second aws = some [])) ∧
    (first + 3 ≤ second →
      ∃ aws ws p, chooseAnalyzeWindowSize first second fh.m_samplerate = some aws ∧
        aws < second - first ∧
        processedWindows (centreFirst first second aws) second aws = some ws ∧ ws ≠ [] ∧
        (∀ idx, idx ∈ ws → first ≤ idx ∧ idx + aws ≤ second) ∧
        DetectPitchByFFT analyze fh junk data = some (some p)) := by
  have hunfold : DetectPitchByFFT analyze fh junk data =
      if first = 0 ∧ second = 0 then some none
      else analyseSustain analyze fh.m_samplerate channel_data first second := by
    unfold DetectPitchByFFT
    rw [hprep, Option.some_bind, hsus, Option.some_bind]
  rw [hunfold]
  by_cases hzero : first = 0 ∧ second = 0
  · rw [if_pos hzero]
    refine ⟨⟨none, rfl, ?_⟩, ?_⟩
    · exact ⟨fun _ => Or.inl hzero, fun _ => rfl⟩
    · intro h3
      omega
  · rw [if_neg hzero]
    have hlt : first < second := by
      rcases hvalid with h | h
      · exact absurd h hzero
      · exact h
    obtain ⟨aws, ws, res, hchoose, hws, hres, hiff, h2, h65, hrest, hmem, hnonempty⟩ :=
      analyseSustain_total analyze fh.m_samplerate channel_data first second hlt hs
    refine ⟨⟨res, hres, ?_⟩, ?_⟩
    · constructor
      · intro hnone
        right
        refine ⟨aws, hchoose, ?_⟩
        rw [hws, hiff.mp hnone]
      · rintro (h | ⟨aws', hchoose', hws'⟩)
        · exact absurd h hzero
        · rw [hchoose] at hchoose'
          have haws : aws = aws' := by simpa using hchoose'
          subst haws
          rw [hws] at hws'
          have : ws = [] := by simpa using hws'
          exact hiff.mpr this
    · intro h3
      have haws : aws < second - first := by
        rcases hrest with h | h
        · omega
        · exact h
      obtain ⟨hc1, hc2⟩ := centreFirst_bounds first second aws hs haws
      have hB : usub second aws = second - aws := usub_eq (by omega) (by unfold U32; omega)
      rw [hB] at hmem hnonempty
      have hwsne : ws ≠ [] := hnonempty hc2
      have hresne : res ≠ none := fun h => hwsne (hiff.mp h)
      obtain ⟨p, hp⟩ := Option.ne_none_iff_exists'.mp hresne
      refine ⟨aws, ws, p, hchoose, haws, hws, hwsne, ?_, by rw [hres, hp]⟩
      intro idx hidx
      obtain ⟨h1, h2'⟩ := hmem idx hidx
      omega

/-- Witness for `DetectPitchByFFT_failure_iff`: a mono buffer of 40 samples at rate 20
whose sustain range is `(6, 34)`. -/
theorem DetectPitchByFFT_failure_iff_witness :
    ∃ aws ws p, chooseAnalyzeWindowSize 6 34 20 = some aws ∧ aws < 34 - 6 ∧
      processedWindows (centreFirst 6 34 aws) 34 aws = some ws ∧ ws ≠ [] ∧
      (∀ idx, idx ∈ ws → 6 ≤ idx ∧ idx + aws ≤ 34) ∧
      DetectPitchByFFT (fun _ _ => (F64.fin false 440, F64.fin false 440)) ⟨40, 1, 20⟩ (fun _ => 0) (fun _ => 0) =
        some (some p) :=
  (DetectPitchByFFT_failure_iff (fun _ _ => (F64.fin false 440, F64.fin false 440)) ⟨40, 1, 20⟩ (fun _ => 0) (fun _ => 0)
    (fun i => if i < (FileHandling.mk 40 1 20).numberOfSamples then (fun _ => 0) i
      else (fun _ => 0) i) 6 34 rfl (by decide!) (Or.inr (by decide)) (by decide)).2
    (by decide)

/-! ## The pitch detectors on a silent buffer -/

/-- On a buffer of zeros the array `channel_data` holds zeros at all `numberOfSamples`
positions, whichever channel is selected. -/
theorem prepareChannelData_zero (fh : FileHandling) (junk data : Nat → ℚ)
    (hc : 1 ≤ fh.m_channels) (hdiv : fh.m_channels ∣ fh.ArrayLength)
    (hfit : fh.ArrayLength + fh.m_channels < U32)
    (hz : ∀ i, i < fh.ArrayLength → data i = 0) :
    ∃ channel_data, prepareChannelData fh junk data = some channel_data ∧
      ∀ i, i < fh.numberOfSamples → channel_data i = 0 := by
  unfold prepareChannelData
  by_cases hmulti : fh.m_channels > 1
  · rw [if_pos hmulti]
    obtain ⟨⟨sv, ch⟩, hdet, h1, h2, h3, h4, h5⟩ :=
      detectStrongestChannel_total fh data hc hfit
    simp only at h1 h2 h3 h4 h5
    have hsv : sv = 0 := by
      by_contra hne
      have hpos : 0 < sv := lt_of_le_of_ne h4 (Ne.symm hne)
      obtain ⟨⟨w, hwL, _, hwv⟩, _⟩ := h5 hpos
      rw [hz w hwL, fabs_zero] at hwv
      exact hne hwv.symm
    have hch : ch = 0 := h3 hsv
    subst hch
    obtain ⟨out, hout, hlen, hget⟩ := copyChannel_total fh data 0 (by omega) hdiv hfit
    have hq : fh.ArrayLength / fh.m_channels * fh.m_channels = fh.ArrayLength :=
      Nat.div_mul_cancel hdiv
    refine ⟨fun i => if i < out.length then out.getD i 0 else junk i, ?_, ?_⟩
    · unfold SeparateStrongestChannel
      rw [hdet, Option.some_bind, hout, Option.some_bind]
    · intro i hi
      have hi' : i < fh.ArrayLength / fh.m_channels := hi
      have hidx : 0 + i * fh.m_channels < fh.ArrayLength := by
        have : (i + 1) * fh.m_channels ≤ fh.ArrayLength / fh.m_channels * fh.m_channels :=
          Nat.mul_le_mul_right _ hi'
        rw [Nat.add_mul] at this
        omega
      show (if i < out.length then out.getD i 0 else junk i) = 0
      rw [if_pos (by rw [hlen]; exact hi'), List.getD_eq_getElem?_getD, hget i hi',
        hz _ hidx]
      rfl
  · rw [if_neg hmulti]
    have hone : fh.m_channels = 1 := by omega
    refine ⟨_, rfl, ?_⟩
    intro i hi
    have hi' : i < fh.ArrayLength := by
      have : fh.numberOfSamples = fh.ArrayLength := by
        unfold FileHandling.numberOfSamples
        rw [hone, Nat.div_one]
      omega
    show (if i < fh.numberOfSamples then data i else junk i) = 0
    rw [if_pos hi, hz i hi']

/-- `DetectPitchByFFT` reports success on every valid sustain range of at least 3 samples. -/
theorem DetectPitchByFFT_success (analyze : List ℚ → Nat → F64 × F64) (fh : FileHandling)
    (junk data channel_data : Nat → ℚ) (first second : Nat)
    (hprep : prepareChannelData fh junk data = some channel_data)
    (hsus : GetSustainStartAndEnd fh channel_data = some (first, second))
    (h3 : first + 3 ≤ second) (hs : second < 2147483648) :
    ∃ p, DetectPitchByFFT analyze fh junk data = some (some p) := by
  obtain ⟨aws, ws, res, _, _, hres, hiff, _, _, hrest, _, hnonempty⟩ :=
    analyseSustain_total analyze fh.m_samplerate channel_data first second (by omega) hs
  have haws : aws < second - first := by
    rcases hrest with h | h
    · omega
    · exact h
  obtain ⟨_, hc2⟩ := centreFirst_bounds first second aws hs haws
  rw [usub_eq (by omega) (by unfold U32; omega)] at hnonempty
  have hresne : res ≠ none := fun h => hnonempty hc2 (hiff.mp h)
  obtain ⟨p, hp⟩ := Option.ne_none_iff_exists'.mp hresne
  refine ⟨p, ?_⟩
  unfold DetectPitchByFFT
  rw [hprep, Option.some_bind, hsus, Option.some_bind]
  show (if first = 0 ∧ second = 0 then some none
    else analyseSustain analyze fh.m_samplerate channel_data first second) = _
  rw [if_neg (by omega), hres, hp]

/-- The zero crossing loop finds no period where all samples it visits are zero. -/
theorem crossingLoop_zero (sqrt : ℚ → ℚ) (m_samplerate : Nat) (channel_data : Nat → ℚ)
    (n first second : Nat) (hn : n < U32) (h2 : 2 ≤ second) (hsn : second ≤ n)
    (hz : ∀ i, i < n → channel_data i = 0) :
    ∃ st, crossingLoop sqrt m_samplerate channel_data first second = some st ∧
      st.2.2 = [] := by
  unfold crossingLoop
  rw [usub_eq h2 (by omega)]
  refine forLoop_total
    (fun i (st : ℚ × Nat × List ℚ) => i ≤ second - 2 ∧ st.2.2 = [])
    _ (fun i => i) ?_ ?_ U32 (second - 2) _ ⟨le_refl _, rfl⟩ (show second - 2 < U32 by omega)
  · intro i st ⟨hi, hst⟩ hc
    have hgt : i > first := by simpa using hc
    left
    refine ⟨(channel_data i, st.2.1, st.2.2), ?_, ⟨?_, hst⟩, ?_⟩
    · show (if channel_data i > 0 ∧ st.1 ≤ 0 then _ else _) = _
      rw [if_neg (by rw [hz i (by omega)]; exact fun h => absurd h.1 (lt_irrefl _))]
    · show usub i 1 ≤ second - 2
      rw [usub_eq (by omega) (by omega)]; omega
    · show usub i 1 < i
      rw [usub_eq (by omega) (by omega)]; omega
  · intro i st ⟨_, hst⟩ _
    exact hst

/-- `DetectPitchInTimeDomain` reports failure when the analysed channel is silent and the
sustain range found is `first + 3 ≤ second < numberOfSamples`. -/
theorem DetectPitchInTimeDomain_zero (sqrt : ℚ → ℚ) (fh : FileHandling)
    (junk audio channel_data : Nat → ℚ) (first second : Nat)
    (hprep : prepareChannelData fh junk audio = some channel_data)
    (hsus : GetSustainStartAndEnd fh channel_data = some (first, second))
    (h3 : first + 3 ≤ second) (hsn : second < fh.numberOfSamples)
    (hn : fh.numberOfSamples < 2147483648) (hsr1 : 1 ≤ fh.m_samplerate)
    (hsr : fh.m_samplerate < 2147483648)
    (hz : ∀ i, i < fh.numberOfSamples → channel_data i = 0) :
    DetectPitchInTimeDomain sqrt fh junk audio = some none := by
  have hR : usub second first = second - first := usub_eq (by omega) (by unfold U32; omega)
  have hclamp : 2 ≤ clampSpan first second fh.m_samplerate ∧
      clampSpan first second fh.m_samplerate ≤ fh.numberOfSamples := by
    unfold clampSpan
    rw [hR, umul_eq (by unfold U32; omega)]
    split
    · rw [uadd_eq (by unfold U32; omega)]
      omega
    · omega
  obtain ⟨st, hst, hempty⟩ := crossingLoop_zero sqrt fh.m_samplerate channel_data
    fh.numberOfSamples first (clampSpan first second fh.m_samplerate)
    (by unfold U32; omega) hclamp.1 hclamp.2 hz
  unfold DetectPitchInTimeDomain
  rw [hprep, Option.some_bind, hsus, Option.some_bind]
  show (if first = 0 ∧ second = 0 then some none
    else if usub second first < 2 then some none
    else (crossingLoop sqrt fh.m_samplerate channel_data first
      (clampSpan first second fh.m_samplerate)).bind fun st => some (averagePeriods st.2.2)) = _
  rw [if_neg (by omega), hR, if_neg (by omega), hst, Option.some_bind, hempty]
  rfl

/-- C2 (amended). On a buffer of zeros with `m_samplerate / 20 + 2 * (m_samplerate / 4) + 4`
mono samples or more, `GetSustainStartAndEnd` does not return `(0, 0)`: both envelope scans
stop at their first window and the result is the valid range
`(m_samplerate / 20 + m_samplerate / 4, numberOfSamples - 1 - m_samplerate / 4)`.
`DetectPitchByFFT` therefore analyses windows and returns `true`; only the time domain
method fails: `DetectPitchInTimeDomain` returns `false` and `GetTDPitch` returns 0. -/
theorem silent_buffer_analysis (sqrt : ℚ → ℚ) (analyze : List ℚ → Nat → F64 × F64)
    (fh : FileHandling) (junk data : Nat → ℚ)
    (hc : 1 ≤ fh.m_channels) (hdiv : fh.m_channels ∣ fh.ArrayLength)
    (hfit : fh.ArrayLength + fh.m_channels < U32)
    (hn : fh.numberOfSamples < 2147483648) (hsr1 : 1 ≤ fh.m_samplerate)
    (hsr : fh.m_samplerate < 2147483648)
    (hlen : fh.m_samplerate / 20 + 2 * (fh.m_samplerate / 4) + 4 ≤ fh.numberOfSamples)
    (hz : ∀ i, i < fh.ArrayLength → data i = 0) :
    (∀ ch_data : Nat → ℚ, (∀ i, i < fh.numberOfSamples → ch_data i = 0) →
      GetSustainStartAndEnd fh ch_data =
        some (fh.m_samplerate / 20 + fh.m_samplerate / 4,
          fh.numberOfSamples - 1 - fh.m_samplerate / 4)) ∧
    fh.m_samplerate / 20 + fh.m_samplerate / 4 <
      fh.numberOfSamples - 1 - fh.m_samplerate / 4 ∧
    (∃ p, DetectPitchByFFT analyze fh junk data = some (some p)) ∧
    DetectPitchInTimeDomain sqrt fh junk data = some none ∧
    GetTDPitch sqrt fh junk data = some 0 := by
  obtain ⟨channel_data, hprep, hzero⟩ := prepareChannelData_zero fh junk data hc hdiv hfit hz
  have hsus := GetSustainStartAndEnd_zero fh channel_data hn hsr (by omega) hzero
  have htd := DetectPitchInTimeDomain_zero sqrt fh junk data channel_data _ _ hprep hsus
    (by omega) (by omega) hn hsr1 hsr hzero
  refine ⟨?_, by omega, ?_, htd, ?_⟩
  · intro ch_data hch
    exact GetSustainStartAndEnd_zero fh ch_data hn hsr (by omega) hch
  · exact DetectPitchByFFT_success analyze fh junk data channel_data _ _ hprep hsus
      (by omega) (by omega)
  · unfold GetTDPitch
    rw [htd, Option.some_bind]
    rfl

/-- Witness for `silent_buffer_analysis`: 40 zero samples at rate 20. -/
theorem silent_buffer_analysis_witness :
    GetSustainStartAndEnd ⟨40, 1, 20⟩ (fun _ => 0) = some (6, 34) ∧
    (∃ p, DetectPitchByFFT (fun _ _ => (F64.nan, F64.nan)) ⟨40, 1, 20⟩ (fun _ => 0) (fun _ => 0) =
      some (some p)) ∧
    DetectPitchInTimeDomain (fun x => x) ⟨40, 1, 20⟩ (fun _ => 0) (fun _ => 0) = some none ∧
    GetTDPitch (fun x => x) ⟨40, 1, 20⟩ (fun _ => 0) (fun _ => 0) = some 0 :=
  have h := silent_buffer_analysis (fun x => x) (fun _ _ => (F64.nan, F64.nan)) ⟨40, 1, 20⟩ (fun _ => 0)
    (fun _ => 0) (by decide) (by decide) (by unfold U32; decide) (by decide) (by decide)
    (by decide) (by decide) (fun _ _ => rfl)
  ⟨h.1 (fun _ => 0) (fun _ _ => rfl), h.2.2.1, h.2.2.2.1, h.2.2.2.2⟩

/-- Counterexample to C2 as stated: for 2 seconds of zeros at 44100 Hz, mono,
`GetSustainStartAndEnd` returns the range `(13230, 77174)` and not `(0, 0)`, and
`DetectPitchByFFT` returns `true`. -/
theorem silent_two_seconds_not_failure :
    GetSustainStartAndEnd ⟨88200, 1, 44100⟩ (fun _ => 0) = some (13230, 77174) ∧
    ∃ p, DetectPitchByFFT (fun _ _ => (F64.nan, F64.nan)) ⟨88200, 1, 44100⟩ (fun _ => 0) (fun _ => 0) =
      some (some p) :=
  have hsus : ∀ ch_data : Nat → ℚ,
      (∀ i, i < (FileHandling.mk 88200 1 44100).numberOfSamples → ch_data i = 0) →
      GetSustainStartAndEnd ⟨88200, 1, 44100⟩ ch_data = some (13230, 77174) :=
    fun ch_data hch => GetSustainStartAndEnd_zero ⟨88200, 1, 44100⟩ ch_data
      (by decide) (by decide) (by decide) hch
  match prepareChannelData_zero ⟨88200, 1, 44100⟩ (fun _ => 0) (fun _ => 0)
      (by decide) (by decide) (by unfold U32; decide) (fun _ _ => rfl) with
  | ⟨channel_data, hprep, hzero⟩ =>
    ⟨hsus (fun _ => 0) (fun _ _ => rfl),
      DetectPitchByFFT_success (fun _ _ => (F64.nan, F64.nan)) ⟨88200, 1, 44100⟩ (fun _ => 0)
        (fun _ => 0) channel_data 13230 77174 hprep (hsus channel_data hzero)
        (by decide) (by decide)⟩

/-! ## AutoFindLoops: the candidates -/

/-- The flat candidates are collected in strictly increasing order, one frame apart or
more. -/
theorem collectCandidates_spec (data : Nat → ℚ) (a b ch sc : Nat) (thr : ℚ) (hch : 1 ≤ ch)
    (hsc : sc < ch) (ha : a + ch ≤ U32) (hb : ch ≤ b) (hb2 : b < U32) (every : List Nat)
    (h : collectCandidates data a b ch sc thr = some every) :
    every.Pairwise (fun x y => x < y) ∧ ∀ c, c ∈ every → IsCandidate a sc ch c ∧ c < b := by
  unfold collectCandidates at h
  rw [usub_eq hb hb2, uadd_eq (by omega)] at h
  refine forLoop_inv
    (fun i (ev : List Nat) => IsCandidate a sc ch i ∧ ev.Pairwise (fun x y => x < y) ∧
      ∀ c, c ∈ ev → c < i ∧ IsCandidate a sc ch c ∧ c < b)
    (fun ev => ev.Pairwise (fun x y => x < y) ∧ ∀ c, c ∈ ev → IsCandidate a sc ch c ∧ c < b)
    ?_ ?_ ?_ U32 (a + sc) [] every ⟨⟨0, by omega⟩, List.Pairwise.nil, ?_⟩ h
  · intro i ev ev' ⟨⟨t, ht⟩, hpair, hmem⟩ hc hb'
    have hi : i < b - ch := by simpa using hc
    have hnext : uadd i ch = i + ch := uadd_eq (by omega)
    refine ⟨⟨t + 1, ?_⟩, ?_⟩
    · show uadd i ch = a + sc + (t + 1) * ch
      rw [hnext, ht, Nat.add_mul]; omega
    · split at hb'
      · simp only [Option.some.injEq, Step.next.injEq] at hb'
        subst hb'
        refine ⟨?_, ?_⟩
        · rw [List.pairwise_append]
          refine ⟨hpair, List.pairwise_singleton _ _, ?_⟩
          intro x hx y hy
          simp only [List.mem_singleton] at hy
          subst hy
          exact (hmem x hx).1
        · intro c hc'
          show c < uadd i ch ∧ _
          rw [hnext]
          simp only [List.mem_append, List.mem_singleton] at hc'
          rcases hc' with hc' | rfl
          · exact ⟨by have := (hmem c hc').1; omega, (hmem c hc').2⟩
          · exact ⟨by omega, ⟨t, ht⟩, by omega⟩
      · simp only [Option.some.injEq, Step.next.injEq] at hb'
        subst hb'
        refine ⟨hpair, ?_⟩
        intro c hc'
        show c < uadd i ch ∧ _
        rw [hnext]
        exact ⟨by have := (hmem c hc').1; omega, (hmem c hc').2⟩
  · intro i ev ev' _ _ hb'
    split at hb' <;> simp at hb'
  · intro i ev ⟨_, hpair, hmem⟩ _
    exact ⟨hpair, fun c hc' => (hmem c hc').2⟩
  · intro c hc'
    simp at hc'

theorem toSizeT_eq {x : Int} (h0 : 0 ≤ x) (h1 : x < 2147483648) : (toSizeT x : Int) = x := by
  unfold toSizeT
  rw [Int.emod_eq_of_lt h0 (by omega), Int.toNat_of_nonneg h0]

/-- A strictly increasing list of numbers below `b` has at most `b` entries. -/
theorem length_le_of_increasing (l : List Nat) (b : Nat) (hp : l.Pairwise (fun x y => x < y))
    (hb : ∀ c, c ∈ l → c < b) : l.length ≤ b := by
  have hnd : l.Nodup := hp.imp (fun h => Nat.ne_of_lt h)
  rw [← List.toFinset_card_of_nodup hnd, ← Finset.card_range b]
  apply Finset.card_le_card
  intro c hc
  rw [List.mem_toFinset] at hc
  exact Finset.mem_range.mpr (hb c hc)

/-- The indices `indexToUse` do not fall, and an index below `2 ^ 32` is followed by a
larger one, when there are more candidates than `m_maxCandidates`. -/
theorem indexToUse_step (S : Nat) (C : Int) (hC : 0 < C) (hSC : C < (S : Int)) (i : Nat) :
    0 ≤ indexToUse S C i ∧ indexToUse S C i ≤ indexToUse S C (i + 1) ∧
      (indexToUse S C i < 4294967296 → indexToUse S C i + 1 ≤ indexToUse S C (i + 1)) := by
  have hCq : (0 : ℚ) < (C : ℚ) := by exact_mod_cast hC
  have hinc : (1 : ℚ) ≤ (S : ℚ) / (C : ℚ) := by
    rw [le_div_iff₀ hCq, one_mul]
    have : (C : ℚ) < ((S : Int) : ℚ) := by exact_mod_cast hSC
    exact le_of_lt (by simpa using this)
  have hr1 : (1 : ℚ) ≤ rnd ((S : ℚ) / (C : ℚ)) := by
    have := rnd_mono hinc
    rw [show (1 : ℚ) = ((1 : Nat) : ℚ) by norm_num, rnd_natCast 1 (by norm_num)] at this
    simpa using this
  have hx0 : (0 : ℚ) ≤ (i : ℚ) * rnd ((S : ℚ) / (C : ℚ)) :=
    mul_nonneg (by positivity) (by linarith)
  have hnext : (i : ℚ) * rnd ((S : ℚ) / (C : ℚ)) + 1 ≤
      ((i + 1 : Nat) : ℚ) * rnd ((S : ℚ) / (C : ℚ)) := by
    push_cast
    linarith
  unfold indexToUse
  refine ⟨Int.floor_nonneg.mpr (rnd_nonneg hx0), floor_rnd_mono (by linarith), ?_⟩
  intro hlt
  have hlt' : rnd ((i : ℚ) * rnd ((S : ℚ) / (C : ℚ))) < 4294967296 := by
    have := Int.floor_lt.mp hlt
    push_cast at this
    exact this
  have hx : (i : ℚ) * rnd ((S : ℚ) / (C : ℚ)) < 4294967296 := by
    by_contra hge
    have := rnd_mono (not_lt.mp hge)
    rw [show (4294967296 : ℚ) = ((4294967296 : Nat) : ℚ) by norm_num,
      rnd_natCast 4294967296 (by norm_num)] at this
    push_cast at this
    linarith
  exact le_trans (floor_rnd_succ _ hx0 (by linarith)) (floor_rnd_mono hnext)

/-- The reduced candidate vector is a strictly increasing selection of the flat
candidates. -/
theorem reduceCandidates_spec (m_maxCandidates : Int) (hmax : m_maxCandidates < 2147483648)
    (every : List Nat) (hpair : every.Pairwise (fun x y => x < y))
    (hlen32 : every.length < U32) (cands : List Nat)
    (h : reduceCandidates m_maxCandidates every = some cands) :
    cands.Pairwise (fun x y => x < y) ∧ ∀ c, c ∈ cands → c ∈ every := by
  unfold reduceCandidates at h
  by_cases hbig : every.length > toSizeT m_maxCandidates
  · rw [if_pos hbig] at h
    refine forLoop_inv
      (fun i (lc : List Nat) => lc.Pairwise (fun x y => x < y) ∧
        ∀ c, c ∈ lc → ∃ k, k < every.length ∧
          (k : Int) < indexToUse every.length m_maxCandidates i ∧
          c = every.getD k 0)
      (fun lc => lc.Pairwise (fun x y => x < y) ∧ ∀ c, c ∈ lc → c ∈ every)
      ?_ ?_ ?_ U32 0 [] cands ⟨List.Pairwise.nil, ?_⟩ h
    · intro i lc lc' ⟨hlc, hmem⟩ hc hb'
      have hi : (i : Int) < m_maxCandidates := by simpa using hc
      have hpos : (0 : Int) ≤ m_maxCandidates := by omega
      have hsz : (toSizeT m_maxCandidates : Int) = m_maxCandidates := toSizeT_eq hpos hmax
      have hlen : m_maxCandidates < (every.length : Int) := by
        rw [← hsz]; exact_mod_cast hbig
      obtain ⟨hnonneg, hmono, hstep⟩ := indexToUse_step every.length m_maxCandidates
        (by omega) hlen i
      have hU : (every.length : Int) < 4294967296 := by
        unfold U32 at hlen32
        exact_mod_cast hlen32
      split at hb'
      · rename_i hidx
        simp only [Option.some.injEq, Step.next.injEq] at hb'
        subst hb'
        have hstep' := hstep (by omega)
        have hk : (indexToUse every.length m_maxCandidates i).toNat < every.length := by
          omega
        refine ⟨?_, ?_⟩
        · rw [List.pairwise_append]
          refine ⟨hlc, List.pairwise_singleton _ _, ?_⟩
          intro x hx y hy
          simp only [List.mem_singleton] at hy
          subst hy
          obtain ⟨k, hk1, hk2, rfl⟩ := hmem x hx
          rw [List.getD_eq_getElem _ _ hk1, List.getD_eq_getElem _ _ hk]
          exact (List.pairwise_iff_getElem.mp hpair) _ _ hk1 hk (by omega)
        · intro c hc'
          simp only [List.mem_append, List.mem_singleton] at hc'
          rcases hc' with hc' | rfl
          · obtain ⟨k, hk1, hk2, hk3⟩ := hmem c hc'
            exact ⟨k, hk1, by omega, hk3⟩
          · exact ⟨_, hk, by omega, rfl⟩
      · simp only [Option.some.injEq, Step.next.injEq] at hb'
        subst hb'
        refine ⟨hlc, ?_⟩
        intro c hc'
        obtain ⟨k, hk1, hk2, hk3⟩ := hmem c hc'
        exact ⟨k, hk1, by omega, hk3⟩
    · intro i lc lc' _ _ hb'
      split at hb' <;> simp at hb'
    · intro i lc ⟨hlc, hmem⟩ _
      refine ⟨hlc, ?_⟩
      intro c hc'
      obtain ⟨k, hk1, _, rfl⟩ := hmem c hc'
      rw [List.getD_eq_getElem _ _ hk1]
      exact List.getElem_mem hk1
    · intro c hc'
      simp at hc'
  · rw [if_neg hbig] at h
    simp only [Option.some.injEq] at h
    subst h
    exact ⟨hpair, fun c hc => hc⟩

/-- The vector `loopCandidates`: strictly increasing candidate indices. -/
theorem loopCandidatesOf_spec (cfg : AutoLooping) (data : Nat → ℚ) (a b ch sc : Nat)
    (hmax : cfg.m_maxCandidates < 2147483648) (hch : 1 ≤ ch)
    (hsc : sc < ch) (ha : a + ch ≤ U32) (hb : ch ≤ b) (hb2 : b < U32) (cands : List Nat)
    (h : loopCandidatesOf cfg data ch sc a b = some cands) :
    cands.Pairwise (fun x y => x < y) ∧ ∀ c, c ∈ cands → IsCandidate a sc ch c ∧ c < b := by
  unfold loopCandidatesOf at h
  rw [Option.bind_eq_some] at h
  obtain ⟨maxDerivative, _, h⟩ := h
  rw [Option.bind_eq_some] at h
  obtain ⟨every, hevery, h⟩ := h
  obtain ⟨h1, h2⟩ := collectCandidates_spec data a b ch sc _ hch hsc ha hb hb2 every hevery
  have hlen : every.length < U32 :=
    lt_of_le_of_lt (length_le_of_increasing every b h1 (fun c hc => (h2 c hc).2)) hb2
  obtain ⟨h3, h4⟩ := reduceCandidates_spec cfg.m_maxCandidates hmax every h1 hlen cands h
  exact ⟨h3, fun c hc => h2 c (h4 c hc)⟩

/-! ## AutoFindLoops: pairing the candidates -/

/-- The loop recorded for a start candidate `a + t1 * ch` and a later end candidate
`a + t2 * ch` that passed the duration test. -/
theorem duration_of_accept (cfg : AutoLooping) (a ch sr t1 t2 : Nat) (q : ℚ) (hch : 1 ≤ ch)
    (hsr : 1 ≤ sr) (ht : t1 < t2) (hfit : a + t2 * ch < U32)
    (hacc : ¬ (((usub (a + t2 * ch) (a + t1 * ch) : Nat) : ℚ) <
      rnd (rnd ((sr : ℚ) * cfg.m_minLoopDuration) * (ch : ℚ)))) :
    MeetsDuration cfg sr ch (((a + t1 * ch) / ch, usub ((a + t2 * ch) / ch) 1), q) := by
  have hchpos : 0 < ch := hch
  have h12 : t1 * ch ≤ t2 * ch := Nat.mul_le_mul_right _ (le_of_lt ht)
  have hS : (a + t1 * ch) / ch = a / ch + t1 := Nat.add_mul_div_right _ _ hchpos
  have hE : (a + t2 * ch) / ch = a / ch + t2 := Nat.add_mul_div_right _ _ hchpos
  have hEle : a / ch + t2 ≤ a + t2 * ch := by
    rw [← hE]; exact Nat.div_le_self _ _
  have hsub : usub (a + t2 * ch) (a + t1 * ch) = (t2 - t1) * ch := by
    rw [usub_eq (by omega) hfit, Nat.sub_mul]
    omega
  rw [hsub] at hacc
  rw [hS, hE]
  generalize a / ch = q at hEle ⊢
  have hu : usub (q + t2) 1 = q + t2 - 1 := usub_eq (by omega) (by omega)
  rw [hu]
  unfold MeetsDuration
  have hcast : (((q + t2 - 1 : Nat) : ℚ) + 1 - ((q + t1 : Nat) : ℚ)) =
      ((t2 - t1 : Nat) : ℚ) := by
    rw [Nat.cast_sub (by omega), Nat.cast_sub (le_of_lt ht)]
    push_cast
    ring
  have h1 : rnd (rnd ((sr : ℚ) * cfg.m_minLoopDuration) * (ch : ℚ)) ≤
      ((t2 - t1 : Nat) : ℚ) * (ch : ℚ) := by
    have := not_lt.mp hacc
    rw [Nat.cast_mul] at this
    exact this
  refine ⟨by show q + t1 < q + t2 - 1 + 1; omega, ?_, ?_⟩
  · show rnd (rnd ((sr : ℚ) * cfg.m_minLoopDuration) * (ch : ℚ)) ≤
      (((q + t2 - 1 : Nat) : ℚ) + 1 - ((q + t1 : Nat) : ℚ)) * (ch : ℚ)
    rw [hcast]
    exact h1
  · show cfg.m_minLoopDuration * (1 - (2 : ℚ) ^ (-52 : Int)) ≤
      (((q + t2 - 1 : Nat) : ℚ) + 1 - ((q + t1 : Nat) : ℚ)) / (sr : ℚ)
    rw [hcast]
    exact duration_bound cfg.m_minLoopDuration sr ch (t2 - t1) hsr hch (by omega) h1

theorem candidate_pair (a b ch sc : Nat) (cands : List Nat) (hok : CandidatesOk a b ch sc cands)
    (hb2 : b < U32) (i j : Nat) (hij : i < j) (hj : j < cands.length) :
    ∃ t1 t2, t1 < t2 ∧ usub (cands.getD i 0) sc = a + t1 * ch ∧
      usub (cands.getD j 0) sc = a + t2 * ch ∧ a + t2 * ch < U32 := by
  obtain ⟨hpair, hmem⟩ := hok
  have hi : i < cands.length := by omega
  rw [List.getD_eq_getElem _ _ hi, List.getD_eq_getElem _ _ hj]
  have hlt : cands[i] < cands[j] := (List.pairwise_iff_getElem.mp hpair) i j hi hj hij
  obtain ⟨⟨t1, h1⟩, hb1⟩ := hmem _ (List.getElem_mem hi)
  obtain ⟨⟨t2, h2⟩, hb2'⟩ := hmem _ (List.getElem_mem hj)
  refine ⟨t1, t2, ?_, ?_, ?_, by omega⟩
  · by_contra hcon
    have : t2 * ch ≤ t1 * ch := Nat.mul_le_mul_right _ (not_lt.mp hcon)
    omega
  · rw [usub_eq (by omega) (by omega)]; omega
  · rw [usub_eq (by omega) (by omega)]; omega

/-- Whatever the loop over the end candidates pushes meets the minimum duration. -/
theorem findLoopEnd_spec (cfg : AutoLooping) (sqrt : ℚ → ℚ) (corr : ℚ) (data : Nat → ℚ)
    (a b ch sr sc : Nat) (cands : List Nat) (hok : CandidatesOk a b ch sc cands)
    (hch : 1 ≤ ch) (hsr : 1 ≤ sr) (hb2 : b < U32) (i : Nat) (pushed : Option LoopCandidate)
    (h : findLoopEnd cfg sqrt corr data ch sr sc cands i (usub (cands.getD i 0) sc) =
      some pushed) :
    ∀ l, pushed = some l → MeetsDuration cfg sr ch l := by
  unfold findLoopEnd at h
  refine forLoop_inv (fun j (p : Option LoopCandidate) => i < j ∧ p = none)
    (fun p => ∀ l, p = some l → MeetsDuration cfg sr ch l) ?_ ?_ ?_ U32 (i + 1) none pushed
    ⟨Nat.lt_succ_self i, rfl⟩ h
  · intro j p p' ⟨hij, hp⟩ hc hb'
    refine ⟨Nat.lt_succ_of_lt hij, ?_⟩
    split at hb'
    · simp only [Option.some.injEq, Step.next.injEq] at hb'
      rw [← hb']; exact hp
    · rw [Option.bind_eq_some] at hb'
      obtain ⟨st, _, hb'⟩ := hb'
      split at hb'
      · simp at hb'
      · simp only [Option.some.injEq, Step.next.injEq] at hb'
        rw [← hb']; exact hp
  · intro j p p' ⟨hij, hp⟩ hc hb'
    have hj : j < cands.length := by simpa using hc
    split at hb'
    · simp at hb'
    · rename_i hacc
      rw [Option.bind_eq_some] at hb'
      obtain ⟨st, _, hb'⟩ := hb'
      split at hb'
      · simp only [Option.some.injEq, Step.brk.injEq] at hb'
        subst hb'
        intro l hl
        simp only [Option.some.injEq] at hl
        subst hl
        obtain ⟨t1, t2, ht, h1, h2, hfit⟩ := candidate_pair a b ch sc cands hok hb2 i j hij hj
        rw [h1, h2] at hacc ⊢
        exact duration_of_accept cfg a ch sr t1 t2 st.2 hch hsr ht hfit hacc
      · simp at hb'
  · intro j p ⟨_, hp⟩ _ l hl
    rw [hp] at hl
    simp at hl

/-- Every loop in `foundLoops` meets the minimum duration. -/
theorem pairCandidates_spec (cfg : AutoLooping) (sqrt : ℚ → ℚ) (corr : ℚ) (data : Nat → ℚ)
    (a b ch sr sc : Nat) (cands : List Nat) (hok : CandidatesOk a b ch sc cands)
    (hch : 1 ≤ ch) (hsr : 1 ≤ sr) (hb2 : b < U32) (foundLoops : List LoopCandidate)
    (h : pairCandidates cfg sqrt corr data ch sr sc cands = some foundLoops) :
    ∀ l, l ∈ foundLoops → MeetsDuration cfg sr ch l := by
  unfold pairCandidates at h
  refine forLoop_inv (fun _ (fl : List LoopCandidate) => ∀ l, l ∈ fl → MeetsDuration cfg sr ch l)
    (fun fl => ∀ l, l ∈ fl → MeetsDuration cfg sr ch l) ?_ ?_ ?_ U32 0 [] foundLoops ?_ h
  · intro i fl fl' hfl hc hb'
    split at hb'
    · simp only [Option.some.injEq, Step.next.injEq] at hb'
      rw [← hb']; exact hfl
    · rw [Option.bind_eq_some] at hb'
      obtain ⟨pushed, hpushed, hb'⟩ := hb'
      have hgood := findLoopEnd_spec cfg sqrt corr data a b ch sr sc cands hok hch hsr hb2 i
        pushed hpushed
      split at hb'
      · simp at hb'
      · simp only [Option.some.injEq, Step.next.injEq] at hb'
        subst hb'
        intro l hl
        simp only [List.mem_append, Option.mem_toList, Option.mem_def] at hl
        rcases hl with hl | hl
        · exact hfl l hl
        · exact hgood l hl
  · intro i fl fl' hfl hc hb'
    split at hb'
    · simp at hb'
    · rw [Option.bind_eq_some] at hb'
      obtain ⟨pushed, hpushed, hb'⟩ := hb'
      have hgood := findLoopEnd_spec cfg sqrt corr data a b ch sr sc cands hok hch hsr hb2 i
        pushed hpushed
      split at hb'
      · simp only [Option.some.injEq, Step.brk.injEq] at hb'
        subst hb'
        intro l hl
        simp only [List.mem_append, Option.mem_toList, Option.mem_def] at hl
        rcases hl with hl | hl
        · exact hfl l hl
        · exact hgood l hl
      · simp at hb'
  · intro i fl hfl _
    exact hfl
  · intro l hl
    simp at hl

/-! ## AutoFindLoops: the first matching end candidate -/

/-- The loop over `k` leaves the RMS distance of the two windows in `correlationValue`. -/
theorem crossCorrelate_eq (sqrt : ℚ → ℚ) (data : Nat → ℚ) (cs ce ch : Nat) (corr : ℚ)
    (hch : 1 ≤ ch) (hcs : cs + 5 * ch < U32) (hce : ce + 5 * ch < U32) :
    ∃ st, crossCorrelate sqrt data cs ce ch corr = some st ∧
      st.2 = rmsDistance sqrt data cs ce ch := by
  unfold crossCorrelate
  refine forLoop_count (5 * ch) _
    (fun k (st : ℚ × ℚ) => k ≤ 5 * ch ∧
      st.1 = ((List.range k).map fun k => (data (cs + k) - data (ce + k)) ^ 2).sum ∧
      (0 < k → st.2 = sqrt (st.1 / (5 * (ch : ℚ)))))
    (fun st => st.2 = rmsDistance sqrt data cs ce ch) ?_ ?_ (by omega) 0 (0, corr)
    ⟨Nat.zero_le _, by simp, fun h => absurd h (lt_irrefl 0)⟩
  · intro k st ⟨hk, hsum, _⟩ hlt
    left
    have h1 : uadd cs k = cs + k := uadd_eq (by omega)
    have h2 : uadd ce k = ce + k := uadd_eq (by omega)
    refine ⟨_, rfl, by omega, ?_, fun _ => rfl⟩
    show st.1 + (data (uadd cs k) - data (uadd ce k)) ^ 2 = _
    rw [h1, h2, List.range_succ, List.map_append, List.sum_append, ← hsum]
    simp
  · intro k st ⟨hk, hsum, hval⟩ hge
    have hk5 : k = 5 * ch := by omega
    rw [hval (by omega), hsum, hk5]
    rfl

/-- The duration test of the code, read in frames. -/
theorem farEnough_iff (cfg : AutoLooping) (a b ch sr sc : Nat) (cands : List Nat)
    (hok : CandidatesOk a b ch sc cands) (hch : 1 ≤ ch) (hb2 : b < U32)
    (i j : Nat) (hij : i < j) (hj : j < cands.length) :
    (¬ (((usub (usub (cands.getD j 0) sc) (usub (cands.getD i 0) sc) : Nat) : ℚ) <
      rnd (rnd ((sr : ℚ) * cfg.m_minLoopDuration) * (ch : ℚ)))) ↔
      FarEnough cfg ch sr sc cands i j := by
  obtain ⟨t1, t2, ht, h1, h2, hfit⟩ := candidate_pair a b ch sc cands hok hb2 i j hij hj
  have hi : i < cands.length := by omega
  have hci : cands.getD i 0 - sc = a + t1 * ch := by
    rw [← h1, usub_eq]
    · obtain ⟨⟨t, ht'⟩, _⟩ := hok.2 _ (List.getElem_mem hi)
      rw [List.getD_eq_getElem _ _ hi]; omega
    · have := (hok.2 _ (List.getElem_mem hi)).2
      rw [List.getD_eq_getElem _ _ hi]; omega
  have hcj : cands.getD j 0 - sc = a + t2 * ch := by
    rw [← h2, usub_eq]
    · obtain ⟨⟨t, ht'⟩, _⟩ := hok.2 _ (List.getElem_mem hj)
      rw [List.getD_eq_getElem _ _ hj]; omega
    · have := (hok.2 _ (List.getElem_mem hj)).2
      rw [List.getD_eq_getElem _ _ hj]; omega
  have hchpos : 0 < ch := hch
  have h12 : t1 * ch ≤ t2 * ch := Nat.mul_le_mul_right _ (le_of_lt ht)
  have hsub : usub (a + t2 * ch) (a + t1 * ch) = (t2 - t1) * ch := by
    rw [usub_eq (by omega) hfit, Nat.sub_mul]
    omega
  unfold FarEnough
  rw [h1, h2, hsub, hci, hcj, Nat.add_mul_div_right _ _ hchpos,
    Nat.add_mul_div_right _ _ hchpos]
  have hcast : (((a / ch + t2 : Nat) : ℚ) - ((a / ch + t1 : Nat) : ℚ)) =
      ((t2 - t1 : Nat) : ℚ) := by
    rw [Nat.cast_sub (le_of_lt ht)]
    push_cast
    ring
  rw [hcast, not_lt, Nat.cast_mul]

/-- An end candidate that is far enough lies `m_minLoopDuration` seconds after the start
candidate, but for the fraction `2 ^ -52` that the roundings of the threshold can take. -/
theorem farEnough_seconds (cfg : AutoLooping) (a b ch sr sc : Nat) (cands : List Nat)
    (hok : CandidatesOk a b ch sc cands) (hch : 1 ≤ ch) (hsr : 1 ≤ sr) (hb2 : b < U32)
    (i j : Nat) (hij : i < j) (hj : j < cands.length)
    (hfar : FarEnough cfg ch sr sc cands i j) :
    cfg.m_minLoopDuration * (1 - (2 : ℚ) ^ (-52 : Int)) ≤
      ((((cands.getD j 0 - sc) / ch : Nat) : ℚ) - (((cands.getD i 0 - sc) / ch : Nat) : ℚ)) /
        (sr : ℚ) := by
  obtain ⟨t1, t2, ht, h1, h2, hfit⟩ := candidate_pair a b ch sc cands hok hb2 i j hij hj
  have hi : i < cands.length := by omega
  have hci : cands.getD i 0 - sc = a + t1 * ch := by
    rw [← h1, usub_eq]
    · obtain ⟨⟨t, ht'⟩, _⟩ := hok.2 _ (List.getElem_mem hi)
      rw [List.getD_eq_getElem _ _ hi]; omega
    · have := (hok.2 _ (List.getElem_mem hi)).2
      rw [List.getD_eq_getElem _ _ hi]; omega
  have hcj : cands.getD j 0 - sc = a + t2 * ch := by
    rw [← h2, usub_eq]
    · obtain ⟨⟨t, ht'⟩, _⟩ := hok.2 _ (List.getElem_mem hj)
      rw [List.getD_eq_getElem _ _ hj]; omega
    · have := (hok.2 _ (List.getElem_mem hj)).2
      rw [List.getD_eq_getElem _ _ hj]; omega
  have hchpos : 0 < ch := hch
  unfold FarEnough at hfar
  rw [hci, hcj, Nat.add_mul_div_right _ _ hchpos, Nat.add_mul_div_right _ _ hchpos] at hfar ⊢
  have hcast : (((a / ch + t2 : Nat) : ℚ) - ((a / ch + t1 : Nat) : ℚ)) =
      ((t2 - t1 : Nat) : ℚ) := by
    rw [Nat.cast_sub (le_of_lt ht)]
    push_cast
    ring
  rw [hcast] at hfar ⊢
  exact duration_bound cfg.m_minLoopDuration sr ch (t2 - t1) hsr hch (by omega) hfar

/-- The index arithmetic on a candidate does not wrap when the search range starts two
frames or more into the buffer and ends three frames or more below `2^32`. -/
theorem candidate_index (a b ch sc : Nat) (cands : List Nat)
    (hok : CandidatesOk a b ch sc cands) (h2a : 2 * ch ≤ a) (hb3 : b + 3 * ch < U32)
    (k : Nat) (hk : k < cands.length) :
    usub (cands.getD k 0) sc = cands.getD k 0 - sc ∧
    usub (cands.getD k 0 - sc) (umul 2 ch) = cands.getD k 0 - sc - 2 * ch ∧
    cands.getD k 0 - sc - 2 * ch + 5 * ch < U32 ∧ 2 * ch ≤ cands.getD k 0 - sc ∧
    cands.getD k 0 - sc < U32 := by
  obtain ⟨⟨t, ht⟩, hlt⟩ := hok.2 _ (List.getElem_mem hk)
  rw [List.getD_eq_getElem _ _ hk]
  have h2 : umul 2 ch = 2 * ch := umul_eq (by omega)
  have hge : 2 * ch ≤ cands[k] - sc := by
    rw [ht]
    have : 0 ≤ t * ch := Nat.zero_le _
    omega
  refine ⟨usub_eq (by omega) (by omega), ?_, by omega, hge, by omega⟩
  rw [h2]
  exact usub_eq hge (by omega)

/-- What the loop over the end candidates pushes for the start candidate `i` is the loop
recorded for `i` and its first matching end candidate. -/
theorem findLoopEnd_first (cfg : AutoLooping) (sqrt : ℚ → ℚ) (corr : ℚ) (data : Nat → ℚ)
    (a b ch sr sc : Nat) (cands : List Nat) (hok : CandidatesOk a b ch sc cands)
    (hch : 1 ≤ ch) (_hsr : 1 ≤ sr) (h2a : 2 * ch ≤ a) (hb3 : b + 3 * ch < U32) (i : Nat)
    (hi : i < cands.length) (pushed : Option LoopCandidate)
    (h : findLoopEnd cfg sqrt corr data ch sr sc cands i (usub (cands.getD i 0) sc) =
      some pushed) :
    ∀ l, pushed = some l → ∃ j, RecordedFor cfg sqrt data ch sr sc cands l i j := by
  have hb2 : b < U32 := by omega
  obtain ⟨hsi, hwi, hfi, hgi, hui⟩ := candidate_index a b ch sc cands hok h2a hb3 i hi
  unfold findLoopEnd at h
  rw [hsi, hwi] at h
  refine forLoop_inv
    (fun j (p : Option LoopCandidate) => i < j ∧ p = none ∧
      ∀ j', i < j' → j' < j → ¬ Matches cfg sqrt data ch sr sc cands i j')
    (fun p => ∀ l, p = some l → ∃ j, RecordedFor cfg sqrt data ch sr sc cands l i j)
    ?_ ?_ ?_ U32 (i + 1) none pushed
    ⟨Nat.lt_succ_self i, rfl, fun j' h1 h2 => by omega⟩ h
  · intro j p p' ⟨hij, hp, hfirst⟩ hc hb'
    have hj : j < cands.length := by simpa using hc
    obtain ⟨hsj, hwj, hfj, hgj, huj⟩ := candidate_index a b ch sc cands hok h2a hb3 j hj
    have hfar := farEnough_iff cfg a b ch sr sc cands hok hch hb2 i j hij hj
    rw [hsi, hsj] at hfar
    have hnot : ¬ Matches cfg sqrt data ch sr sc cands i j ∧ p' = none := by
      rw [hsj] at hb'
      by_cases hshort : ((usub (cands.getD j 0 - sc) (cands.getD i 0 - sc) : Nat) : ℚ) <
          rnd (rnd ((sr : ℚ) * cfg.m_minLoopDuration) * (ch : ℚ))
      · rw [if_pos hshort] at hb'
        simp only [Option.some.injEq, Step.next.injEq] at hb'
        refine ⟨fun hm => ?_, by rw [← hb']; exact hp⟩
        exact (hfar.mpr hm.1) hshort
      · rw [if_neg hshort, hwj, Option.bind_eq_some] at hb'
        obtain ⟨st, hst, hb'⟩ := hb'
        obtain ⟨st', hst', hval⟩ := crossCorrelate_eq sqrt data (cands.getD i 0 - sc - 2 * ch)
          (cands.getD j 0 - sc - 2 * ch) ch corr hch hfi hfj
        rw [hst] at hst'
        simp only [Option.some.injEq] at hst'
        subst hst'
        by_cases hq : st.2 < rnd (rnd (cfg.m_qualityFactor / 32767) * (ch : ℚ))
        · rw [if_pos hq] at hb'
          simp at hb'
        · rw [if_neg hq] at hb'
          simp only [Option.some.injEq, Step.next.injEq] at hb'
          refine ⟨fun hm => ?_, by rw [← hb']; exact hp⟩
          apply hq
          rw [hval]
          exact hm.2
    refine ⟨Nat.lt_succ_of_lt hij, hnot.2, ?_⟩
    intro j' h1 h2
    by_cases hjj : j' = j
    · rw [hjj]; exact hnot.1
    · exact hfirst j' h1 (by omega)
  · intro j p p' ⟨hij, hp, hfirst⟩ hc hb'
    have hj : j < cands.length := by simpa using hc
    obtain ⟨hsj, hwj, hfj, hgj, huj⟩ := candidate_index a b ch sc cands hok h2a hb3 j hj
    have hfar := farEnough_iff cfg a b ch sr sc cands hok hch hb2 i j hij hj
    rw [hsi, hsj] at hfar
    rw [hsj] at hb'
    by_cases hshort : ((usub (cands.getD j 0 - sc) (cands.getD i 0 - sc) : Nat) : ℚ) <
        rnd (rnd ((sr : ℚ) * cfg.m_minLoopDuration) * (ch : ℚ))
    · rw [if_pos hshort] at hb'
      simp at hb'
    · rw [if_neg hshort, hwj, Option.bind_eq_some] at hb'
      obtain ⟨st, hst, hb'⟩ := hb'
      obtain ⟨st', hst', hval⟩ := crossCorrelate_eq sqrt data (cands.getD i 0 - sc - 2 * ch)
        (cands.getD j 0 - sc - 2 * ch) ch corr hch hfi hfj
      rw [hst] at hst'
      simp only [Option.some.injEq] at hst'
      subst hst'
      by_cases hq : st.2 < rnd (rnd (cfg.m_qualityFactor / 32767) * (ch : ℚ))
      · rw [if_pos hq] at hb'
        simp only [Option.some.injEq, Step.brk.injEq] at hb'
        intro l hl
        rw [← hb'] at hl
        simp only [Option.some.injEq] at hl
        refine ⟨j, hij, hj, ⟨hfar.mp hshort, by rw [← hval]; exact hq⟩, hfirst, ?_⟩
        rw [← hl, hval]
        have hdiv : 1 ≤ (cands.getD j 0 - sc) / ch :=
          (Nat.le_div_iff_mul_le (by omega)).mpr (by omega)
        have hdlt : (cands.getD j 0 - sc) / ch < U32 :=
          lt_of_le_of_lt (Nat.div_le_self _ _) huj
        rw [usub_eq hdiv hdlt]
      · rw [if_neg hq] at hb'
        simp at hb'
  · intro j p ⟨_, hp, _⟩ _ l hl
    rw [hp] at hl
    simp at hl

/-- Every loop in `foundLoops` is the loop recorded for a start candidate and its first
matching end candidate. -/
theorem pairCandidates_first (cfg : AutoLooping) (sqrt : ℚ → ℚ) (corr : ℚ) (data : Nat → ℚ)
    (a b ch sr sc : Nat) (cands : List Nat) (hok : CandidatesOk a b ch sc cands)
    (hch : 1 ≤ ch) (hsr : 1 ≤ sr) (h2a : 2 * ch ≤ a) (hb3 : b + 3 * ch < U32)
    (foundLoops : List LoopCandidate)
    (h : pairCandidates cfg sqrt corr data ch sr sc cands = some foundLoops) :
    ∀ l, l ∈ foundLoops → ∃ i j, RecordedFor cfg sqrt data ch sr sc cands l i j := by
  unfold pairCandidates at h
  refine forLoop_inv
    (fun _ (fl : List LoopCandidate) =>
      ∀ l, l ∈ fl → ∃ i j, RecordedFor cfg sqrt data ch sr sc cands l i j)
    (fun fl => ∀ l, l ∈ fl → ∃ i j, RecordedFor cfg sqrt data ch sr sc cands l i j)
    ?_ ?_ ?_ U32 0 [] foundLoops ?_ h
  · intro i fl fl' hfl hc hb'
    have hi : i < cands.length := by
      have : i < cands.length - 1 := by simpa using hc
      omega
    split at hb'
    · simp only [Option.some.injEq, Step.next.injEq] at hb'
      rw [← hb']; exact hfl
    · rw [Option.bind_eq_some] at hb'
      obtain ⟨pushed, hpushed, hb'⟩ := hb'
      have hgood := findLoopEnd_first cfg sqrt corr data a b ch sr sc cands hok hch hsr h2a
        hb3 i hi pushed hpushed
      split at hb'
      · simp at hb'
      · simp only [Option.some.injEq, Step.next.injEq] at hb'
        subst hb'
        intro l hl
        simp only [List.mem_append, Option.mem_toList, Option.mem_def] at hl
        rcases hl with hl | hl
        · exact hfl l hl
        · exact ⟨i, hgood l hl⟩
  · intro i fl fl' hfl hc hb'
    have hi : i < cands.length := by
      have : i < cands.length - 1 := by simpa using hc
      omega
    split at hb'
    · simp at hb'
    · rw [Option.bind_eq_some] at hb'
      obtain ⟨pushed, hpushed, hb'⟩ := hb'
      have hgood := findLoopEnd_first cfg sqrt corr data a b ch sr sc cands hok hch hsr h2a
        hb3 i hi pushed hpushed
      split at hb'
      · simp only [Option.some.injEq, Step.brk.injEq] at hb'
        subst hb'
        intro l hl
        simp only [List.mem_append, Option.mem_toList, Option.mem_def] at hl
        rcases hl with hl | hl
        · exact hfl l hl
        · exact ⟨i, hgood l hl⟩
      · simp at hb'
  · intro i fl hfl _
    exact hfl
  · intro l hl
    simp at hl

/-- The RMS distance is not negative when `sqrt` is not. -/
theorem rmsDistance_nonneg (sqrt : ℚ → ℚ) (hsqrt : ∀ x, 0 ≤ x → 0 ≤ sqrt x) (data : Nat → ℚ)
    (cs ce ch : Nat) : 0 ≤ rmsDistance sqrt data cs ce ch := by
  unfold rmsDistance
  apply hsqrt
  apply div_nonneg
  · apply List.sum_nonneg
    intro x hx
    simp only [List.mem_map] at hx
    obtain ⟨k, _, rfl⟩ := hx
    exact sq_nonneg _
  · positivity

/-! ## AutoFindLoops: ranking and returning the loops -/

theorem findBest_spec (fl : List LoopCandidate) (i : Nat) (hi : i < fl.length) (best : Nat)
    (h : findBest fl i = some best) :
    i ≤ best ∧ best < fl.length ∧ ∀ k, i ≤ k → k < fl.length →
      (fl.getD best ((0, 0), 0)).2 ≤ (fl.getD k ((0, 0), 0)).2 := by
  unfold findBest at h
  refine forLoop_inv
    (fun j (bst : Nat) => i ≤ bst ∧ bst < j ∧ j ≤ fl.length ∧ ∀ k, i ≤ k → k < j →
      (fl.getD bst ((0, 0), 0)).2 ≤ (fl.getD k ((0, 0), 0)).2)
    (fun bst => i ≤ bst ∧ bst < fl.length ∧ ∀ k, i ≤ k → k < fl.length →
      (fl.getD bst ((0, 0), 0)).2 ≤ (fl.getD k ((0, 0), 0)).2)
    ?_ ?_ ?_ U32 (i + 1) i best ⟨le_refl _, Nat.lt_succ_self i, hi, ?_⟩ h
  · intro j bst bst' ⟨h1, h2, h3, h4⟩ hc hb'
    have hj : j < fl.length := by simpa using hc
    split at hb'
    · rename_i hlt
      simp only [Option.some.injEq, Step.next.injEq] at hb'
      subst hb'
      refine ⟨by omega, Nat.lt_succ_self _, hj, ?_⟩
      intro k hk1 hk2
      by_cases hkj : k = j
      · subst hkj; exact le_refl _
      · exact le_trans (le_of_lt hlt) (h4 k hk1 (by omega))
    · rename_i hge
      simp only [Option.some.injEq, Step.next.injEq] at hb'
      subst hb'
      refine ⟨h1, by omega, hj, ?_⟩
      intro k hk1 hk2
      by_cases hkj : k = j
      · subst hkj; exact not_lt.mp hge
      · exact h4 k hk1 (by omega)
  · intro j bst bst' _ _ hb'
    split at hb' <;> simp at hb'
  · intro j bst ⟨h1, h2, h3, h4⟩ hc
    have hj : ¬ j < fl.length := by simpa using hc
    exact ⟨h1, by omega, fun k hk1 hk2 => h4 k hk1 (by omega)⟩
  · intro k hk1 hk2
    have : k = i := by omega
    subst this
    exact le_refl _

/-- What the ranking sort returns is a permutation of `foundLoops` in order of quality,
smallest value first. -/
theorem sortLoops_spec (foundLoops sorted : List LoopCandidate)
    (h : sortLoops foundLoops = some sorted) :
    sorted.Perm foundLoops ∧ sorted.length = foundLoops.length ∧
      sorted.Pairwise (fun x y => x.2 ≤ y.2) := by
  unfold sortLoops at h
  refine forLoop_inv
    (fun i (fl : List LoopCandidate) => fl.length = foundLoops.length ∧ fl.Perm foundLoops ∧
      PrefixRanked fl i)
    (fun fl => fl.Perm foundLoops ∧ fl.length = foundLoops.length ∧
      fl.Pairwise (fun x y => x.2 ≤ y.2))
    ?_ ?_ ?_ U32 0 foundLoops sorted ⟨rfl, List.Perm.refl _, fun a b ha => by omega⟩ h
  · intro i fl fl' ⟨hlen, hperm, hranked⟩ hc hb'
    have hi : i < foundLoops.length := by simpa using hc
    rw [Option.map_eq_some'] at hb'
    obtain ⟨best, hbest, hb'⟩ := hb'
    simp only [Step.next.injEq] at hb'
    subst hb'
    obtain ⟨h1, h2, h3⟩ := findBest_spec fl i (by omega) best hbest
    refine ⟨by rw [swapAt_length]; exact hlen,
      (swapAt_perm fl i best _ (by omega) h2).trans hperm, ?_⟩
    intro a b ha hab hb
    rw [swapAt_length] at hb
    rw [swapAt_getD fl i best a _ (by omega) h2, swapAt_getD fl i best b _ (by omega) h2]
    by_cases hai : a = i
    · subst hai
      by_cases hab' : a = best
      · subst hab'
        rw [if_pos rfl, if_neg (by omega), if_neg (by omega)]
        exact h3 b (by omega) hb
      · rw [if_neg hab', if_pos rfl]
        split
        · exact h3 a (le_refl _) (by omega)
        · rw [if_neg (by omega)]
          exact h3 b (by omega) hb
    · have hlt : a < i := by omega
      rw [if_neg (by omega), if_neg hai]
      split
      · exact hranked a i hlt (by omega) (by omega)
      · split
        · exact hranked a best hlt (by omega) h2
        · exact hranked a b hlt hab hb
  · intro i fl fl' _ _ hb'
    rw [Option.map_eq_some'] at hb'
    obtain ⟨best, _, hb'⟩ := hb'
    simp at hb'
  · intro i fl ⟨hlen, hperm, hranked⟩ hc
    have hi : ¬ i < foundLoops.length := by simpa using hc
    refine ⟨hperm, hlen, ?_⟩
    rw [List.pairwise_iff_getElem]
    intro a b ha hb hab
    have := hranked a b (by omega) hab hb
    rw [List.getD_eq_getElem _ _ ha, List.getD_eq_getElem _ _ hb] at this
    exact this

theorem take_succ_getD {α : Type} (l : List α) (i : Nat) (d : α) (h : i < l.length) :
    l.take (i + 1) = l.take i ++ [l.getD i d] := by
  rw [List.take_succ, List.getElem?_eq_getElem h, List.getD_eq_getElem _ _ h]
  rfl

/-- The two loops that push `foundLoops[0]`, `foundLoops[1]`, ... to `loops`. -/
theorem pushLoops_spec (foundLoops loops out : List LoopCandidate) (cond : Nat → Bool)
    (bound : Nat) (hbound : bound ≤ foundLoops.length)
    (hcond : ∀ i, cond i = true ↔ i < bound)
    (h : forLoop cond (fun i => i + 1)
      (fun i (ls : List LoopCandidate) =>
        some (Step.next (ls ++ [foundLoops.getD i ((0, 0), 0)]))) U32 0 loops = some out) :
    out = loops ++ foundLoops.take bound := by
  refine forLoop_inv
    (fun i (ls : List LoopCandidate) => i ≤ bound ∧ ls = loops ++ foundLoops.take i)
    (fun ls => ls = loops ++ foundLoops.take bound) ?_ ?_ ?_ U32 0 loops out
    ⟨Nat.zero_le _, by simp⟩ h
  · intro i ls ls' ⟨hi, hls⟩ hc hb'
    have hlt : i < bound := (hcond i).mp hc
    simp only [Option.some.injEq, Step.next.injEq] at hb'
    subst hb'
    refine ⟨hlt, ?_⟩
    rw [hls, take_succ_getD foundLoops i _ (by omega), List.append_assoc]
  · intro i ls ls' _ _ hb'
    simp at hb'
  · intro i ls ⟨hi, hls⟩ hc
    have hge : ¬ i < bound := by
      intro hlt
      rw [(hcond i).mpr hlt] at hc
      simp at hc
    have : i = bound := by omega
    rw [hls, this]

/-- The end of `AutoFindLoops`: failure exactly on an empty `foundLoops`, and otherwise the
first `min(m_loopsToReturn, size)` entries are appended (all of them for a negative
`m_loopsToReturn`). -/
theorem returnLoops_spec (k : Int) (hk : k < 2147483648) (foundLoops loops : List LoopCandidate)
    (ok : Bool) (out : List LoopCandidate)
    (h : returnLoops k foundLoops loops = some (ok, out)) :
    (ok = true ↔ foundLoops ≠ []) ∧
    ∃ m, m ≤ foundLoops.length ∧ out = loops ++ foundLoops.take m ∧
      (0 ≤ k → m = min k.toNat foundLoops.length) := by
  unfold returnLoops at h
  by_cases hbig : foundLoops.length > toSizeT k
  · rw [if_pos hbig, Option.map_eq_some'] at h
    obtain ⟨ls, hls, h⟩ := h
    simp only [Prod.mk.injEq] at h
    obtain ⟨hok, hout⟩ := h
    have hne : foundLoops ≠ [] := by
      intro h0
      rw [h0] at hbig
      simp at hbig
    have hbound : k.toNat ≤ foundLoops.length := by
      by_cases h0 : 0 ≤ k
      · have := toSizeT_eq h0 hk
        omega
      · omega
    have := pushLoops_spec foundLoops loops ls _ k.toNat hbound
      (fun i => by simp only [decide_eq_true_eq]; omega) hls
    refine ⟨⟨fun _ => hne, fun _ => hok.symm⟩, k.toNat, hbound, by rw [← hout, this], ?_⟩
    intro _
    omega
  · rw [if_neg hbig] at h
    by_cases hemp : foundLoops.isEmpty = false
    · rw [if_pos hemp, Option.map_eq_some'] at h
      obtain ⟨ls, hls, h⟩ := h
      simp only [Prod.mk.injEq] at h
      obtain ⟨hok, hout⟩ := h
      have hne : foundLoops ≠ [] := by
        intro h0
        rw [h0] at hemp
        simp at hemp
      have := pushLoops_spec foundLoops loops ls _ foundLoops.length (le_refl _)
        (fun i => by simp only [decide_eq_true_eq]) hls
      refine ⟨⟨fun _ => hne, fun _ => hok.symm⟩, foundLoops.length, le_refl _,
        by rw [← hout, this], ?_⟩
      intro h0
      have := toSizeT_eq h0 hk
      omega
    · rw [if_neg hemp] at h
      simp only [Option.some.injEq, Prod.mk.injEq] at h
      obtain ⟨hok, hout⟩ := h
      have hnil : foundLoops = [] := by
        cases foundLoops with
        | nil => rfl
        | cons x xs => simp at hemp
      refine ⟨⟨fun ht => by rw [← hok] at ht; simp at ht, fun hne => absurd hnil hne⟩,
        0, Nat.zero_le _, by rw [← hout]; simp, ?_⟩
      intro _
      rw [hnil]
      simp

/-! ## AutoFindLoops: every loop comes to an end -/

/-- The strongest-channel scan returns when its counter cannot wrap. -/
theorem findStrongestChannel_total (data : Nat → ℚ) (arrayLength ch sc0 : Nat) (hch : 1 ≤ ch)
    (hfit : arrayLength + ch ≤ U32) :
    ∃ r, findStrongestChannel data arrayLength ch sc0 = some r := by
  unfold findStrongestChannel
  have key := forLoop_stride arrayLength ch hch hfit
    (fun i st =>
      (forLoop (fun j => j < ch) (fun j => j + 1)
        (fun j (st : ℚ × Nat) =>
          if fabs (data (uadd i j)) > st.1 then some (Step.next (fabs (data (uadd i j)), j))
          else some (Step.next st))
        U32 0 st).map Step.next)
    (fun _ _ => True) (fun _ => True) ?_ (fun _ _ _ _ => trivial) 0 (0, sc0) trivial
  · obtain ⟨r, hr, _⟩ := key
    exact ⟨r, hr⟩
  · intro i st _ _
    left
    obtain ⟨r, hr, _⟩ := forLoop_count ch
      (fun j (st : ℚ × Nat) =>
        if fabs (data (uadd i j)) > st.1 then some (Step.next (fabs (data (uadd i j)), j))
        else some (Step.next st))
      (fun _ _ => True) (fun _ => True)
      (by
        intro j st' _ _
        left
        by_cases hgt : fabs (data (uadd i j)) > st'.1
        · exact ⟨_, if_pos hgt, trivial⟩
        · exact ⟨_, if_neg hgt, trivial⟩)
      (fun _ _ _ _ => trivial) (by unfold U32 at *; omega) 0 st trivial
    refine ⟨r, ?_, trivial⟩
    show Option.map Step.next _ = _
    rw [hr]
    rfl

/-- The maximum-derivative loop returns when its counter cannot wrap. -/
theorem maxDerivativeLoop_total (data : Nat → ℚ) (a b ch sc : Nat) (hch : 1 ≤ ch)
    (hB : usub b ch + ch ≤ U32) : ∃ r, maxDerivativeLoop data a b ch sc = some r := by
  unfold maxDerivativeLoop
  obtain ⟨r, hr, _⟩ := forLoop_stride (usub b ch) ch hch hB
    (fun i (maxDerivative : ℚ) =>
      if fabs (data (uadd i ch) - data i) > maxDerivative then
        some (Step.next (fabs (data (uadd i ch) - data i)))
      else some (Step.next maxDerivative))
    (fun _ _ => True) (fun _ => True)
    (by
      intro i st _ _
      left
      by_cases hgt : fabs (data (uadd i ch) - data i) > st
      · exact ⟨_, if_pos hgt, trivial⟩
      · exact ⟨_, if_neg hgt, trivial⟩)
    (fun _ _ _ _ => trivial) (uadd a sc) 0 trivial
  exact ⟨r, hr⟩

/-- The loop that fills `everyLoopCandidates` returns, with fewer than `2^32` entries. -/
theorem collectCandidates_total (data : Nat → ℚ) (a b ch sc : Nat) (thr : ℚ) (hch : 1 ≤ ch)
    (hB : usub b ch + ch ≤ U32) :
    ∃ every, collectCandidates data a b ch sc thr = some every ∧ every.length < U32 := by
  unfold collectCandidates
  have h0 : uadd a sc < U32 := by
    unfold uadd
    exact Nat.mod_lt _ (by unfold U32; omega)
  exact forLoop_stride (usub b ch) ch hch hB
    (fun i (everyLoopCandidates : List Nat) =>
      if fabs (data (uadd i ch) - data i) < thr then
        some (Step.next (everyLoopCandidates ++ [i]))
      else some (Step.next everyLoopCandidates))
    (fun i l => l.length ≤ i ∧ i < U32) (fun l => l.length < U32)
    (by
      intro i l ⟨hl, hi⟩ hlt
      left
      by_cases hthr : fabs (data (uadd i ch) - data i) < thr
      · refine ⟨_, if_pos hthr, ?_, by omega⟩
        rw [List.length_append, List.length_singleton]
        omega
      · exact ⟨_, if_neg hthr, by omega, by omega⟩)
    (fun i l hP _ => by omega) (uadd a sc) [] ⟨Nat.zero_le _, h0⟩

/-- The block that limits the number of candidates returns, with fewer than `2^32`
entries. -/
theorem reduceCandidates_total (m_maxCandidates : Int) (hmax : m_maxCandidates < 2147483648)
    (every : List Nat) (hlen : every.length < U32) :
    ∃ cands, reduceCandidates m_maxCandidates every = some cands ∧ cands.length < U32 := by
  unfold reduceCandidates
  by_cases hbig : every.length > toSizeT m_maxCandidates
  · rw [if_pos hbig]
    refine forLoop_total (fun i (lc : List Nat) => lc.length ≤ i ∧ i ≤ 2147483648)
      (fun lc => lc.length < U32) (fun i => 2147483648 - i) ?_ ?_ U32 0 []
      ⟨Nat.le_refl _, Nat.zero_le _⟩ (show 2147483648 - 0 < U32 by unfold U32; omega)
    · intro i lc ⟨hl, hi⟩ hc
      have hlt : (i : Int) < m_maxCandidates := by simpa using hc
      left
      by_cases hidx : indexToUse every.length m_maxCandidates i < (every.length : Int) - 1
      · refine ⟨_, if_pos hidx, ⟨?_, by omega⟩, show 2147483648 - (i + 1) < 2147483648 - i
          by omega⟩
        rw [List.length_append, List.length_singleton]
        omega
      · exact ⟨_, if_neg hidx, ⟨by omega, by omega⟩,
          show 2147483648 - (i + 1) < 2147483648 - i by omega⟩
    · intro i lc ⟨hl, hi⟩ _
      show lc.length < U32
      unfold U32
      omega
  · rw [if_neg hbig]
    exact ⟨every, rfl, hlen⟩

/-- The vector `loopCandidates` is always produced, with fewer than `2^32` entries. -/
theorem loopCandidatesOf_total (cfg : AutoLooping) (data : Nat → ℚ) (a b ch sc : Nat)
    (hmax : cfg.m_maxCandidates < 2147483648) (hch : 1 ≤ ch) (hB : usub b ch + ch ≤ U32) :
    ∃ cands, loopCandidatesOf cfg data ch sc a b = some cands ∧ cands.length < U32 := by
  unfold loopCandidatesOf
  obtain ⟨maxDerivative, hmd⟩ := maxDerivativeLoop_total data a b ch sc hch hB
  obtain ⟨every, hevery, hlen⟩ := collectCandidates_total data a b ch sc
    (rnd (maxDerivative * cfg.m_derivativeThreshold)) hch hB
  rw [hmd, Option.some_bind, hevery, Option.some_bind]
  exact reduceCandidates_total cfg.m_maxCandidates hmax every hlen

/-- The comparison of two windows returns. -/
theorem crossCorrelate_total (sqrt : ℚ → ℚ) (data : Nat → ℚ) (cs ce ch : Nat) (corr : ℚ)
    (h5 : 5 * ch < U32) : ∃ st, crossCorrelate sqrt data cs ce ch corr = some st := by
  unfold crossCorrelate
  obtain ⟨r, hr, _⟩ := forLoop_count (5 * ch)
    (fun k (st : ℚ × ℚ) =>
      some (Step.next
        (st.1 + (data (uadd cs k) - data (uadd ce k)) ^ 2,
          sqrt ((st.1 + (data (uadd cs k) - data (uadd ce k)) ^ 2) / (5 * (ch : ℚ))))))
    (fun _ _ => True) (fun _ => True)
    (fun k st _ _ => Or.inl ⟨_, rfl, trivial⟩)
    (fun _ _ _ _ => trivial) h5 0 (0, corr) trivial
  exact ⟨r, hr⟩

/-- The loop over the end point candidates returns, with at most one loop pushed. -/
theorem findLoopEnd_total (cfg : AutoLooping) (sqrt : ℚ → ℚ) (corr : ℚ) (data : Nat → ℚ)
    (ch sr sc : Nat) (cands : List Nat) (i ls : Nat) (hlen : cands.length < U32)
    (h5 : 5 * ch < U32) :
    ∃ pushed, findLoopEnd cfg sqrt corr data ch sr sc cands i ls = some pushed := by
  unfold findLoopEnd
  obtain ⟨r, hr, _⟩ := forLoop_count cands.length
    (fun j (pushed : Option LoopCandidate) =>
      if ((usub (usub (cands.getD j 0) sc) ls : Nat) : ℚ) <
          rnd (rnd ((sr : ℚ) * cfg.m_minLoopDuration) * (ch : ℚ)) then
        some (Step.next pushed)
      else
        (crossCorrelate sqrt data (usub ls (umul 2 ch))
          (usub (usub (cands.getD j 0) sc) (umul 2 ch)) ch corr).bind fun st =>
            if st.2 < rnd (rnd (cfg.m_qualityFactor / 32767) * (ch : ℚ)) then
              some (Step.brk (some
                ((ls / ch, usub (usub (cands.getD j 0) sc / ch) 1), st.2)))
            else some (Step.next pushed))
    (fun _ _ => True) (fun _ => True)
    (by
      intro j pushed _ _
      by_cases hshort : ((usub (usub (cands.getD j 0) sc) ls : Nat) : ℚ) <
          rnd (rnd ((sr : ℚ) * cfg.m_minLoopDuration) * (ch : ℚ))
      · left
        exact ⟨_, if_pos hshort, trivial⟩
      · obtain ⟨st, hst⟩ := crossCorrelate_total sqrt data (usub ls (umul 2 ch))
          (usub (usub (cands.getD j 0) sc) (umul 2 ch)) ch corr h5
        by_cases hq : st.2 < rnd (rnd (cfg.m_qualityFactor / 32767) * (ch : ℚ))
        · right
          exact ⟨some ((ls / ch, usub (usub (cands.getD j 0) sc / ch) 1), st.2),
            by simp only [if_neg hshort, hst, Option.some_bind, if_pos hq], trivial⟩
        · left
          exact ⟨pushed, by simp only [if_neg hshort, hst, Option.some_bind, if_neg hq],
            trivial⟩)
    (fun _ _ _ _ => trivial) hlen (i + 1) none trivial
  exact ⟨r, hr⟩

/-- The loop over the start point candidates returns, and accepts at most one loop per
candidate. -/
theorem pairCandidates_total (cfg : AutoLooping) (sqrt : ℚ → ℚ) (corr : ℚ) (data : Nat → ℚ)
    (ch sr sc : Nat) (cands : List Nat) (hlen : cands.length < U32) (h5 : 5 * ch < U32) :
    ∃ foundLoops, pairCandidates cfg sqrt corr data ch sr sc cands = some foundLoops ∧
      foundLoops.length ≤ cands.length := by
  unfold pairCandidates
  refine forLoop_count (cands.length - 1) _
    (fun i (fl : List LoopCandidate) => fl.length ≤ i ∧ i ≤ cands.length)
    (fun fl => fl.length ≤ cands.length) ?_ (fun i fl hP _ => by omega) (by omega) 0 []
    ⟨Nat.le_refl _, Nat.zero_le _⟩
  intro i fl ⟨hfl, hi⟩ hlt
  by_cases hclose : fl.isEmpty = false ∧
      ((usub (usub (cands.getD i 0) sc) (umul (fl.getLastD ((0, 0), 0)).1.1 ch) : Nat) : ℚ) <
        rnd (rnd ((sr : ℚ) * cfg.m_distanceBetweenLoops) * (ch : ℚ))
  · left
    exact ⟨_, if_pos hclose, by omega, by omega⟩
  · obtain ⟨pushed, hpushed⟩ := findLoopEnd_total cfg sqrt corr data ch sr sc cands i
      (usub (cands.getD i 0) sc) hlen h5
    have hgrow : (fl ++ pushed.toList).length ≤ i + 1 := by
      rw [List.length_append]
      cases pushed with
      | none => simp; omega
      | some x => simp; omega
    by_cases hfull : (fl ++ pushed.toList).length >
        toSizeT (cfg.m_loopsToReturn * cfg.m_maxLoopsMultiple - 1)
    · right
      exact ⟨fl ++ pushed.toList,
        by simp only [if_neg hclose, hpushed, Option.some_bind, if_pos hfull], by omega⟩
    · left
      exact ⟨fl ++ pushed.toList,
        by simp only [if_neg hclose, hpushed, Option.some_bind, if_neg hfull], hgrow, by omega⟩

/-- The inner loop of the ranking sort returns. -/
theorem findBest_total (foundLoops : List LoopCandidate) (i : Nat)
    (hlen : foundLoops.length < U32) : ∃ best, findBest foundLoops i = some best := by
  unfold findBest
  obtain ⟨r, hr, _⟩ := forLoop_count foundLoops.length
    (fun j (best : Nat) =>
      if (foundLoops.getD j ((0, 0), 0)).2 < (foundLoops.getD best ((0, 0), 0)).2 then
        some (Step.next j)
      else some (Step.next best))
    (fun _ _ => True) (fun _ => True)
    (by
      intro j best _ _
      left
      by_cases hlt : (foundLoops.getD j ((0, 0), 0)).2 < (foundLoops.getD best ((0, 0), 0)).2
      · exact ⟨_, if_pos hlt, trivial⟩
      · exact ⟨_, if_neg hlt, trivial⟩)
    (fun _ _ _ _ => trivial) hlen (i + 1) i trivial
  exact ⟨r, hr⟩

/-- The ranking sort returns. -/
theorem sortLoops_total (foundLoops : List LoopCandidate) (hlen : foundLoops.length < U32) :
    ∃ sorted, sortLoops foundLoops = some sorted := by
  unfold sortLoops
  obtain ⟨r, hr, _⟩ := forLoop_count foundLoops.length
    (fun i (fl : List LoopCandidate) =>
      (findBest fl i).map fun best => Step.next (swapAt fl i best ((0, 0), 0)))
    (fun _ fl => fl.length = foundLoops.length) (fun _ => True)
    (by
      intro i fl hfl _
      left
      obtain ⟨best, hbest⟩ := findBest_total fl i (by omega)
      refine ⟨swapAt fl i best ((0, 0), 0), ?_, ?_⟩
      · show Option.map _ (findBest fl i) = _
        rw [hbest]
        rfl
      · show (swapAt fl i best ((0, 0), 0)).length = foundLoops.length
        rw [swapAt_length, hfl])
    (fun _ _ _ _ => trivial) hlen 0 foundLoops rfl
  exact ⟨r, hr⟩

/-- The end of `AutoFindLoops` returns. -/
theorem returnLoops_total (k : Int) (hk : k < 2147483648) (foundLoops loops : List LoopCandidate)
    (hlen : foundLoops.length < U32) : ∃ r, returnLoops k foundLoops loops = some r := by
  unfold returnLoops
  by_cases hbig : foundLoops.length > toSizeT k
  · rw [if_pos hbig]
    obtain ⟨r, hr, _⟩ : ∃ r, forLoop (fun i => decide ((i : Int) < k)) (fun i => i + 1)
        (fun i (ls : List LoopCandidate) =>
          some (Step.next (ls ++ [foundLoops.getD i ((0, 0), 0)]))) U32 0 loops = some r ∧
        True := by
      refine forLoop_total (fun i _ => i ≤ 2147483648) (fun _ => True)
        (fun i => 2147483648 - i) ?_ (fun _ _ _ _ => trivial) U32 0 loops (Nat.zero_le _)
        (show 2147483648 - 0 < U32 by unfold U32; omega)
      intro i ls hi hc
      have hlt : (i : Int) < k := by simpa using hc
      left
      exact ⟨_, rfl, by omega, show 2147483648 - (i + 1) < 2147483648 - i by omega⟩
    rw [hr]
    exact ⟨_, rfl⟩
  · rw [if_neg hbig]
    by_cases hemp : foundLoops.isEmpty = false
    · rw [if_pos hemp]
      obtain ⟨r, hr, _⟩ := forLoop_count foundLoops.length
        (fun i (ls : List LoopCandidate) =>
          some (Step.next (ls ++ [foundLoops.getD i ((0, 0), 0)])))
        (fun _ _ => True) (fun _ => True)
        (fun i ls _ _ => Or.inl ⟨_, rfl, trivial⟩)
        (fun _ _ _ _ => trivial) hlen 0 loops trivial
      rw [hr]
      exact ⟨_, rfl⟩
    · rw [if_neg hemp]
      exact ⟨_, rfl⟩

/-- The part of `AutoFindLoops` after the vector `loopCandidates` returns. -/
theorem correlateAndReturn_total (cfg : AutoLooping) (sqrt : ℚ → ℚ) (corr : ℚ)
    (data : Nat → ℚ) (ch sr sc : Nat) (loops : List LoopCandidate) (cands : List Nat)
    (hk : cfg.m_loopsToReturn < 2147483648) (hlen : cands.length < U32) (h5 : 5 * ch < U32) :
    ∃ r, correlateAndReturn cfg sqrt corr data ch sr sc loops cands = some r := by
  unfold correlateAndReturn
  by_cases hemp : cands.isEmpty = true
  · rw [if_pos hemp]
    exact ⟨_, rfl⟩
  · rw [if_neg hemp]
    obtain ⟨foundLoops, hfound, hfl⟩ := pairCandidates_total cfg sqrt corr data ch sr sc cands
      hlen h5
    obtain ⟨sorted, hsorted⟩ := sortLoops_total foundLoops (by omega)
    obtain ⟨hperm, hslen, _⟩ := sortLoops_spec foundLoops sorted hsorted
    obtain ⟨r, hr⟩ := returnLoops_total cfg.m_loopsToReturn hk sorted loops (by omega)
    rw [hfound, Option.some_bind, hsorted, Option.some_bind]
    exact ⟨r, hr⟩

/-! ## AutoFindLoops as a whole -/

/-- A run of `AutoFindLoops`, cut at the strongest channel and at the search range. -/
theorem AutoFindLoops_run (cfg : AutoLooping) (sqrt : ℚ → ℚ) (indet : Indeterminate)
    (data : Nat → ℚ) (arrayLength numberOfChannels samplerate : Nat)
    (loops : List LoopCandidate) (auto : Bool) (startPercentage endPercentage : Int)
    (r : Bool × List LoopCandidate)
    (h : AutoFindLoops cfg sqrt indet data arrayLength numberOfChannels samplerate loops auto
      startPercentage endPercentage = some r) :
    ∃ strongest range,
      findStrongestChannel data arrayLength numberOfChannels indet.strongestChannel =
        some strongest ∧
      searchRange data arrayLength numberOfChannels samplerate strongest.1 indet auto
        startPercentage endPercentage = some range ∧
      searchLoops cfg sqrt indet.correlationValue data numberOfChannels samplerate
        strongest.2 loops range = some r := by
  unfold AutoFindLoops at h
  rw [Option.bind_eq_some] at h
  obtain ⟨strongest, hstrong, h⟩ := h
  rw [Option.bind_eq_some] at h
  obtain ⟨range, hrange, h⟩ := h
  exact ⟨strongest, range, hstrong, hrange, h⟩

theorem searchLoops_some (cfg : AutoLooping) (sqrt : ℚ → ℚ) (corr : ℚ) (data : Nat → ℚ)
    (ch sr sc : Nat) (loops : List LoopCandidate) (range : Nat × Nat) :
    searchLoops cfg sqrt corr data ch sr sc loops (some range) =
      (loopCandidatesOf cfg data ch sc range.1 range.2).bind
        (correlateAndReturn cfg sqrt corr data ch sr sc loops) := rfl

theorem searchLoops_none (cfg : AutoLooping) (sqrt : ℚ → ℚ) (corr : ℚ) (data : Nat → ℚ)
    (ch sr sc : Nat) (loops : List LoopCandidate) :
    searchLoops cfg sqrt corr data ch sr sc loops none = some (false, loops) := rfl

/-- A run of the part after `loopCandidates`, for a vector that is not empty. -/
theorem correlateAndReturn_run (cfg : AutoLooping) (sqrt : ℚ → ℚ) (corr : ℚ) (data : Nat → ℚ)
    (ch sr sc : Nat) (loops : List LoopCandidate) (cands : List Nat) (hne : cands ≠ [])
    (r : Bool × List LoopCandidate)
    (h : correlateAndReturn cfg sqrt corr data ch sr sc loops cands = some r) :
    ∃ foundLoops sorted, pairCandidates cfg sqrt corr data ch sr sc cands = some foundLoops ∧
      sortLoops foundLoops = some sorted ∧
      returnLoops cfg.m_loopsToReturn sorted loops = some r := by
  unfold correlateAndReturn at h
  rw [if_neg (by simpa using hne), Option.bind_eq_some] at h
  obtain ⟨foundLoops, hfound, h⟩ := h
  rw [Option.bind_eq_some] at h
  obtain ⟨sorted, hsorted, h⟩ := h
  exact ⟨foundLoops, sorted, hfound, hsorted, h⟩

theorem correlateAndReturn_nil (cfg : AutoLooping) (sqrt : ℚ → ℚ) (corr : ℚ) (data : Nat → ℚ)
    (ch sr sc : Nat) (loops : List LoopCandidate) :
    correlateAndReturn cfg sqrt corr data ch sr sc loops [] = some (false, loops) := by
  unfold correlateAndReturn
  rw [if_pos List.isEmpty_nil]

/-- An inner window loop that runs upwards returns. -/
theorem windowMax_up_total (data : Nat → ℚ) (n start : Nat) (hn : n < U32) :
    ∃ m, windowMax data (fun j => j < n) (fun j => uadd j 1) start = some m := by
  unfold windowMax
  obtain ⟨r, hr, _⟩ := forLoop_stride n 1 (Nat.le_refl 1) (by omega)
    (fun j (maxValueInThisWindow : ℚ) =>
      if fabs (data j) > maxValueInThisWindow then some (Step.next (fabs (data j)))
      else some (Step.next maxValueInThisWindow))
    (fun _ _ => True) (fun _ => True)
    (by
      intro j st _ _
      left
      by_cases hgt : fabs (data j) > st
      · exact ⟨_, if_pos hgt, trivial⟩
      · exact ⟨_, if_neg hgt, trivial⟩)
    (fun _ _ _ _ => trivial) start 0 trivial
  exact ⟨r, hr⟩

/-- An inner window loop that runs downwards returns. -/
theorem windowMax_down_total (data : Nat → ℚ) (low start : Nat) (hs : start < U32) :
    ∃ m, windowMax data (fun j => j > low) (fun j => usub j 1) start = some m := by
  unfold windowMax
  obtain ⟨r, hr, _⟩ : ∃ r, forLoop (fun j => decide (j > low)) (fun j => usub j 1)
      (fun j (maxValueInThisWindow : ℚ) =>
        if fabs (data j) > maxValueInThisWindow then some (Step.next (fabs (data j)))
        else some (Step.next maxValueInThisWindow)) U32 start 0 = some r ∧ True := by
    refine forLoop_total (fun j _ => j < U32) (fun _ => True) (fun j => j) ?_
      (fun _ _ _ _ => trivial) U32 start 0 hs hs
    intro j st hj hc
    have hgt : j > low := by simpa using hc
    have hnext : usub j 1 = j - 1 := usub_eq (by omega) hj
    left
    by_cases hbig : fabs (data j) > st
    · refine ⟨_, if_pos hbig, ?_, ?_⟩
      · show usub j 1 < U32
        omega
      · show usub j 1 < j
        omega
    · refine ⟨_, if_neg hbig, ?_, ?_⟩
      · show usub j 1 < U32
        omega
      · show usub j 1 < j
        omega
  exact ⟨r, hr⟩

/-- The forward envelope scan of `AutoFindLoops` returns when the buffer holds one window
at least. -/
theorem autoSustainStart_total (data : Nat → ℚ) (arrayLength ch sr start0 : Nat)
    (hW1 : 1 ≤ sr / 20 * ch) (hW : sr / 20 * ch ≤ arrayLength) (hlen : arrayLength < U32) :
    ∃ s, autoSustainStart data arrayLength ch sr start0 = some s := by
  unfold autoSustainStart
  rw [usub_eq hW hlen]
  obtain ⟨r, hr, _⟩ := forLoop_stride (arrayLength - sr / 20 * ch) (sr / 20 * ch) hW1
    (by omega)
    (fun i (st : ℚ × Nat) =>
      (windowMax data (fun j => j < uadd i (sr / 20 * ch)) (fun j => uadd j 1) i).bind
        fun maxValueInThisWindow =>
          if maxValueInThisWindow > st.1 then some (Step.next (maxValueInThisWindow, st.2))
          else some (Step.brk (st.1, uadd i (sr / 20 * ch))))
    (fun _ _ => True) (fun _ => True)
    (by
      intro i st _ _
      obtain ⟨m, hm⟩ := windowMax_up_total data (uadd i (sr / 20 * ch)) i
        (by unfold uadd; exact Nat.mod_lt _ (by unfold U32; omega))
      by_cases hgt : m > st.1
      · left
        exact ⟨(m, st.2), by simp only [hm, Option.some_bind, if_pos hgt], trivial⟩
      · right
        exact ⟨(st.1, uadd i (sr / 20 * ch)),
          by simp only [hm, Option.some_bind, if_neg hgt], trivial⟩)
    (fun _ _ _ _ => trivial) 0 (0, start0) trivial
  rw [hr]
  exact ⟨_, rfl⟩

/-- The backward envelope scan of `AutoFindLoops` returns when the window is not empty; its
result is a whole number of frames, below `2^32`. -/
theorem autoSustainEnd_total (data : Nat → ℚ) (arrayLength ch sr : Nat) (maxValue : ℚ)
    (end0 : Nat) (hW1 : 1 ≤ sr / 20 * ch) (hlen : arrayLength < U32) (hend : end0 < U32) :
    ∃ e, autoSustainEnd data arrayLength ch sr maxValue end0 = some e ∧ e < U32 ∧
      ch ∣ e := by
  unfold autoSustainEnd autoSustainEndScan
  obtain ⟨r, hr, hlt⟩ : ∃ r, forLoop (fun i => decide (i > sr / 20 * ch))
      (fun i => usub i (sr / 20 * ch))
      (fun i (st : ℚ × Nat) =>
        (windowMax data (fun j => j > usub i (sr / 20 * ch)) (fun j => usub j 1) i).bind
          fun maxValueInThisWindow =>
            if maxValueInThisWindow < maxValue / 4 then
              some (Step.next (maxValueInThisWindow, st.2))
            else if maxValueInThisWindow > st.1 then
              some (Step.next (maxValueInThisWindow, st.2))
            else some (Step.brk (st.1, i)))
      U32 arrayLength (0, end0) = some r ∧ r.2 < U32 := by
    refine forLoop_total (fun i (st : ℚ × Nat) => i < U32 ∧ st.2 < U32)
      (fun st => st.2 < U32) (fun i => i) ?_ (fun _ _ hP _ => hP.2) U32 arrayLength (0, end0)
      ⟨hlen, hend⟩ hlen
    intro i st ⟨hi, hst⟩ hc
    have hgt : i > sr / 20 * ch := by simpa using hc
    have hnext : usub i (sr / 20 * ch) = i - sr / 20 * ch := usub_eq (by omega) hi
    obtain ⟨m, hm⟩ := windowMax_down_total data (usub i (sr / 20 * ch)) i hi
    by_cases hlow : m < maxValue / 4
    · left
      refine ⟨(m, st.2), by simp only [hm, Option.some_bind, if_pos hlow], ⟨?_, hst⟩, ?_⟩
      · show usub i (sr / 20 * ch) < U32
        omega
      · show usub i (sr / 20 * ch) < i
        omega
    · by_cases hup : m > st.1
      · left
        refine ⟨(m, st.2), by simp only [hm, Option.some_bind, if_neg hlow, if_pos hup],
          ⟨?_, hst⟩, ?_⟩
        · show usub i (sr / 20 * ch) < U32
          omega
        · show usub i (sr / 20 * ch) < i
          omega
      · right
        exact ⟨(st.1, i), by simp only [hm, Option.some_bind, if_neg hlow, if_neg hup], hi⟩
  rw [hr]
  refine ⟨_, rfl, ?_, ?_⟩
  · show usub r.2 (r.2 % ch) < U32
    unfold usub
    exact Nat.mod_lt _ (by unfold U32; omega)
  · show ch ∣ usub r.2 (r.2 % ch)
    rw [usub_eq (Nat.mod_le _ _) hlt]
    exact Nat.dvd_sub_mod _

/-- The loop bound `sustainEndIndex - numberOfChannels` does not wrap, and leaves room for
one more step of the counter, when the end index is zero or at least one frame. -/
theorem bound_of_frames (b ch : Nat) (hch : 1 ≤ ch) (hchU : ch < U32) (hb : b < U32)
    (hcase : b = 0 ∨ ch ≤ b) : usub b ch + ch ≤ U32 := by
  rcases hcase with h0 | hge
  · rw [h0]
    unfold usub U32 at *
    omega
  · rw [usub_eq hge hb]
    omega

/-- The search range is always computed in percentage mode, and in auto-sustain mode when
the window of 1/20 second is not empty and fits the buffer; the loops that follow can run
on its end index, given in percentage mode that it lies one frame or more into the
buffer. -/
theorem searchRange_total (data : Nat → ℚ) (arrayLength ch sr : Nat) (maxValue : ℚ)
    (indet : Indeterminate) (auto : Bool) (startPercentage endPercentage : Int)
    (hch : 1 ≤ ch) (hchU : ch < U32) (hlen : arrayLength < U32)
    (hauto : auto = true →
      20 ≤ sr ∧ sr / 20 * ch ≤ arrayLength ∧ indet.sustainEndIndex < U32)
    (hpct : auto = false → ch ≤ percentIndex endPercentage arrayLength) :
    ∃ range, searchRange data arrayLength ch sr maxValue indet auto startPercentage
        endPercentage = some range ∧
      ∀ a b, range = some (a, b) → usub b ch + ch ≤ U32 := by
  unfold searchRange
  cases auto with
  | true =>
    obtain ⟨hsr, hW, hend⟩ := hauto rfl
    have hW1 : 1 ≤ sr / 20 * ch := by
      have : 1 ≤ sr / 20 := by omega
      exact Nat.mul_le_mul this hch
    obtain ⟨s, hs⟩ := autoSustainStart_total data arrayLength ch sr indet.sustainStartIndex
      hW1 hW hlen
    obtain ⟨e, he, helt, hdvd⟩ := autoSustainEnd_total data arrayLength ch sr maxValue
      indet.sustainEndIndex hW1 hlen hend
    rw [if_pos rfl, hs, Option.some_bind, he, Option.some_bind]
    by_cases hinv : s > e
    · rw [if_pos hinv]
      refine ⟨none, rfl, ?_⟩
      intro a b hab
      simp at hab
    · rw [if_neg hinv]
      refine ⟨some (s, e), rfl, ?_⟩
      intro a b hab
      simp only [Option.some.injEq, Prod.mk.injEq] at hab
      rw [← hab.2]
      apply bound_of_frames e ch hch hchU helt
      by_cases h0 : e = 0
      · exact Or.inl h0
      · exact Or.inr (Nat.le_of_dvd (by omega) hdvd)
  | false =>
    have hp := hpct rfl
    rw [if_neg (by simp)]
    by_cases hinv : endPercentage < startPercentage
    · rw [if_pos hinv]
      refine ⟨none, rfl, ?_⟩
      intro a b hab
      simp at hab
    · rw [if_neg hinv]
      refine ⟨_, rfl, ?_⟩
      intro a b hab
      simp only [Option.some.injEq, Prod.mk.injEq] at hab
      rw [← hab.2]
      apply bound_of_frames _ ch hch hchU _ (Or.inr hp)
      unfold percentIndex
      exact Nat.mod_lt _ (by unfold U32; omega)

/-- `AutoFindLoops` returns: every loop of it comes to an end within the range of its
counter. -/
theorem AutoFindLoops_total (cfg : AutoLooping) (sqrt : ℚ → ℚ) (indet : Indeterminate)
    (data : Nat → ℚ) (arrayLength numberOfChannels samplerate : Nat)
    (loops : List LoopCandidate) (auto : Bool) (startPercentage endPercentage : Int)
    (hch : 1 ≤ numberOfChannels) (hfit : arrayLength + 5 * numberOfChannels < U32)
    (hmax : cfg.m_maxCandidates < 2147483648) (hk : cfg.m_loopsToReturn < 2147483648)
    (hauto : auto = true → 20 ≤ samplerate ∧ samplerate / 20 * numberOfChannels ≤ arrayLength ∧
      indet.sustainEndIndex < U32)
    (hpct : auto = false → numberOfChannels ≤ percentIndex endPercentage arrayLength) :
    ∃ r, AutoFindLoops cfg sqrt indet data arrayLength numberOfChannels samplerate loops auto
      startPercentage endPercentage = some r := by
  unfold AutoFindLoops
  obtain ⟨strongest, hstrong⟩ := findStrongestChannel_total data arrayLength numberOfChannels
    indet.strongestChannel hch (by omega)
  obtain ⟨range, hrange, hbound⟩ := searchRange_total data arrayLength numberOfChannels
    samplerate strongest.1 indet auto startPercentage endPercentage hch (by omega) (by omega)
    hauto hpct
  rw [hstrong, Option.some_bind, hrange, Option.some_bind]
  cases range with
  | none => exact ⟨_, rfl⟩
  | some range =>
    rw [searchLoops_some]
    obtain ⟨cands, hcands, hclen⟩ := loopCandidatesOf_total cfg data range.1 range.2
      numberOfChannels strongest.2 hmax hch (hbound range.1 range.2 rfl)
    rw [hcands, Option.some_bind]
    exact correlateAndReturn_total cfg sqrt indet.correlationValue data numberOfChannels
      samplerate strongest.2 loops cands hk hclen (by omega)

/-- C7 (amended). In a run of `AutoFindLoops` whose strongest channel is `sc < channels` and
whose search range `(a, b)` has `channels ≤ b` (indices within 32 bits, the two `int`
limits in the range of `int`), every candidate `{start, end, score}` that is returned has
`end + 1 > start`, its samples counted to the matched end candidate,
`(end + 1 - start) * channels`, are not fewer than the `double` product
`samplerate * m_minLoopDuration * channels` that the code compares them with, and so
`(end + 1 - start) / samplerate ≥ m_minLoopDuration * (1 - 2 ^ -52)`: the duration test is
made on the matched end candidate, the recorded end is one frame before it, and the two
roundings of the product can take the fraction `2 ^ -52` off the duration. -/
theorem AutoFindLoops_min_duration (cfg : AutoLooping) (sqrt : ℚ → ℚ) (indet : Indeterminate)
    (data : Nat → ℚ) (arrayLength numberOfChannels samplerate : Nat)
    (loops : List LoopCandidate) (auto : Bool) (startPercentage endPercentage : Int)
    (maxValue : ℚ) (sc a b : Nat) (out : List LoopCandidate)
    (hmax : cfg.m_maxCandidates < 2147483648) (hk : cfg.m_loopsToReturn < 2147483648)
    (hch : 1 ≤ numberOfChannels) (hsr : 1 ≤ samplerate)
    (hstrong : findStrongestChannel data arrayLength numberOfChannels indet.strongestChannel =
      some (maxValue, sc))
    (hsc : sc < numberOfChannels)
    (hrange : searchRange data arrayLength numberOfChannels samplerate maxValue indet auto
      startPercentage endPercentage = some (some (a, b)))
    (ha : a + numberOfChannels ≤ U32) (hb : numberOfChannels ≤ b) (hb2 : b < U32)
    (hrun : AutoFindLoops cfg sqrt indet data arrayLength numberOfChannels samplerate loops
      auto startPercentage endPercentage = some (true, out)) :
    ∃ appended, out = loops ++ appended ∧
      ∀ l, l ∈ appended → l.1.1 < l.1.2 + 1 ∧
        rnd (rnd ((samplerate : ℚ) * cfg.m_minLoopDuration) * (numberOfChannels : ℚ)) ≤
          ((l.1.2 : ℚ) + 1 - (l.1.1 : ℚ)) * (numberOfChannels : ℚ) ∧
        cfg.m_minLoopDuration * (1 - (2 : ℚ) ^ (-52 : Int)) ≤
          ((l.1.2 : ℚ) + 1 - (l.1.1 : ℚ)) / (samplerate : ℚ) := by
  obtain ⟨strongest, range, hstrong', hrange', hsearch⟩ := AutoFindLoops_run _ _ _ _ _ _ _ _ _
    _ _ _ hrun
  rw [hstrong] at hstrong'
  simp only [Option.some.injEq] at hstrong'
  subst hstrong'
  rw [hrange] at hrange'
  simp only [Option.some.injEq] at hrange'
  subst hrange'
  rw [searchLoops_some, Option.bind_eq_some] at hsearch
  obtain ⟨cands, hcands, hcorr⟩ := hsearch
  have hok : CandidatesOk a b numberOfChannels sc cands :=
    loopCandidatesOf_spec cfg data a b numberOfChannels sc hmax hch hsc ha hb hb2 cands hcands
  have hne : cands ≠ [] := by
    intro h0
    rw [h0, correlateAndReturn_nil] at hcorr
    simp at hcorr
  obtain ⟨foundLoops, sorted, hfound, hsorted, hret⟩ :=
    correlateAndReturn_run _ _ _ _ _ _ _ _ _ hne _ hcorr
  have hgood := pairCandidates_spec cfg sqrt indet.correlationValue data a b numberOfChannels
    samplerate sc cands hok hch hsr hb2 foundLoops hfound
  obtain ⟨hperm, _, _⟩ := sortLoops_spec foundLoops sorted hsorted
  obtain ⟨_, m, _, hout, _⟩ := returnLoops_spec _ hk sorted loops true out hret
  refine ⟨sorted.take m, hout, ?_⟩
  intro l hl
  exact hgood l (hperm.subset (List.mem_of_mem_take hl))

/-- Witness for `AutoFindLoops_min_duration`: a mono buffer of 24 samples at rate 10, all
zero but for sample 12, searched from 20 to 80 percent with the `double` nearest to 0.1 as
minimum duration. The loop returned spans the frames 4 to 4: its one sample is not below
the `double` product `10 * 0.1 = 1.0`, and it lasts 0.1 seconds, which is below the minimum
duration by less than the fraction `2 ^ -52`. -/
theorem AutoFindLoops_min_duration_witness :
    AutoFindLoops ⟨1/2, rnd (1/10), 0, 1000, 100, 1, 1⟩ (fun x => x) ⟨0, 0, 0, 0⟩
      (fun i => if i = 12 then 1 else 0) 24 1 10 [] false 20 80 =
      some (true, [((4, 4), 0)]) ∧
    ∃ appended, [((4, 4), (0 : ℚ))] = ([] : List LoopCandidate) ++ appended ∧
      ∀ l, l ∈ appended → l.1.1 < l.1.2 + 1 ∧
        rnd (rnd (((10 : Nat) : ℚ) * rnd (1/10)) * ((1 : Nat) : ℚ)) ≤
          ((l.1.2 : ℚ) + 1 - (l.1.1 : ℚ)) * ((1 : Nat) : ℚ) ∧
        rnd (1/10) * (1 - (2 : ℚ) ^ (-52 : Int)) ≤
          ((l.1.2 : ℚ) + 1 - (l.1.1 : ℚ)) / ((10 : Nat) : ℚ) :=
  ⟨by decide!,
    AutoFindLoops_min_duration ⟨1/2, rnd (1/10), 0, 1000, 100, 1, 1⟩ (fun x => x)
      ⟨0, 0, 0, 0⟩ (fun i => if i = 12 then 1 else 0) 24 1 10 [] false 20 80 1 0 4 19
      [((4, 4), 0)]
      (by decide) (by decide) (by decide) (by decide) (by decide!) (by decide) (by decide!)
      (by decide) (by decide) (by decide) (by decide!)⟩

/-- Counterexample to C7 as stated: on a mono buffer of 24 samples with period 4 at rate 4,
with a minimum loop duration of one second, `AutoFindLoops` returns the loop from frame 4
to frame 7, whose recorded span of 3 frames lasts 0.75 seconds. -/
theorem recorded_span_below_min_duration :
    AutoFindLoops ⟨1/2, 1, 0, 1000, 100, 1, 1⟩ (fun x => x) ⟨0, 0, 0, 0⟩
      (fun i => if i % 4 < 2 then 0 else 1) 24 1 4 [] false 20 80 =
      some (true, [((4, 7), 0)]) ∧
    ¬ ((AutoLooping.mk (1/2) 1 0 1000 100 1 1).m_minLoopDuration ≤
      (((7 : Nat) : ℚ) - ((4 : Nat) : ℚ)) / ((4 : Nat) : ℚ)) := by
  decide!

/-- C8 at a failing input. Stereo, 50 samples at rate 8000, all zero but for sample 21
(value 2) and sample 30 (value 1), searched from 10 to 80 percent, so that the search
starts at the odd index 5, with a distance between loops of 1.5 frames: `AutoFindLoops`
accepts and returns two loops that start at the frames 2 and 3, one frame apart. -/
theorem AutoFindLoops_close_starts :
    AutoFindLoops ⟨1/2, rnd (1/8000), rnd (3/16000), 1000, 100, 2, 1⟩ (fun x => x)
      ⟨0, 0, 0, 0⟩
      (fun i => if i = 21 then 2 else if i = 30 then 1 else 0) 50 2 8000 [] false 10 80 =
      some (true, [((2, 2), 0), ((3, 3), 0)]) ∧
    (((3 : Nat) : ℚ) - ((2 : Nat) : ℚ)) <
      (AutoLooping.mk (1/2) (rnd (1/8000)) (rnd (3/16000)) 1000 100 2
        1).m_distanceBetweenLoops * ((8000 : Nat) : ℚ) := by
  decide!

/-- On a search range that starts on a frame boundary the windows of a candidate are whole
frames: the five frames from two before the candidate's frame to two after it. -/
theorem window_frames (a b ch sc : Nat) (cands : List Nat)
    (hok : CandidatesOk a b ch sc cands) (hch : 1 ≤ ch) (hal : ch ∣ a) (k : Nat)
    (hk : k < cands.length) :
    cands.getD k 0 - sc - 2 * ch = ((cands.getD k 0 - sc) / ch - 2) * ch := by
  obtain ⟨⟨t, ht⟩, _⟩ := hok.2 _ (List.getElem_mem hk)
  obtain ⟨q, hq⟩ := hal
  rw [List.getD_eq_getElem _ _ hk]
  have hc : cands[k] - sc = (q + t) * ch := by
    rw [ht, Nat.add_mul, hq, Nat.mul_comm ch q]
    omega
  rw [hc, Nat.mul_div_cancel _ (by omega), Nat.sub_mul]

/-- C11 (amended). In a run of `AutoFindLoops` that returns `true` (strongest channel `sc`,
search range `(a, b)` starting two frames or more into the buffer, indices within 32 bits),
every loop in `foundLoops` is `{frame(s), frame(e) - 1, d}` for a start candidate `s` and
the first later candidate `e`, in increasing order, that is far enough from `s` and whose
window of `5 * channels` samples from two frames before `e` has an RMS distance `d` below
the quality threshold from the window of `s`. Far enough means that the samples between
the two frames are not fewer than the `double` product
`samplerate * m_minLoopDuration * channels`, which puts `e` at `m_minLoopDuration` seconds
from `s` but for the fraction `2 ^ -52`; the quality threshold is the `double` value of
`m_qualityFactor / 32767 * channels`. On a range that starts on a frame boundary the
windows are the frames `e-2..e+2` and `s-2..s+2`. So every returned loop, being one of
`foundLoops`, has a quality value that is at least 0 (for a `sqrt` that is never negative)
and below that threshold. -/
theorem AutoFindLoops_first_match (cfg : AutoLooping) (sqrt : ℚ → ℚ) (indet : Indeterminate)
    (data : Nat → ℚ) (arrayLength numberOfChannels samplerate : Nat)
    (loops : List LoopCandidate) (auto : Bool) (startPercentage endPercentage : Int)
    (maxValue : ℚ) (sc a b : Nat) (out : List LoopCandidate)
    (hsqrt : ∀ x, 0 ≤ x → 0 ≤ sqrt x)
    (hmax : cfg.m_maxCandidates < 2147483648) (hk : cfg.m_loopsToReturn < 2147483648)
    (hch : 1 ≤ numberOfChannels) (hsr : 1 ≤ samplerate)
    (hstrong : findStrongestChannel data arrayLength numberOfChannels indet.strongestChannel =
      some (maxValue, sc))
    (hsc : sc < numberOfChannels)
    (hrange : searchRange data arrayLength numberOfChannels samplerate maxValue indet auto
      startPercentage endPercentage = some (some (a, b)))
    (h2a : 2 * numberOfChannels ≤ a) (ha : a ≤ b) (hb3 : b + 3 * numberOfChannels < U32)
    (hrun : AutoFindLoops cfg sqrt indet data arrayLength numberOfChannels samplerate loops
      auto startPercentage endPercentage = some (true, out)) :
    ∃ cands foundLoops appended,
      loopCandidatesOf cfg data numberOfChannels sc a b = some cands ∧
      pairCandidates cfg sqrt indet.correlationValue data numberOfChannels samplerate sc
        cands = some foundLoops ∧
      (∀ l, l ∈ foundLoops →
        ∃ i j, RecordedFor cfg sqrt data numberOfChannels samplerate sc cands l i j ∧
          cfg.m_minLoopDuration * (1 - (2 : ℚ) ^ (-52 : Int)) ≤
            ((((cands.getD j 0 - sc) / numberOfChannels : Nat) : ℚ) -
              (((cands.getD i 0 - sc) / numberOfChannels : Nat) : ℚ)) / (samplerate : ℚ) ∧
          (numberOfChannels ∣ a →
            cands.getD i 0 - sc - 2 * numberOfChannels =
              ((cands.getD i 0 - sc) / numberOfChannels - 2) * numberOfChannels ∧
            cands.getD j 0 - sc - 2 * numberOfChannels =
              ((cands.getD j 0 - sc) / numberOfChannels - 2) * numberOfChannels)) ∧
      out = loops ++ appended ∧
      ∀ l, l ∈ appended → l ∈ foundLoops ∧ 0 ≤ l.2 ∧
        l.2 < rnd (rnd (cfg.m_qualityFactor / 32767) * (numberOfChannels : ℚ)) := by
  obtain ⟨strongest, range, hstrong', hrange', hsearch⟩ := AutoFindLoops_run _ _ _ _ _ _ _ _ _
    _ _ _ hrun
  rw [hstrong] at hstrong'
  simp only [Option.some.injEq] at hstrong'
  subst hstrong'
  rw [hrange] at hrange'
  simp only [Option.some.injEq] at hrange'
  subst hrange'
  rw [searchLoops_some, Option.bind_eq_some] at hsearch
  obtain ⟨cands, hcands, hcorr⟩ := hsearch
  have hok : CandidatesOk a b numberOfChannels sc cands :=
    loopCandidatesOf_spec cfg data a b numberOfChannels sc hmax hch hsc (by omega) (by omega)
      (by omega) cands hcands
  have hne : cands ≠ [] := by
    intro h0
    rw [h0, correlateAndReturn_nil] at hcorr
    simp at hcorr
  obtain ⟨foundLoops, sorted, hfound, hsorted, hret⟩ :=
    correlateAndReturn_run _ _ _ _ _ _ _ _ _ hne _ hcorr
  have hgood := pairCandidates_first cfg sqrt indet.correlationValue data a b numberOfChannels
    samplerate sc cands hok hch hsr h2a hb3 foundLoops hfound
  obtain ⟨hperm, _, _⟩ := sortLoops_spec foundLoops sorted hsorted
  obtain ⟨_, m, _, hout, _⟩ := returnLoops_spec _ hk sorted loops true out hret
  refine ⟨cands, foundLoops, sorted.take m, hcands, hfound, ?_, hout, ?_⟩
  · intro l hl
    obtain ⟨i, j, hrec⟩ := hgood l hl
    refine ⟨i, j, hrec, ?_, fun hal => ⟨?_, ?_⟩⟩
    · exact farEnough_seconds cfg a b numberOfChannels samplerate sc cands hok hch hsr
        (by omega) i j hrec.1 hrec.2.1 hrec.2.2.1.1
    · exact window_frames a b numberOfChannels sc cands hok hch hal i
        (lt_trans hrec.1 hrec.2.1)
    · exact window_frames a b numberOfChannels sc cands hok hch hal j hrec.2.1
  · intro l hl
    have hmem : l ∈ foundLoops := hperm.subset (List.mem_of_mem_take hl)
    obtain ⟨i, j, hrec⟩ := hgood l hmem
    have hval : l.2 = rmsDistance sqrt data (cands.getD i 0 - sc - 2 * numberOfChannels)
        (cands.getD j 0 - sc - 2 * numberOfChannels) numberOfChannels := by
      rw [hrec.2.2.2.2]
    refine ⟨hmem, ?_, ?_⟩
    · rw [hval]
      exact rmsDistance_nonneg sqrt hsqrt data _ _ _
    · rw [hval]
      exact hrec.2.2.1.2

/-- Witness for `AutoFindLoops_first_match`: a mono buffer of 24 samples with period 4 at
rate 4, searched from 20 to 80 percent. -/
theorem AutoFindLoops_first_match_witness :
    ∃ cands foundLoops appended,
      loopCandidatesOf ⟨1/2, 1, 0, 1000, 100, 1, 1⟩ (fun i => if i % 4 < 2 then 0 else 1) 1 0
        4 19 = some cands ∧
      pairCandidates ⟨1/2, 1, 0, 1000, 100, 1, 1⟩ (fun x => x) 0
        (fun i => if i % 4 < 2 then 0 else 1) 1 4 0 cands = some foundLoops ∧
      (∀ l, l ∈ foundLoops →
        ∃ i j, RecordedFor ⟨1/2, 1, 0, 1000, 100, 1, 1⟩ (fun x => x)
            (fun i => if i % 4 < 2 then 0 else 1) 1 4 0 cands l i j ∧
          (1 : ℚ) * (1 - (2 : ℚ) ^ (-52 : Int)) ≤
            ((((cands.getD j 0 - 0) / 1 : Nat) : ℚ) -
              (((cands.getD i 0 - 0) / 1 : Nat) : ℚ)) / ((4 : Nat) : ℚ) ∧
          (1 ∣ 4 →
            cands.getD i 0 - 0 - 2 * 1 = ((cands.getD i 0 - 0) / 1 - 2) * 1 ∧
            cands.getD j 0 - 0 - 2 * 1 = ((cands.getD j 0 - 0) / 1 - 2) * 1)) ∧
      [((4, 7), (0 : ℚ))] = ([] : List LoopCandidate) ++ appended ∧
      ∀ l, l ∈ appended → l ∈ foundLoops ∧ 0 ≤ l.2 ∧
        l.2 < rnd (rnd ((1000 : ℚ) / 32767) * ((1 : Nat) : ℚ)) :=
  AutoFindLoops_first_match ⟨1/2, 1, 0, 1000, 100, 1, 1⟩ (fun x => x) ⟨0, 0, 0, 0⟩
    (fun i => if i % 4 < 2 then 0 else 1) 24 1 4 [] false 20 80 1 0 4 19 [((4, 7), 0)]
    (fun _ h => h) (by decide) (by decide) (by decide) (by decide) (by decide!) (by decide)
    (by decide!) (by decide) (by decide) (by decide) (by decide!)

/-- C11 at a counterexample: a mono buffer of 24 samples at rate 10, all zero but for
sample 12, searched from 20 to 80 percent with the `double` nearest to 0.1 as minimum
duration. The candidates are the indices 4 to 17 without 11 and 12, and the loop recorded
for the start candidate 4 ends at frame 4: its end candidate is frame 5, one frame and so
0.1 seconds after the start, which is less than the minimum duration, a `double` above
`1 / 10`. The `double` product `10 * 0.1` is `1.0`, and the test `1 < 1.0` fails. -/
theorem end_candidate_below_min_duration :
    AutoFindLoops ⟨1/2, rnd (1/10), 0, 1000, 100, 1, 1⟩ (fun x => x) ⟨0, 0, 0, 0⟩
      (fun i => if i = 12 then 1 else 0) 24 1 10 [] false 20 80 =
      some (true, [((4, 4), 0)]) ∧
    loopCandidatesOf ⟨1/2, rnd (1/10), 0, 1000, 100, 1, 1⟩ (fun i => if i = 12 then 1 else 0)
      1 0 4 19 = some [4, 5, 6, 7, 8, 9, 10, 13, 14, 15, 16, 17] ∧
    pairCandidates ⟨1/2, rnd (1/10), 0, 1000, 100, 1, 1⟩ (fun x => x) 0
      (fun i => if i = 12 then 1 else 0) 1 10 0 [4, 5, 6, 7, 8, 9, 10, 13, 14, 15, 16, 17] =
      some [((4, 4), 0)] ∧
    ¬ ((AutoLooping.mk (1/2) (rnd (1/10)) 0 1000 100 1 1).m_minLoopDuration ≤
      (((5 : Nat) : ℚ) - ((4 : Nat) : ℚ)) / ((10 : Nat) : ℚ)) ∧
    rnd (rnd (((10 : Nat) : ℚ) * rnd (1/10)) * ((1 : Nat) : ℚ)) = 1 := by
  refine ⟨by decide!, by decide!, by decide!, by decide!, by decide!⟩

/-- C9. When `AutoFindLoops` returns `true` (with `0 ≤ m_loopsToReturn`), it has appended the
first `min(m_loopsToReturn, number of accepted loops)` entries of the ranked vector, which
is a permutation of the accepted loops in non-decreasing order of quality; so the appended
loops are accepted loops in non-decreasing order, and every accepted loop left out has a
quality value at least that of every returned one. -/
theorem AutoFindLoops_returns_best (cfg : AutoLooping) (sqrt : ℚ → ℚ) (indet : Indeterminate)
    (data : Nat → ℚ) (arrayLength numberOfChannels samplerate : Nat)
    (loops : List LoopCandidate) (auto : Bool) (startPercentage endPercentage : Int)
    (out : List LoopCandidate)
    (hk0 : 0 ≤ cfg.m_loopsToReturn) (hk : cfg.m_loopsToReturn < 2147483648)
    (hrun : AutoFindLoops cfg sqrt indet data arrayLength numberOfChannels samplerate loops
      auto startPercentage endPercentage = some (true, out)) :
    ∃ strongest a b cands foundLoops sorted appended,
      findStrongestChannel data arrayLength numberOfChannels indet.strongestChannel =
        some strongest ∧
      searchRange data arrayLength numberOfChannels samplerate strongest.1 indet auto
        startPercentage endPercentage = some (some (a, b)) ∧
      loopCandidatesOf cfg data numberOfChannels strongest.2 a b = some cands ∧
      pairCandidates cfg sqrt indet.correlationValue data numberOfChannels samplerate
        strongest.2 cands = some foundLoops ∧
      sortLoops foundLoops = some sorted ∧ sorted.Perm foundLoops ∧
      sorted.Pairwise (fun x y => x.2 ≤ y.2) ∧
      appended = sorted.take (min cfg.m_loopsToReturn.toNat foundLoops.length) ∧
      out = loops ++ appended ∧
      appended.length = min cfg.m_loopsToReturn.toNat foundLoops.length ∧
      appended.Pairwise (fun x y => x.2 ≤ y.2) ∧
      (∀ x, x ∈ appended → x ∈ foundLoops) ∧
      (∀ x, x ∈ sorted.drop (min cfg.m_loopsToReturn.toNat foundLoops.length) →
        ∀ y, y ∈ appended → y.2 ≤ x.2) := by
  obtain ⟨strongest, range, hstrong, hrange, hsearch⟩ := AutoFindLoops_run _ _ _ _ _ _ _ _ _
    _ _ _ hrun
  cases range with
  | none =>
    rw [searchLoops_none] at hsearch
    simp at hsearch
  | some range =>
    rw [searchLoops_some, Option.bind_eq_some] at hsearch
    obtain ⟨cands, hcands, hcorr⟩ := hsearch
    have hne : cands ≠ [] := by
      intro h0
      rw [h0, correlateAndReturn_nil] at hcorr
      simp at hcorr
    obtain ⟨foundLoops, sorted, hfound, hsorted, hret⟩ :=
      correlateAndReturn_run _ _ _ _ _ _ _ _ _ hne _ hcorr
    obtain ⟨hperm, hlen, hpair⟩ := sortLoops_spec foundLoops sorted hsorted
    obtain ⟨_, m, hm, hout, hmin⟩ := returnLoops_spec _ hk sorted loops true out hret
    have hm' : m = min cfg.m_loopsToReturn.toNat foundLoops.length := by
      rw [hmin hk0, hlen]
    subst hm'
    have hsplit : sorted.take (min cfg.m_loopsToReturn.toNat foundLoops.length) ++
        sorted.drop (min cfg.m_loopsToReturn.toNat foundLoops.length) = sorted :=
      List.take_append_drop _ _
    have hpair' := hpair
    rw [← hsplit, List.pairwise_append] at hpair'
    refine ⟨strongest, range.1, range.2, cands, foundLoops, sorted, _, hstrong, hrange, hcands,
      hfound, hsorted, hperm, hpair, rfl, hout, ?_, hpair'.1, ?_, ?_⟩
    · rw [List.length_take]
      omega
    · intro x hx
      exact hperm.subset (List.mem_of_mem_take hx)
    · intro x hx y hy
      exact hpair'.2.2 y hy x hx

/-- Witness for `AutoFindLoops_returns_best`: a stereo buffer of 50 samples searched from
10 to 80 percent, three loops to return out of the six that are accepted. -/
theorem AutoFindLoops_returns_best_witness :
    AutoFindLoops ⟨2, rnd (1/8000), 0, 32767000, 100, 3, 2⟩ (fun x => x) ⟨0, 0, 0, 0⟩
      (fun i => ((i * i % 7 : Nat) : ℚ)) 50 2 8000 [((1, 1), 1)] false 10 80 =
      some (true, [((1, 1), 1), ((2, 2), 51/10), ((6, 6), 51/10), ((7, 7), 59/10)]) ∧
    ∃ strongest a b cands foundLoops sorted appended,
      findStrongestChannel (fun i => ((i * i % 7 : Nat) : ℚ)) 50 2 0 = some strongest ∧
      searchRange (fun i => ((i * i % 7 : Nat) : ℚ)) 50 2 8000 strongest.1 ⟨0, 0, 0, 0⟩ false
        10 80 = some (some (a, b)) ∧
      loopCandidatesOf ⟨2, rnd (1/8000), 0, 32767000, 100, 3, 2⟩
        (fun i => ((i * i % 7 : Nat) : ℚ)) 2 strongest.2 a b = some cands ∧
      pairCandidates ⟨2, rnd (1/8000), 0, 32767000, 100, 3, 2⟩ (fun x => x) 0
        (fun i => ((i * i % 7 : Nat) : ℚ)) 2 8000 strongest.2 cands = some foundLoops ∧
      sortLoops foundLoops = some sorted ∧ sorted.Perm foundLoops ∧
      sorted.Pairwise (fun x y => x.2 ≤ y.2) ∧
      appended = sorted.take (min (3 : Int).toNat foundLoops.length) ∧
      [((1, 1), 1), ((2, 2), 51/10), ((6, 6), 51/10), ((7, 7), 59/10)] =
        [((1, 1), (1 : ℚ))] ++ appended ∧
      appended.length = min (3 : Int).toNat foundLoops.length ∧
      appended.Pairwise (fun x y => x.2 ≤ y.2) ∧
      (∀ x, x ∈ appended → x ∈ foundLoops) ∧
      (∀ x, x ∈ sorted.drop (min (3 : Int).toNat foundLoops.length) →
        ∀ y, y ∈ appended → y.2 ≤ x.2) :=
  ⟨by decide!,
    AutoFindLoops_returns_best ⟨2, rnd (1/8000), 0, 32767000, 100, 3, 2⟩ (fun x => x)
      ⟨0, 0, 0, 0⟩ (fun i => ((i * i % 7 : Nat) : ℚ)) 50 2 8000 [((1, 1), 1)] false 10 80
      [((1, 1), 1), ((2, 2), 51/10), ((6, 6), 51/10), ((7, 7), 59/10)]
      (by decide) (by decide) (by decide!)⟩

/-- What an invalid search range is: in auto-sustain mode the scan from the front ends
behind the scan from the back, in percentage mode the end percentage is below the start
percentage. -/
theorem searchRange_none (data : Nat → ℚ) (arrayLength numberOfChannels samplerate : Nat)
    (maxValue : ℚ) (indet : Indeterminate) (auto : Bool) (startPercentage endPercentage : Int)
    (h : searchRange data arrayLength numberOfChannels samplerate maxValue indet auto
      startPercentage endPercentage = some none) :
    (auto = true ∧ ∃ s e,
      autoSustainStart data arrayLength numberOfChannels samplerate indet.sustainStartIndex =
        some s ∧
      autoSustainEnd data arrayLength numberOfChannels samplerate maxValue
        indet.sustainEndIndex = some e ∧ s > e) ∨
    (auto = false ∧ endPercentage < startPercentage) := by
  unfold searchRange at h
  cases auto with
  | true =>
    left
    rw [if_pos rfl, Option.bind_eq_some] at h
    obtain ⟨s, hs, h⟩ := h
    rw [Option.bind_eq_some] at h
    obtain ⟨e, he, h⟩ := h
    refine ⟨rfl, s, e, hs, he, ?_⟩
    by_contra hcon
    rw [if_neg hcon] at h
    simp at h
  | false =>
    right
    rw [if_neg (by simp)] at h
    refine ⟨rfl, ?_⟩
    by_contra hcon
    rw [if_neg hcon] at h
    simp at h

/-- Whenever `AutoFindLoops` returns, it returns `false` exactly when the search range is
invalid or no loop was accepted (no candidate at all, or an empty `foundLoops`), an invalid
range being an inverted sustain scan or inverted percentages; and when it returns `false`
the vector `loops` is as the caller passed it. -/
theorem AutoFindLoops_failure_cases (cfg : AutoLooping) (sqrt : ℚ → ℚ) (indet : Indeterminate)
    (data : Nat → ℚ) (arrayLength numberOfChannels samplerate : Nat)
    (loops : List LoopCandidate) (auto : Bool) (startPercentage endPercentage : Int)
    (ok : Bool) (out : List LoopCandidate)
    (hrun : AutoFindLoops cfg sqrt indet data arrayLength numberOfChannels samplerate loops
      auto startPercentage endPercentage = some (ok, out)) :
    ∃ strongest range,
      findStrongestChannel data arrayLength numberOfChannels indet.strongestChannel =
        some strongest ∧
      searchRange data arrayLength numberOfChannels samplerate strongest.1 indet auto
        startPercentage endPercentage = some range ∧
      (ok = false ↔ range = none ∨ ∃ a b cands, range = some (a, b) ∧
        loopCandidatesOf cfg data numberOfChannels strongest.2 a b = some cands ∧
        (cands = [] ∨ pairCandidates cfg sqrt indet.correlationValue data numberOfChannels
          samplerate strongest.2 cands = some [])) ∧
      (range = none →
        (auto = true ∧ ∃ s e,
          autoSustainStart data arrayLength numberOfChannels samplerate
            indet.sustainStartIndex = some s ∧
          autoSustainEnd data arrayLength numberOfChannels samplerate strongest.1
            indet.sustainEndIndex = some e ∧ s > e) ∨
        (auto = false ∧ endPercentage < startPercentage)) ∧
      (ok = false → out = loops) := by
  obtain ⟨strongest, range, hstrong, hrange, hsearch⟩ := AutoFindLoops_run _ _ _ _ _ _ _ _ _
    _ _ _ hrun
  refine ⟨strongest, range, hstrong, hrange, ?_, ?_, ?_⟩
  · cases range with
    | none =>
      rw [searchLoops_none] at hsearch
      simp only [Option.some.injEq, Prod.mk.injEq] at hsearch
      exact ⟨fun _ => Or.inl rfl, fun _ => hsearch.1.symm⟩
    | some range =>
      rw [searchLoops_some, Option.bind_eq_some] at hsearch
      obtain ⟨cands, hcands, hcorr⟩ := hsearch
      by_cases hne : cands = []
      · rw [hne, correlateAndReturn_nil] at hcorr
        simp only [Option.some.injEq, Prod.mk.injEq] at hcorr
        refine ⟨fun _ => Or.inr ⟨range.1, range.2, cands, rfl, hcands, Or.inl hne⟩,
          fun _ => hcorr.1.symm⟩
      · obtain ⟨foundLoops, sorted, hfound, hsorted, hret⟩ :=
          correlateAndReturn_run _ _ _ _ _ _ _ _ _ hne _ hcorr
        obtain ⟨hperm, _, _⟩ := sortLoops_spec foundLoops sorted hsorted
        have hiff : ok = true ↔ sorted ≠ [] := by
          unfold returnLoops at hret
          by_cases hbig : sorted.length > toSizeT cfg.m_loopsToReturn
          · rw [if_pos hbig, Option.map_eq_some'] at hret
            obtain ⟨ls, _, hret⟩ := hret
            simp only [Prod.mk.injEq] at hret
            refine ⟨fun _ h0 => ?_, fun _ => hret.1.symm⟩
            rw [h0] at hbig
            simp at hbig
          · rw [if_neg hbig] at hret
            by_cases hemp : sorted.isEmpty = false
            · rw [if_pos hemp, Option.map_eq_some'] at hret
              obtain ⟨ls, _, hret⟩ := hret
              simp only [Prod.mk.injEq] at hret
              refine ⟨fun _ h0 => ?_, fun _ => hret.1.symm⟩
              rw [h0] at hemp
              simp at hemp
            · rw [if_neg hemp] at hret
              simp only [Option.some.injEq, Prod.mk.injEq] at hret
              refine ⟨fun ht => ?_, fun hne' => ?_⟩
              · rw [← hret.1] at ht
                simp at ht
              · exfalso
                apply hne'
                cases sorted with
                | nil => rfl
                | cons x xs => simp at hemp
        constructor
        · intro hfalse
          right
          refine ⟨range.1, range.2, cands, rfl, hcands, Or.inr ?_⟩
          have hsnil : sorted = [] := by
            by_contra hcon
            have := hiff.mpr hcon
            rw [hfalse] at this
            simp at this
          rw [hsnil] at hperm
          rw [hfound, hperm.symm.eq_nil]
        · rintro (h0 | ⟨a', b', cands', hr, hcands', hcase⟩)
          · simp at h0
          · simp only [Option.some.injEq] at hr
            subst hr
            rw [hcands] at hcands'
            simp only [Option.some.injEq] at hcands'
            subst hcands'
            rcases hcase with h1 | h1
            · exact absurd h1 hne
            · rw [hfound] at h1
              simp only [Option.some.injEq] at h1
              rw [h1] at hperm
              have hsnil : sorted = [] := hperm.eq_nil
              cases hok : ok with
              | false => rfl
              | true => exact absurd hsnil (hiff.mp hok)
  · intro hnone
    rw [hnone] at hrange
    exact searchRange_none _ _ _ _ _ _ _ _ _ hrange
  · intro hfalse
    cases range with
    | none =>
      rw [searchLoops_none] at hsearch
      simp only [Option.some.injEq, Prod.mk.injEq] at hsearch
      exact hsearch.2.symm
    | some range =>
      rw [searchLoops_some, Option.bind_eq_some] at hsearch
      obtain ⟨cands, hcands, hcorr⟩ := hsearch
      by_cases hne : cands = []
      · rw [hne, correlateAndReturn_nil] at hcorr
        simp only [Option.some.injEq, Prod.mk.injEq] at hcorr
        exact hcorr.2.symm
      · obtain ⟨foundLoops, sorted, hfound, hsorted, hret⟩ :=
          correlateAndReturn_run _ _ _ _ _ _ _ _ _ hne _ hcorr
        unfold returnLoops at hret
        by_cases hbig : sorted.length > toSizeT cfg.m_loopsToReturn
        · rw [if_pos hbig, Option.map_eq_some'] at hret
          obtain ⟨ls, _, hret⟩ := hret
          simp only [Prod.mk.injEq] at hret
          rw [hfalse] at hret
          simp at hret
        · rw [if_neg hbig] at hret
          by_cases hemp : sorted.isEmpty = false
          · rw [if_pos hemp, Option.map_eq_some'] at hret
            obtain ⟨ls, _, hret⟩ := hret
            simp only [Prod.mk.injEq] at hret
            rw [hfalse] at hret
            simp at hret
          · rw [if_neg hemp] at hret
            simp only [Option.some.injEq, Prod.mk.injEq] at hret
            exact hret.2.symm

/-- C10. `AutoFindLoops` returns (at least one channel, indices within 32 bits, the two `int`
limits in the range of `int`; in auto-sustain mode a rate of 20 Hz or more and a buffer of
one window or more, in percentage mode an end index one frame or more into the buffer),
and it returns `false` exactly when the search range is invalid (an inverted sustain scan
or inverted percentages) or no loop was accepted (no candidate at all, or an empty
`foundLoops`); when it returns `false` the vector `loops` is as the caller passed it. The
sample buffer is a `const` argument: the call has no way to write to it, and the embedding
returns no buffer. -/
theorem AutoFindLoops_failure_iff (cfg : AutoLooping) (sqrt : ℚ → ℚ) (indet : Indeterminate)
    (data : Nat → ℚ) (arrayLength numberOfChannels samplerate : Nat)
    (loops : List LoopCandidate) (auto : Bool) (startPercentage endPercentage : Int)
    (hch : 1 ≤ numberOfChannels) (hfit : arrayLength + 5 * numberOfChannels < U32)
    (hmax : cfg.m_maxCandidates < 2147483648) (hk : cfg.m_loopsToReturn < 2147483648)
    (hauto : auto = true → 20 ≤ samplerate ∧ samplerate / 20 * numberOfChannels ≤ arrayLength ∧
      indet.sustainEndIndex < U32)
    (hpct : auto = false → numberOfChannels ≤ percentIndex endPercentage arrayLength) :
    ∃ ok out strongest range,
      AutoFindLoops cfg sqrt indet data arrayLength numberOfChannels samplerate loops auto
        startPercentage endPercentage = some (ok, out) ∧
      findStrongestChannel data arrayLength numberOfChannels indet.strongestChannel =
        some strongest ∧
      searchRange data arrayLength numberOfChannels samplerate strongest.1 indet auto
        startPercentage endPercentage = some range ∧
      (ok = false ↔ range = none ∨ ∃ a b cands, range = some (a, b) ∧
        loopCandidatesOf cfg data numberOfChannels strongest.2 a b = some cands ∧
        (cands = [] ∨ pairCandidates cfg sqrt indet.correlationValue data numberOfChannels
          samplerate strongest.2 cands = some [])) ∧
      (range = none →
        (auto = true ∧ ∃ s e,
          autoSustainStart data arrayLength numberOfChannels samplerate
            indet.sustainStartIndex = some s ∧
          autoSustainEnd data arrayLength numberOfChannels samplerate strongest.1
            indet.sustainEndIndex = some e ∧ s > e) ∨
        (auto = false ∧ endPercentage < startPercentage)) ∧
      (ok = false → out = loops) := by
  obtain ⟨⟨ok, out⟩, hrun⟩ := AutoFindLoops_total cfg sqrt indet data arrayLength
    numberOfChannels samplerate loops auto startPercentage endPercentage hch hfit hmax hk
    hauto hpct
  obtain ⟨strongest, range, h1, h2, h3, h4, h5⟩ := AutoFindLoops_failure_cases cfg sqrt indet
    data arrayLength numberOfChannels samplerate loops auto startPercentage endPercentage ok
    out hrun
  exact ⟨ok, out, strongest, range, hrun, h1, h2, h3, h4, h5⟩

/-- Witness for `AutoFindLoops_failure_iff`: a mono buffer of 24 samples at rate 4, a vector
`loops` with one entry, and the inverted percentages 80 and 20. -/
theorem AutoFindLoops_failure_iff_witness :
    AutoFindLoops ⟨1/2, 1, 0, 1000, 100, 1, 1⟩ (fun x => x) ⟨0, 0, 0, 0⟩
      (fun i => if i % 4 < 2 then 0 else 1) 24 1 4 [((1, 2), 3)] false 80 20 =
      some (false, [((1, 2), 3)]) ∧
    ∃ ok out strongest range,
      AutoFindLoops ⟨1/2, 1, 0, 1000, 100, 1, 1⟩ (fun x => x) ⟨0, 0, 0, 0⟩
        (fun i => if i % 4 < 2 then 0 else 1) 24 1 4 [((1, 2), 3)] false 80 20 =
        some (ok, out) ∧
      findStrongestChannel (fun i => if i % 4 < 2 then 0 else 1) 24 1 0 = some strongest ∧
      searchRange (fun i => if i % 4 < 2 then 0 else 1) 24 1 4 strongest.1 ⟨0, 0, 0, 0⟩ false
        80 20 = some range ∧
      (ok = false ↔ range = none ∨ ∃ a b cands, range = some (a, b) ∧
        loopCandidatesOf ⟨1/2, 1, 0, 1000, 100, 1, 1⟩ (fun i => if i % 4 < 2 then 0 else 1) 1
          strongest.2 a b = some cands ∧
        (cands = [] ∨ pairCandidates ⟨1/2, 1, 0, 1000, 100, 1, 1⟩ (fun x => x) 0
          (fun i => if i % 4 < 2 then 0 else 1) 1 4 strongest.2 cands = some [])) ∧
      (range = none →
        (false = true ∧ ∃ s e,
          autoSustainStart (fun i => if i % 4 < 2 then 0 else 1) 24 1 4 0 = some s ∧
          autoSustainEnd (fun i => if i % 4 < 2 then 0 else 1) 24 1 4 strongest.1 0 =
            some e ∧ s > e) ∨
        (false = false ∧ (20 : Int) < 80)) ∧
      (ok = false → out = [((1, 2), 3)]) :=
  ⟨by decide!,
    AutoFindLoops_failure_iff ⟨1/2, 1, 0, 1000, 100, 1, 1⟩ (fun x => x) ⟨0, 0, 0, 0⟩
      (fun i => if i % 4 < 2 then 0 else 1) 24 1 4 [((1, 2), 3)] false 80 20
      (by decide) (by decide) (by decide) (by decide) (fun h => absurd h (by decide))
      (fun _ => by decide!)⟩

/-! ## PerformCrossfade: the tables and the loops -/

/-- A loop whose test fails at once returns its state. -/
theorem forLoop_exit {σ : Type} (cond : Nat → Bool) (incr : Nat → Nat)
    (body : Nat → σ → Option (Step σ)) (i : Nat) (s : σ) (h : cond i = false) :
    forLoop cond incr body U32 i s = some s := by
  have hU : U32 = 4294967295 + 1 := rfl
  rw [hU, forLoop_succ, h]
  rfl

/-- The table loop writes `curve 0`, ..., `curve (samplesToFade - 1)`. -/
theorem fadeTable_spec (curve : Nat → Double) (n : Nat) (hn : n < U32) :
    fadeTable curve n = some ((List.range n).map curve) := by
  unfold fadeTable
  apply eq_some_of_exists
  refine forLoop_count n _
    (fun i (t : List Double) => i ≤ n ∧ t = (List.range i).map curve)
    (fun t => t = (List.range n).map curve) ?_ ?_ hn 0 [] ⟨Nat.zero_le _, rfl⟩
  · intro i t ⟨hi, ht⟩ hlt
    left
    refine ⟨_, rfl, by omega, ?_⟩
    rw [ht, List.range_succ, List.map_append, List.map_singleton]
  · intro i t ⟨hi, ht⟩ hge
    have : i = n := by omega
    rw [ht, this]

/-- Reading a curve table inside its length. -/
theorem table_get (curve : Nat → Double) (n i : Nat) (hi : i < n) :
    ((List.range n).map curve)[i]? = some (curve i) := by
  rw [List.getElem?_map, List.getElem?_range hi]
  rfl

/-- A finite target sample with weight 0 and a source sample with weight 1 blend to the
source sample. -/
theorem blend_zero_one (x : ℚ) (y : Double) :
    dadd (dmul (some x) (some 0)) (dmul y (some 1)) = y := by
  cases y with
  | none => rfl
  | some v =>
    show some (x * 0 + v * 1) = some v
    rw [mul_zero, mul_one, zero_add]

/-- One frame of a crossfade: the loop over the channels returns when both frames lie in
the array, changes the target frame only, and blends each of its samples with the sample
of the source frame. -/
theorem blendFrame_spec (AL ch : Nat) (table : List Double) (iT iS : Nat) (wT wS : Double)
    (target source : Nat) (a : Nat → Double) (hT : table[iT]? = some wT)
    (hS : table[iS]? = some wS) (hst : source + ch ≤ target) (hfit : target + ch ≤ AL)
    (hAL : AL < U32) :
    ∃ a', blendFrame AL ch table iT iS target source a = some a' ∧
      (∀ idx, idx < target ∨ target + ch ≤ idx → a' idx = a idx) ∧
      ∀ j, j < ch → a' (target + j) = dadd (dmul (a (target + j)) wT)
        (dmul (a (source + j)) wS) := by
  unfold blendFrame
  refine forLoop_count ch _
    (fun j (b : Nat → Double) => j ≤ ch ∧
      (∀ idx, idx < target ∨ target + j ≤ idx → b idx = a idx) ∧
      ∀ j', j' < j → b (target + j') = dadd (dmul (a (target + j')) wT)
        (dmul (a (source + j')) wS))
    (fun b => (∀ idx, idx < target ∨ target + ch ≤ idx → b idx = a idx) ∧
      ∀ j, j < ch → b (target + j) = dadd (dmul (a (target + j)) wT)
        (dmul (a (source + j)) wS))
    ?_ ?_ (by omega) 0 a ⟨Nat.zero_le _, fun _ _ => rfl, fun j' h => absurd h (by omega)⟩
  · intro j b ⟨hj, hframe, hdone⟩ hlt
    left
    have h1 : uadd target j = target + j := uadd_eq (by omega)
    have h2 : uadd source j = source + j := uadd_eq (by omega)
    refine ⟨Function.update b (target + j)
      (dadd (dmul (b (target + j)) wT) (dmul (b (source + j)) wS)), ?_, by omega, ?_, ?_⟩
    · simp only [h1, h2, hT, hS, Option.some_bind, Option.map_some']
      rw [if_pos ⟨by omega, by omega⟩]
    · intro idx hidx
      rw [Function.update_noteq (by omega)]
      exact hframe idx (by omega)
    · intro j' hj'
      by_cases hjj : j' = j
      · rw [hjj, Function.update_same, hframe (target + j) (by omega),
          hframe (source + j) (by omega)]
      · rw [Function.update_noteq (by omega)]
        exact hdone j' (by omega)
  · intro j b ⟨hj, hframe, hdone⟩ hge
    have : j = ch := by omega
    rw [this] at hframe hdone
    exact ⟨hframe, hdone⟩

/-- A crossfade loop over `n` frames whose source frames lie before their target frames
returns when the target frames lie in the array; it changes the target frames only, and a
target frame whose own weight is 0 and whose source weight is 1 ends up equal to its source
frame. -/
theorem crossfadeLoop_spec (fh : FileHandling) (table : List Double) (n : Nat)
    (iT iS : Nat → Nat) (T0 S0 : Nat) (a0 : Nat → Double)
    (htab : ∀ i, i < n → ∃ wT wS, table[iT i]? = some wT ∧ table[iS i]? = some wS)
    (hst : S0 + fh.m_channels ≤ T0) (hfit : T0 + n * fh.m_channels ≤ fh.ArrayLength)
    (hAL : fh.ArrayLength < U32) (hn : n < U32) :
    ∃ out, crossfadeLoop fh table n iT iS T0 S0 a0 = some out ∧
      (∀ idx, idx < T0 ∨ T0 + n * fh.m_channels ≤ idx → out idx = a0 idx) ∧
      ∀ k, k < n → table[iT k]? = some (some 0) → table[iS k]? = some (some 1) →
        (∀ j, j < fh.m_channels → ∃ x, a0 (T0 + k * fh.m_channels + j) = some x) →
        ∀ j, j < fh.m_channels →
          out (T0 + k * fh.m_channels + j) = out (S0 + k * fh.m_channels + j) := by
  unfold crossfadeLoop
  apply map_eq_some_of_exists
  refine forLoop_stride n 1 (Nat.le_refl 1) (by omega) _
    (fun i (st : (Nat → Double) × Nat × Nat) => i ≤ n ∧
      st.2.1 = T0 + i * fh.m_channels ∧ st.2.2 = S0 + i * fh.m_channels ∧
      (∀ idx, idx < T0 ∨ T0 + i * fh.m_channels ≤ idx → st.1 idx = a0 idx) ∧
      ∀ k, k < i → table[iT k]? = some (some 0) → table[iS k]? = some (some 1) →
        (∀ j, j < fh.m_channels → ∃ x, a0 (T0 + k * fh.m_channels + j) = some x) →
        ∀ j, j < fh.m_channels →
          st.1 (T0 + k * fh.m_channels + j) = st.1 (S0 + k * fh.m_channels + j))
    (fun st => (∀ idx, idx < T0 ∨ T0 + n * fh.m_channels ≤ idx → st.1 idx = a0 idx) ∧
      ∀ k, k < n → table[iT k]? = some (some 0) → table[iS k]? = some (some 1) →
        (∀ j, j < fh.m_channels → ∃ x, a0 (T0 + k * fh.m_channels + j) = some x) →
        ∀ j, j < fh.m_channels →
          st.1 (T0 + k * fh.m_channels + j) = st.1 (S0 + k * fh.m_channels + j))
    ?_ ?_ 0 (a0, T0, S0)
    ⟨Nat.zero_le _, by simp, by simp, fun _ _ => rfl, fun k h => absurd h (by omega)⟩
  · intro i st ⟨hi, hT, hS, hframe, hdone⟩ hlt
    left
    obtain ⟨wT, wS, hwT, hwS⟩ := htab i hlt
    have hmul : (i + 1) * fh.m_channels ≤ n * fh.m_channels :=
      Nat.mul_le_mul_right _ (by omega)
    rw [Nat.add_mul, Nat.one_mul] at hmul
    obtain ⟨a', ha', hkeep, hblend⟩ := blendFrame_spec fh.ArrayLength fh.m_channels table
      (iT i) (iS i) wT wS st.2.1 st.2.2 st.1 hwT hwS (by omega) (by omega) hAL
    have h1 : uadd st.2.1 fh.m_channels = T0 + (i + 1) * fh.m_channels := by
      rw [uadd_eq (by omega), hT, Nat.add_mul, Nat.one_mul]
      omega
    have h2 : uadd st.2.2 fh.m_channels = S0 + (i + 1) * fh.m_channels := by
      rw [uadd_eq (by omega), hS, Nat.add_mul, Nat.one_mul]
      omega
    refine ⟨(a', uadd st.2.1 fh.m_channels, uadd st.2.2 fh.m_channels), ?_, by omega, h1, h2,
      ?_, ?_⟩
    · show Option.map _ (blendFrame fh.ArrayLength fh.m_channels table (iT i) (iS i) st.2.1
        st.2.2 st.1) = _
      rw [ha']
      rfl
    · intro idx hidx
      show a' idx = a0 idx
      rw [Nat.add_mul, Nat.one_mul] at hidx
      rw [hkeep idx (by omega)]
      exact hframe idx (by omega)
    · intro k hk h0 h1' hfin j hj
      show a' (T0 + k * fh.m_channels + j) = a' (S0 + k * fh.m_channels + j)
      by_cases hki : k = i
      · subst hki
        rw [hwT] at h0
        rw [hwS] at h1'
        simp only [Option.some.injEq] at h0 h1'
        obtain ⟨x, hx⟩ := hfin j hj
        have hb := hblend j hj
        rw [hT, hS] at hb
        rw [hb, hframe _ (by omega), hx, h0, h1', blend_zero_one,
          hkeep (S0 + k * fh.m_channels + j) (by omega)]
      · have hlt' : (k + 1) * fh.m_channels ≤ i * fh.m_channels :=
          Nat.mul_le_mul_right _ (by omega)
        rw [Nat.add_mul, Nat.one_mul] at hlt'
        rw [hkeep (T0 + k * fh.m_channels + j) (by omega),
          hkeep (S0 + k * fh.m_channels + j) (by omega)]
        exact hdone k (by omega) h0 h1' hfin j hj
  · intro i st ⟨hi, hT, hS, hframe, hdone⟩ hge
    have : i = n := by omega
    rw [this] at hframe hdone
    exact ⟨hframe, hdone⟩

/-! ## PerformCrossfade: the clamped lengths and the indices -/

theorem toUnsigned_lt (x : ℚ) : toUnsigned x < U32 := by
  unfold toUnsigned
  exact Nat.mod_lt _ (by unfold U32; omega)

/-- After the first check `samplesToFade` does not reach before sample 0. -/
theorem samplesToFade_le (fh : FileHandling) (lp : LOOPDATA) (fadeLength : ℚ) :
    samplesToFade fh lp fadeLength ≤ lp.dwStart ∧ samplesToFade fh lp fadeLength < U32 := by
  unfold samplesToFade
  have := toUnsigned_lt (rnd ((fh.m_samplerate : ℚ) * fadeLength))
  split <;> omega

/-- After the second check `samplesToFadeOut` does not reach past the end of the buffer. -/
theorem samplesToFadeOut_le (fh : FileHandling) (lp : LOOPDATA) (fadeLength : ℚ)
    (hin : CrossfadeInput fh lp fadeLength) :
    (lp.dwEnd + 1 + samplesToFadeOut fh lp fadeLength) * fh.m_channels ≤ fh.ArrayLength ∧
      samplesToFadeOut fh lp fadeLength < U32 := by
  obtain ⟨_, hch, hAL, hse, hend, hreq⟩ := hin
  have hR := toUnsigned_lt (rnd ((fh.m_samplerate : ℚ) * fadeLength))
  have hsum : toUnsigned (rnd ((fh.m_samplerate : ℚ) * fadeLength)) + lp.dwEnd + 1 < U32 := by
    have := Nat.le_mul_of_pos_right
      (toUnsigned (rnd ((fh.m_samplerate : ℚ) * fadeLength)) + lp.dwEnd + 1) hch
    omega
  have h1 : uadd (uadd (toUnsigned (rnd ((fh.m_samplerate : ℚ) * fadeLength))) lp.dwEnd) 1 =
      toUnsigned (rnd ((fh.m_samplerate : ℚ) * fadeLength)) + lp.dwEnd + 1 := by
    have ha : uadd (toUnsigned (rnd ((fh.m_samplerate : ℚ) * fadeLength))) lp.dwEnd =
        toUnsigned (rnd ((fh.m_samplerate : ℚ) * fadeLength)) + lp.dwEnd := uadd_eq (by omega)
    rw [ha]
    exact uadd_eq (by omega)
  have hframes : lp.dwEnd + 1 ≤ fh.ArrayLength / fh.m_channels :=
    (Nat.le_div_iff_mul_le (by omega)).mpr hend
  unfold samplesToFadeOut
  rw [h1, umul_eq hreq]
  by_cases hbig : (toUnsigned (rnd ((fh.m_samplerate : ℚ) * fadeLength)) + lp.dwEnd + 1) *
      fh.m_channels > fh.ArrayLength
  · rw [if_pos hbig, uadd_eq (by omega),
      usub_eq hframes (lt_of_le_of_lt (Nat.div_le_self _ _) hAL)]
    refine ⟨?_, by have := Nat.div_le_self fh.ArrayLength fh.m_channels; omega⟩
    rw [Nat.add_sub_cancel' hframes]
    exact Nat.div_mul_le_self _ _
  · rw [if_neg hbig]
    refine ⟨?_, hR⟩
    have : lp.dwEnd + 1 + toUnsigned (rnd ((fh.m_samplerate : ℚ) * fadeLength)) =
        toUnsigned (rnd ((fh.m_samplerate : ℚ) * fadeLength)) + lp.dwEnd + 1 := by omega
    rw [this]
    omega

/-- The four start indices of `PerformCrossfade`, without wrapping. -/
theorem crossfade_indices (fh : FileHandling) (lp : LOOPDATA) (n : Nat) (hch : 1 ≤ fh.m_channels)
    (hAL : fh.ArrayLength < U32) (hse : lp.dwStart ≤ lp.dwEnd)
    (hend : (lp.dwEnd + 1) * fh.m_channels ≤ fh.ArrayLength) (hn : n ≤ lp.dwStart) :
    umul (usub lp.dwEnd (usub n 1)) fh.m_channels = (lp.dwEnd + 1 - n) * fh.m_channels ∧
    umul (usub lp.dwStart n) fh.m_channels = (lp.dwStart - n) * fh.m_channels ∧
    umul (uadd lp.dwEnd 1) fh.m_channels = (lp.dwEnd + 1) * fh.m_channels ∧
    umul lp.dwStart fh.m_channels = lp.dwStart * fh.m_channels := by
  have hE : lp.dwEnd + 1 < U32 := by
    have := Nat.le_mul_of_pos_right (lp.dwEnd + 1) hch
    omega
  have hT : usub lp.dwEnd (usub n 1) = lp.dwEnd + 1 - n := by
    unfold usub U32 at *
    omega
  have hS : usub lp.dwStart n = lp.dwStart - n := usub_eq hn (by omega)
  have hm1 : (lp.dwEnd + 1 - n) * fh.m_channels ≤ (lp.dwEnd + 1) * fh.m_channels :=
    Nat.mul_le_mul_right _ (by omega)
  have hm2 : (lp.dwStart - n) * fh.m_channels ≤ (lp.dwEnd + 1) * fh.m_channels :=
    Nat.mul_le_mul_right _ (by omega)
  have hm3 : lp.dwStart * fh.m_channels ≤ (lp.dwEnd + 1) * fh.m_channels :=
    Nat.mul_le_mul_right _ (by omega)
  rw [hT, hS, uadd_eq hE]
  exact ⟨umul_eq (by omega), umul_eq (by omega), umul_eq (by omega), umul_eq (by omega)⟩

/-- Both table positions of round `i` of a crossfade loop hold an entry. -/
theorem crossfade_weights (curve : Nat → Double) (n : Nat) (hn : n < U32) (i : Nat)
    (hi : i < n) :
    ((List.range n).map curve)[usub (usub n 1) i]? = some (curve (n - 1 - i)) ∧
      ((List.range n).map curve)[i]? = some (curve i) := by
  have h1 : usub (usub n 1) i = n - 1 - i := by
    rw [usub_eq (by omega) hn, usub_eq (by omega) (by omega)]
  rw [h1]
  exact ⟨table_get curve n (n - 1 - i) (by omega), table_get curve n i hi⟩

/-- `PerformCrossfade` is its two crossfade loops, run on the two curve tables from the
frames `dwEnd + 1 - samplesToFade` / `dwStart - samplesToFade` and `dwEnd + 1` /
`dwStart`. -/
theorem PerformCrossfade_eq (m : CMath) (fh : FileHandling) (audioData : Nat → Double)
    (lp : LOOPDATA) (fadeLength : ℚ) (fadeType : Int)
    (hin : CrossfadeInput fh lp fadeLength) :
    PerformCrossfade m fh audioData lp fadeLength fadeType =
      (crossfadeLoop fh
        ((List.range (samplesToFade fh lp fadeLength)).map
          (curveValue m fadeType (samplesToFade fh lp fadeLength)))
        (samplesToFade fh lp fadeLength)
        (fun i => usub (usub (samplesToFade fh lp fadeLength) 1) i) (fun i => i)
        ((lp.dwEnd + 1 - samplesToFade fh lp fadeLength) * fh.m_channels)
        ((lp.dwStart - samplesToFade fh lp fadeLength) * fh.m_channels) audioData).bind
      fun faded =>
        crossfadeLoop fh
          ((List.range (samplesToFadeOut fh lp fadeLength)).map
            (curveValue m fadeType (samplesToFadeOut fh lp fadeLength)))
          (samplesToFadeOut fh lp fadeLength) (fun i => i)
          (fun i => usub (usub (samplesToFadeOut fh lp fadeLength) 1) i)
          ((lp.dwEnd + 1) * fh.m_channels) (lp.dwStart * fh.m_channels) faded := by
  obtain ⟨hN, hNU⟩ := samplesToFade_le fh lp fadeLength
  obtain ⟨hM, hMU⟩ := samplesToFadeOut_le fh lp fadeLength hin
  obtain ⟨_, hch, hAL, hse, hend, hreq⟩ := hin
  obtain ⟨h1, h2, h3, h4⟩ := crossfade_indices fh lp (samplesToFade fh lp fadeLength) hch hAL
    hse hend hN
  unfold PerformCrossfade
  rw [fadeTable_spec _ _ hNU, Option.some_bind, fadeTable_spec _ _ hMU, Option.some_bind,
    h1, h2, h3, h4]

/-- A run of `PerformCrossfade`: it returns, so no index leaves the arrays; the first loop
changes the frames from `dwEnd + 1 - samplesToFade` to `dwEnd` only, the second loop the
frames from `dwEnd + 1` to `dwEnd + samplesToFadeOut` only; and a target frame whose own
weight is 0 and whose source weight is 1 ends up equal to its source frame. -/
theorem PerformCrossfade_run (m : CMath) (fh : FileHandling) (audioData : Nat → Double)
    (lp : LOOPDATA) (fadeLength : ℚ) (fadeType : Int)
    (hin : CrossfadeInput fh lp fadeLength) :
    ∃ (faded out : Nat → Double),
      PerformCrossfade m fh audioData lp fadeLength fadeType = some out ∧
      (∀ idx, idx < (lp.dwEnd + 1 - samplesToFade fh lp fadeLength) * fh.m_channels ∨
        (lp.dwEnd + 1) * fh.m_channels ≤ idx → faded idx = audioData idx) ∧
      (∀ idx, idx < (lp.dwEnd + 1) * fh.m_channels ∨
        (lp.dwEnd + 1 + samplesToFadeOut fh lp fadeLength) * fh.m_channels ≤ idx →
        out idx = faded idx) ∧
      (∀ k, k < samplesToFade fh lp fadeLength →
        curveValue m fadeType (samplesToFade fh lp fadeLength)
          (samplesToFade fh lp fadeLength - 1 - k) = some 0 →
        curveValue m fadeType (samplesToFade fh lp fadeLength) k = some 1 →
        (∀ j, j < fh.m_channels → ∃ x, audioData
          ((lp.dwEnd + 1 - samplesToFade fh lp fadeLength) * fh.m_channels +
            k * fh.m_channels + j) = some x) →
        ∀ j, j < fh.m_channels →
          faded ((lp.dwEnd + 1 - samplesToFade fh lp fadeLength) * fh.m_channels +
            k * fh.m_channels + j) =
          faded ((lp.dwStart - samplesToFade fh lp fadeLength) * fh.m_channels +
            k * fh.m_channels + j)) ∧
      (∀ k, k < samplesToFadeOut fh lp fadeLength →
        curveValue m fadeType (samplesToFadeOut fh lp fadeLength) k = some 0 →
        curveValue m fadeType (samplesToFadeOut fh lp fadeLength)
          (samplesToFadeOut fh lp fadeLength - 1 - k) = some 1 →
        (∀ j, j < fh.m_channels → ∃ x, faded
          ((lp.dwEnd + 1) * fh.m_channels + k * fh.m_channels + j) = some x) →
        ∀ j, j < fh.m_channels →
          out ((lp.dwEnd + 1) * fh.m_channels + k * fh.m_channels + j) =
          out (lp.dwStart * fh.m_channels + k * fh.m_channels + j)) := by
  obtain ⟨hN, hNU⟩ := samplesToFade_le fh lp fadeLength
  obtain ⟨hM, hMU⟩ := samplesToFadeOut_le fh lp fadeLength hin
  rw [PerformCrossfade_eq m fh audioData lp fadeLength fadeType hin]
  obtain ⟨_, hch, hAL, hse, hend, hreq⟩ := hin
  have hsub : (lp.dwEnd + 1 - samplesToFade fh lp fadeLength) * fh.m_channels +
      samplesToFade fh lp fadeLength * fh.m_channels = (lp.dwEnd + 1) * fh.m_channels := by
    rw [← Nat.add_mul, Nat.sub_add_cancel (by omega)]
  have hst1 : (lp.dwStart - samplesToFade fh lp fadeLength) * fh.m_channels + fh.m_channels ≤
      (lp.dwEnd + 1 - samplesToFade fh lp fadeLength) * fh.m_channels := by
    have := Nat.mul_le_mul_right fh.m_channels
      (show lp.dwStart - samplesToFade fh lp fadeLength + 1 ≤
        lp.dwEnd + 1 - samplesToFade fh lp fadeLength by omega)
    rw [Nat.add_mul, Nat.one_mul] at this
    exact this
  have hst2 : lp.dwStart * fh.m_channels + fh.m_channels ≤ (lp.dwEnd + 1) * fh.m_channels := by
    have := Nat.mul_le_mul_right fh.m_channels (show lp.dwStart + 1 ≤ lp.dwEnd + 1 by omega)
    rw [Nat.add_mul, Nat.one_mul] at this
    exact this
  have hfit2 : (lp.dwEnd + 1) * fh.m_channels +
      samplesToFadeOut fh lp fadeLength * fh.m_channels ≤ fh.ArrayLength := by
    rw [← Nat.add_mul]
    exact hM
  obtain ⟨faded, hfaded, hkeep1, hspec1⟩ := crossfadeLoop_spec fh
    ((List.range (samplesToFade fh lp fadeLength)).map
      (curveValue m fadeType (samplesToFade fh lp fadeLength)))
    (samplesToFade fh lp fadeLength)
    (fun i => usub (usub (samplesToFade fh lp fadeLength) 1) i) (fun i => i)
    ((lp.dwEnd + 1 - samplesToFade fh lp fadeLength) * fh.m_channels)
    ((lp.dwStart - samplesToFade fh lp fadeLength) * fh.m_channels) audioData
    (fun i hi => ⟨_, _, (crossfade_weights _ _ hNU i hi).1, (crossfade_weights _ _ hNU i hi).2⟩)
    hst1 (by omega) hAL hNU
  obtain ⟨out, hout, hkeep2, hspec2⟩ := crossfadeLoop_spec fh
    ((List.range (samplesToFadeOut fh lp fadeLength)).map
      (curveValue m fadeType (samplesToFadeOut fh lp fadeLength)))
    (samplesToFadeOut fh lp fadeLength) (fun i => i)
    (fun i => usub (usub (samplesToFadeOut fh lp fadeLength) 1) i)
    ((lp.dwEnd + 1) * fh.m_channels) (lp.dwStart * fh.m_channels) faded
    (fun i hi => ⟨_, _, (crossfade_weights _ _ hMU i hi).2, (crossfade_weights _ _ hMU i hi).1⟩)
    hst2 hfit2 hAL hMU
  refine ⟨faded, out, ?_, ?_, ?_, ?_, ?_⟩
  · rw [hfaded, Option.some_bind, hout]
  · intro idx hidx
    exact hkeep1 idx (by omega)
  · intro idx hidx
    have hsplit : (lp.dwEnd + 1 + samplesToFadeOut fh lp fadeLength) * fh.m_channels =
        (lp.dwEnd + 1) * fh.m_channels + samplesToFadeOut fh lp fadeLength * fh.m_channels :=
      Nat.add_mul _ _ _
    rw [hsplit] at hidx
    exact hkeep2 idx hidx
  · intro k hk h0 h1 hfin j hj
    refine hspec1 k hk ?_ ?_ hfin j hj
    · show _ = some (some 0)
      rw [(crossfade_weights _ _ hNU k hk).1, h0]
    · show _ = some (some 1)
      rw [(crossfade_weights _ _ hNU k hk).2, h1]
  · intro k hk h0 h1 hfin j hj
    refine hspec2 k hk ?_ ?_ hfin j hj
    · show _ = some (some 0)
      rw [(crossfade_weights _ _ hMU k hk).2, h0]
    · show _ = some (some 1)
      rw [(crossfade_weights _ _ hMU k hk).1, h1]

/-- C16. For a loop with `dwStart ≤ dwEnd` that ends inside the buffer and every fade
length that is not negative (the requested number of samples does not overflow the check
against `ArrayLength`), the two checks leave `samplesToFade ≤ dwStart` and
`dwEnd + 1 + samplesToFadeOut` at most the number of frames; `PerformCrossfade` returns,
that is every index it reads or writes lies inside the array it indexes; and every sample
outside the frames `dwEnd - samplesToFade + 1` to `dwEnd + samplesToFadeOut` is as it
was. -/
theorem PerformCrossfade_bounds (m : CMath) (fh : FileHandling) (audioData : Nat → Double)
    (lp : LOOPDATA) (fadeLength : ℚ) (fadeType : Int)
    (hin : CrossfadeInput fh lp fadeLength) :
    samplesToFade fh lp fadeLength ≤ lp.dwStart ∧
    lp.dwEnd + 1 + samplesToFadeOut fh lp fadeLength ≤ fh.ArrayLength / fh.m_channels ∧
    ∃ out, PerformCrossfade m fh audioData lp fadeLength fadeType = some out ∧
      ∀ idx, idx < (lp.dwEnd + 1 - samplesToFade fh lp fadeLength) * fh.m_channels ∨
        (lp.dwEnd + 1 + samplesToFadeOut fh lp fadeLength) * fh.m_channels ≤ idx →
        out idx = audioData idx := by
  obtain ⟨faded, out, hout, hkeep1, hkeep2, _, _⟩ := PerformCrossfade_run m fh audioData lp
    fadeLength fadeType hin
  have hM := (samplesToFadeOut_le fh lp fadeLength hin).1
  refine ⟨(samplesToFade_le fh lp fadeLength).1,
    (Nat.le_div_iff_mul_le (by have := hin.2.1; omega)).mpr hM, out, hout, ?_⟩
  intro idx hidx
  have hmono1 : (lp.dwEnd + 1 - samplesToFade fh lp fadeLength) * fh.m_channels ≤
      (lp.dwEnd + 1) * fh.m_channels := Nat.mul_le_mul_right _ (by omega)
  have hmono2 : (lp.dwEnd + 1) * fh.m_channels ≤
      (lp.dwEnd + 1 + samplesToFadeOut fh lp fadeLength) * fh.m_channels :=
    Nat.mul_le_mul_right _ (by omega)
  rw [hkeep2 idx (by omega), hkeep1 idx (by omega)]

/-- Witness for `PerformCrossfade_bounds`: a mono buffer of 10 samples at rate 10, the loop
from 3 to 6 and a fade of 0.2 seconds. -/
theorem PerformCrossfade_bounds_witness :
    samplesToFade ⟨10, 1, 10⟩ ⟨3, 6⟩ (rnd (1/5)) ≤ 3 ∧
    6 + 1 + samplesToFadeOut ⟨10, 1, 10⟩ ⟨3, 6⟩ (rnd (1/5)) ≤ 10 / 1 ∧
    ∃ out, PerformCrossfade ⟨fun x => x, fun x => x, fun x => x, 3⟩ ⟨10, 1, 10⟩
        (fun i => some ((i : ℚ) + 1)) ⟨3, 6⟩ (rnd (1/5)) 0 = some out ∧
      ∀ idx, idx < (6 + 1 - samplesToFade ⟨10, 1, 10⟩ ⟨3, 6⟩ (rnd (1/5))) * 1 ∨
        (6 + 1 + samplesToFadeOut ⟨10, 1, 10⟩ ⟨3, 6⟩ (rnd (1/5))) * 1 ≤ idx →
        out idx = (fun i => some ((i : ℚ) + 1)) idx :=
  PerformCrossfade_bounds ⟨fun x => x, fun x => x, fun x => x, 3⟩ ⟨10, 1, 10⟩
    (fun i => some ((i : ℚ) + 1)) ⟨3, 6⟩ (rnd (1/5)) 0 (by unfold CrossfadeInput; decide!)

/-- C13. On a loop with `dwStart ≤ dwEnd` that ends inside the buffer, `PerformCrossfade`
with `fadeLength = 0` returns the array as it was, whatever the curve type. -/
theorem PerformCrossfade_zero (m : CMath) (fh : FileHandling) (audioData : Nat → Double)
    (lp : LOOPDATA) (fadeType : Int) (hin : CrossfadeInput fh lp 0) :
    PerformCrossfade m fh audioData lp 0 fadeType = some audioData := by
  obtain ⟨faded, out, hout, hkeep1, hkeep2, _, _⟩ := PerformCrossfade_run m fh audioData lp 0
    fadeType hin
  have hz : toUnsigned (rnd ((fh.m_samplerate : ℚ) * 0)) = 0 := by
    rw [mul_zero, rnd_zero]
    unfold toUnsigned
    simp
  have hN : samplesToFade fh lp 0 = 0 := by
    unfold samplesToFade
    rw [hz]
    simp
  have hM : samplesToFadeOut fh lp 0 = 0 := by
    obtain ⟨_, hch, hAL, hse, hend, hreq⟩ := hin
    rw [hz] at hreq
    unfold samplesToFadeOut
    rw [hz]
    have h1 : uadd (uadd 0 lp.dwEnd) 1 = lp.dwEnd + 1 := by
      have hE : lp.dwEnd + 1 < U32 := by
        have := Nat.le_mul_of_pos_right (lp.dwEnd + 1) hch
        omega
      have ha : uadd 0 lp.dwEnd = lp.dwEnd := by
        rw [uadd_eq (by omega)]; omega
      rw [ha]
      exact uadd_eq hE
    rw [h1, umul_eq (by omega), if_neg (by omega)]
  rw [hN, Nat.sub_zero] at hkeep1
  rw [hM, Nat.add_zero] at hkeep2
  rw [hout]
  congr 1
  funext idx
  by_cases hlt : idx < (lp.dwEnd + 1) * fh.m_channels
  · rw [hkeep2 idx (Or.inl hlt)]
    exact hkeep1 idx (Or.inl hlt)
  · rw [hkeep2 idx (Or.inr (by omega))]
    exact hkeep1 idx (Or.inr (by omega))

/-- Witness for `PerformCrossfade_zero`: a stereo buffer of 20 samples and the loop from
frame 3 to frame 6. -/
theorem PerformCrossfade_zero_witness :
    PerformCrossfade ⟨fun x => x, fun x => x, fun x => x, 3⟩ ⟨20, 2, 10⟩
      (fun i => some ((i : ℚ) + 1)) ⟨3, 6⟩ 0 2 = some (fun (i : Nat) => some ((i : ℚ) + 1)) :=
  PerformCrossfade_zero ⟨fun x => x, fun x => x, fun x => x, 3⟩ ⟨20, 2, 10⟩
    (fun i => some ((i : ℚ) + 1)) ⟨3, 6⟩ 2 (by unfold CrossfadeInput; decide!)

/-! ## PerformCrossfade: the curves -/

/-- With two entries or more the table expression is the `double` nearest to the quotient
`i / (n - 1)`. -/
theorem linearAt_eq (n i : Nat) (hn : 2 ≤ n) (hnU : n < U32) :
    linearAt n i = some (rnd ((i : ℚ) / ((n : ℚ) - 1))) := by
  unfold linearAt ddiv
  rw [usub_eq (by omega) hnU]
  have hcast : ((n - 1 : Nat) : ℚ) = (n : ℚ) - 1 := by
    rw [Nat.cast_sub (by omega)]
    simp
  have hne : ((n - 1 : Nat) : ℚ) ≠ 0 := by
    have : (n - 1 : Nat) ≠ 0 := by omega
    exact_mod_cast this
  simp only [Option.some_bind]
  rw [if_neg hne, hcast, mul_one]
  rfl

theorem rnd_one : rnd 1 = 1 := by
  have := rnd_natCast 1 (by norm_num)
  simpa using this

theorem rnd_two : rnd 2 = 2 := by
  have := rnd_natCast 2 (by norm_num)
  simpa using this

/-- Every curve starts at 0. -/
theorem curveValue_first (m : CMath) (hm : ExactEnds m) (fadeType : Int) (n : Nat)
    (hn : 2 ≤ n) (hnU : n < U32) : curveValue m fadeType n 0 = some 0 := by
  obtain ⟨_, hcos, hsin, _, hsqrt⟩ := hm
  unfold curveValue
  rw [linearAt_eq n 0 hn hnU]
  simp only [Nat.cast_zero, zero_div, rnd_zero, Option.map_some', Option.some_bind, sub_zero,
    one_mul, mul_zero]
  split
  · rw [hcos]
    norm_num [rnd_zero]
  · split
    · unfold ddiv
      simp only [Option.some_bind]
      have h1 : ((0 : ℚ) ^ 2 + 1 ^ 2) = 1 := by norm_num
      rw [h1, hsqrt]
      simp [rnd_zero]
    · split
      · rw [hsin]
      · rfl

/-- Every curve ends at 1. -/
theorem curveValue_last (m : CMath) (hm : ExactEnds m) (fadeType : Int) (n : Nat)
    (hn : 2 ≤ n) (hnU : n < U32) : curveValue m fadeType n (n - 1) = some 1 := by
  obtain ⟨hcos, _, _, hsin, hsqrt⟩ := hm
  unfold curveValue
  rw [linearAt_eq n (n - 1) hn hnU]
  have hone : (((n - 1 : Nat) : ℚ)) / ((n : ℚ) - 1) = 1 := by
    rw [Nat.cast_sub (by omega)]
    have hne : (n : ℚ) - 1 ≠ 0 := by
      have : (2 : ℚ) ≤ (n : ℚ) := by exact_mod_cast hn
      linarith
    simp only [Nat.cast_one]
    exact div_self hne
  rw [hone, rnd_one]
  simp only [Option.map_some', Option.some_bind, sub_self, zero_mul, mul_one]
  split
  · rw [hcos]
    norm_num [rnd_two, rnd_one]
  · split
    · unfold ddiv
      simp only [Option.some_bind]
      have h1 : ((1 : ℚ) ^ 2 + 0 ^ 2) = 1 := by norm_num
      rw [h1, hsqrt]
      simp [rnd_one]
    · split
      · rw [hsin]
      · rfl

/-- C12. For a loop with `0 < dwStart ≤ dwEnd` and `dwEnd + 1` below the number of frames,
a buffer of finite samples and each curve type, with two or more samples to fade on each
side (and `cos`, `sin`, `sqrt` exact at the ends of the curves), `PerformCrossfade` returns
and leaves, on every channel, the sample of frame `dwEnd` equal to the sample of frame
`dwStart - 1` and the sample of frame `dwEnd + 1` equal to the sample of frame `dwStart`. -/
theorem PerformCrossfade_continuous (m : CMath) (fh : FileHandling)
    (audioData : Nat → Double) (lp : LOOPDATA) (fadeLength : ℚ) (fadeType : Int)
    (hm : ExactEnds m) (hin : CrossfadeInput fh lp fadeLength) (hs : 0 < lp.dwStart)
    (hnext : (lp.dwEnd + 2) * fh.m_channels ≤ fh.ArrayLength)
    (hN : 2 ≤ samplesToFade fh lp fadeLength) (hM : 2 ≤ samplesToFadeOut fh lp fadeLength)
    (hfin : ∀ i, i < fh.ArrayLength → ∃ x, audioData i = some x) :
    ∃ out, PerformCrossfade m fh audioData lp fadeLength fadeType = some out ∧
      ∀ j, j < fh.m_channels →
        out (lp.dwEnd * fh.m_channels + j) = out ((lp.dwStart - 1) * fh.m_channels + j) ∧
        out ((lp.dwEnd + 1) * fh.m_channels + j) = out (lp.dwStart * fh.m_channels + j) := by
  obtain ⟨hNle, hNU⟩ := samplesToFade_le fh lp fadeLength
  obtain ⟨hMle, hMU⟩ := samplesToFadeOut_le fh lp fadeLength hin
  obtain ⟨faded, out, hout, hkeep1, hkeep2, hspec1, hspec2⟩ := PerformCrossfade_run m fh
    audioData lp fadeLength fadeType hin
  obtain ⟨_, hch, hAL, hse, hend, hreq⟩ := hin
  -- the frames of the last round of the first loop
  have hT : (lp.dwEnd + 1 - samplesToFade fh lp fadeLength) * fh.m_channels +
      (samplesToFade fh lp fadeLength - 1) * fh.m_channels = lp.dwEnd * fh.m_channels := by
    rw [← Nat.add_mul]
    congr 1
    omega
  have hS : (lp.dwStart - samplesToFade fh lp fadeLength) * fh.m_channels +
      (samplesToFade fh lp fadeLength - 1) * fh.m_channels =
      (lp.dwStart - 1) * fh.m_channels := by
    rw [← Nat.add_mul]
    congr 1
    omega
  have hE1 : (lp.dwEnd + 1) * fh.m_channels = lp.dwEnd * fh.m_channels + fh.m_channels := by
    rw [Nat.add_mul, Nat.one_mul]
  have hE2 : (lp.dwEnd + 2) * fh.m_channels =
      lp.dwEnd * fh.m_channels + fh.m_channels + fh.m_channels := by
    rw [Nat.add_mul]; omega
  have hS1 : (lp.dwStart - 1) * fh.m_channels + fh.m_channels = lp.dwStart * fh.m_channels := by
    have : lp.dwStart = lp.dwStart - 1 + 1 := by omega
    conv_rhs => rw [this, Nat.add_mul, Nat.one_mul]
  have hSE : lp.dwStart * fh.m_channels ≤ lp.dwEnd * fh.m_channels :=
    Nat.mul_le_mul_right _ hse
  have hfirst := hspec1 (samplesToFade fh lp fadeLength - 1) (by omega)
    (by
      have : samplesToFade fh lp fadeLength - 1 - (samplesToFade fh lp fadeLength - 1) = 0 := by
        omega
      rw [this]
      exact curveValue_first m hm fadeType _ hN hNU)
    (curveValue_last m hm fadeType _ hN hNU)
    (by
      intro j hj
      rw [hT]
      exact hfin _ (by omega))
  have hsecond := hspec2 0 (by omega) (curveValue_first m hm fadeType _ hM hMU)
    (by
      rw [Nat.sub_zero]
      exact curveValue_last m hm fadeType _ hM hMU)
    (by
      intro j hj
      rw [hkeep1 _ (Or.inr (by omega))]
      exact hfin _ (by omega))
  refine ⟨out, hout, ?_⟩
  intro j hj
  have h1 := hfirst j hj
  have h2 := hsecond j hj
  rw [hT, hS] at h1
  rw [Nat.zero_mul, Nat.add_zero, Nat.add_zero] at h2
  refine ⟨?_, h2⟩
  rw [hkeep2 _ (Or.inl (by omega)), hkeep2 _ (Or.inl (by omega))]
  exact h1

/-- Witness for `PerformCrossfade_continuous`: a stereo buffer of 20 samples at rate 10,
the loop from frame 3 to frame 6 and an equal power fade of 0.3 seconds. -/
theorem PerformCrossfade_continuous_witness :
    ∃ out, PerformCrossfade
        ⟨fun x => if x = 0 then 1 else -1, fun x => if x = 0 then 0 else 1, fun _ => 1, 3⟩
        ⟨20, 2, 10⟩ (fun i => some ((i : ℚ) + 1)) ⟨3, 6⟩ (rnd (3/10)) 2 = some out ∧
      ∀ j, j < 2 →
        out (6 * 2 + j) = out ((3 - 1) * 2 + j) ∧ out ((6 + 1) * 2 + j) = out (3 * 2 + j) :=
  PerformCrossfade_continuous
    ⟨fun x => if x = 0 then 1 else -1, fun x => if x = 0 then 0 else 1, fun _ => 1, 3⟩
    ⟨20, 2, 10⟩ (fun i => some ((i : ℚ) + 1)) ⟨3, 6⟩ (rnd (3/10)) 2
    (by unfold ExactEnds; decide!) (by unfold CrossfadeInput; decide!) (by decide) (by decide)
    (by decide!) (by decide!) (fun i _ => ⟨(i : ℚ) + 1, rfl⟩)

/-- A number of magnitude at most 2 is moved by at most `2 ^ -52` when it is rounded. -/
theorem rnd_error_two (x : ℚ) (h : |x| ≤ 2) : |rnd x - x| ≤ (2 : ℚ) ^ (-52 : Int) := by
  by_cases hx0 : x = 0
  · rw [hx0, rnd_zero, sub_zero, abs_zero]
    exact le_of_lt (two_zpow_pos _)
  obtain ⟨s1, _⟩ := binade_spec x hx0
  have hb : binade x ≤ 1 := by
    have h4 : (2 : ℚ) ^ binade x < (2 : ℚ) ^ (2 : Int) := by
      have : (2 : ℚ) ^ (2 : Int) = 4 := by norm_num
      rw [this]
      linarith
    have := (zpow_lt_zpow_iff_right₀ (by norm_num : (1 : ℚ) < 2)).mp h4
    omega
  have hu : ulpExponent x ≤ -51 := by
    unfold ulpExponent
    have : max (binade x) (-1022) ≤ 1 := max_le hb (by norm_num)
    omega
  have hpow : (2 : ℚ) ^ ulpExponent x ≤ (2 : ℚ) ^ (-51 : Int) :=
    (zpow_le_zpow_iff_right₀ (by norm_num : (1 : ℚ) < 2)).mpr hu
  have e51 : (2 : ℚ) ^ (-51 : Int) / 2 = (2 : ℚ) ^ (-52 : Int) := by norm_num
  rw [← e51]
  exact le_trans (rnd_error x) (div_le_div_of_nonneg_right hpow (by norm_num))

/-- A quotient of whole numbers `k / (n - 1)` from 0 to 1, for a `n` below `2 ^ 32`, is
rounded with a relative error of at most `2 ^ -53`, and stays between 0 and 1. -/
theorem rnd_fraction (n k : Nat) (hn : 2 ≤ n) (hnU : n < U32) (hk : k ≤ n - 1) :
    |rnd ((k : ℚ) / ((n : ℚ) - 1)) - (k : ℚ) / ((n : ℚ) - 1)| ≤
        (k : ℚ) / ((n : ℚ) - 1) * (2 : ℚ) ^ (-53 : Int) ∧
      0 ≤ rnd ((k : ℚ) / ((n : ℚ) - 1)) ∧ rnd ((k : ℚ) / ((n : ℚ) - 1)) ≤ 1 := by
  have hnq : (2 : ℚ) ≤ (n : ℚ) := by exact_mod_cast hn
  have hnq2 : (n : ℚ) < 4294967296 := by unfold U32 at hnU; exact_mod_cast hnU
  have hd : (0 : ℚ) < (n : ℚ) - 1 := by linarith
  have hkq : (k : ℚ) ≤ (n : ℚ) - 1 := by
    have : ((k : Nat) : ℚ) ≤ ((n - 1 : Nat) : ℚ) := by exact_mod_cast hk
    rw [Nat.cast_sub (by omega)] at this
    simpa using this
  have h0 : 0 ≤ (k : ℚ) / ((n : ℚ) - 1) := div_nonneg (by positivity) (le_of_lt hd)
  have h1 : (k : ℚ) / ((n : ℚ) - 1) ≤ 1 := by
    rw [div_le_one hd]
    exact hkq
  have hr1 : rnd 1 = 1 := by
    have := rnd_natCast 1 (by norm_num)
    simpa using this
  refine ⟨?_, rnd_nonneg h0, ?_⟩
  · rcases Nat.eq_zero_or_pos k with hk0 | hk0
    · rw [hk0]
      simp [rnd_zero]
    · have hk1 : (1 : ℚ) ≤ (k : ℚ) := by exact_mod_cast hk0
      have hlow : (2 : ℚ) ^ (-1022 : Int) ≤ (k : ℚ) / ((n : ℚ) - 1) := by
        have hs : (2 : ℚ) ^ (-1022 : Int) ≤ (2 : ℚ) ^ (-32 : Int) :=
          (zpow_le_zpow_iff_right₀ (by norm_num : (1 : ℚ) < 2)).mpr (by norm_num)
        have h32 : (2 : ℚ) ^ (-32 : Int) = 1 / 4294967296 := by norm_num
        rw [h32] at hs
        refine le_trans hs ?_
        rw [div_le_div_iff₀ (by norm_num) hd]
        linarith
      have := rnd_relative _ (by rw [abs_of_nonneg h0]; exact hlow)
      rw [abs_of_nonneg h0] at this
      exact this
  · have := rnd_mono h1
    rw [hr1] at this
    exact this

/-- The two mirrored entries of a linear table add up to 1 but for `2 ^ -53`. -/
theorem linear_weights_sum (n i : Nat) (hn : 2 ≤ n) (hnU : n < U32) (hi : i < n) :
    |rnd (((n - 1 - i : Nat) : ℚ) / ((n : ℚ) - 1)) + rnd ((i : ℚ) / ((n : ℚ) - 1)) - 1| ≤
      (2 : ℚ) ^ (-53 : Int) := by
  obtain ⟨e1, _, _⟩ := rnd_fraction n (n - 1 - i) hn hnU (by omega)
  obtain ⟨e2, _, _⟩ := rnd_fraction n i hn hnU (by omega)
  have hnq : (2 : ℚ) ≤ (n : ℚ) := by exact_mod_cast hn
  have hd : (n : ℚ) - 1 ≠ 0 := by
    have : (0 : ℚ) < (n : ℚ) - 1 := by linarith
    exact ne_of_gt this
  have hcast : ((n - 1 - i : Nat) : ℚ) = (n : ℚ) - 1 - (i : ℚ) := by
    rw [Nat.cast_sub (by omega), Nat.cast_sub (by omega)]
    simp
  have hsum : ((n - 1 - i : Nat) : ℚ) / ((n : ℚ) - 1) + (i : ℚ) / ((n : ℚ) - 1) = 1 := by
    rw [hcast, ← add_div, sub_add_cancel, div_self hd]
  have hu : (0 : ℚ) < (2 : ℚ) ^ (-53 : Int) := two_zpow_pos _
  obtain ⟨a1, a2⟩ := abs_le.mp e1
  obtain ⟨b1, b2⟩ := abs_le.mp e2
  generalize ((n - 1 - i : Nat) : ℚ) / ((n : ℚ) - 1) = p at *
  generalize (i : ℚ) / ((n : ℚ) - 1) = q at *
  generalize (2 : ℚ) ^ (-53 : Int) = u at *
  have hpq : (p + q) * u = u := by rw [hsum, one_mul]
  rw [abs_le]
  constructor <;> nlinarith

/-- The sum of the two squares under the root of the equal power curve lies between `1/2`
and 1. -/
theorem power_sum_bounds (x : ℚ) (h0 : 0 ≤ x) (h1 : x ≤ 1) :
    1 / 2 ≤ x ^ 2 + (1 - x) ^ 2 ∧ x ^ 2 + (1 - x) ^ 2 ≤ 1 := by
  constructor
  · nlinarith [sq_nonneg (2 * x - 1)]
  · nlinarith

/-- The square of an equal power weight `rnd (x / s)`, where `s` is the root of
`v = x ^ 2 + (1 - x) ^ 2` to a relative error of `2 ^ -49` in its square, is `x ^ 2 / v`
but for `2 ^ -46`. -/
theorem power_weight_square (x s : ℚ) (h0 : 0 ≤ x) (h1 : x ≤ 1) (hs : 0 < s)
    (hacc : |s ^ 2 - (x ^ 2 + (1 - x) ^ 2)| ≤
      (x ^ 2 + (1 - x) ^ 2) * (2 : ℚ) ^ (-49 : Int)) :
    |rnd (x / s) ^ 2 - x ^ 2 / (x ^ 2 + (1 - x) ^ 2)| ≤ (2 : ℚ) ^ (-46 : Int) := by
  obtain ⟨v1, v2⟩ := power_sum_bounds x h0 h1
  have e49 : (2 : ℚ) ^ (-49 : Int) = 1 / 562949953421312 := by norm_num
  have e52 : (2 : ℚ) ^ (-52 : Int) = 1 / 4503599627370496 := by norm_num
  have e46 : (2 : ℚ) ^ (-46 : Int) = 1 / 70368744177664 := by norm_num
  rw [e49] at hacc
  rw [e46]
  generalize hv : x ^ 2 + (1 - x) ^ 2 = v at *
  obtain ⟨a1, a2⟩ := abs_le.mp hacc
  have hs2 : 1 / 4 ≤ s ^ 2 := by nlinarith
  have hshalf : 1 / 2 ≤ s := by
    by_contra hcon
    have : s < 1 / 2 := not_le.mp hcon
    nlinarith
  have hr0 : 0 ≤ x / s := div_nonneg h0 (le_of_lt hs)
  have hr2 : x / s ≤ 2 := by
    rw [div_le_iff₀ hs]
    linarith
  have herr := rnd_error_two (x / s) (by rw [abs_of_nonneg hr0]; exact hr2)
  rw [e52] at herr
  obtain ⟨c1, c2⟩ := abs_le.mp herr
  -- the square of the exact quotient against `x ^ 2 / v`
  have hvpos : 0 < v := by linarith
  have hq : |(x / s) ^ 2 - x ^ 2 / v| ≤ 4 * (1 / 562949953421312) := by
    have e : (x / s) ^ 2 - x ^ 2 / v = (x / s) ^ 2 * ((v - s ^ 2) / v) := by
      field_simp
      ring
    rw [e, abs_mul, abs_of_nonneg (sq_nonneg _)]
    have h4 : (x / s) ^ 2 ≤ 4 := by nlinarith
    have hrel : |(v - s ^ 2) / v| ≤ 1 / 562949953421312 := by
      rw [abs_div, abs_of_pos hvpos, div_le_iff₀ hvpos, abs_le]
      constructor <;> linarith
    exact mul_le_mul h4 hrel (abs_nonneg _) (by norm_num)
  have hw : |rnd (x / s) ^ 2 - (x / s) ^ 2| ≤ 5 * (1 / 4503599627370496) := by
    have e : rnd (x / s) ^ 2 - (x / s) ^ 2 =
        (rnd (x / s) - x / s) * (rnd (x / s) + x / s) := by ring
    rw [e, abs_mul, mul_comm 5]
    apply mul_le_mul herr _ (abs_nonneg _) (by norm_num)
    rw [abs_le]
    constructor <;> linarith
  have htri : |rnd (x / s) ^ 2 - x ^ 2 / v| ≤
      |rnd (x / s) ^ 2 - (x / s) ^ 2| + |(x / s) ^ 2 - x ^ 2 / v| := by
    have e : rnd (x / s) ^ 2 - x ^ 2 / v =
        (rnd (x / s) ^ 2 - (x / s) ^ 2) + ((x / s) ^ 2 - x ^ 2 / v) := by ring
    rw [e]
    exact abs_add _ _
  refine le_trans htri ?_
  refine le_trans (add_le_add hw hq) ?_
  norm_num

/-- The function `z ^ 2 / (z ^ 2 + (1 - z) ^ 2)` moves by at most four times the distance of
its arguments between 0 and 1. -/
theorem power_ratio_lipschitz (a b : ℚ) (ha0 : 0 ≤ a) (ha1 : a ≤ 1) (hb0 : 0 ≤ b)
    (hb1 : b ≤ 1) :
    |b ^ 2 / (b ^ 2 + (1 - b) ^ 2) - a ^ 2 / (a ^ 2 + (1 - a) ^ 2)| ≤ 4 * |b - a| := by
  obtain ⟨ga1, ga2⟩ := power_sum_bounds a ha0 ha1
  obtain ⟨gb1, gb2⟩ := power_sum_bounds b hb0 hb1
  have hga : 0 < a ^ 2 + (1 - a) ^ 2 := by linarith
  have hgb : 0 < b ^ 2 + (1 - b) ^ 2 := by linarith
  have e : b ^ 2 / (b ^ 2 + (1 - b) ^ 2) - a ^ 2 / (a ^ 2 + (1 - a) ^ 2) =
      (b - a) * ((b + a - 2 * a * b) /
        ((b ^ 2 + (1 - b) ^ 2) * (a ^ 2 + (1 - a) ^ 2))) := by
    field_simp
    ring
  rw [e, abs_mul, mul_comm 4]
  apply mul_le_mul_of_nonneg_left _ (abs_nonneg _)
  have hprod : 1 / 4 ≤ (b ^ 2 + (1 - b) ^ 2) * (a ^ 2 + (1 - a) ^ 2) := by nlinarith
  have hnum0 : 0 ≤ b + a - 2 * a * b := by nlinarith
  have hnum1 : b + a - 2 * a * b ≤ 1 := by nlinarith
  rw [abs_of_nonneg (div_nonneg hnum0 (by linarith)), div_le_iff₀ (by linarith)]
  nlinarith

/-- No rational number, and so no `double`, has a square of `1 / 2`. -/
theorem no_rational_half_square (w : ℚ) : w ^ 2 + w ^ 2 ≠ 1 := by
  intro h
  have h2 : ((2 * w : ℚ)) ^ 2 = 2 := by
    have : (2 * w) ^ 2 = 2 * (w ^ 2 + w ^ 2) := by ring
    rw [this, h]
    norm_num
  have h3 : (((|2 * w| : ℚ)) : ℝ) = Real.sqrt 2 := by
    have hr : (((2 * w : ℚ)) : ℝ) ^ 2 = 2 := by exact_mod_cast h2
    rw [← hr, Real.sqrt_sq_eq_abs]
    push_cast
    rfl
  exact irrational_sqrt_two.ne_rat _ h3.symm

/-- An entry of the equal power table. -/
theorem equal_power_entry (m : CMath) (n k : Nat) (hn : 2 ≤ n) (hnU : n < U32)
    (hs : m.sqrt (rnd ((k : ℚ) / ((n : ℚ) - 1)) ^ 2 +
      (1 - rnd ((k : ℚ) / ((n : ℚ) - 1))) ^ 2) ≠ 0) :
    curveValue m 2 n k =
      some (rnd (rnd ((k : ℚ) / ((n : ℚ) - 1)) /
        m.sqrt (rnd ((k : ℚ) / ((n : ℚ) - 1)) ^ 2 +
          (1 - rnd ((k : ℚ) / ((n : ℚ) - 1))) ^ 2))) := by
  unfold curveValue
  rw [if_neg (by decide), if_pos rfl, linearAt_eq n k hn hnU, Option.some_bind]
  unfold ddiv
  simp only [Option.some_bind]
  rw [if_neg hs]
  rfl

/-- C15 (amended). In a curve table of `n ≥ 2` entries the two mirrored weights that the
crossfade loops apply at offset `i < n` are the entries `n - 1 - i` and `i`. For the linear
curve (`fadeType` 0 and every value that is not 1, 2 or 3) they are the `double`s nearest to
`(n - 1 - i) / (n - 1)` and `i / (n - 1)`, and they add up to 1 but for `2 ^ -53` at most.
For the equal power curve `x / sqrt(x^2 + (1 - x)^2)` (`fadeType` 2), with a `sqrt` that is
accurate at the two arguments it gets, their squares add up to 1 but for `2 ^ -44` at most.
At the two ends of the table, `i = 0` and `i = n - 1`, the two weights of every curve are
0 and 1 (for library functions that are exact at the ends of the curves). -/
theorem fadeTable_complementary (m : CMath) (n i : Nat) (hn : 2 ≤ n) (hnU : n < U32)
    (hi : i < n) :
    (∀ fadeType : Int, fadeType ≠ 1 → fadeType ≠ 2 → fadeType ≠ 3 →
      ∃ tbl wT wS, fadeTable (curveValue m fadeType n) n = some tbl ∧
        tbl[usub (usub n 1) i]? = some (some wT) ∧ tbl[i]? = some (some wS) ∧
        wT = rnd (((n - 1 - i : Nat) : ℚ) / ((n : ℚ) - 1)) ∧
        wS = rnd ((i : ℚ) / ((n : ℚ) - 1)) ∧
        |wT + wS - 1| ≤ (2 : ℚ) ^ (-53 : Int)) ∧
    (RootAccurate m.sqrt (rnd (((n - 1 - i : Nat) : ℚ) / ((n : ℚ) - 1)) ^ 2 +
        (1 - rnd (((n - 1 - i : Nat) : ℚ) / ((n : ℚ) - 1))) ^ 2) →
      RootAccurate m.sqrt (rnd ((i : ℚ) / ((n : ℚ) - 1)) ^ 2 +
        (1 - rnd ((i : ℚ) / ((n : ℚ) - 1))) ^ 2) →
      ∃ tbl wT wS, fadeTable (curveValue m 2 n) n = some tbl ∧
        tbl[usub (usub n 1) i]? = some (some wT) ∧ tbl[i]? = some (some wS) ∧
        |wT ^ 2 + wS ^ 2 - 1| ≤ (2 : ℚ) ^ (-44 : Int)) ∧
    (ExactEnds m → ∀ fadeType : Int,
      ∃ tbl, fadeTable (curveValue m fadeType n) n = some tbl ∧
        (i = 0 → tbl[usub (usub n 1) i]? = some (some 1) ∧ tbl[i]? = some (some 0)) ∧
        (i = n - 1 → tbl[usub (usub n 1) i]? = some (some 0) ∧ tbl[i]? = some (some 1))) := by
  refine ⟨?_, ?_, ?_⟩
  · intro fadeType h1 h2 h3
    have hcurve : ∀ k, curveValue m fadeType n k = linearAt n k := by
      intro k
      unfold curveValue
      rw [if_neg h1, if_neg h2, if_neg h3]
    refine ⟨_, _, _, fadeTable_spec _ n hnU, ?_, ?_, rfl, rfl,
      linear_weights_sum n i hn hnU hi⟩
    · rw [(crossfade_weights _ n hnU i hi).1, hcurve, linearAt_eq n (n - 1 - i) hn hnU]
    · rw [(crossfade_weights _ n hnU i hi).2, hcurve, linearAt_eq n i hn hnU]
  · intro hT hS
    obtain ⟨hTpos, hTacc⟩ := hT
    obtain ⟨hSpos, hSacc⟩ := hS
    obtain ⟨_, xT0, xT1⟩ := rnd_fraction n (n - 1 - i) hn hnU (by omega)
    obtain ⟨_, xS0, xS1⟩ := rnd_fraction n i hn hnU (by omega)
    have hsum := linear_weights_sum n i hn hnU hi
    refine ⟨_, rnd (rnd (((n - 1 - i : Nat) : ℚ) / ((n : ℚ) - 1)) /
        m.sqrt (rnd (((n - 1 - i : Nat) : ℚ) / ((n : ℚ) - 1)) ^ 2 +
          (1 - rnd (((n - 1 - i : Nat) : ℚ) / ((n : ℚ) - 1))) ^ 2)),
      rnd (rnd ((i : ℚ) / ((n : ℚ) - 1)) /
        m.sqrt (rnd ((i : ℚ) / ((n : ℚ) - 1)) ^ 2 + (1 - rnd ((i : ℚ) / ((n : ℚ) - 1))) ^ 2)),
      fadeTable_spec _ n hnU, ?_, ?_, ?_⟩
    · rw [(crossfade_weights _ n hnU i hi).1,
        equal_power_entry m n (n - 1 - i) hn hnU (ne_of_gt hTpos)]
    · rw [(crossfade_weights _ n hnU i hi).2,
        equal_power_entry m n i hn hnU (ne_of_gt hSpos)]
    · have bT := power_weight_square _ _ xT0 xT1 hTpos hTacc
      have bS := power_weight_square _ _ xS0 xS1 hSpos hSacc
      generalize rnd (((n - 1 - i : Nat) : ℚ) / ((n : ℚ) - 1)) = b at *
      generalize rnd ((i : ℚ) / ((n : ℚ) - 1)) = x at *
      have hlip := power_ratio_lipschitz (1 - x) b (by linarith) (by linarith) xT0 xT1
      have hba : |b - (1 - x)| ≤ (2 : ℚ) ^ (-53 : Int) := by
        have e : b - (1 - x) = b + x - 1 := by ring
        rw [e]
        exact hsum
      have hsym : x ^ 2 / (x ^ 2 + (1 - x) ^ 2) =
          1 - (1 - x) ^ 2 / ((1 - x) ^ 2 + (1 - (1 - x)) ^ 2) := by
        obtain ⟨g1, _⟩ := power_sum_bounds x xS0 xS1
        have hg : x ^ 2 + (1 - x) ^ 2 ≠ 0 := by linarith
        have e : (1 - x) ^ 2 + (1 - (1 - x)) ^ 2 = x ^ 2 + (1 - x) ^ 2 := by ring
        rw [e, eq_sub_iff_add_eq, ← add_div, div_self hg]
      have e46 : (2 : ℚ) ^ (-46 : Int) = 1 / 70368744177664 := by norm_num
      have e53 : (2 : ℚ) ^ (-53 : Int) = 1 / 9007199254740992 := by norm_num
      have e44 : (2 : ℚ) ^ (-44 : Int) = 1 / 17592186044416 := by norm_num
      rw [e46] at bT bS
      rw [e53] at hba
      rw [e44]
      rw [hsym] at bS
      generalize b ^ 2 / (b ^ 2 + (1 - b) ^ 2) = hb' at *
      generalize (1 - x) ^ 2 / ((1 - x) ^ 2 + (1 - (1 - x)) ^ 2) = ha' at *
      generalize m.sqrt (b ^ 2 + (1 - b) ^ 2) = sT at *
      generalize m.sqrt (x ^ 2 + (1 - x) ^ 2) = sS at *
      generalize rnd (b / sT) ^ 2 = wT2 at *
      generalize rnd (x / sS) ^ 2 = wS2 at *
      obtain ⟨t1, t2⟩ := abs_le.mp bT
      obtain ⟨s1, s2⟩ := abs_le.mp bS
      have hl2 : |hb' - ha'| ≤ 4 * (1 / 9007199254740992) :=
        le_trans hlip (mul_le_mul_of_nonneg_left hba (by norm_num))
      obtain ⟨l1, l2⟩ := abs_le.mp hl2
      rw [abs_le]
      constructor <;> linarith
  · intro hm fadeType
    refine ⟨_, fadeTable_spec _ n hnU, ?_, ?_⟩
    · intro h0
      subst h0
      rw [(crossfade_weights _ n hnU 0 hi).1, (crossfade_weights _ n hnU 0 hi).2,
        Nat.sub_zero, curveValue_last m hm fadeType n hn hnU,
        curveValue_first m hm fadeType n hn hnU]
      exact ⟨rfl, rfl⟩
    · intro h1
      rw [(crossfade_weights _ n hnU i hi).1, (crossfade_weights _ n hnU i hi).2, h1,
        show n - 1 - (n - 1) = 0 by omega, curveValue_last m hm fadeType n hn hnU,
        curveValue_first m hm fadeType n hn hnU]
      exact ⟨rfl, rfl⟩

/-- Witness for C15: a table of three entries at offset 1, with a `sqrt` that returns the
`double` nearest to the root of `1 / 2`. Both mirrored weights are entry 1. -/
theorem fadeTable_complementary_witness :
    (2 ≤ 3 ∧ 3 < U32 ∧ 1 < 3) ∧
    (∀ fadeType : Int, fadeType ≠ 1 → fadeType ≠ 2 → fadeType ≠ 3 →
      ∃ tbl wT wS,
        fadeTable (curveValue ⟨fun x => x, fun x => x,
          fun v => if v = 1 then 1 else 6369051672525773 / 2 ^ 53, 3⟩ fadeType 3) 3 = some tbl ∧
        tbl[usub (usub 3 1) 1]? = some (some wT) ∧ tbl[1]? = some (some wS) ∧
        wT = rnd (((3 - 1 - 1 : Nat) : ℚ) / (((3 : Nat) : ℚ) - 1)) ∧
        wS = rnd (((1 : Nat) : ℚ) / (((3 : Nat) : ℚ) - 1)) ∧
        |wT + wS - 1| ≤ (2 : ℚ) ^ (-53 : Int)) ∧
    (∃ tbl wT wS,
        fadeTable (curveValue ⟨fun x => x, fun x => x,
          fun v => if v = 1 then 1 else 6369051672525773 / 2 ^ 53, 3⟩ 2 3) 3 = some tbl ∧
        tbl[usub (usub 3 1) 1]? = some (some wT) ∧ tbl[1]? = some (some wS) ∧
        |wT ^ 2 + wS ^ 2 - 1| ≤ (2 : ℚ) ^ (-44 : Int)) :=
  ⟨⟨by decide, by decide, by decide⟩,
    (fadeTable_complementary ⟨fun x => x, fun x => x,
      fun v => if v = 1 then 1 else 6369051672525773 / 2 ^ 53, 3⟩ 3 1
      (by decide) (by decide) (by decide)).1,
    (fadeTable_complementary ⟨fun x => x, fun x => x,
      fun v => if v = 1 then 1 else 6369051672525773 / 2 ^ 53, 3⟩ 3 1
      (by decide) (by decide) (by decide)).2.1
      (by unfold RootAccurate; decide!) (by unfold RootAccurate; decide!)⟩

/-- Counterexample for C15. In the linear table of four entries the mirrored weights at
offset 1 are the `double`s nearest to `2 / 3` and `1 / 3`, and their sum is `1 - 2 ^ -54`,
not 1. In the equal power table of three entries both weights at offset 1 are the `double`
`1592262918131443 / 2 ^ 51`, with a `sqrt` that returns the `double` nearest to the root
of `1 / 2`, and the sum of their squares is not 1; no `double` at all has the square
`1 / 2`. -/
theorem mirrored_weights_not_complementary :
    fadeTable (curveValue ⟨fun x => x, fun x => x,
        fun v => if v = 1 then 1 else 6369051672525773 / 2 ^ 53, 3⟩ 0 4) 4 =
      some [some 0, some (6004799503160661 / 2 ^ 54), some (6004799503160661 / 2 ^ 53),
        some 1] ∧
    (6004799503160661 / 2 ^ 53 : ℚ) + 6004799503160661 / 2 ^ 54 = 1 - 1 / 2 ^ 54 ∧
    (6004799503160661 / 2 ^ 53 : ℚ) + 6004799503160661 / 2 ^ 54 ≠ 1 ∧
    fadeTable (curveValue ⟨fun x => x, fun x => x,
        fun v => if v = 1 then 1 else 6369051672525773 / 2 ^ 53, 3⟩ 2 3) 3 =
      some [some 0, some (1592262918131443 / 2 ^ 51), some 1] ∧
    (1592262918131443 / 2 ^ 51 : ℚ) ^ 2 + (1592262918131443 / 2 ^ 51) ^ 2 ≠ 1 ∧
    (∀ w : ℚ, w ^ 2 + w ^ 2 ≠ 1) :=
  ⟨by decide!, by norm_num, by norm_num, by decide!, by norm_num, no_rational_half_square⟩

/-- C14 at a failing input. Mono, 10 samples at rate 10, the loop from 3 to 6 and a fade of
0.1 seconds, which is exactly 1 sample: for each of the four curve types the one table
entry is `0/0`, and `PerformCrossfade` leaves values that are not numbers in the frames 6
and 7. `PerformFade` with a fade of 1 ms at rate 1000, again 1 sample, does the same to the
first sample (fade in) and to the last one (fade out). -/
theorem fade_of_one_sample :
    fadeTable (curveValue ⟨fun x => x, fun x => x, fun x => x, 3⟩ 0
      (samplesToFade ⟨10, 1, 10⟩ ⟨3, 6⟩ (rnd (1/10)))) (samplesToFade ⟨10, 1, 10⟩ ⟨3, 6⟩ (rnd (1/10))) =
      some [none] ∧
    (∀ fadeType : Fin 4,
      (PerformCrossfade ⟨fun x => x, fun x => x, fun x => x, 3⟩ ⟨10, 1, 10⟩
        (fun i => some ((i : ℚ) + 1)) ⟨3, 6⟩ (rnd (1/10)) (fadeType.val : Int)).map
        (fun a => (a 5, a 6, a 7, a 8)) = some (some 6, none, none, some 9)) ∧
    (PerformFade ⟨10, 1, 1000⟩ (fun i => some ((i : ℚ) + 1)) 1 0).map (fun a => (a 0, a 1)) =
      some (none, some 2) ∧
    (PerformFade ⟨10, 1, 1000⟩ (fun i => some ((i : ℚ) + 1)) 1 1).map (fun a => (a 8, a 9)) =
      some (some 9, none) := by
  decide!

/-! ## TrimStart and TrimEnd -/

/-- A copy loop returns; it writes the first `n` entries of the target and nothing else. -/
theorem copyLoop_spec {α : Type} (n : Nat) (index : Nat → Nat) (source target : Nat → α)
    (hn : n < U32) :
    ∃ t, copyLoop n index source target = some t ∧ (∀ i, i < n → t i = source (index i)) ∧
      ∀ i, n ≤ i → t i = target i := by
  unfold copyLoop
  refine forLoop_stride n 1 (Nat.le_refl 1) (by omega) _
    (fun k (t : Nat → α) => k ≤ n ∧ (∀ i, i < k → t i = source (index i)) ∧
      ∀ i, k ≤ i → t i = target i)
    (fun t => (∀ i, i < n → t i = source (index i)) ∧ ∀ i, n ≤ i → t i = target i)
    ?_ ?_ 0 target ⟨Nat.zero_le _, fun i h => absurd h (by omega), fun _ _ => rfl⟩
  · intro k t ⟨hk, hdone, hrest⟩ hlt
    left
    refine ⟨_, rfl, by omega, ?_, ?_⟩
    · intro i hi
      by_cases hik : i = k
      · rw [hik, Function.update_same]
      · rw [Function.update_noteq hik]
        exact hdone i (by omega)
    · intro i hi
      rw [Function.update_noteq (by omega)]
      exact hrest i (by omega)
  · intro k t ⟨hk, hdone, hrest⟩ hge
    have : k = n := by omega
    rw [this] at hdone hrest
    exact ⟨hdone, hrest⟩

/-- One branch of a trim: the new array holds the samples `index 0`, `index 1`, ... of the
old one. -/
theorem trimArray_spec {α : Type} (n : Nat) (index : Nat → Nat) (old temp new : Nat → α)
    (hn : n < U32) :
    ∃ r, trimArray n index old temp new = some r ∧ ∀ i, i < n → r i = old (index i) := by
  unfold trimArray
  obtain ⟨t, ht, hcopy, _⟩ := copyLoop_spec n index old temp hn
  obtain ⟨r, hr, hcopy2, _⟩ := copyLoop_spec n (fun i => i) t new hn
  rw [ht, Option.some_bind, hr]
  refine ⟨r, rfl, ?_⟩
  intro i hi
  rw [hcopy2 i hi]
  exact hcopy i hi

/-- The three branches of a trim: the selected array is cut, the length becomes
`ArrayLength - cut`, and nothing else changes. -/
theorem trimSelected_spec (fresh : Fresh) (st : FileHandlingMembers) (cut : Nat)
    (index : Nat → Nat) (hAL : st.ArrayLength < U32) :
    ∃ st', trimSelected fresh st cut index = some st' ∧
      st'.ArrayLength = st.ArrayLength - cut ∧ st'.m_channels = st.m_channels ∧
      st'.m_loops = st.m_loops ∧ st'.m_cues = st.m_cues ∧
      ∀ i, i < st.ArrayLength - cut → SampleEq st st' (index i) i := by
  unfold trimSelected SampleEq
  by_cases hd : st.m_minorFormat = SF_FORMAT_DOUBLE ∨ st.m_minorFormat = SF_FORMAT_FLOAT
  · obtain ⟨r, hr, hcopy⟩ := trimArray_spec (st.ArrayLength - cut) index st.doubleAudioData
      fresh.doubleTemp fresh.doubleNew (by omega)
    rw [if_pos hd, hr]
    refine ⟨_, rfl, rfl, rfl, rfl, rfl, ?_⟩
    intro i hi
    rw [if_pos hd]
    exact hcopy i hi
  · rw [if_neg hd]
    by_cases hs : st.m_minorFormat = SF_FORMAT_PCM_16 ∨ st.m_minorFormat = SF_FORMAT_PCM_S8 ∨
        st.m_minorFormat = SF_FORMAT_PCM_U8
    · obtain ⟨r, hr, hcopy⟩ := trimArray_spec (st.ArrayLength - cut) index st.shortAudioData
        fresh.shortTemp fresh.shortNew (by omega)
      rw [if_pos hs, hr]
      refine ⟨_, rfl, rfl, rfl, rfl, rfl, ?_⟩
      intro i hi
      rw [if_neg hd, if_pos hs]
      exact hcopy i hi
    · obtain ⟨r, hr, hcopy⟩ := trimArray_spec (st.ArrayLength - cut) index st.intAudioData
        fresh.intTemp fresh.intNew (by omega)
      rw [if_neg hs, hr]
      refine ⟨_, rfl, rfl, rfl, rfl, rfl, ?_⟩
      intro i hi
      rw [if_neg hd, if_neg hs]
      exact hcopy i hi

/-- The cut in the words of the specification is the quotient of natural numbers
`ms * m_samplerate / 1000`, times the channels. -/
theorem cutOf_eq (st : FileHandlingMembers) (ms : Nat) :
    cutOf st ms = ms * st.m_samplerate / 1000 * st.m_channels := by
  unfold cutOf
  have e : (ms : ℚ) * (st.m_samplerate : ℚ) / 1000 =
      ((ms * st.m_samplerate : Nat) : ℚ) / ((1000 : Nat) : ℚ) := by
    push_cast
    ring
  rw [e, Rat.floor_natCast_div_natCast]
  rfl

/-- The number `samples` that `TrimStart` and `TrimEnd` compute in `double`s is the exact
quotient `ms * m_samplerate / 1000` rounded down, or one less than it when that quotient is
an integer. -/
theorem trimSamples_count (st : FileHandlingMembers) (ms : Nat)
    (hv : ms * st.m_samplerate / 1000 < 4294967296) :
    trimSamples st ms ≤ ms * st.m_samplerate / 1000 ∧
      ms * st.m_samplerate / 1000 ≤ trimSamples st ms + 1 ∧
      (¬ 1000 ∣ ms * st.m_samplerate → trimSamples st ms = ms * st.m_samplerate / 1000) := by
  have hprod : ms * st.m_samplerate < 2 ^ 51 := by
    have := Nat.div_add_mod (ms * st.m_samplerate) 1000
    have := Nat.mod_lt (ms * st.m_samplerate) (show 0 < 1000 by norm_num)
    omega
  obtain ⟨h1, h2, h3⟩ := scaled_count ms st.m_samplerate 1000 (by norm_num) (by norm_num)
    hprod
  have hcast : ((1000 : Nat) : ℚ) = (1000 : ℚ) := by norm_num
  rw [hcast] at h1 h2 h3
  have hmod : trimSamples st ms =
      (⌊rnd (rnd ((ms : ℚ) / 1000) * (st.m_samplerate : ℚ))⌋).toNat := by
    unfold trimSamples toUnsigned
    exact Nat.mod_eq_of_lt (by unfold U32; omega)
  rw [hmod]
  exact ⟨h1, h2, h3⟩

theorem samplesToCut_eq (st : FileHandlingMembers) (ms : Nat) (hch : 1 ≤ st.m_channels)
    (hcut : cutOf st ms < U32) :
    samplesToCut st ms = trimSamples st ms * st.m_channels ∧
      samplesToCut st ms ≤ cutOf st ms := by
  rw [cutOf_eq] at hcut ⊢
  have hle := Nat.le_mul_of_pos_right (ms * st.m_samplerate / 1000) hch
  obtain ⟨h1, _, _⟩ := trimSamples_count st ms (by unfold U32 at hcut; omega)
  have hmul : trimSamples st ms * st.m_channels ≤
      ms * st.m_samplerate / 1000 * st.m_channels := Nat.mul_le_mul_right _ h1
  have he : samplesToCut st ms = trimSamples st ms * st.m_channels := by
    unfold samplesToCut
    exact umul_eq (by omega)
  rw [he]
  exact ⟨rfl, hmul⟩

/-- A run of `TrimStart`. -/
theorem TrimStart_run (ext : Markers) (fresh : Fresh) (st : FileHandlingMembers) (ms : Nat)
    (hAL : st.ArrayLength < U32) :
    ∃ r, TrimStart ext fresh st ms = some r ∧
      (r.1 = false ↔ samplesToCut st ms ≥ st.ArrayLength) ∧
      (r.1 = false → r.2 = st) ∧
      (r.1 = true → r.2.ArrayLength = st.ArrayLength - samplesToCut st ms ∧
        r.2.m_channels = st.m_channels ∧
        ∀ i, i < st.ArrayLength - samplesToCut st ms →
          SampleEq st r.2 (samplesToCut st ms + i) i) := by
  unfold TrimStart
  by_cases hlt : samplesToCut st ms < st.ArrayLength
  · obtain ⟨st', hst', hlen, hchan, _, _, hcopy⟩ := trimSelected_spec fresh st
      (samplesToCut st ms) (fun i => uadd (samplesToCut st ms) i) hAL
    rw [if_pos hlt, hst']
    refine ⟨_, rfl, ⟨fun h => by simp at h, fun h => absurd hlt (by omega)⟩,
      fun h => by simp at h, fun _ => ⟨hlen, hchan, ?_⟩⟩
    intro i hi
    have := hcopy i hi
    rw [show uadd (samplesToCut st ms) i = samplesToCut st ms + i from
      uadd_eq (by omega)] at this
    unfold SampleEq at this ⊢
    exact this
  · rw [if_neg hlt]
    exact ⟨_, rfl, ⟨fun _ => by omega, fun _ => rfl⟩, fun _ => rfl, fun h => by simp at h⟩

/-- A run of `TrimEnd`. -/
theorem TrimEnd_run (ext : Markers) (fresh : Fresh) (st : FileHandlingMembers) (ms : Nat)
    (hAL : st.ArrayLength < U32) :
    ∃ r, TrimEnd ext fresh st ms = some r ∧
      (r.1 = false ↔ samplesToCut st ms ≥ st.ArrayLength) ∧
      (r.1 = false → r.2 = st) ∧
      (r.1 = true → r.2.ArrayLength = st.ArrayLength - samplesToCut st ms ∧
        r.2.m_channels = st.m_channels ∧
        ∀ i, i < st.ArrayLength - samplesToCut st ms → SampleEq st r.2 i i) := by
  unfold TrimEnd
  by_cases hlt : samplesToCut st ms < st.ArrayLength
  · obtain ⟨st', hst', hlen, hchan, _, _, hcopy⟩ := trimSelected_spec fresh st
      (samplesToCut st ms) (fun i => i) hAL
    rw [if_pos hlt, hst']
    refine ⟨_, rfl, ⟨fun h => by simp at h, fun h => absurd hlt (by omega)⟩,
      fun h => by simp at h, fun _ => ⟨hlen, hchan, ?_⟩⟩
    intro i hi
    have := hcopy i hi
    unfold SampleEq at this ⊢
    exact this
  · rw [if_neg hlt]
    exact ⟨_, rfl, ⟨fun _ => by omega, fun _ => rfl⟩, fun _ => rfl, fun h => by simp at h⟩

/-- C17 (amended). The number of frames that `TrimStart` and `TrimEnd` cut is the value of
the `double` expression `(timeToTrim / 1000.0) * m_samplerate`, truncated: it is
`floor(ms * m_samplerate / 1000)` when `ms * m_samplerate` is not a multiple of 1000, and
that quotient or one less when it is. With `cut = frames * m_channels` (the exact quotient
times the channels below `2^32`) both calls return; they return `false` exactly when
`cut ≥ ArrayLength`, and then all members are unchanged; otherwise they return `true`, the
new `ArrayLength` is `ArrayLength - cut`, and the selected sample array holds the last
(`TrimStart`), the first (`TrimEnd`) `ArrayLength - cut` samples of the old one in the same
order. -/
theorem Trim_spec (ext : Markers) (fresh : Fresh) (st : FileHandlingMembers) (ms : Nat)
    (hch : 1 ≤ st.m_channels) (hAL : st.ArrayLength < U32) (hcut : cutOf st ms < U32) :
    (trimSamples st ms ≤ ms * st.m_samplerate / 1000 ∧
      ms * st.m_samplerate / 1000 ≤ trimSamples st ms + 1 ∧
      (¬ 1000 ∣ ms * st.m_samplerate → trimSamples st ms = ms * st.m_samplerate / 1000)) ∧
    samplesToCut st ms = trimSamples st ms * st.m_channels ∧
    (∃ r, TrimStart ext fresh st ms = some r ∧
      (r.1 = false ↔ samplesToCut st ms ≥ st.ArrayLength) ∧ (r.1 = false → r.2 = st) ∧
      (r.1 = true → r.2.ArrayLength = st.ArrayLength - samplesToCut st ms ∧
        ∀ i, i < st.ArrayLength - samplesToCut st ms →
          SampleEq st r.2 (samplesToCut st ms + i) i)) ∧
    ∃ r, TrimEnd ext fresh st ms = some r ∧
      (r.1 = false ↔ samplesToCut st ms ≥ st.ArrayLength) ∧ (r.1 = false → r.2 = st) ∧
      (r.1 = true → r.2.ArrayLength = st.ArrayLength - samplesToCut st ms ∧
        ∀ i, i < st.ArrayLength - samplesToCut st ms → SampleEq st r.2 i i) := by
  obtain ⟨r1, h1, hiff1, hfail1, hok1⟩ := TrimStart_run ext fresh st ms hAL
  obtain ⟨r2, h2, hiff2, hfail2, hok2⟩ := TrimEnd_run ext fresh st ms hAL
  have hv : ms * st.m_samplerate / 1000 < 4294967296 := by
    rw [cutOf_eq] at hcut
    have := Nat.le_mul_of_pos_right (ms * st.m_samplerate / 1000) hch
    unfold U32 at hcut
    omega
  exact ⟨trimSamples_count st ms hv, (samplesToCut_eq st ms hch hcut).1,
    ⟨r1, h1, hiff1, hfail1, fun h => ⟨(hok1 h).1, (hok1 h).2.2⟩⟩,
    ⟨r2, h2, hiff2, hfail2, fun h => ⟨(hok2 h).1, (hok2 h).2.2⟩⟩⟩

/-- Witness for `Trim_spec`: a stereo buffer of 12 samples at rate 1000 and 2 ms. -/
theorem Trim_spec_witness :
    cutOf ⟨12, 2, 1000, 7, fun i => i, fun i => i, fun i => i, [], []⟩ 2 < U32 ∧
    samplesToCut ⟨12, 2, 1000, 7, fun i => i, fun i => i, fun i => i, [], []⟩ 2 = 4 ∧
    (∃ r, TrimStart ⟨fun _ l => l, fun _ l => l, fun _ l => l, fun _ l => l⟩
        ⟨fun _ => 0, fun _ => 0, fun _ => 0, fun _ => 0, fun _ => 0, fun _ => 0⟩
        ⟨12, 2, 1000, 7, fun i => i, fun i => i, fun i => i, [], []⟩ 2 = some r ∧
      (r.1 = false ↔
        samplesToCut ⟨12, 2, 1000, 7, fun i => i, fun i => i, fun i => i, [], []⟩ 2 ≥ 12) ∧
      (r.1 = false → r.2 = ⟨12, 2, 1000, 7, fun i => i, fun i => i, fun i => i, [], []⟩) ∧
      (r.1 = true → r.2.ArrayLength =
          12 - samplesToCut ⟨12, 2, 1000, 7, fun i => i, fun i => i, fun i => i, [], []⟩ 2 ∧
        ∀ i,
          i < 12 -
            samplesToCut ⟨12, 2, 1000, 7, fun i => i, fun i => i, fun i => i, [], []⟩ 2 →
          SampleEq ⟨12, 2, 1000, 7, fun i => i, fun i => i, fun i => i, [], []⟩ r.2
            (samplesToCut ⟨12, 2, 1000, 7, fun i => i, fun i => i, fun i => i, [], []⟩ 2 + i)
            i)) :=
  ⟨by decide!, by decide!,
    (Trim_spec ⟨fun _ l => l, fun _ l => l, fun _ l => l, fun _ l => l⟩
      ⟨fun _ => 0, fun _ => 0, fun _ => 0, fun _ => 0, fun _ => 0, fun _ => 0⟩
      ⟨12, 2, 1000, 7, fun i => i, fun i => i, fun i => i, [], []⟩ 2 (by decide) (by decide)
      (by decide!)).2.2.1⟩

/-- Counterexample to C17 as stated: 350 ms at 44100 Hz. The quotient
`350 * 44100 / 1000` is 15435, but the `double` 0.35 lies below 0.35 and the product
rounds to 15434.999999999998, so that 15434 frames are cut. On a mono buffer of 15435
samples the claim gives `cut = 15435 ≥ ArrayLength`, a failure that leaves the buffer as it
is; `TrimStart` returns `true` and leaves one sample. -/
theorem trim_count_below_floor :
    cutOf ⟨15435, 1, 44100, 7, fun i => i, fun i => i, fun i => i, [], []⟩ 350 = 15435 ∧
    trimSamples ⟨15435, 1, 44100, 7, fun i => i, fun i => i, fun i => i, [], []⟩ 350 =
      15434 ∧
    (TrimStart ⟨fun _ l => l, fun _ l => l, fun _ l => l, fun _ l => l⟩
      ⟨fun _ => 0, fun _ => 0, fun _ => 0, fun _ => 0, fun _ => 0, fun _ => 0⟩
      ⟨15435, 1, 44100, 7, fun i => i, fun i => i, fun i => i, [], []⟩ 350).map
      (fun r => (r.1, r.2.ArrayLength, r.2.doubleAudioData 0)) = some (true, 1, 15434) := by
  decide!

/-- C18 (amended). On a buffer that is not empty, `TrimStart` with 0 ms returns `true` and
leaves `ArrayLength` and every sample of the selected array unchanged. -/
theorem TrimStart_zero (ext : Markers) (fresh : Fresh) (st : FileHandlingMembers)
    (hch : 1 ≤ st.m_channels) (hAL : st.ArrayLength < U32) (hpos : 0 < st.ArrayLength) :
    ∃ st', TrimStart ext fresh st 0 = some (true, st') ∧
      st'.ArrayLength = st.ArrayLength ∧ ∀ i, i < st.ArrayLength → SampleEq st st' i i := by
  have hzero : samplesToCut st 0 = 0 := by
    unfold samplesToCut trimSamples
    have h0 : rnd (rnd (((0 : Nat) : ℚ) / 1000) * (st.m_samplerate : ℚ)) = 0 := by
      rw [Nat.cast_zero, zero_div, rnd_zero, zero_mul, rnd_zero]
    rw [h0]
    unfold toUnsigned umul
    simp
  obtain ⟨r, hr, hiff, _, hok⟩ := TrimStart_run ext fresh st 0 hAL
  rw [hzero] at hiff hok
  have htrue : r.1 = true := by
    cases hb : r.1 with
    | true => rfl
    | false =>
      have := hiff.mp hb
      omega
  obtain ⟨hlen, _, hcopy⟩ := hok htrue
  refine ⟨r.2, ?_, by rw [hlen]; omega, ?_⟩
  · rw [hr, ← htrue]
  · intro i hi
    have := hcopy i (by omega)
    rw [Nat.zero_add] at this
    exact this

/-- Witness for `TrimStart_zero`: a stereo buffer of 12 samples. -/
theorem TrimStart_zero_witness :
    ∃ st', TrimStart ⟨fun _ l => l, fun _ l => l, fun _ l => l, fun _ l => l⟩
        ⟨fun _ => 0, fun _ => 0, fun _ => 0, fun _ => 0, fun _ => 0, fun _ => 0⟩
        ⟨12, 2, 1000, 7, fun i => i, fun i => i, fun i => i, [], []⟩ 0 = some (true, st') ∧
      st'.ArrayLength = 12 ∧
      ∀ i, i < 12 →
        SampleEq ⟨12, 2, 1000, 7, fun i => i, fun i => i, fun i => i, [], []⟩ st' i i :=
  TrimStart_zero ⟨fun _ l => l, fun _ l => l, fun _ l => l, fun _ l => l⟩
    ⟨fun _ => 0, fun _ => 0, fun _ => 0, fun _ => 0, fun _ => 0, fun _ => 0⟩
    ⟨12, 2, 1000, 7, fun i => i, fun i => i, fun i => i, [], []⟩ (by decide) (by decide)
    (by decide)

/-- Counterexample to C18 as stated: on an empty buffer (`ArrayLength = 0`, one channel,
44100 Hz) `TrimStart` with 0 ms returns `false`. -/
theorem TrimStart_zero_empty :
    (TrimStart ⟨fun _ l => l, fun _ l => l, fun _ l => l, fun _ l => l⟩
      ⟨fun _ => 0, fun _ => 0, fun _ => 0, fun _ => 0, fun _ => 0, fun _ => 0⟩
      ⟨0, 1, 44100, 7, fun _ => 0, fun _ => 0, fun _ => 0, [], []⟩ 0).map
      (fun r => (r.1, r.2.ArrayLength)) = some (false, 0) := by
  decide!

/-! ## TrimExcessData -/

/-- Reading a list after one of its entries was replaced. -/
theorem getD_set {α : Type} (l : List α) (i k : Nat) (x d : α) (hi : i < l.length) :
    (l.set i x).getD k d = if k = i then x else l.getD k d := by
  by_cases hk : k < l.length
  · rw [List.getD_eq_getElem _ _ (by rw [List.length_set]; exact hk), List.getElem_set]
    by_cases hki : k = i
    · rw [if_pos hki.symm, if_pos hki]
    · rw [if_neg (fun h => hki h.symm), if_neg hki, List.getD_eq_getElem _ _ hk]
  · have hki : k ≠ i := by omega
    rw [if_neg hki, List.getD_eq_default _ _ (by rw [List.length_set]; omega),
      List.getD_eq_default _ _ (by omega)]

/-- The first loop of `TrimExcessData` finds the largest loop end (0 without loops). -/
theorem lastEndSample_spec (m_loops : List LOOPDATA) (hlen : m_loops.length < U32) :
    ∃ E, lastEndSample m_loops = some E ∧ (∀ l, l ∈ m_loops → l.dwEnd ≤ E) ∧
      (E = 0 ∨ ∃ l, l ∈ m_loops ∧ l.dwEnd = E) := by
  unfold lastEndSample
  refine forLoop_count m_loops.length _
    (fun i (last : Nat) => i ≤ m_loops.length ∧
      (∀ k, k < i → (GetLoopData m_loops k).dwEnd ≤ last) ∧
      (last = 0 ∨ ∃ l, l ∈ m_loops ∧ l.dwEnd = last))
    (fun E => (∀ l, l ∈ m_loops → l.dwEnd ≤ E) ∧ (E = 0 ∨ ∃ l, l ∈ m_loops ∧ l.dwEnd = E))
    ?_ ?_ hlen 0 0 ⟨Nat.zero_le _, fun k h => absurd h (by omega), Or.inl rfl⟩
  · intro i last ⟨hi, hmax, hex⟩ hlt
    left
    have hmem : GetLoopData m_loops i ∈ m_loops := by
      unfold GetLoopData
      rw [List.getD_eq_getElem _ _ hlt]
      exact List.getElem_mem hlt
    by_cases hgt : (GetLoopData m_loops i).dwEnd > last
    · refine ⟨_, if_pos hgt, by omega, ?_, Or.inr ⟨_, hmem, rfl⟩⟩
      intro k hk
      by_cases hki : k = i
      · rw [hki]
      · have := hmax k (by omega)
        omega
    · refine ⟨_, if_neg hgt, by omega, ?_, hex⟩
      intro k hk
      by_cases hki : k = i
      · rw [hki]; omega
      · exact hmax k (by omega)
  · intro i last ⟨hi, hmax, hex⟩ hge
    refine ⟨?_, hex⟩
    intro l hl
    obtain ⟨k, hk, rfl⟩ := List.mem_iff_getElem.mp hl
    have := hmax k (by omega)
    unfold GetLoopData at this
    rw [List.getD_eq_getElem _ _ hk] at this
    exact this

/-- The second loop of `TrimExcessData` finds the smallest cue offset above the last loop
end (0 when no cue lies above it). -/
theorem firstCuePosAfter_spec (m_cues : List CUEPOINT) (E : Nat)
    (hlen : m_cues.length < U32) :
    ∃ c, firstCuePosAfter m_cues E = some c ∧
      (c = 0 → ∀ q, q ∈ m_cues → q.dwSampleOffset ≤ E) ∧
      (c ≠ 0 → E < c ∧ (∃ q, q ∈ m_cues ∧ q.dwSampleOffset = c) ∧
        ∀ q, q ∈ m_cues → E < q.dwSampleOffset → c ≤ q.dwSampleOffset) := by
  unfold firstCuePosAfter
  refine forLoop_stride m_cues.length 1 (Nat.le_refl 1) (by omega) _
    (fun i (first : Nat) => i ≤ m_cues.length ∧
      (first = 0 → ∀ k, k < i → (GetCuePoint m_cues k).dwSampleOffset ≤ E) ∧
      (first ≠ 0 → E < first ∧ (∃ q, q ∈ m_cues ∧ q.dwSampleOffset = first) ∧
        ∀ k, k < i → E < (GetCuePoint m_cues k).dwSampleOffset →
          first ≤ (GetCuePoint m_cues k).dwSampleOffset))
    (fun c => (c = 0 → ∀ q, q ∈ m_cues → q.dwSampleOffset ≤ E) ∧
      (c ≠ 0 → E < c ∧ (∃ q, q ∈ m_cues ∧ q.dwSampleOffset = c) ∧
        ∀ q, q ∈ m_cues → E < q.dwSampleOffset → c ≤ q.dwSampleOffset))
    ?_ ?_ 0 0 ⟨Nat.zero_le _, fun _ k h => absurd h (by omega), fun h => absurd rfl h⟩
  · intro i first ⟨hi, hzero, hpos⟩ hlt
    left
    have hmem : GetCuePoint m_cues i ∈ m_cues := by
      unfold GetCuePoint
      rw [List.getD_eq_getElem _ _ hlt]
      exact List.getElem_mem hlt
    by_cases hgt : (GetCuePoint m_cues i).dwSampleOffset > E
    · by_cases hf : first = 0
      · refine ⟨(GetCuePoint m_cues i).dwSampleOffset, ?_, by omega, fun h => by omega, ?_⟩
        · rw [if_pos hgt, if_pos hf]
        · intro _
          refine ⟨hgt, ⟨_, hmem, rfl⟩, ?_⟩
          intro k hk hkE
          by_cases hki : k = i
          · rw [hki]
          · have := hzero hf k (by omega)
            omega
      · obtain ⟨hE, hex, hmin⟩ := hpos hf
        by_cases hless : (GetCuePoint m_cues i).dwSampleOffset < first
        · refine ⟨(GetCuePoint m_cues i).dwSampleOffset, ?_, by omega, fun h => by omega, ?_⟩
          · rw [if_pos hgt, if_neg hf, if_pos hless]
          · intro _
            refine ⟨hgt, ⟨_, hmem, rfl⟩, ?_⟩
            intro k hk hkE
            by_cases hki : k = i
            · rw [hki]
            · have := hmin k (by omega) hkE
              omega
        · refine ⟨first, ?_, by omega, fun h => absurd h hf, ?_⟩
          · rw [if_pos hgt, if_neg hf, if_neg hless]
          · intro _
            refine ⟨hE, hex, ?_⟩
            intro k hk hkE
            by_cases hki : k = i
            · rw [hki]; omega
            · exact hmin k (by omega) hkE
    · refine ⟨first, if_neg hgt, by omega, ?_, ?_⟩
      · intro hf k hk
        by_cases hki : k = i
        · rw [hki]; omega
        · exact hzero hf k (by omega)
      · intro hf
        obtain ⟨hE, hex, hmin⟩ := hpos hf
        refine ⟨hE, hex, ?_⟩
        intro k hk hkE
        by_cases hki : k = i
        · rw [hki] at hkE; omega
        · exact hmin k (by omega) hkE
  · intro i first ⟨hi, hzero, hpos⟩ hge
    have hall : ∀ q, q ∈ m_cues → ∃ k, k < i ∧ GetCuePoint m_cues k = q := by
      intro q hq
      obtain ⟨k, hk, rfl⟩ := List.mem_iff_getElem.mp hq
      refine ⟨k, by omega, ?_⟩
      unfold GetCuePoint
      rw [List.getD_eq_getElem _ _ hk]
    refine ⟨?_, ?_⟩
    · intro hf q hq
      obtain ⟨k, hk, rfl⟩ := hall q hq
      exact hzero hf k hk
    · intro hf
      obtain ⟨hE, hex, hmin⟩ := hpos hf
      refine ⟨hE, hex, ?_⟩
      intro q hq hqE
      obtain ⟨k, hk, rfl⟩ := hall q hq
      exact hmin k hk hqE

/-- The loop that moves the cues gives every cue above the last loop end its offset less
`samplesToRemove`, and leaves the other cues and the number of cues as they are. -/
theorem moveCuesAfter_spec (m_cues : List CUEPOINT) (E R : Nat) (hlen : m_cues.length < U32) :
    ∃ cues, moveCuesAfter m_cues E R = some cues ∧ cues.length = m_cues.length ∧
      ∀ k, k < m_cues.length →
        (GetCuePoint cues k).dwSampleOffset =
          if (GetCuePoint m_cues k).dwSampleOffset > E then
            usub (GetCuePoint m_cues k).dwSampleOffset R
          else (GetCuePoint m_cues k).dwSampleOffset := by
  unfold moveCuesAfter
  refine forLoop_stride m_cues.length 1 (Nat.le_refl 1) (by omega) _
    (fun i (cs : List CUEPOINT) => i ≤ m_cues.length ∧ cs.length = m_cues.length ∧
      (∀ k, k < i → (GetCuePoint cs k).dwSampleOffset =
        if (GetCuePoint m_cues k).dwSampleOffset > E then
          usub (GetCuePoint m_cues k).dwSampleOffset R
        else (GetCuePoint m_cues k).dwSampleOffset) ∧
      ∀ k, i ≤ k → GetCuePoint cs k = GetCuePoint m_cues k)
    (fun cs => cs.length = m_cues.length ∧
      ∀ k, k < m_cues.length → (GetCuePoint cs k).dwSampleOffset =
        if (GetCuePoint m_cues k).dwSampleOffset > E then
          usub (GetCuePoint m_cues k).dwSampleOffset R
        else (GetCuePoint m_cues k).dwSampleOffset)
    ?_ ?_ 0 m_cues ⟨Nat.zero_le _, rfl, fun k h => absurd h (by omega), fun _ _ => rfl⟩
  · intro i cs ⟨hi, hcl, hdone, hrest⟩ hlt
    left
    have hcur : GetCuePoint cs i = GetCuePoint m_cues i := hrest i (Nat.le_refl _)
    by_cases hgt : (GetCuePoint cs i).dwSampleOffset > E
    · refine ⟨ChangePosition cs (usub (GetCuePoint cs i).dwSampleOffset R) i, if_pos hgt,
        by omega, ?_, ?_, ?_⟩
      · unfold ChangePosition
        rw [List.length_set, hcl]
      · intro k hk
        unfold ChangePosition GetCuePoint
        rw [getD_set _ _ _ _ _ (by omega)]
        by_cases hki : k = i
        · rw [if_pos hki, hki]
          rw [hcur] at hgt
          unfold GetCuePoint at hgt hcur
          rw [if_pos hgt, hcur]
        · rw [if_neg hki]
          exact hdone k (by omega)
      · intro k hk
        unfold ChangePosition GetCuePoint
        rw [getD_set _ _ _ _ _ (by omega), if_neg (by omega)]
        exact hrest k (by omega)
    · refine ⟨cs, if_neg hgt, by omega, hcl, ?_, fun k hk => hrest k (by omega)⟩
      intro k hk
      by_cases hki : k = i
      · rw [hki]
        rw [hcur] at hgt
        rw [if_neg hgt, hcur]
      · exact hdone k (by omega)
  · intro i cs ⟨hi, hcl, hdone, _⟩ hge
    exact ⟨hcl, fun k hk => hdone k (by omega)⟩

/-- One branch of `TrimExcessData`: the new array holds the first `(E + 3) * channels`
samples of the old one and, with a cue after the last loop end, behind them the samples of
the old one from `(firstCue - 1) * channels` on. -/
theorem spliceArray_spec {α : Type} (AL ch E fc newLen : Nat) (old temp new : Nat → α)
    (hch : 1 ≤ ch) (hAL : AL < U32) (hH : (E + 3) * ch < U32)
    (hT : fc ≠ 0 → (fc - 1) * ch ≤ AL)
    (hfit : fc ≠ 0 → (E + 3) * ch + (AL - (fc - 1) * ch) < U32) (hnew : newLen < U32) :
    ∃ r, spliceArray AL ch E fc newLen old temp new = some r ∧
      (∀ i, i < newLen → i < (E + 3) * ch → r i = old i) ∧
      (fc ≠ 0 → ∀ i, i < newLen → (E + 3) * ch ≤ i →
        i < (E + 3) * ch + (AL - (fc - 1) * ch) →
        r i = old ((fc - 1) * ch + (i - (E + 3) * ch))) := by
  have hE3 : E + 3 < U32 := by
    have := Nat.le_mul_of_pos_right (E + 3) hch
    omega
  have hHead : umul (uadd E 3) ch = (E + 3) * ch := by
    rw [uadd_eq hE3]
    exact umul_eq hH
  unfold spliceArray
  rw [hHead]
  obtain ⟨head, hhead, hcopy, _⟩ := copyLoop_spec ((E + 3) * ch) (fun i => i) old temp hH
  rw [hhead, Option.some_bind]
  by_cases hfc : fc ≠ 0
  · have hTle := hT hfc
    have hroom := hfit hfc
    have hfc1 : fc - 1 ≤ AL := by
      have := Nat.le_mul_of_pos_right (fc - 1) hch
      omega
    have hTail : umul (usub fc 1) ch = (fc - 1) * ch := by
      have : usub fc 1 = fc - 1 := by
        unfold usub U32 at *
        omega
      rw [this]
      exact umul_eq (by omega)
    rw [if_pos hfc, hTail]
    obtain ⟨st, hst, hkeep, htail⟩ : ∃ st, forLoop (fun i => decide (i < AL))
        (fun i => uadd i 1)
        (fun i (st : (Nat → α) × Nat) =>
          some (Step.next (Function.update st.1 st.2 (old i), uadd st.2 1)))
        U32 ((fc - 1) * ch) (head, (E + 3) * ch) = some st ∧
        (∀ j, j < (E + 3) * ch → st.1 j = head j) ∧
        ∀ j, (E + 3) * ch ≤ j → j < (E + 3) * ch + (AL - (fc - 1) * ch) →
          st.1 j = old ((fc - 1) * ch + (j - (E + 3) * ch)) := by
      refine forLoop_stride AL 1 (Nat.le_refl 1) (by omega) _
        (fun i (st : (Nat → α) × Nat) => (fc - 1) * ch ≤ i ∧ i ≤ AL ∧
          st.2 = (E + 3) * ch + (i - (fc - 1) * ch) ∧
          (∀ j, j < (E + 3) * ch → st.1 j = head j) ∧
          ∀ j, (E + 3) * ch ≤ j → j < (E + 3) * ch + (i - (fc - 1) * ch) →
            st.1 j = old ((fc - 1) * ch + (j - (E + 3) * ch)))
        (fun st => (∀ j, j < (E + 3) * ch → st.1 j = head j) ∧
          ∀ j, (E + 3) * ch ≤ j → j < (E + 3) * ch + (AL - (fc - 1) * ch) →
            st.1 j = old ((fc - 1) * ch + (j - (E + 3) * ch)))
        ?_ ?_ ((fc - 1) * ch) (head, (E + 3) * ch)
        ⟨Nat.le_refl _, hTle, by simp, fun _ _ => rfl, fun j h1 h2 => absurd h2 (by omega)⟩
      · intro i st ⟨hlo, hhi, hidx, hhd, htl⟩ hlt
        left
        refine ⟨_, rfl, by omega, by omega, ?_, ?_, ?_⟩
        · show uadd st.2 1 = _
          rw [uadd_eq (by omega), hidx]
          omega
        · intro j hj
          show Function.update st.1 st.2 (old i) j = head j
          rw [Function.update_noteq (by omega)]
          exact hhd j hj
        · intro j hj1 hj2
          show Function.update st.1 st.2 (old i) j = _
          by_cases hjj : j = st.2
          · rw [hjj, Function.update_same, hidx]
            congr 1
            omega
          · rw [Function.update_noteq hjj]
            exact htl j hj1 (by omega)
      · intro i st ⟨hlo, hhi, hidx, hhd, htl⟩ hge
        have : i = AL := by omega
        rw [this] at htl
        exact ⟨hhd, htl⟩
    rw [hst]
    obtain ⟨r, hr, hfin, _⟩ := copyLoop_spec newLen (fun i => i) st.1 new hnew
    refine ⟨r, ?_, ?_, ?_⟩
    · show (Option.map _ (some st)).bind _ = _
      rw [Option.map_some', Option.some_bind]
      exact hr
    · intro i hi hlt
      rw [hfin i hi, hkeep i hlt]
      exact hcopy i hlt
    · intro _ i hi h1 h2
      rw [hfin i hi]
      exact htail i h1 h2
  · rw [if_neg hfc, Option.some_bind]
    obtain ⟨r, hr, hfin, _⟩ := copyLoop_spec newLen (fun i => i) head new hnew
    refine ⟨r, hr, ?_, fun h => absurd h hfc⟩
    intro i hi hlt
    rw [hfin i hi]
    exact hcopy i hlt

/-- The value of `newArrayLength` without wrapping. -/
theorem excessLength_eq (st : FileHandlingMembers) (E fc : Nat) (hch : 1 ≤ st.m_channels)
    (hAL : st.ArrayLength < U32) (hH : (E + 3) * st.m_channels < U32)
    (hT : fc ≠ 0 → (fc - 1) * st.m_channels ≤ st.ArrayLength) :
    excessLength st E fc =
      if fc ≠ 0 then (E + 3) * st.m_channels + (st.ArrayLength - (fc - 1) * st.m_channels)
      else (E + 3) * st.m_channels := by
  have hE3 : E + 3 < U32 := by
    have := Nat.le_mul_of_pos_right (E + 3) hch
    omega
  have hHead : umul (uadd E 3) st.m_channels = (E + 3) * st.m_channels := by
    rw [uadd_eq hE3]
    exact umul_eq hH
  unfold excessLength
  rw [hHead]
  by_cases hfc : fc ≠ 0
  · have hTle := hT hfc
    have hfc1 : fc - 1 ≤ st.ArrayLength := by
      have := Nat.le_mul_of_pos_right (fc - 1) hch
      omega
    have hTail : umul (usub fc 1) st.m_channels = (fc - 1) * st.m_channels := by
      have : usub fc 1 = fc - 1 := by
        unfold usub U32 at *
        omega
      rw [this]
      exact umul_eq (by omega)
    rw [if_pos hfc, if_pos hfc, hTail, usub_eq hTle hAL]
  · rw [if_neg hfc, if_neg hfc]

/-- The three branches of `TrimExcessData`: the selected array is spliced, the length
becomes `newArrayLength`, and nothing else changes. -/
theorem spliceSelected_spec (fresh : Fresh) (st : FileHandlingMembers) (E fc : Nat)
    (hch : 1 ≤ st.m_channels) (hAL : st.ArrayLength < U32)
    (hH : (E + 3) * st.m_channels < U32)
    (hT : fc ≠ 0 → (fc - 1) * st.m_channels ≤ st.ArrayLength)
    (hfit : fc ≠ 0 →
      (E + 3) * st.m_channels + (st.ArrayLength - (fc - 1) * st.m_channels) < U32) :
    ∃ st', spliceSelected fresh st E fc = some st' ∧
      st'.ArrayLength = excessLength st E fc ∧ st'.m_channels = st.m_channels ∧
      st'.m_loops = st.m_loops ∧ st'.m_cues = st.m_cues ∧
      (∀ i, i < excessLength st E fc → i < (E + 3) * st.m_channels → SampleEq st st' i i) ∧
      (fc ≠ 0 → ∀ i, i < excessLength st E fc → (E + 3) * st.m_channels ≤ i →
        SampleEq st st' ((fc - 1) * st.m_channels + (i - (E + 3) * st.m_channels)) i) := by
  have hlen := excessLength_eq st E fc hch hAL hH hT
  have hnew : excessLength st E fc < U32 := by
    rw [hlen]
    by_cases hfc : fc ≠ 0
    · rw [if_pos hfc]; exact hfit hfc
    · rw [if_neg hfc]; exact hH
  have hin : fc ≠ 0 → ∀ i, i < excessLength st E fc →
      i < (E + 3) * st.m_channels + (st.ArrayLength - (fc - 1) * st.m_channels) := by
    intro hfc i hi
    rw [hlen, if_pos hfc] at hi
    exact hi
  unfold spliceSelected SampleEq
  by_cases hd : st.m_minorFormat = SF_FORMAT_DOUBLE ∨ st.m_minorFormat = SF_FORMAT_FLOAT
  · obtain ⟨r, hr, hhead, htail⟩ := spliceArray_spec st.ArrayLength st.m_channels E fc
      (excessLength st E fc) st.doubleAudioData fresh.doubleTemp fresh.doubleNew hch hAL hH hT
      hfit hnew
    rw [if_pos hd, hr]
    refine ⟨_, rfl, rfl, rfl, rfl, rfl, ?_, ?_⟩
    · intro i hi hlt
      rw [if_pos hd]
      exact hhead i hi hlt
    · intro hfc i hi hge
      rw [if_pos hd]
      exact htail hfc i hi hge (hin hfc i hi)
  · rw [if_neg hd]
    by_cases hs : st.m_minorFormat = SF_FORMAT_PCM_16 ∨ st.m_minorFormat = SF_FORMAT_PCM_S8 ∨
        st.m_minorFormat = SF_FORMAT_PCM_U8
    · obtain ⟨r, hr, hhead, htail⟩ := spliceArray_spec st.ArrayLength st.m_channels E fc
        (excessLength st E fc) st.shortAudioData fresh.shortTemp fresh.shortNew hch hAL hH hT
        hfit hnew
      rw [if_pos hs, hr]
      refine ⟨_, rfl, rfl, rfl, rfl, rfl, ?_, ?_⟩
      · intro i hi hlt
        rw [if_neg hd, if_pos hs]
        exact hhead i hi hlt
      · intro hfc i hi hge
        rw [if_neg hd, if_pos hs]
        exact htail hfc i hi hge (hin hfc i hi)
    · obtain ⟨r, hr, hhead, htail⟩ := spliceArray_spec st.ArrayLength st.m_channels E fc
        (excessLength st E fc) st.intAudioData fresh.intTemp fresh.intNew hch hAL hH hT
        hfit hnew
      rw [if_neg hs, hr]
      refine ⟨_, rfl, rfl, rfl, rfl, rfl, ?_, ?_⟩
      · intro i hi hlt
        rw [if_neg hd, if_neg hs]
        exact hhead i hi hlt
      · intro hfc i hi hge
        rw [if_neg hd, if_neg hs]
        exact htail hfc i hi hge (hin hfc i hi)

/-- A run of `TrimExcessData` (positions inside the range of 32 bits, every cue inside the
buffer): it returns; without a loop end above 0 nothing changes; otherwise the length
becomes `newArrayLength`, the selected array is spliced, the cues above the last loop end
are moved and everything else is as it was. -/
theorem TrimExcessData_run (fresh : Fresh) (st : FileHandlingMembers)
    (hch : 1 ≤ st.m_channels) (hAL : st.ArrayLength < U32)
    (hloops : st.m_loops.length < U32) (hcues : st.m_cues.length < U32)
    (hE : ∀ l, l ∈ st.m_loops → (l.dwEnd + 3) * st.m_channels + st.ArrayLength < U32)
    (hq : ∀ q, q ∈ st.m_cues → (q.dwSampleOffset - 1) * st.m_channels ≤ st.ArrayLength) :
    ∃ E c st', lastEndSample st.m_loops = some E ∧ firstCuePosAfter st.m_cues E = some c ∧
      TrimExcessData fresh st = some st' ∧ (E = 0 → st' = st) ∧
      (E ≠ 0 → st'.ArrayLength = excessLength st E c ∧ st'.m_channels = st.m_channels ∧
        st'.m_loops = st.m_loops ∧ st'.m_cues.length = st.m_cues.length ∧
        (c = 0 → st'.m_cues = st.m_cues) ∧
        (c ≠ 0 → ∀ k, k < st.m_cues.length →
          (GetCuePoint st'.m_cues k).dwSampleOffset =
            if (GetCuePoint st.m_cues k).dwSampleOffset > E then
              usub (GetCuePoint st.m_cues k).dwSampleOffset (usub (usub c 1) (uadd E 3))
            else (GetCuePoint st.m_cues k).dwSampleOffset) ∧
        (∀ i, i < excessLength st E c → i < (E + 3) * st.m_channels → SampleEq st st' i i) ∧
        (c ≠ 0 → ∀ i, i < excessLength st E c → (E + 3) * st.m_channels ≤ i →
          SampleEq st st' ((c - 1) * st.m_channels + (i - (E + 3) * st.m_channels)) i)) := by
  obtain ⟨E, hlast, hmax, hex⟩ := lastEndSample_spec st.m_loops hloops
  obtain ⟨c, hfirst, hc0, hcpos⟩ := firstCuePosAfter_spec st.m_cues E hcues
  unfold TrimExcessData
  rw [hlast, Option.some_bind]
  by_cases hE0 : E = 0
  · rw [if_neg (by simpa using hE0)]
    exact ⟨E, c, st, rfl, hfirst, rfl, fun _ => rfl, fun h => absurd hE0 h⟩
  · rw [if_pos hE0, hfirst, Option.some_bind]
    have hroom : (E + 3) * st.m_channels + st.ArrayLength < U32 := by
      rcases hex with h0 | ⟨l, hl, hlE⟩
      · exact absurd h0 hE0
      · rw [← hlE]; exact hE l hl
    have hT : c ≠ 0 → (c - 1) * st.m_channels ≤ st.ArrayLength := by
      intro hc
      obtain ⟨_, ⟨q, hq', hqc⟩, _⟩ := hcpos hc
      rw [← hqc]; exact hq q hq'
    have hmoved : ∃ cues, (if c ≠ 0 then
          moveCuesAfter st.m_cues E (usub (usub c 1) (uadd E 3))
        else some st.m_cues) = some cues ∧ cues.length = st.m_cues.length ∧
        (c = 0 → cues = st.m_cues) ∧
        (c ≠ 0 → ∀ k, k < st.m_cues.length →
          (GetCuePoint cues k).dwSampleOffset =
            if (GetCuePoint st.m_cues k).dwSampleOffset > E then
              usub (GetCuePoint st.m_cues k).dwSampleOffset (usub (usub c 1) (uadd E 3))
            else (GetCuePoint st.m_cues k).dwSampleOffset) := by
      by_cases hc : c ≠ 0
      · obtain ⟨cues, hcues', hl, hmv⟩ := moveCuesAfter_spec st.m_cues E
          (usub (usub c 1) (uadd E 3)) hcues
        rw [if_pos hc]
        exact ⟨cues, hcues', hl, fun h => absurd h hc, fun _ => hmv⟩
      · rw [if_neg hc]
        exact ⟨_, rfl, rfl, fun _ => rfl, fun h => absurd h hc⟩
    obtain ⟨cues, hcues', hclen, hsame, hmv⟩ := hmoved
    rw [hcues', Option.some_bind]
    obtain ⟨st', hst', hlen, hchan, hlp, hcu, hhead, htail⟩ := spliceSelected_spec fresh
      { st with m_cues := cues } E c hch hAL
      (show (E + 3) * st.m_channels < U32 by omega) hT (fun hc => by
        have := hT hc
        show (E + 3) * st.m_channels + (st.ArrayLength - (c - 1) * st.m_channels) < U32
        omega)
    refine ⟨E, c, st', rfl, hfirst, hst', fun h => absurd h hE0, fun _ =>
      ⟨hlen, hchan, hlp, ?_, ?_, ?_, hhead, htail⟩⟩
    · rw [hcu]; exact hclen
    · intro hc
      rw [hcu]; exact hsame hc
    · intro hc k hk
      rw [hcu]; exact hmv hc k hk

/-- What `TrimExcessData` does when the highest loop end frame `E` is at least 1 and `c` is
the smallest cue offset greater than `E`, with `c ≥ E + 4` (every cue inside the buffer,
positions within 32 bits): it returns; with `R = (c - 1) - (E + 3)` the new `ArrayLength` is
the old one less `R * channels`, the selected array holds the old frames `[0, E + 3)`
followed by the old frames from `c - 1` on, the loops are unchanged, every cue above `E` is
moved down by `R` frames and designates in the new array the samples it designated in the
old one, and the cues at or before `E` are unchanged. -/
theorem TrimExcessData_spec (fresh : Fresh) (st : FileHandlingMembers) (E c : Nat)
    (hch : 1 ≤ st.m_channels) (hAL : st.ArrayLength < U32)
    (hloops : st.m_loops.length < U32) (hcues : st.m_cues.length < U32)
    (hpos : ∀ l, l ∈ st.m_loops → (l.dwEnd + 3) * st.m_channels + st.ArrayLength < U32)
    (hq : ∀ q, q ∈ st.m_cues → (q.dwSampleOffset - 1) * st.m_channels ≤ st.ArrayLength)
    (hq32 : ∀ q, q ∈ st.m_cues → q.dwSampleOffset < U32)
    (hEmax : ∀ l, l ∈ st.m_loops → l.dwEnd ≤ E) (hEex : ∃ l, l ∈ st.m_loops ∧ l.dwEnd = E)
    (hE1 : 1 ≤ E)
    (hcex : ∃ q, q ∈ st.m_cues ∧ q.dwSampleOffset = c) (hcE : E + 4 ≤ c)
    (hcmin : ∀ q, q ∈ st.m_cues → E < q.dwSampleOffset → c ≤ q.dwSampleOffset) :
    ∃ st', TrimExcessData fresh st = some st' ∧
      st'.ArrayLength + (c - 1 - (E + 3)) * st.m_channels = st.ArrayLength ∧
      (∀ i, i < (E + 3) * st.m_channels → SampleEq st st' i i) ∧
      (∀ i, (E + 3) * st.m_channels ≤ i → i < st'.ArrayLength →
        SampleEq st st' (i + (c - 1 - (E + 3)) * st.m_channels) i) ∧
      st'.m_loops = st.m_loops ∧ st'.m_cues.length = st.m_cues.length ∧
      ∀ k, k < st.m_cues.length →
        (E < (GetCuePoint st.m_cues k).dwSampleOffset →
          (GetCuePoint st'.m_cues k).dwSampleOffset + (c - 1 - (E + 3)) =
            (GetCuePoint st.m_cues k).dwSampleOffset ∧
          ∀ j, j < st.m_channels →
            (GetCuePoint st.m_cues k).dwSampleOffset * st.m_channels + j < st.ArrayLength →
            SampleEq st st' ((GetCuePoint st.m_cues k).dwSampleOffset * st.m_channels + j)
              ((GetCuePoint st'.m_cues k).dwSampleOffset * st.m_channels + j)) ∧
        ((GetCuePoint st.m_cues k).dwSampleOffset ≤ E →
          (GetCuePoint st'.m_cues k).dwSampleOffset =
            (GetCuePoint st.m_cues k).dwSampleOffset) := by
  obtain ⟨E', c', st', hlast, hfirst, hrun, _, hne⟩ := TrimExcessData_run fresh st hch hAL
    hloops hcues hpos hq
  -- the values found by the two loops are `E` and `c`
  obtain ⟨E2, hlast2, hmax2, hex2⟩ := lastEndSample_spec st.m_loops hloops
  rw [hlast] at hlast2
  simp only [Option.some.injEq] at hlast2
  subst hlast2
  have hEE : E' = E := by
    obtain ⟨l, hl, hlE⟩ := hEex
    have h1 := hmax2 l hl
    rcases hex2 with h0 | ⟨l', hl', hl'E⟩
    · omega
    · have := hEmax l' hl'
      omega
  subst hEE
  obtain ⟨c2, hfirst2, hc0, hcpos⟩ := firstCuePosAfter_spec st.m_cues E' hcues
  rw [hfirst] at hfirst2
  simp only [Option.some.injEq] at hfirst2
  subst hfirst2
  have hcc : c' = c := by
    obtain ⟨q, hq', hqc⟩ := hcex
    have hne0 : c' ≠ 0 := by
      intro h0
      have := hc0 h0 q hq'
      omega
    obtain ⟨hEc, ⟨q2, hq2, hq2c⟩, hmin⟩ := hcpos hne0
    have h1 := hmin q hq' (by omega)
    have h2 := hcmin q2 hq2 (by omega)
    omega
  subst hcc
  have hc32 : c' < U32 := by
    obtain ⟨q, hq', hqc⟩ := hcex
    rw [← hqc]; exact hq32 q hq'
  have hTle : (c' - 1) * st.m_channels ≤ st.ArrayLength := by
    obtain ⟨q, hq', hqc⟩ := hcex
    rw [← hqc]; exact hq q hq'
  have hroom : (E' + 3) * st.m_channels + st.ArrayLength < U32 := by
    obtain ⟨l, hl, hlE⟩ := hEex
    rw [← hlE]; exact hpos l hl
  have hsplit : (c' - 1) * st.m_channels =
      (E' + 3) * st.m_channels + (c' - 1 - (E' + 3)) * st.m_channels := by
    rw [← Nat.add_mul]
    congr 1
    omega
  obtain ⟨hlen, hchan, hlp, hclen, _, hmv, hhead, htail⟩ := hne (by omega)
  have hex := excessLength_eq st E' c' hch hAL (by omega) (fun _ => hTle)
  rw [if_pos (by omega)] at hex
  have hR : usub (usub c' 1) (uadd E' 3) = c' - 1 - (E' + 3) := by
    have hE3 : E' + 3 < U32 := by
      have := Nat.le_mul_of_pos_right (E' + 3) hch
      omega
    rw [usub_eq (by omega) hc32, uadd_eq hE3, usub_eq (by omega) (by omega)]
  refine ⟨st', hrun, by omega, ?_, ?_, hlp, hclen, ?_⟩
  · intro i hi
    exact hhead i (by omega) hi
  · intro i hi1 hi2
    have := htail (by omega) i (by omega) hi1
    have hidx : (c' - 1) * st.m_channels + (i - (E' + 3) * st.m_channels) =
        i + (c' - 1 - (E' + 3)) * st.m_channels := by omega
    rw [hidx] at this
    exact this
  · intro k hk
    have hmem : GetCuePoint st.m_cues k ∈ st.m_cues := by
      unfold GetCuePoint
      rw [List.getD_eq_getElem _ _ hk]
      exact List.getElem_mem hk
    have hmoved := hmv (by omega) k hk
    rw [hR] at hmoved
    constructor
    · intro hgt
      rw [if_pos hgt] at hmoved
      have hge := hcmin _ hmem hgt
      have hlt32 := hq32 _ hmem
      rw [usub_eq (by omega) hlt32] at hmoved
      refine ⟨by omega, ?_⟩
      intro j hj hin
      have hprod : ((GetCuePoint st.m_cues k).dwSampleOffset - (c' - 1 - (E' + 3))) *
          st.m_channels + (c' - 1 - (E' + 3)) * st.m_channels =
          (GetCuePoint st.m_cues k).dwSampleOffset * st.m_channels := by
        rw [← Nat.add_mul, Nat.sub_add_cancel (by omega)]
      have hlow : (E' + 4) * st.m_channels ≤
          ((GetCuePoint st.m_cues k).dwSampleOffset - (c' - 1 - (E' + 3))) * st.m_channels :=
        Nat.mul_le_mul_right _ (by omega)
      have h43 : (E' + 4) * st.m_channels = (E' + 3) * st.m_channels + st.m_channels := by
        rw [Nat.add_mul, Nat.add_mul]
        omega
      rw [hmoved]
      have := htail (by omega)
        (((GetCuePoint st.m_cues k).dwSampleOffset - (c' - 1 - (E' + 3))) * st.m_channels + j)
        (by omega) (by omega)
      have hidx : (c' - 1) * st.m_channels +
          (((GetCuePoint st.m_cues k).dwSampleOffset - (c' - 1 - (E' + 3))) * st.m_channels +
            j - (E' + 3) * st.m_channels) =
          (GetCuePoint st.m_cues k).dwSampleOffset * st.m_channels + j := by omega
      rw [hidx] at this
      exact this
    · intro hle
      rw [if_neg (by omega)] at hmoved
      exact hmoved

/-- Witness for `TrimExcessData_spec`: a stereo buffer of 10 frames, loops that end at the
frames 1 and 2, cues at the frames 1, 9 and 8. -/
theorem TrimExcessData_spec_witness :
    ∃ st', TrimExcessData ⟨fun _ => 0, fun _ => 0, fun _ => 0, fun _ => 0, fun _ => 0, fun _ => 0⟩
        (⟨20, 2, 1000, 7, fun i => i, fun i => i, fun i => i, [⟨1, 1⟩, ⟨0, 2⟩], [⟨1⟩, ⟨9⟩, ⟨8⟩]⟩ : FileHandlingMembers) = some st' ∧
      st'.ArrayLength + (8 - 1 - (2 + 3)) * 2 = 20 ∧
      (∀ i, i < (2 + 3) * 2 → SampleEq ⟨20, 2, 1000, 7, fun i => i, fun i => i, fun i => i, [⟨1, 1⟩, ⟨0, 2⟩], [⟨1⟩, ⟨9⟩, ⟨8⟩]⟩ st' i i) ∧
      (∀ i, (2 + 3) * 2 ≤ i → i < st'.ArrayLength →
        SampleEq ⟨20, 2, 1000, 7, fun i => i, fun i => i, fun i => i, [⟨1, 1⟩, ⟨0, 2⟩], [⟨1⟩, ⟨9⟩, ⟨8⟩]⟩ st' (i + (8 - 1 - (2 + 3)) * 2) i) ∧
      st'.m_loops = [⟨1, 1⟩, ⟨0, 2⟩] ∧ st'.m_cues.length = 3 ∧
      ∀ k, k < 3 →
        (2 < (GetCuePoint [⟨1⟩, ⟨9⟩, ⟨8⟩] k).dwSampleOffset →
          (GetCuePoint st'.m_cues k).dwSampleOffset + (8 - 1 - (2 + 3)) =
            (GetCuePoint [⟨1⟩, ⟨9⟩, ⟨8⟩] k).dwSampleOffset ∧
          ∀ j, j < 2 →
            (GetCuePoint [⟨1⟩, ⟨9⟩, ⟨8⟩] k).dwSampleOffset * 2 + j < 20 →
            SampleEq ⟨20, 2, 1000, 7, fun i => i, fun i => i, fun i => i, [⟨1, 1⟩, ⟨0, 2⟩], [⟨1⟩, ⟨9⟩, ⟨8⟩]⟩ st'
              ((GetCuePoint [⟨1⟩, ⟨9⟩, ⟨8⟩] k).dwSampleOffset * 2 + j)
              ((GetCuePoint st'.m_cues k).dwSampleOffset * 2 + j)) ∧
        ((GetCuePoint [⟨1⟩, ⟨9⟩, ⟨8⟩] k).dwSampleOffset ≤ 2 →
          (GetCuePoint st'.m_cues k).dwSampleOffset =
            (GetCuePoint [⟨1⟩, ⟨9⟩, ⟨8⟩] k).dwSampleOffset) :=
  TrimExcessData_spec ⟨fun _ => 0, fun _ => 0, fun _ => 0, fun _ => 0, fun _ => 0, fun _ => 0⟩
    ⟨20, 2, 1000, 7, fun i => i, fun i => i, fun i => i, [⟨1, 1⟩, ⟨0, 2⟩], [⟨1⟩, ⟨9⟩, ⟨8⟩]⟩ 2 8
    (by decide) (by decide) (by decide) (by decide) (by decide) (by decide) (by decide)
    (by decide) ⟨⟨0, 2⟩, by simp, rfl⟩ (by decide) ⟨⟨8⟩, by simp, rfl⟩ (by decide)
    (by decide)

/-- C19 at a failing input: a stereo buffer of 10 frames with one loop, which ends at frame
0, and a cue at frame 5. The highest loop end is 0, the cue lies 5 frames behind it, and
`TrimExcessData` changes nothing (20 samples, the cue still at 5): the test
`if (lastEndSample)`, commented "only continue if there were any loops", takes the highest
loop end 0 for "no loops". -/
theorem TrimExcessData_loop_end_zero :
    (TrimExcessData ⟨fun _ => 0, fun _ => 0, fun _ => 0, fun _ => 0, fun _ => 0, fun _ => 0⟩
      ⟨20, 2, 1000, 7, fun i => i, fun i => i, fun i => i, [⟨0, 0⟩], [⟨5⟩]⟩).map
      (fun r => (r.ArrayLength, r.m_cues.map fun q => q.dwSampleOffset)) = some (20, [5]) := by
  decide!

/-- C20. If `ArrayLength` is a multiple of `m_channels` before `TrimStart`, `TrimEnd` or
`TrimExcessData`, it is one afterwards, whether the call trims or not (the cut and the
positions within 32 bits, every cue inside the buffer); each of the three calls
returns. -/
theorem ArrayLength_invariant (ext : Markers) (fresh : Fresh) (st : FileHandlingMembers)
    (ms : Nat) (hinv : st.m_channels ∣ st.ArrayLength)
    (hch : 1 ≤ st.m_channels) (hAL : st.ArrayLength < U32) (hcut : cutOf st ms < U32)
    (hloops : st.m_loops.length < U32) (hcues : st.m_cues.length < U32)
    (hpos : ∀ l, l ∈ st.m_loops → (l.dwEnd + 3) * st.m_channels + st.ArrayLength < U32)
    (hq : ∀ q, q ∈ st.m_cues → (q.dwSampleOffset - 1) * st.m_channels ≤ st.ArrayLength) :
    (∃ r, TrimStart ext fresh st ms = some r ∧ r.2.m_channels ∣ r.2.ArrayLength) ∧
    (∃ r, TrimEnd ext fresh st ms = some r ∧ r.2.m_channels ∣ r.2.ArrayLength) ∧
    ∃ st', TrimExcessData fresh st = some st' ∧ st'.m_channels ∣ st'.ArrayLength := by
  have hcutdvd : st.m_channels ∣ samplesToCut st ms := by
    rw [(samplesToCut_eq st ms hch hcut).1]
    exact Nat.dvd_mul_left _ _
  refine ⟨?_, ?_, ?_⟩
  · obtain ⟨r, hr, _, hfail, hok⟩ := TrimStart_run ext fresh st ms hAL
    refine ⟨r, hr, ?_⟩
    cases hb : r.1 with
    | false => rw [hfail hb]; exact hinv
    | true =>
      obtain ⟨hlen, hchan, _⟩ := hok hb
      rw [hlen, hchan]
      exact Nat.dvd_sub' hinv hcutdvd
  · obtain ⟨r, hr, _, hfail, hok⟩ := TrimEnd_run ext fresh st ms hAL
    refine ⟨r, hr, ?_⟩
    cases hb : r.1 with
    | false => rw [hfail hb]; exact hinv
    | true =>
      obtain ⟨hlen, hchan, _⟩ := hok hb
      rw [hlen, hchan]
      exact Nat.dvd_sub' hinv hcutdvd
  · obtain ⟨E, c, st', hlast, hfirst, hrun, hzero, hne⟩ := TrimExcessData_run fresh st hch hAL
      hloops hcues hpos hq
    refine ⟨st', hrun, ?_⟩
    by_cases hE0 : E = 0
    · rw [hzero hE0]; exact hinv
    · obtain ⟨hlen, hchan, _⟩ := hne hE0
      obtain ⟨_, _, hex⟩ := lastEndSample_spec st.m_loops hloops
      have hroom : (E + 3) * st.m_channels + st.ArrayLength < U32 := by
        obtain ⟨E2, hE2, _, hex2⟩ := lastEndSample_spec st.m_loops hloops
        rw [hlast] at hE2
        simp only [Option.some.injEq] at hE2
        subst hE2
        rcases hex2 with h0 | ⟨l, hl, hlE⟩
        · exact absurd h0 hE0
        · rw [← hlE]; exact hpos l hl
      have hT : c ≠ 0 → (c - 1) * st.m_channels ≤ st.ArrayLength := by
        intro hc
        obtain ⟨c2, hc2, _, hcpos⟩ := firstCuePosAfter_spec st.m_cues E hcues
        rw [hfirst] at hc2
        simp only [Option.some.injEq] at hc2
        subst hc2
        obtain ⟨_, ⟨q, hq', hqc⟩, _⟩ := hcpos hc
        rw [← hqc]; exact hq q hq'
      rw [hlen, hchan, excessLength_eq st E c hch hAL (by omega) hT]
      by_cases hc : c ≠ 0
      · rw [if_pos hc]
        exact Nat.dvd_add (Nat.dvd_mul_left _ _)
          (Nat.dvd_sub' hinv (Nat.dvd_mul_left _ _))
      · rw [if_neg hc]
        exact Nat.dvd_mul_left _ _

/-- Witness for `ArrayLength_invariant`: a stereo buffer of 10 frames with two loops and
three cues, and 2 ms to trim. -/
theorem ArrayLength_invariant_witness :
    (∃ r, TrimStart ⟨fun _ l => l, fun _ l => l, fun _ l => l, fun _ l => l⟩ ⟨fun _ => 0, fun _ => 0, fun _ => 0, fun _ => 0, fun _ => 0, fun _ => 0⟩
      ⟨20, 2, 1000, 7, fun i => i, fun i => i, fun i => i, [⟨1, 1⟩, ⟨0, 2⟩], [⟨1⟩, ⟨9⟩, ⟨8⟩]⟩ 2 = some r ∧ r.2.m_channels ∣ r.2.ArrayLength) ∧
    (∃ r, TrimEnd ⟨fun _ l => l, fun _ l => l, fun _ l => l, fun _ l => l⟩ ⟨fun _ => 0, fun _ => 0, fun _ => 0, fun _ => 0, fun _ => 0, fun _ => 0⟩
      ⟨20, 2, 1000, 7, fun i => i, fun i => i, fun i => i, [⟨1, 1⟩, ⟨0, 2⟩], [⟨1⟩, ⟨9⟩, ⟨8⟩]⟩ 2 = some r ∧ r.2.m_channels ∣ r.2.ArrayLength) ∧
    ∃ st', TrimExcessData ⟨fun _ => 0, fun _ => 0, fun _ => 0, fun _ => 0, fun _ => 0, fun _ => 0⟩
      ⟨20, 2, 1000, 7, fun i => i, fun i => i, fun i => i, [⟨1, 1⟩, ⟨0, 2⟩], [⟨1⟩, ⟨9⟩, ⟨8⟩]⟩ = some st' ∧ st'.m_channels ∣ st'.ArrayLength :=
  ArrayLength_invariant ⟨fun _ l => l, fun _ l => l, fun _ l => l, fun _ l => l⟩ ⟨fun _ => 0, fun _ => 0, fun _ => 0, fun _ => 0, fun _ => 0, fun _ => 0⟩
    ⟨20, 2, 1000, 7, fun i => i, fun i => i, fun i => i, [⟨1, 1⟩, ⟨0, 2⟩], [⟨1⟩, ⟨9⟩, ⟨8⟩]⟩ 2
    (by decide) (by decide) (by decide) (by decide!) (by decide) (by decide) (by decide)
    (by decide)

/-! ## The envelope scans -/

/-- A loop whose round `t` runs at index `ix t` in state `S t` and goes on, for every
`t < K`, and whose exit test fails at `ix K`, returns `S K`. -/
theorem forLoop_iter {σ : Type} (cond : Nat → Bool) (incr : Nat → Nat)
    (body : Nat → σ → Option (Step σ)) (ix : Nat → Nat) (S : Nat → σ) (K : Nat)
    (hround : ∀ t, t < K → cond (ix t) = true ∧
      body (ix t) (S t) = some (Step.next (S (t + 1))) ∧ incr (ix t) = ix (t + 1))
    (hend : cond (ix K) = false) :
    ∀ (fuel t : Nat), t ≤ K → K - t < fuel →
      forLoop cond incr body fuel (ix t) (S t) = some (S K) := by
  intro fuel
  induction fuel with
  | zero => intro t _ h; omega
  | succ n ih =>
    intro t ht hf
    rw [forLoop_succ]
    rcases Nat.lt_or_ge t K with hlt | hge
    · obtain ⟨hc, hb, hi⟩ := hround t hlt
      rw [hc, if_pos rfl, hb]
      show forLoop cond incr body n (incr (ix t)) (S (t + 1)) = some (S K)
      rw [hi]
      exact ih (t + 1) hlt (by omega)
    · have : t = K := by omega
      subst this
      rw [hend]
      rfl

/-- As `forLoop_iter`, for a loop that leaves with `break` in round `K`. -/
theorem forLoop_iter_brk {σ : Type} (cond : Nat → Bool) (incr : Nat → Nat)
    (body : Nat → σ → Option (Step σ)) (ix : Nat → Nat) (S : Nat → σ) (K : Nat) (r : σ)
    (hround : ∀ t, t < K → cond (ix t) = true ∧
      body (ix t) (S t) = some (Step.next (S (t + 1))) ∧ incr (ix t) = ix (t + 1))
    (hc : cond (ix K) = true) (hb : body (ix K) (S K) = some (Step.brk r)) :
    ∀ (fuel t : Nat), t ≤ K → K - t < fuel →
      forLoop cond incr body fuel (ix t) (S t) = some r := by
  intro fuel
  induction fuel with
  | zero => intro t _ h; omega
  | succ n ih =>
    intro t ht hf
    rw [forLoop_succ]
    rcases Nat.lt_or_ge t K with hlt | hge
    · obtain ⟨hc', hb', hi⟩ := hround t hlt
      rw [hc', if_pos rfl, hb']
      show forLoop cond incr body n (incr (ix t)) (S (t + 1)) = some r
      rw [hi]
      exact ih (t + 1) hlt (by omega)
    · have : t = K := by omega
      subst this
      rw [hc, if_pos rfl, hb]

theorem foldl_max_succ (f : Nat → ℚ) (t : Nat) :
    ((List.range (t + 1)).map f).foldl max 0 = max (((List.range t).map f).foldl max 0) (f t) := by
  rw [List.range_succ, List.map_append, List.foldl_append]
  rfl

theorem max_step (m x : ℚ) :
    (if x > m then some (Step.next x) else some (Step.next m)) = some (Step.next (max m x)) := by
  by_cases h : x > m
  · rw [if_pos h, max_eq_right (le_of_lt h)]
  · rw [if_neg h, max_eq_left (not_lt.mp h)]

theorem windowMax_up_eq (d : Nat → ℚ) (idx w : Nat) (h : idx + w < U32) :
    windowMax d (fun j => j < uadd idx w) (fun j => uadd j 1) idx =
      some (windowPeak d idx w) := by
  have hw : uadd idx w = idx + w := uadd_eq h
  have hU : w < U32 := by omega
  have key := forLoop_iter (fun j => decide (j < uadd idx w)) (fun j => uadd j 1)
    (fun j (maxValueInThisWindow : ℚ) =>
      if fabs (d j) > maxValueInThisWindow then some (Step.next (fabs (d j)))
      else some (Step.next maxValueInThisWindow))
    (fun t => idx + t)
    (fun t => ((List.range t).map fun j => fabs (d (idx + j))).foldl max 0) w
    (by
      intro t ht
      refine ⟨?_, ?_, ?_⟩
      · show decide (idx + t < uadd idx w) = true
        rw [hw]; exact decide_eq_true (by omega)
      · show (if fabs (d (idx + t)) > _ then _ else _) = _
        rw [max_step]
        exact congrArg (fun x => some (Step.next x))
          (foldl_max_succ (fun j => fabs (d (idx + j))) t).symm
      · show uadd (idx + t) 1 = idx + (t + 1)
        rw [uadd_eq (by omega)]; omega)
    (by
      show decide (idx + w < uadd idx w) = false
      rw [hw]; exact decide_eq_false (by omega))
    U32 0 (Nat.zero_le _) (by omega)
  exact key

theorem windowMax_down_eq (d : Nat → ℚ) (idx w : Nat) (hw : w ≤ idx) (h : idx < U32) :
    windowMax d (fun j => j > usub idx w) (fun j => usub j 1) idx =
      some (windowPeakDown d idx w) := by
  have hs : usub idx w = idx - w := usub_eq hw h
  have hU : w < U32 := by omega
  have key := forLoop_iter (fun j => decide (j > usub idx w)) (fun j => usub j 1)
    (fun j (maxValueInThisWindow : ℚ) =>
      if fabs (d j) > maxValueInThisWindow then some (Step.next (fabs (d j)))
      else some (Step.next maxValueInThisWindow))
    (fun t => idx - t)
    (fun t => ((List.range t).map fun j => fabs (d (idx - j))).foldl max 0) w
    (by
      intro t ht
      refine ⟨?_, ?_, ?_⟩
      · show decide (idx - t > usub idx w) = true
        rw [hs]; exact decide_eq_true (by omega)
      · show (if fabs (d (idx - t)) > _ then _ else _) = _
        rw [max_step]
        exact congrArg (fun x => some (Step.next x))
          (foldl_max_succ (fun j => fabs (d (idx - j))) t).symm
      · show usub (idx - t) 1 = idx - (t + 1)
        rw [usub_eq (by omega) (by omega)]; omega)
    (by
      show decide (idx - w > usub idx w) = false
      rw [hs]; exact decide_eq_false (by omega))
    U32 0 (Nat.zero_le _) (by omega)
  exact key

theorem forwardScan_plateau (d : Nat → ℚ) (n ws k s0 : Nat)
    (body : Nat → ℚ × Nat → Option (Step (ℚ × Nat)))
    (hbody : ∀ idx st, body idx st =
      (windowMax d (fun j => j < uadd idx ws) (fun j => uadd j 1) idx).bind
        fun m => if m > st.1 then some (Step.next (m, st.2))
          else some (Step.brk (st.1, uadd idx ws)))
    (hp : PlateauAt d n ws k) (hws : 1 ≤ ws) (hn : n < U32) :
    forLoop (fun idx => decide (idx < usub n ws)) (fun idx => uadd idx ws) body U32 0 (0, s0) =
      some (runningMax d ws k, k * ws + ws) := by
  obtain ⟨hk, hinc, hstop⟩ := hp
  have hs : usub n ws = n - ws := usub_eq (by omega) hn
  have hmono : ∀ t, t ≤ k → t * ws ≤ k * ws := fun t ht => Nat.mul_le_mul_right ws ht
  have hsucc : ∀ t, (t + 1) * ws = t * ws + ws := fun t => by rw [Nat.add_mul, Nat.one_mul]
  have hkk : k ≤ k * ws := Nat.le_mul_of_pos_right k hws
  have hround : ∀ t, t < k → decide (t * ws < usub n ws) = true ∧
      body (t * ws) (runningMax d ws t, s0) = some (Step.next (runningMax d ws (t + 1), s0)) ∧
      uadd (t * ws) ws = (t + 1) * ws := by
    intro t ht
    have h1 := hmono t (le_of_lt ht)
    refine ⟨?_, ?_, ?_⟩
    · rw [hs]; exact decide_eq_true (by omega)
    · rw [hbody, windowMax_up_eq d (t * ws) ws (by omega)]
      show (if windowPeak d (t * ws) ws > runningMax d ws t then _ else _) = _
      rw [if_pos (hinc t ht)]
      have : runningMax d ws (t + 1) = windowPeak d (t * ws) ws := by
        unfold runningMax
        rw [foldl_max_succ]
        exact max_eq_right (le_of_lt (hinc t ht))
      rw [this]
    · rw [uadd_eq (by omega), hsucc]
  have hc : decide (k * ws < usub n ws) = true := by
    rw [hs]; exact decide_eq_true (by omega)
  have hb : body (k * ws) (runningMax d ws k, s0) =
      some (Step.brk (runningMax d ws k, k * ws + ws)) := by
    rw [hbody, windowMax_up_eq d (k * ws) ws (by omega)]
    show (if windowPeak d (k * ws) ws > runningMax d ws k then _ else _) = _
    rw [if_neg (not_lt.mpr hstop), uadd_eq (by omega)]
  have key := forLoop_iter_brk (fun idx => decide (idx < usub n ws)) (fun idx => uadd idx ws)
    body (fun t => t * ws) (fun t => (runningMax d ws t, s0)) k
    (runningMax d ws k, k * ws + ws) hround hc hb U32 0 (Nat.zero_le _) (by omega)
  have h0 : runningMax d ws 0 = 0 := rfl
  have hz : (0 : Nat) * ws = 0 := Nat.zero_mul ws
  show forLoop _ _ body U32 0 (0, s0) = _
  have key2 : forLoop (fun idx => decide (idx < usub n ws)) (fun idx => uadd idx ws) body U32
      (0 * ws) (runningMax d ws 0, s0) = some (runningMax d ws k, k * ws + ws) := key
  rw [hz, h0] at key2
  exact key2

theorem backwardScan_plateau (d : Nat → ℚ) (a ws k s0 : Nat) (maxValue : ℚ)
    (body : Nat → ℚ × Nat → Option (Step (ℚ × Nat)))
    (hbody : ∀ idx st, body idx st =
      (windowMax d (fun j => j > usub idx ws) (fun j => usub j 1) idx).bind
        fun m => if m < maxValue / 4 then some (Step.next (m, st.2))
          else if m > st.1 then some (Step.next (m, st.2))
          else some (Step.brk (st.1, idx)))
    (hp : BackPlateauAt d a ws maxValue k) (hws : 1 ≤ ws) (ha : a < U32) :
    forLoop (fun idx => decide (idx > ws)) (fun idx => usub idx ws) body U32 a (0, s0) =
      some (previousPeak d a ws k, a - k * ws) := by
  obtain ⟨hk, hinc, hq, hstop⟩ := hp
  have hmono : ∀ t, t ≤ k → t * ws ≤ k * ws := fun t ht => Nat.mul_le_mul_right ws ht
  have hsucc : ∀ t, (t + 1) * ws = t * ws + ws := fun t => by rw [Nat.add_mul, Nat.one_mul]
  have hkk : k ≤ k * ws := Nat.le_mul_of_pos_right k hws
  have hround : ∀ t, t < k → decide (a - t * ws > ws) = true ∧
      body (a - t * ws) (previousPeak d a ws t, s0) =
        some (Step.next (previousPeak d a ws (t + 1), s0)) ∧
      usub (a - t * ws) ws = a - (t + 1) * ws := by
    intro t ht
    have h1 := hmono t (le_of_lt ht)
    have hnext : previousPeak d a ws (t + 1) = windowPeakDown d (a - t * ws) ws := by
      unfold previousPeak
      rw [if_neg (Nat.succ_ne_zero t), Nat.add_sub_cancel]
    refine ⟨decide_eq_true (by omega), ?_, ?_⟩
    · rw [hbody, windowMax_down_eq d (a - t * ws) ws (by omega) (by omega), hnext]
      show (if windowPeakDown d (a - t * ws) ws < maxValue / 4 then _ else _) = _
      by_cases hquiet : windowPeakDown d (a - t * ws) ws < maxValue / 4
      · rw [if_pos hquiet]
      · rw [if_neg hquiet]
        rcases hinc t ht with h | h
        · exact absurd h hquiet
        · show (if windowPeakDown d (a - t * ws) ws > previousPeak d a ws t then _ else _) = _
          rw [if_pos h]
    · rw [usub_eq (by omega) (by omega), hsucc]; omega
  have hc : decide (a - k * ws > ws) = true := decide_eq_true (by omega)
  have hb : body (a - k * ws) (previousPeak d a ws k, s0) =
      some (Step.brk (previousPeak d a ws k, a - k * ws)) := by
    rw [hbody, windowMax_down_eq d (a - k * ws) ws (by omega) (by omega)]
    show (if windowPeakDown d (a - k * ws) ws < maxValue / 4 then _ else _) = _
    rw [if_neg hq]
    show (if windowPeakDown d (a - k * ws) ws > previousPeak d a ws k then _ else _) = _
    rw [if_neg (not_lt.mpr hstop)]
  have key : forLoop (fun idx => decide (idx > ws)) (fun idx => usub idx ws) body U32
      (a - 0 * ws) (previousPeak d a ws 0, s0) = some (previousPeak d a ws k, a - k * ws) :=
    forLoop_iter_brk (fun idx => decide (idx > ws)) (fun idx => usub idx ws)
      body (fun t => a - t * ws) (fun t => (previousPeak d a ws t, s0)) k
      (previousPeak d a ws k, a - k * ws) hround hc hb U32 0 (Nat.zero_le _) (by omega)
  have h0 : previousPeak d a ws 0 = 0 := rfl
  rw [Nat.zero_mul, Nat.sub_zero, h0] at key
  exact key

theorem scanSustainStart_plateau (ch_data : Nat → ℚ) (n ws k : Nat)
    (hp : PlateauAt ch_data n ws k) (hws : 1 ≤ ws) (hn : n < U32) :
    scanSustainStart ch_data n ws = some (runningMax ch_data ws k, k * ws + ws) := by
  unfold scanSustainStart
  refine forwardScan_plateau ch_data n ws k 0 _ ?_ hp hws hn
  intro idx st
  cases windowMax ch_data (fun j => decide (j < uadd idx ws)) (fun j => uadd j 1) idx <;> rfl

theorem scanSustainEnd_plateau (ch_data : Nat → ℚ) (n ws k : Nat) (maxValue : ℚ)
    (hp : BackPlateauAt ch_data (n - 1) ws maxValue k) (hws : 1 ≤ ws) (hn : n < U32) :
    scanSustainEnd ch_data n ws maxValue =
      some (previousPeak ch_data (n - 1) ws k, n - 1 - k * ws) := by
  have h1 : usub n 1 = n - 1 := usub_eq (by have := hp.1; omega) hn
  unfold scanSustainEnd
  rw [h1]
  refine backwardScan_plateau ch_data (n - 1) ws k 0 maxValue _ ?_ hp hws (by omega)
  intro idx st
  cases windowMax ch_data (fun j => decide (j > usub idx ws)) (fun j => usub j 1) idx <;> rfl

/-- C23 (amended). When window number `k` of the forward envelope scan of
`GetSustainStartAndEnd`, the window that starts at index `idx = k * windowSize`, is the first
one whose maximum does not exceed the running maximum, the scan sets the sustain start to
the end of that window, `idx + windowSize`, and the quarter second is added to it: the
value that goes into the final decision is `idx + windowSize + m_samplerate / 4`. -/
theorem sustain_start_is_window_end (fh : FileHandling) (ch_data : Nat → ℚ) (k : Nat)
    (hp : PlateauAt ch_data fh.numberOfSamples (fh.m_samplerate / 20) k)
    (hsr : 20 ≤ fh.m_samplerate) (hn : fh.numberOfSamples < U32)
    (hfit : k * (fh.m_samplerate / 20) + fh.m_samplerate / 20 + fh.m_samplerate / 4 < U32) :
    scanSustainStart ch_data fh.numberOfSamples (fh.m_samplerate / 20) =
      some (runningMax ch_data (fh.m_samplerate / 20) k,
        k * (fh.m_samplerate / 20) + fh.m_samplerate / 20) ∧
    GetSustainStartAndEnd fh ch_data =
      (findStrongestValue ch_data fh.numberOfSamples).bind fun strongest =>
        (scanSustainEnd ch_data fh.numberOfSamples (fh.m_samplerate / 20) strongest.1).bind
          fun bwd =>
            sustainDecision ch_data fh.numberOfSamples strongest.1 strongest.2
              (k * (fh.m_samplerate / 20) + fh.m_samplerate / 20 + fh.m_samplerate / 4)
              (removeOffset
                (k * (fh.m_samplerate / 20) + fh.m_samplerate / 20 + fh.m_samplerate / 4)
                bwd.2 fh.m_samplerate) := by
  have hws : 1 ≤ fh.m_samplerate / 20 := by omega
  have hscan := scanSustainStart_plateau ch_data fh.numberOfSamples (fh.m_samplerate / 20) k
    hp hws hn
  refine ⟨hscan, ?_⟩
  unfold GetSustainStartAndEnd
  refine congrArg (Option.bind _) (funext fun strongest => ?_)
  rw [hscan, Option.some_bind]
  have h2 : uadd (runningMax ch_data (fh.m_samplerate / 20) k,
      k * (fh.m_samplerate / 20) + fh.m_samplerate / 20).2 (fh.m_samplerate / 4) =
      k * (fh.m_samplerate / 20) + fh.m_samplerate / 20 + fh.m_samplerate / 4 := uadd_eq hfit
  rw [h2]

/-- Witness for `sustain_start_is_window_end`: 60 samples of constant level at rate 40
(window 2, quarter second 10); window number 1 is the first that does not rise. -/
theorem sustain_start_is_window_end_witness :
    PlateauAt (fun _ => 1) (FileHandling.mk 60 1 40).numberOfSamples (40 / 20) 1 ∧
    scanSustainStart (fun _ => 1) (FileHandling.mk 60 1 40).numberOfSamples (40 / 20) =
      some (runningMax (fun _ => 1) (40 / 20) 1, 1 * (40 / 20) + 40 / 20) :=
  ⟨by unfold PlateauAt; decide!,
    (sustain_start_is_window_end ⟨60, 1, 40⟩ (fun _ => 1) 1 (by unfold PlateauAt; decide!)
      (by decide) (by decide) (by decide)).1⟩

/-- Counterexample to C23 as stated: on 60 samples of constant level at rate 40 the first
window that does not exceed the running maximum starts at index 2, and the sustain start
that `GetSustainStartAndEnd` returns is 14 = 2 + 2 + 10, not 2 + 10. -/
theorem sustain_start_not_window_start :
    PlateauAt (fun _ => 1) (FileHandling.mk 60 1 40).numberOfSamples (40 / 20) 1 ∧
    GetSustainStartAndEnd ⟨60, 1, 40⟩ (fun _ => 1) = some (14, 47) ∧
    (14 : Nat) ≠ 1 * (40 / 20) + 40 / 4 := by
  refine ⟨by unfold PlateauAt; decide!, by decide!, by decide⟩

/-- C24 (amended). The backward envelope scan of `GetSustainStartAndEnd` over `n` samples
ends at window number `k`, counted from the last sample, when that is the first window whose
maximum is neither below a quarter of the global peak nor above the maximum of the window
scanned just before it. A quiet window before it is skipped, and its maximum becomes the
running maximum, which at the end is the maximum of window `k - 1`. The sustain end is the
top index `n - 1 - k * windowSize` of window `k`. -/
theorem backward_scan_stop (ch_data : Nat → ℚ) (n ws k : Nat) (maxValue : ℚ)
    (hp : BackPlateauAt ch_data (n - 1) ws maxValue k) (hws : 1 ≤ ws) (hn : n < U32) :
    scanSustainEnd ch_data n ws maxValue =
      some (previousPeak ch_data (n - 1) ws k, n - 1 - k * ws) :=
  scanSustainEnd_plateau ch_data n ws k maxValue hp hws hn

/-- Witness for `backward_scan_stop`: twelve samples with the global peak 1 at index 0,
scanned in windows of 2. From the end the window maxima are 4/5, 1/10 (quiet), 1/2, 1/2:
the quiet window lowers the running maximum to 1/10, so that the scan ends at the fourth
window (top index 5), not at the third. -/
theorem backward_scan_stop_witness :
    BackPlateauAt (bufferOf [1, 0, 0, 0, 1/2, 1/2, 1/2, 1/2, 1/10, 1/10, 4/5, 4/5])
      (12 - 1) 2 1 3 ∧
    scanSustainEnd (bufferOf [1, 0, 0, 0, 1/2, 1/2, 1/2, 1/2, 1/10, 1/10, 4/5, 4/5])
      12 2 1 =
      some (previousPeak (bufferOf [1, 0, 0, 0, 1/2, 1/2, 1/2, 1/2, 1/10, 1/10, 4/5, 4/5])
        (12 - 1) 2 3, 12 - 1 - 3 * 2) :=
  ⟨by unfold BackPlateauAt; decide!,
    backward_scan_stop (bufferOf [1, 0, 0, 0, 1/2, 1/2, 1/2, 1/2, 1/10, 1/10, 4/5, 4/5])
      12 2 3 1 (by unfold BackPlateauAt; decide!) (by decide) (by decide)⟩

/-- Counterexample to C24 as stated: on twelve samples with global peak 1, whose windows
of 2 have the maxima 4/5, 1/10, 1/2, 1/2 from the end, the quiet second window changes the
running maximum from 4/5 to 1/10; the scan of the code ends at index 5, while a scan that
keeps the running maximum over quiet windows ends at index 7. -/
theorem quiet_window_changes_sustain_end :
    findStrongestValue (bufferOf [1, 0, 0, 0, 1/2, 1/2, 1/2, 1/2, 1/10, 1/10, 4/5, 4/5]) 12 =
      some (1, 0) ∧
    scanSustainEnd (bufferOf [1, 0, 0, 0, 1/2, 1/2, 1/2, 1/2, 1/10, 1/10, 4/5, 4/5])
      12 2 1 = some (1/2, 5) ∧
    scanSustainEndKeeping (bufferOf [1, 0, 0, 0, 1/2, 1/2, 1/2, 1/2, 1/10, 1/10, 4/5, 4/5])
      12 2 1 = some (4/5, 7) := by
  decide!

theorem autoSustainStart_plateau (data : Nat → ℚ) (n sr k s0 : Nat)
    (hp : PlateauAt data n (sr / 20) k) (hsr : 20 ≤ sr) (hn : n < U32)
    (hfit : k * (sr / 20) + sr / 20 + sr / 4 < U32) :
    autoSustainStart data n 1 sr s0 = some (k * (sr / 20) + sr / 20 + sr / 4) := by
  have hws : 1 ≤ sr / 20 := by omega
  have hloop := forwardScan_plateau data n (sr / 20) k s0
    (fun i (st : ℚ × Nat) =>
      (windowMax data (fun j => j < uadd i (sr / 20)) (fun j => uadd j 1) i).bind
        fun maxValueInThisWindow =>
          if maxValueInThisWindow > st.1 then some (Step.next (maxValueInThisWindow, st.2))
          else some (Step.brk (st.1, uadd i (sr / 20))))
    (fun _ _ => rfl) hp hws hn
  unfold autoSustainStart
  rw [Nat.mul_one, Nat.mul_one, hloop, Option.map_some']
  have h1 : (k * (sr / 20) + sr / 20) % 1 = 0 := Nat.mod_one _
  have h2 : usub (k * (sr / 20) + sr / 20) 0 = k * (sr / 20) + sr / 20 :=
    usub_eq (Nat.zero_le _) (by omega)
  show some (uadd (usub (k * (sr / 20) + sr / 20) ((k * (sr / 20) + sr / 20) % 1)) (sr / 4)) = _
  rw [h1, h2, uadd_eq hfit]

/-- The backward envelope scan of `AutoFindLoops` returns, with an index below `2 ^ 32`. -/
theorem autoSustainEndScan_total (data : Nat → ℚ) (arrayLength ch sr : Nat) (maxValue : ℚ)
    (end0 : Nat) (hW1 : 1 ≤ sr / 20 * ch) (hlen : arrayLength < U32) (hend : end0 < U32) :
    ∃ st, autoSustainEndScan data arrayLength ch sr maxValue end0 = some st ∧ st.2 < U32 := by
  unfold autoSustainEndScan
  refine forLoop_total (fun i (st : ℚ × Nat) => i < U32 ∧ st.2 < U32)
    (fun st => st.2 < U32) (fun i => i) ?_ (fun _ _ hP _ => hP.2) U32 arrayLength (0, end0)
    ⟨hlen, hend⟩ hlen
  intro i st ⟨hi, hst⟩ hc
  have hgt : i > sr / 20 * ch := by simpa using hc
  have hnext : usub i (sr / 20 * ch) = i - sr / 20 * ch := usub_eq (by omega) hi
  obtain ⟨m, hm⟩ := windowMax_down_total data (usub i (sr / 20 * ch)) i hi
  by_cases hlow : m < maxValue / 4
  · left
    refine ⟨(m, st.2), by simp only [hm, Option.some_bind, if_pos hlow], ⟨?_, hst⟩, ?_⟩
    · show usub i (sr / 20 * ch) < U32
      omega
    · show usub i (sr / 20 * ch) < i
      omega
  · by_cases hup : m > st.1
    · left
      refine ⟨(m, st.2), by simp only [hm, Option.some_bind, if_neg hlow, if_pos hup],
        ⟨?_, hst⟩, ?_⟩
      · show usub i (sr / 20 * ch) < U32
        omega
      · show usub i (sr / 20 * ch) < i
        omega
    · right
      exact ⟨(st.1, i), by simp only [hm, Option.some_bind, if_neg hlow, if_neg hup], hi⟩

/-- C27 (amended). On a mono buffer of `n` samples whose forward envelope scan meets its
first window that does not rise at window number `k`, the backward scan of `AutoFindLoops`
returns, and the search range of `AutoFindLoops` in auto-sustain mode starts at
`k * w + w + samplerate / 4` (`w = samplerate / 20`), the very sustain start that the
forward scan of `GetSustainStartAndEnd` produces, and ends at the index that its backward
scan returns, as it is; `GetSustainStartAndEnd` takes a quarter second off the index that
its own backward scan returns (`removeOffset`). -/
theorem auto_sustain_range_mono (data : Nat → ℚ) (n sr k2 : Nat) (maxValue : ℚ)
    (indet : Indeterminate) (startPercentage endPercentage : Int)
    (hp : PlateauAt data n (sr / 20) k2) (hsr : 20 ≤ sr) (hn : n < U32)
    (hfit : k2 * (sr / 20) + sr / 20 + sr / 4 < U32) (hend : indet.sustainEndIndex < U32) :
    (∃ st, autoSustainEndScan data n 1 sr maxValue indet.sustainEndIndex = some st ∧
      searchRange data n 1 sr maxValue indet true startPercentage endPercentage =
        some (if k2 * (sr / 20) + sr / 20 + sr / 4 > st.2 then none
          else some (k2 * (sr / 20) + sr / 20 + sr / 4, st.2))) ∧
    (∃ fwd, scanSustainStart data (FileHandling.mk n 1 sr).numberOfSamples (sr / 20) =
        some fwd ∧
      uadd fwd.2 ((FileHandling.mk n 1 sr).m_samplerate / 4) =
        k2 * (sr / 20) + sr / 20 + sr / 4) ∧
    GetSustainStartAndEnd ⟨n, 1, sr⟩ data =
      (findStrongestValue data (FileHandling.mk n 1 sr).numberOfSamples).bind fun strongest =>
        (scanSustainEnd data (FileHandling.mk n 1 sr).numberOfSamples (sr / 20)
            strongest.1).bind fun bwd =>
          sustainDecision data (FileHandling.mk n 1 sr).numberOfSamples strongest.1
            strongest.2 (k2 * (sr / 20) + sr / 20 + sr / 4)
            (removeOffset (k2 * (sr / 20) + sr / 20 + sr / 4) bwd.2 sr) := by
  have hns : (FileHandling.mk n 1 sr).numberOfSamples = n := Nat.div_one n
  have hscan := scanSustainStart_plateau data n (sr / 20) k2 hp (by omega) hn
  refine ⟨?_, ?_, ?_⟩
  · obtain ⟨st, hst, hstU⟩ := autoSustainEndScan_total data n 1 sr maxValue
      indet.sustainEndIndex (by omega) hn hend
    refine ⟨st, hst, ?_⟩
    have hstart := autoSustainStart_plateau data n sr k2 indet.sustainStartIndex hp hsr hn hfit
    have h1 : st.2 % 1 = 0 := Nat.mod_one _
    have h2 : usub st.2 0 = st.2 := usub_eq (Nat.zero_le _) hstU
    have hendv : autoSustainEnd data n 1 sr maxValue indet.sustainEndIndex = some st.2 := by
      unfold autoSustainEnd
      rw [hst, Option.map_some', h1, h2]
    unfold searchRange
    rw [if_pos rfl, hstart, Option.some_bind, hendv, Option.some_bind]
    by_cases h : k2 * (sr / 20) + sr / 20 + sr / 4 > st.2
    · rw [if_pos h, if_pos h]
    · rw [if_neg h, if_neg h]
  · rw [hns]
    exact ⟨_, hscan, uadd_eq hfit⟩
  · rw [hns]
    unfold GetSustainStartAndEnd
    rw [hns]
    refine congrArg (Option.bind _) (funext fun strongest => ?_)
    show (scanSustainStart data n (sr / 20)).bind _ = _
    rw [hscan, Option.some_bind]
    have h2 : uadd (runningMax data (sr / 20) k2, k2 * (sr / 20) + sr / 20).2 (sr / 4) =
        k2 * (sr / 20) + sr / 20 + sr / 4 := uadd_eq hfit
    show (scanSustainEnd data n (sr / 20) strongest.1).bind _ = _
    rw [h2]


/-- Witness for `auto_sustain_range_mono`: 60 samples of constant level at rate 40. -/
theorem auto_sustain_range_mono_witness :
    PlateauAt (fun _ => 1) 60 (40 / 20) 1 ∧
    (∃ st, autoSustainEndScan (fun _ => 1) 60 1 40 1
        (Indeterminate.mk 0 0 0 0).sustainEndIndex = some st ∧
      searchRange (fun _ => 1) 60 1 40 1 ⟨0, 0, 0, 0⟩ true 0 0 =
        some (if 1 * (40 / 20) + 40 / 20 + 40 / 4 > st.2 then none
          else some (1 * (40 / 20) + 40 / 20 + 40 / 4, st.2))) :=
  ⟨by unfold PlateauAt; decide!,
    (auto_sustain_range_mono (fun _ => 1) 60 40 1 1 ⟨0, 0, 0, 0⟩ 0 0
      (by unfold PlateauAt; decide!) (by decide) (by decide) (by decide) (by decide)).1⟩

/-- Counterexample to C27 as stated: on a mono buffer of 60 samples of constant level 1 at
rate 40 both envelope scans find a plateau; `AutoFindLoops` searches the range `(14, 58)`,
`GetSustainStartAndEnd` returns `(14, 47)`. -/
theorem auto_sustain_range_differs :
    findStrongestChannel (fun _ => 1) 60 1 0 = some (1, 0) ∧
    searchRange (fun _ => 1) 60 1 40 1 ⟨0, 0, 0, 0⟩ true 0 0 = some (some (14, 58)) ∧
    GetSustainStartAndEnd ⟨60, 1, 40⟩ (fun _ => 1) = some (14, 47) := by
  decide!

/-! ## The time domain detector -/

theorem crossingLoop_eq_step (sqrt : ℚ → ℚ) (m_samplerate : Nat) (channel_data : Nat → ℚ)
    (first second : Nat) :
    crossingLoop sqrt m_samplerate channel_data first second =
      forLoop (fun i => i > first) (fun i => usub i 1)
        (crossingStep sqrt m_samplerate channel_data) U32 (usub second 2)
        (channel_data second, 0, []) := rfl

theorem meanSquare_succ (f : Nat → ℚ) (t : Nat) :
    meanSquare f t * (t : ℚ) / ((t : ℚ) + 1) + f t * f t / ((t : ℚ) + 1) =
      meanSquare f (t + 1) := by
  unfold meanSquare
  rw [List.range_succ, List.map_append, List.sum_append]
  have h1 : ((t : ℚ) + 1) ≠ 0 := by positivity
  rcases Nat.eq_zero_or_pos t with h0 | hpos
  · subst h0
    simp
    ring
  · have h2 : (t : ℚ) ≠ 0 := by exact_mod_cast (Nat.pos_iff_ne_zero.mp hpos)
    push_cast
    simp only [List.map_cons, List.map_nil, List.sum_cons, List.sum_nil]
    field_simp
    ring

theorem periodError_eq (channel_data : Nat → ℚ) (p i len : Nat) (hlen : len < U32)
    (hp : p + len ≤ U32) (hi : i + len ≤ U32) :
    periodError channel_data p i len =
      some (meanSquare (fun j => channel_data (j + p)) len,
        meanSquare (fun j => channel_data (j + p) - channel_data (j + i)) len) := by
  have hround : ∀ t, t < len → decide (t < len) = true ∧
      (fun j (st : ℚ × ℚ) =>
        let error := channel_data (uadd j p) - channel_data (uadd j i)
        let d := channel_data (uadd j p)
        some (Step.next (st.1 * j / ((j : ℚ) + 1) + d * d / ((j : ℚ) + 1),
          st.2 * j / ((j : ℚ) + 1) + error * error / ((j : ℚ) + 1)))) t
        (meanSquare (fun j => channel_data (j + p)) t,
          meanSquare (fun j => channel_data (j + p) - channel_data (j + i)) t) =
        some (Step.next (meanSquare (fun j => channel_data (j + p)) (t + 1),
          meanSquare (fun j => channel_data (j + p) - channel_data (j + i)) (t + 1))) ∧
      uadd t 1 = t + 1 := by
    intro t ht
    refine ⟨decide_eq_true ht, ?_, uadd_eq (by omega)⟩
    have h1 : uadd t p = t + p := uadd_eq (by omega)
    have h2 : uadd t i = t + i := uadd_eq (by omega)
    show some (Step.next (_, _)) = _
    rw [h1, h2]
    have e1 := meanSquare_succ (fun j => channel_data (j + p)) t
    have e2 := meanSquare_succ (fun j => channel_data (j + p) - channel_data (j + i)) t
    exact congrArg (fun x => some (Step.next x)) (Prod.ext e1 e2)
  have key : forLoop (fun j => decide (j < len)) (fun j => uadd j 1)
      (fun j (st : ℚ × ℚ) =>
        let error := channel_data (uadd j p) - channel_data (uadd j i)
        let d := channel_data (uadd j p)
        some (Step.next (st.1 * j / ((j : ℚ) + 1) + d * d / ((j : ℚ) + 1),
          st.2 * j / ((j : ℚ) + 1) + error * error / ((j : ℚ) + 1))))
      U32 0 (meanSquare (fun j => channel_data (j + p)) 0,
        meanSquare (fun j => channel_data (j + p) - channel_data (j + i)) 0) =
      some (meanSquare (fun j => channel_data (j + p)) len,
        meanSquare (fun j => channel_data (j + p) - channel_data (j + i)) len) :=
    forLoop_iter (fun j => decide (j < len)) (fun j => uadd j 1)
    (fun j (st : ℚ × ℚ) =>
      let error := channel_data (uadd j p) - channel_data (uadd j i)
      let d := channel_data (uadd j p)
      some (Step.next (st.1 * j / ((j : ℚ) + 1) + d * d / ((j : ℚ) + 1),
        st.2 * j / ((j : ℚ) + 1) + error * error / ((j : ℚ) + 1))))
    (fun t => t)
    (fun t => (meanSquare (fun j => channel_data (j + p)) t,
      meanSquare (fun j => channel_data (j + p) - channel_data (j + i)) t)) len hround
    (decide_eq_false (Nat.lt_irrefl len)) U32 0 (Nat.zero_le _) (by omega)
  have h0 : ∀ f : Nat → ℚ, meanSquare f 0 = 0 := fun f => by simp [meanSquare]
  rw [h0, h0] at key
  exact key

theorem crossingStep_of_error (sqrt : ℚ → ℚ) (m_samplerate : Nat) (channel_data : Nat → ℚ)
    (i : Nat) (st : ℚ × Nat × List ℚ) (a b : ℚ) (hv : channel_data i > 0) (hprev : st.1 ≤ 0)
    (he0 : st.2.1 ≠ 0) (hgt : i > usub st.2.1 i)
    (hpe : periodError channel_data (usub i (usub st.2.1 i)) i (usub st.2.1 i) = some (a, b)) :
    crossingStep sqrt m_samplerate channel_data i st =
      if b > 0 ∧ a > 0 then
        if sqrt b / sqrt a < 0.55 then
          some (Step.next (channel_data i, i,
            st.2.2 ++ [(m_samplerate : ℚ) / ((usub st.2.1 i : Nat) : ℚ)]))
        else some (Step.next (channel_data i, st.2.1, st.2.2))
      else some (Step.next (channel_data i, st.2.1, st.2.2)) := by
  unfold crossingStep
  show (if channel_data i > 0 ∧ st.1 ≤ 0 then
      if st.2.1 = 0 then some (Step.next (channel_data i, i, st.2.2))
      else
        if i > usub st.2.1 i then
          match periodError channel_data (usub i (usub st.2.1 i)) i (usub st.2.1 i) with
          | none => none
          | some (rms, error_rms) =>
            if error_rms > 0 ∧ rms > 0 then
              if sqrt error_rms / sqrt rms < 0.55 then
                some (Step.next (channel_data i, i,
                  st.2.2 ++ [(m_samplerate : ℚ) / ((usub st.2.1 i : Nat) : ℚ)]))
              else some (Step.next (channel_data i, st.2.1, st.2.2))
            else some (Step.next (channel_data i, st.2.1, st.2.2))
        else some (Step.next (channel_data i, st.2.1, st.2.2))
    else some (Step.next (channel_data i, st.2.1, st.2.2))) = _
  rw [if_pos ⟨hv, hprev⟩, if_neg he0, if_pos hgt, hpe]

theorem meanSquare_zero (f : Nat → ℚ) (len : Nat) (h : ∀ j, j < len → f j = 0) :
    meanSquare f len = 0 := by
  unfold meanSquare
  have hs : ((List.range len).map fun j => f j ^ 2).sum = 0 := by
    apply List.sum_eq_zero
    intro x hx
    rw [List.mem_map] at hx
    obtain ⟨j, hj, rfl⟩ := hx
    rw [h j (List.mem_range.mp hj)]
    norm_num
  rw [hs, zero_div]

/-- C22 (amended). At a positive zero crossing `i` below the crossing `end_point` kept so
far, with `len = end_point - i < i`, the round of the crossing loop accepts the period,
records `m_samplerate / len` and moves `end_point` to `i`, if and only if the mean square of
the earlier segment and the mean square of the difference of the two segments (which the
running updates compute exactly) are both positive and the quotient of their roots is below
0.55. Two identical segments have the error mean square 0 and are not accepted. -/
theorem period_accepted_iff (sqrt : ℚ → ℚ) (m_samplerate : Nat) (channel_data : Nat → ℚ)
    (i : Nat) (st : ℚ × Nat × List ℚ) (hv : channel_data i > 0) (hprev : st.1 ≤ 0)
    (he : i < st.2.1) (hU : st.2.1 < U32) (hlen : st.2.1 - i < i) :
    (PeriodAccepted sqrt channel_data i (st.2.1 - i) →
      crossingStep sqrt m_samplerate channel_data i st =
        some (Step.next (channel_data i, i,
          st.2.2 ++ [(m_samplerate : ℚ) / ((st.2.1 - i : Nat) : ℚ)]))) ∧
    (¬ PeriodAccepted sqrt channel_data i (st.2.1 - i) →
      crossingStep sqrt m_samplerate channel_data i st =
        some (Step.next (channel_data i, st.2.1, st.2.2))) ∧
    ((∀ j, j < st.2.1 - i → channel_data (j + (i - (st.2.1 - i))) = channel_data (j + i)) →
      ¬ PeriodAccepted sqrt channel_data i (st.2.1 - i)) := by
  have hl : usub st.2.1 i = st.2.1 - i := usub_eq (le_of_lt he) hU
  have hp : usub i (st.2.1 - i) = i - (st.2.1 - i) := usub_eq (le_of_lt hlen) (by omega)
  have hpe := periodError_eq channel_data (i - (st.2.1 - i)) i (st.2.1 - i) (by omega)
    (by omega) (by omega)
  have hstep := crossingStep_of_error sqrt m_samplerate channel_data i st _ _ hv hprev
    (by omega) (by rw [hl]; exact hlen) (by rw [hl, hp]; exact hpe)
  rw [hl] at hstep
  refine ⟨?_, ?_, ?_⟩
  · intro hacc
    obtain ⟨h1, h2, h3⟩ := hacc
    rw [hstep, if_pos ⟨h1, h2⟩, if_pos h3]
  · intro hacc
    rw [hstep]
    by_cases h12 : meanSquare (fun j => channel_data (j + (i - (st.2.1 - i))) -
        channel_data (j + i)) (st.2.1 - i) > 0 ∧
        meanSquare (fun j => channel_data (j + (i - (st.2.1 - i)))) (st.2.1 - i) > 0
    · rw [if_pos h12, if_neg (fun h3 => hacc ⟨h12.1, h12.2, h3⟩)]
    · rw [if_neg h12]
  · intro hsame hacc
    have hz := meanSquare_zero (fun j => channel_data (j + (i - (st.2.1 - i))) -
      channel_data (j + i)) (st.2.1 - i) (fun j hj => by
        show channel_data (j + (i - (st.2.1 - i))) - channel_data (j + i) = 0
        rw [hsame j hj, sub_self])
    have h1 := hacc.1
    rw [hz] at h1
    exact lt_irrefl _ h1

/-- Witness for `period_accepted_iff`: a wave of period 4 with one sample changed; the
crossing at index 41 below the crossing at 45 is accepted (mean squares 13/16 and 1/16). -/
theorem period_accepted_iff_witness :
    PeriodAccepted (fun x => x)
      (fun i => if i = 38 then -1 / 2 else if i % 4 < 2 then 1 else -1) 41 (45 - 41) ∧
    crossingStep (fun x => x) 40
      (fun i => if i = 38 then -1 / 2 else if i % 4 < 2 then 1 else -1) 41 (-1, 45, []) =
      some (Step.next (1, 41, [] ++ [((40 : Nat) : ℚ) / ((45 - 41 : Nat) : ℚ)])) :=
  ⟨by unfold PeriodAccepted; decide!,
    (period_accepted_iff (fun x => x) 40
      (fun i => if i = 38 then -1 / 2 else if i % 4 < 2 then 1 else -1) 41 (-1, 45, [])
      (by decide!) (by decide!) (by decide) (by decide) (by decide)).1
      (by unfold PeriodAccepted; decide!)⟩

/-- Counterexample to C22 as stated: a mono square wave of period 4 (60 samples at rate 40)
is exactly periodic, so that every pair of neighbouring segments is identical and non-silent
(mean squares 1 and 0, quotient 0 < 0.55); no period is accepted, and
`DetectPitchInTimeDomain` returns `false`. -/
theorem identical_segments_rejected :
    GetSustainStartAndEnd ⟨60, 1, 40⟩ (fun i => if i % 4 < 2 then 1 else -1) =
      some (14, 47) ∧
    periodError (fun i => if i % 4 < 2 then 1 else -1) 37 41 4 = some (1, 0) ∧
    crossingLoop (fun x => x) 40 (fun i => if i % 4 < 2 then 1 else -1) 14 47 =
      some (-1, 45, []) ∧
    DetectPitchInTimeDomain (fun x => x) ⟨60, 1, 40⟩ (fun _ => 0)
      (fun i => if i % 4 < 2 then 1 else -1) = some none := by
  decide!

/-! ## The harmonic product spectrum and the simple fades -/

/-- C29 at a failing input. A spectrum of 8 bins with `P[0] = 2` and 3 elsewhere: the loop
leaves `hps[0] = 256 = P[0]^8`, because `hps[0] *= hps[0 * j]` reads the value it has just
changed, and `hps[1] = 81`; the candidate bin is 0, while
`P[0]*P[0]*P[0]*P[0] = 16 < 81 = P[1]*P[2]*P[3]*P[4]` makes bin 1 the maximum of the
products of the original spectrum. -/
theorem harmonic_product_at_bin_zero :
    (harmonicProductLoop (bufferOf [2, 3, 3, 3, 3, 3, 3, 3]) 8).map
      (fun st => (st.1 0, st.1 1, st.2)) = some (256, 81, 0) ∧
    bufferOf [2, 3, 3, 3, 3, 3, 3, 3] 0 * bufferOf [2, 3, 3, 3, 3, 3, 3, 3] (2 * 0) *
      bufferOf [2, 3, 3, 3, 3, 3, 3, 3] (3 * 0) * bufferOf [2, 3, 3, 3, 3, 3, 3, 3] (4 * 0) =
      16 ∧
    bufferOf [2, 3, 3, 3, 3, 3, 3, 3] 1 * bufferOf [2, 3, 3, 3, 3, 3, 3, 3] (2 * 1) *
      bufferOf [2, 3, 3, 3, 3, 3, 3, 3] (3 * 1) * bufferOf [2, 3, 3, 3, 3, 3, 3, 3] (4 * 1) =
      81 := by
  decide!

/-- C30 at two failing inputs. With the HPS values 5, 1, 1, 1, 1, 1, 10, 1 the candidate
bin is 6; the bins 1, 2 and 3 that are tested do not exceed `hps[0]`, so `correctMaxBin`
keeps its initial value 0 and, since 5 / 10 > 0.001, the candidate is replaced by bin 0,
which is outside `[1, 3 * 6 / 4)` and was never tested. With the spectrum 1, 2, 1, 1, ...
of 16 bins the candidate bin is 1, no bin is tested at all, and the candidate is replaced
by bin 0 as well. -/
theorem candidate_replaced_by_bin_zero :
    correctMaxBinLoop (bufferOf [5, 1, 1, 1, 1, 1, 10, 1]) 6 = some 0 ∧
    correctedMaxBin (bufferOf [5, 1, 1, 1, 1, 1, 10, 1]) 6 = some 0 ∧
    (harmonicProductLoop (bufferOf [1, 2, 1, 1, 1, 1, 1, 1, 1, 1, 1, 1, 1, 1, 1, 1]) 16).map
      (fun st => st.2) = some 1 ∧
    (1 : Nat) * 3 / 4 = 0 ∧
    hpsMaxBin (bufferOf [1, 2, 1, 1, 1, 1, 1, 1, 1, 1, 1, 1, 1, 1, 1, 1]) 16 = some 0 := by
  decide!

/-- C21 at a failing input. A stereo buffer of five frames holding 1, 2, ..., 10, faded
over 3 ms at rate 1000 (three frames, weights 0, 1/2, 1). The fade out indexes
`audioData[(ArrayLength - 1) - (i + j)]`: sample 6 (frame 3, channel 0) keeps its value 7
instead of becoming 7/2, and sample 8 is multiplied by 0 and by 1/2. The fade in, which
indexes `audioData[i * m_channels + j]`, scales the frames 0, 1, 2 by 0, 1/2, 1. -/
theorem fade_out_ignores_frames :
    (PerformFade ⟨10, 2, 1000⟩ (fun i => some ((i : ℚ) + 1)) 3 1).map
      (fun a => (List.range 10).map a) =
      some [some 1, some 2, some 3, some 4, some 5, some 6, some 7, some 4, some 0, some 0] ∧
    (PerformFade ⟨10, 2, 1000⟩ (fun i => some ((i : ℚ) + 1)) 3 0).map
      (fun a => (List.range 10).map a) =
      some [some 0, some 0, some (3 / 2), some 2, some 5, some 6, some 7, some 8, some 9,
        some 10] := by
  decide!

/-! ## The strongest channel in both scans -/

theorem FirstInv_visit {d : Nat → ℚ} {c sc0 k : Nat} {st : ℚ × Nat}
    (h : FirstInv d c sc0 k st) :
    FirstInv d c sc0 (k + 1) (if fabs (d k) > st.1 then (fabs (d k), k % c) else st) := by
  obtain ⟨hb, h0, hz, hp⟩ := h
  by_cases hgt : fabs (d k) > st.1
  · rw [if_pos hgt]
    refine ⟨?_, le_trans h0 (le_of_lt hgt), ?_, ?_⟩
    · intro j hj
      rcases Nat.lt_succ_iff_lt_or_eq.mp hj with hlt | heq
      · exact le_trans (hb j hlt) (le_of_lt hgt)
      · rw [heq]
    · intro hzero
      exact absurd hzero (ne_of_gt (lt_of_le_of_lt h0 hgt))
    · intro _
      exact ⟨k, Nat.lt_succ_self k, rfl, rfl, fun j' hj' => lt_of_le_of_lt (hb j' hj') hgt⟩
  · rw [if_neg hgt]
    refine ⟨?_, h0, hz, ?_⟩
    · intro j hj
      rcases Nat.lt_succ_iff_lt_or_eq.mp hj with hlt | heq
      · exact hb j hlt
      · rw [heq]; exact not_lt.mp hgt
    · intro hpos
      obtain ⟨j, hj, h1, h2, h3⟩ := hp hpos
      exact ⟨j, Nat.lt_succ_of_lt hj, h1, h2, h3⟩

theorem findStrongestChannel_spec (data : Nat → ℚ) (arrayLength ch sc0 : Nat) (hch : 1 ≤ ch)
    (hdiv : ch ∣ arrayLength) (hfit : arrayLength + ch ≤ U32) :
    ∃ r, findStrongestChannel data arrayLength ch sc0 = some r ∧
      FirstInv data ch sc0 arrayLength r := by
  unfold findStrongestChannel
  have key := forLoop_stride arrayLength ch hch hfit
    (fun i st =>
      (forLoop (fun j => j < ch) (fun j => j + 1)
        (fun j (st : ℚ × Nat) =>
          if fabs (data (uadd i j)) > st.1 then some (Step.next (fabs (data (uadd i j)), j))
          else some (Step.next st))
        U32 0 st).map Step.next)
    (fun i st => ch ∣ i ∧ i ≤ arrayLength ∧ FirstInv data ch sc0 i st)
    (fun r => FirstInv data ch sc0 arrayLength r) ?_ ?_ 0 (0, sc0)
    ⟨Nat.dvd_zero ch, Nat.zero_le _, ?_⟩
  · exact key
  · intro i st ⟨hi, _, hinv⟩ hlt
    left
    obtain ⟨r, hr, hQ⟩ := forLoop_count ch
      (fun j (st : ℚ × Nat) =>
        if fabs (data (uadd i j)) > st.1 then some (Step.next (fabs (data (uadd i j)), j))
        else some (Step.next st))
      (fun j st' => j ≤ ch ∧ FirstInv data ch sc0 (i + j) st')
      (fun r => FirstInv data ch sc0 (i + ch) r)
      (by
        intro j st' ⟨_, hinv'⟩ hj
        left
        have hidx : uadd i j = i + j := uadd_eq (by omega)
        have hmod : (i + j) % ch = j := by
          obtain ⟨q, rfl⟩ := hi
          rw [Nat.mul_add_mod]
          exact Nat.mod_eq_of_lt hj
        have hnext := FirstInv_visit hinv'
        rw [hmod] at hnext
        refine ⟨if fabs (data (i + j)) > st'.1 then (fabs (data (i + j)), j) else st', ?_,
          by omega, hnext⟩
        show (if fabs (data (uadd i j)) > st'.1 then _ else _) = _
        rw [hidx]
        by_cases hgt : fabs (data (i + j)) > st'.1
        · rw [if_pos hgt, if_pos hgt]
        · rw [if_neg hgt, if_neg hgt])
      (by
        intro j st' ⟨hj, hinv'⟩ hge
        have : j = ch := by omega
        rw [this] at hinv'
        exact hinv')
      (by unfold U32 at *; omega) 0 st ⟨Nat.zero_le _, hinv⟩
    refine ⟨r, ?_, ⟨Nat.dvd_add hi (dvd_refl ch), ?_, hQ⟩⟩
    · show Option.map Step.next _ = _
      rw [hr]
      rfl
    · obtain ⟨a, rfl⟩ := hi
      obtain ⟨b, rfl⟩ := hdiv
      have hab : a < b := Nat.lt_of_mul_lt_mul_left hlt
      calc ch * a + ch = ch * (a + 1) := by rw [Nat.mul_add, Nat.mul_one]
        _ ≤ ch * b := Nat.mul_le_mul_left ch hab
  · intro i st ⟨_, hle, hinv⟩ hge
    have : i = arrayLength := by omega
    rw [this] at hinv
    exact hinv
  · exact ⟨fun j hj => absurd hj (Nat.not_lt_zero j), le_refl _, fun _ => rfl,
      fun h => absurd h (lt_irrefl _)⟩

/-- C26 (amended). On a non-silent interleaved buffer of whole frames both scans find the
same maximal absolute value `M`. `AutoFindLoops` selects the channel `a` of the first
sample, in buffer order, that attains `M`; `SeparateStrongestChannel` selects the lowest
channel `b` with a sample that attains `M`. The two channels are the same whenever all the
samples that attain `M` lie in one channel. -/
theorem strongest_channel_agreement (fh : FileHandling) (data : Nat → ℚ) (sc0 : Nat)
    (hc : 1 ≤ fh.m_channels) (hdiv : fh.m_channels ∣ fh.ArrayLength)
    (hfit : fh.ArrayLength + fh.m_channels < U32)
    (hloud : ∃ j, j < fh.ArrayLength ∧ data j ≠ 0) :
    ∃ (M : ℚ) (a b : Nat),
      findStrongestChannel data fh.ArrayLength fh.m_channels sc0 = some (M, a) ∧
      detectStrongestChannel fh data = some (M, b) ∧
      (∀ j, j < fh.ArrayLength → |data j| ≤ M) ∧
      (∃ j, j < fh.ArrayLength ∧ |data j| = M ∧ j % fh.m_channels = a ∧
        ∀ j', j' < j → |data j'| < M) ∧
      (∃ j, j < fh.ArrayLength ∧ |data j| = M ∧ j % fh.m_channels = b) ∧
      (∀ j, j < fh.ArrayLength → j % fh.m_channels < b → |data j| < M) ∧
      ((∀ j j', j < fh.ArrayLength → j' < fh.ArrayLength → |data j| = M → |data j'| = M →
        j % fh.m_channels = j' % fh.m_channels) → a = b) := by
  obtain ⟨r1, hr1, hb1, h01, _, hp1⟩ :=
    findStrongestChannel_spec data fh.ArrayLength fh.m_channels sc0 hc hdiv (le_of_lt hfit)
  obtain ⟨r2, hr2, hb2, _, _, h02, hp2⟩ := detectStrongestChannel_total fh data hc hfit
  obtain ⟨j0, hj0, hne⟩ := hloud
  have hpos0 : 0 < fabs (data j0) := by
    rw [fabs_eq_abs]; exact abs_pos.mpr hne
  have hpos1 : 0 < r1.1 := lt_of_lt_of_le hpos0 (hb1 j0 hj0)
  have hpos2 : 0 < r2.1 := lt_of_lt_of_le hpos0 (hb2 j0 hj0)
  obtain ⟨j1, hj1, hm1, hv1, hfirst⟩ := hp1 hpos1
  obtain ⟨⟨j2, hj2, hm2, hv2⟩, hlow⟩ := hp2 hpos2
  have heq : r2.1 = r1.1 := by
    apply le_antisymm
    · rw [← hv2]; exact hb1 j2 hj2
    · rw [← hv1]; exact hb2 j1 hj1
  refine ⟨r1.1, r1.2, r2.2, hr1, ?_, ?_, ?_, ?_, ?_, ?_⟩
  · rw [hr2, ← heq]
  · intro j hj
    rw [← fabs_eq_abs]; exact hb1 j hj
  · refine ⟨j1, hj1, ?_, hm1, ?_⟩
    · rw [← fabs_eq_abs]; exact hv1
    · intro j' hj'
      rw [← fabs_eq_abs]; exact hfirst j' hj'
  · refine ⟨j2, hj2, ?_, hm2⟩
    rw [← fabs_eq_abs, ← heq]; exact hv2
  · intro j hj hlt
    rw [← fabs_eq_abs, ← heq]; exact hlow j hj hlt
  · intro huniq
    have h1 : |data j1| = r1.1 := by rw [← fabs_eq_abs]; exact hv1
    have h2 : |data j2| = r1.1 := by rw [← fabs_eq_abs, ← heq]; exact hv2
    rw [← hm1, ← hm2]
    exact huniq j1 j2 hj1 hj2 h1 h2

/-- Witness for `strongest_channel_agreement`: two stereo frames 0, 1, 0, 2. -/
theorem strongest_channel_agreement_witness :
    (∃ j, j < (FileHandling.mk 4 2 1).ArrayLength ∧ bufferOf [0, 1, 0, 2] j ≠ 0) ∧
    ∃ (M : ℚ) (a b : Nat),
      findStrongestChannel (bufferOf [0, 1, 0, 2]) (FileHandling.mk 4 2 1).ArrayLength
        (FileHandling.mk 4 2 1).m_channels 0 = some (M, a) ∧
      detectStrongestChannel ⟨4, 2, 1⟩ (bufferOf [0, 1, 0, 2]) = some (M, b) ∧
      (∀ j, j < (FileHandling.mk 4 2 1).ArrayLength → |bufferOf [0, 1, 0, 2] j| ≤ M) ∧
      (∃ j, j < (FileHandling.mk 4 2 1).ArrayLength ∧ |bufferOf [0, 1, 0, 2] j| = M ∧
        j % (FileHandling.mk 4 2 1).m_channels = a ∧
        ∀ j', j' < j → |bufferOf [0, 1, 0, 2] j'| < M) ∧
      (∃ j, j < (FileHandling.mk 4 2 1).ArrayLength ∧ |bufferOf [0, 1, 0, 2] j| = M ∧
        j % (FileHandling.mk 4 2 1).m_channels = b) ∧
      (∀ j, j < (FileHandling.mk 4 2 1).ArrayLength →
        j % (FileHandling.mk 4 2 1).m_channels < b → |bufferOf [0, 1, 0, 2] j| < M) ∧
      ((∀ j j', j < (FileHandling.mk 4 2 1).ArrayLength →
        j' < (FileHandling.mk 4 2 1).ArrayLength → |bufferOf [0, 1, 0, 2] j| = M →
        |bufferOf [0, 1, 0, 2] j'| = M →
        j % (FileHandling.mk 4 2 1).m_channels = j' % (FileHandling.mk 4 2 1).m_channels) →
        a = b) :=
  ⟨⟨1, by decide, by decide!⟩,
    strongest_channel_agreement ⟨4, 2, 1⟩ (bufferOf [0, 1, 0, 2]) 0 (by decide) (by decide)
      (by decide) ⟨1, by decide, by decide!⟩⟩

/-- Counterexample to C26 as stated: in the two stereo frames 0, 1, 1, 0 both channels
attain the maximum 1. The frame by frame scan of `AutoFindLoops` meets it first in
channel 1 (sample 1), the channel by channel scan of `SeparateStrongestChannel` in
channel 0 (sample 2). -/
theorem strongest_channel_tie :
    findStrongestChannel (bufferOf [0, 1, 1, 0]) 4 2 0 = some (1, 1) ∧
    detectStrongestChannel ⟨4, 2, 1⟩ (bufferOf [0, 1, 1, 0]) = some (1, 0) := by
  decide!

/-- C28 at two failing inputs, both stereo with channel 1 the strongest. Auto-sustain mode
at rate 22: the start is aligned to the frame at index 4 and then moved by
`samplerate * numberOfChannels / 4 = 11` to the odd index 15, so the derivative loops run
over the indices 16, 18, ... of channel 0; the candidates 20, 26, 32 are samples of channel
0, and the loop starts `candidate - strongestChannel` are odd. Percentage mode from 10 to
80 percent of 50 samples: the search starts at the odd index 5, and every candidate is a
sample of channel 0. -/
theorem candidates_off_strongest_channel :
    findStrongestChannel
      (fun i => if i < 40 then (if i % 2 = 1 then 1 else if i / 2 % 3 = 0 then 1 / 2 else 1 / 4)
        else 0) 40 2 0 = some (1, 1) ∧
    searchRange
      (fun i => if i < 40 then (if i % 2 = 1 then 1 else if i / 2 % 3 = 0 then 1 / 2 else 1 / 4)
        else 0) 40 2 22 1 ⟨0, 0, 0, 0⟩ true 0 0 = some (some (15, 38)) ∧
    loopCandidatesOf ⟨1/2, rnd (1/22), rnd (1/22), 1000, 100, 2, 1⟩
      (fun i => if i < 40 then (if i % 2 = 1 then 1 else if i / 2 % 3 = 0 then 1 / 2 else 1 / 4)
        else 0) 2 1 15 38 = some [20, 26, 32] ∧
    (∀ c, c ∈ [20, 26, 32] → c % 2 = 0 ∧ (c - 1) % 2 = 1) ∧
    findStrongestChannel (fun i => if i = 21 then 2 else if i = 30 then 1 else 0) 50 2 0 =
      some (2, 1) ∧
    searchRange (fun i => if i = 21 then 2 else if i = 30 then 1 else 0) 50 2 8000 2
      ⟨0, 0, 0, 0⟩ false 10 80 = some (some (5, 40)) ∧
    loopCandidatesOf ⟨1/2, rnd (1/8000), rnd (3/16000), 1000, 100, 2, 1⟩
      (fun i => if i = 21 then 2 else if i = 30 then 1 else 0) 2 1 5 40 =
      some [6, 8, 10, 12, 14, 16, 18, 20, 22, 24, 26, 32, 34, 36] ∧
    (∀ c, c ∈ [6, 8, 10, 12, 14, 16, 18, 20, 22, 24, 26, 32, 34, 36] →
      c % 2 = 0 ∧ (c - 1) % 2 = 1) := by
  refine ⟨by decide!, by decide!, by decide!, by decide, by decide!, by decide!, by decide!,
    by decide⟩

/-! ## The fallback branch of the sustain detection -/

theorem filter_map_range_succ {α : Type} (q : Nat → Bool) (e : Nat → α) (t : Nat) :
    ((List.range (t + 1)).filter q).map e =
      ((List.range t).filter q).map e ++ (if q t = true then [e t] else []) := by
  rw [List.range_succ, List.filter_append, List.map_append]
  by_cases h : q t = true
  · rw [if_pos h, List.filter_cons_of_pos h]
    rfl
  · rw [if_neg h, List.filter_cons_of_neg h]
    rfl

theorem collectPeaks_eq (d : Nat → ℚ) (cond : Nat → Bool) (incr : Nat → Nat)
    (peakAt : Nat → Nat) (ix : Nat → Nat) (K : Nat) (v : Nat → ℚ)
    (hv : ∀ t, t < K → v (t + 2) = fabs (d (ix t)))
    (hround : ∀ t, t < K → cond (ix t) = true ∧ incr (ix t) = ix (t + 1))
    (hend : cond (ix K) = false) (hK : K < U32) :
    collectPeaks d cond incr peakAt (ix 0) (v 0) (v 1) =
      some (v K, v (K + 1),
        ((List.range K).filter fun t => decide (v (t + 1) > v (t + 2) ∧ v (t + 1) > v t)).map
          fun t => (peakAt (ix t), v (t + 1))) := by
  have hstep : ∀ t, t < K → cond (ix t) = true ∧
      (fun i (st : ℚ × ℚ × List (Nat × ℚ)) =>
        let currentValue := fabs (d i)
        if st.2.1 > currentValue ∧ st.2.1 > st.1 then
          some (Step.next (st.2.1, currentValue, st.2.2 ++ [(peakAt i, st.2.1)]))
        else some (Step.next (st.2.1, currentValue, st.2.2))) (ix t)
        (v t, v (t + 1),
          ((List.range t).filter fun u =>
            decide (v (u + 1) > v (u + 2) ∧ v (u + 1) > v u)).map
            fun u => (peakAt (ix u), v (u + 1))) =
        some (Step.next (v (t + 1), v (t + 1 + 1),
          ((List.range (t + 1)).filter fun u =>
            decide (v (u + 1) > v (u + 2) ∧ v (u + 1) > v u)).map
            fun u => (peakAt (ix u), v (u + 1)))) ∧
      incr (ix t) = ix (t + 1) := by
    intro t ht
    refine ⟨(hround t ht).1, ?_, (hround t ht).2⟩
    show (if v (t + 1) > fabs (d (ix t)) ∧ v (t + 1) > v t then _ else _) = _
    rw [← hv t ht, filter_map_range_succ]
    by_cases hq : v (t + 1) > v (t + 2) ∧ v (t + 1) > v t
    · rw [if_pos hq, if_pos (decide_eq_true hq)]
    · rw [if_neg hq, if_neg (by simpa using hq), List.append_nil]
  have key : forLoop cond incr
      (fun i (st : ℚ × ℚ × List (Nat × ℚ)) =>
        let currentValue := fabs (d i)
        if st.2.1 > currentValue ∧ st.2.1 > st.1 then
          some (Step.next (st.2.1, currentValue, st.2.2 ++ [(peakAt i, st.2.1)]))
        else some (Step.next (st.2.1, currentValue, st.2.2)))
      U32 (ix 0) (v 0, v (0 + 1),
        ((List.range 0).filter fun u =>
          decide (v (u + 1) > v (u + 2) ∧ v (u + 1) > v u)).map
          fun u => (peakAt (ix u), v (u + 1))) =
      some (v K, v (K + 1),
        ((List.range K).filter fun u =>
          decide (v (u + 1) > v (u + 2) ∧ v (u + 1) > v u)).map
          fun u => (peakAt (ix u), v (u + 1))) :=
    forLoop_iter cond incr _ ix
      (fun t => (v t, v (t + 1),
        ((List.range t).filter fun u =>
          decide (v (u + 1) > v (u + 2) ∧ v (u + 1) > v u)).map
          fun u => (peakAt (ix u), v (u + 1)))) K hstep hend U32 0 (Nat.zero_le _) (by omega)
  exact key

theorem collectPeaks_right (d : Nat → ℚ) (n imax : Nat) (hn : n < U32)
    (hi : imax + 2 < U32) :
    ∃ a b, collectPeaks d (fun i => i < n) (fun i => uadd i 1) (fun i => usub i 1)
      (uadd imax 2) (fabs (d imax)) (fabs (d (uadd imax 1))) =
        some (a, b, peaksRight d n imax) := by
  have h2 : uadd imax 2 = imax + 2 := uadd_eq hi
  have h1 : uadd imax 1 = imax + 1 := uadd_eq (by omega)
  have hround : ∀ t, t < n - (imax + 2) →
      decide (imax + 2 + t < n) = true ∧ uadd (imax + 2 + t) 1 = imax + 2 + (t + 1) := by
    intro t ht
    refine ⟨decide_eq_true (by omega), ?_⟩
    rw [uadd_eq (by omega)]; omega
  have hend : decide (imax + 2 + (n - (imax + 2)) < n) = false := decide_eq_false (by omega)
  have hv : ∀ t, t < n - (imax + 2) →
      fabs (d (imax + (t + 2))) = fabs (d (imax + 2 + t)) := by
    intro t _
    rw [show imax + (t + 2) = imax + 2 + t by omega]
  have key : collectPeaks d (fun i => decide (i < n)) (fun i => uadd i 1) (fun i => usub i 1)
      (imax + 2 + 0) (fabs (d (imax + 0))) (fabs (d (imax + 1))) =
      some (fabs (d (imax + (n - (imax + 2)))), fabs (d (imax + (n - (imax + 2) + 1))),
        ((List.range (n - (imax + 2))).filter fun t =>
          decide (fabs (d (imax + (t + 1))) > fabs (d (imax + (t + 2))) ∧
            fabs (d (imax + (t + 1))) > fabs (d (imax + t)))).map
          (fun t => (usub (imax + 2 + t) 1, fabs (d (imax + (t + 1)))))) :=
    collectPeaks_eq d (fun i => decide (i < n)) (fun i => uadd i 1)
      (fun i => usub i 1) (fun t => imax + 2 + t) (n - (imax + 2))
      (fun t => fabs (d (imax + t))) hv hround hend (by omega)
  rw [h2, h1]
  refine ⟨fabs (d (imax + (n - (imax + 2)))), fabs (d (imax + (n - (imax + 2) + 1))), ?_⟩
  have hlist : ((List.range (n - (imax + 2))).filter fun t =>
        decide (fabs (d (imax + (t + 1))) > fabs (d (imax + (t + 2))) ∧
          fabs (d (imax + (t + 1))) > fabs (d (imax + t)))).map
        (fun t => (usub (imax + 2 + t) 1, fabs (d (imax + (t + 1))))) =
      peaksRight d n imax := by
    unfold peaksRight
    have hf : ∀ t, t ∈ List.range (n - (imax + 2)) →
        decide (fabs (d (imax + (t + 1))) > fabs (d (imax + (t + 2))) ∧
          fabs (d (imax + (t + 1))) > fabs (d (imax + t))) = isPeak d (imax + 1 + t) := by
      intro t _
      unfold isPeak
      rw [show imax + 1 + t + 1 = imax + (t + 2) by omega,
        show imax + 1 + t - 1 = imax + t by omega,
        show imax + 1 + t = imax + (t + 1) by omega]
    rw [List.filter_congr hf]
    apply List.map_congr_left
    intro t ht
    have ht' := List.mem_range.mp (List.mem_filter.mp ht).1
    rw [usub_eq (by omega) (by omega), show imax + (t + 1) = imax + 1 + t by omega,
      show imax + 2 + t - 1 = imax + 1 + t by omega]
  rw [← hlist]
  exact key

theorem collectPeaks_left (d : Nat → ℚ) (imax : Nat) (h2 : 2 ≤ imax) (hi : imax < U32) :
    ∃ a b, collectPeaks d (fun i => i > 0) (fun i => usub i 1) (fun i => uadd i 1)
      (usub imax 2) (fabs (d imax)) (fabs (d (usub imax 1))) =
        some (a, b, peaksLeft d imax) := by
  have e2 : usub imax 2 = imax - 2 := usub_eq h2 hi
  have e1 : usub imax 1 = imax - 1 := usub_eq (by omega) hi
  have hround : ∀ t, t < imax - 2 →
      decide (imax - 2 - t > 0) = true ∧ usub (imax - 2 - t) 1 = imax - 2 - (t + 1) := by
    intro t ht
    refine ⟨decide_eq_true (by omega), ?_⟩
    rw [usub_eq (by omega) (by omega)]; omega
  have hend : decide (imax - 2 - (imax - 2) > 0) = false := decide_eq_false (by omega)
  have hv : ∀ t, t < imax - 2 →
      fabs (d (imax - (t + 2))) = fabs (d (imax - 2 - t)) := by
    intro t _
    rw [show imax - (t + 2) = imax - 2 - t by omega]
  have key : collectPeaks d (fun i => decide (i > 0)) (fun i => usub i 1) (fun i => uadd i 1)
      (imax - 2 - 0) (fabs (d (imax - 0))) (fabs (d (imax - 1))) =
      some (fabs (d (imax - (imax - 2))), fabs (d (imax - (imax - 2 + 1))),
        ((List.range (imax - 2)).filter fun t =>
          decide (fabs (d (imax - (t + 1))) > fabs (d (imax - (t + 2))) ∧
            fabs (d (imax - (t + 1))) > fabs (d (imax - t)))).map
          (fun t => (uadd (imax - 2 - t) 1, fabs (d (imax - (t + 1)))))) :=
    collectPeaks_eq d (fun i => decide (i > 0)) (fun i => usub i 1)
      (fun i => uadd i 1) (fun t => imax - 2 - t) (imax - 2)
      (fun t => fabs (d (imax - t))) hv hround hend (by omega)
  rw [e2, e1]
  refine ⟨fabs (d (imax - (imax - 2))), fabs (d (imax - (imax - 2 + 1))), ?_⟩
  have hlist : ((List.range (imax - 2)).filter fun t =>
        decide (fabs (d (imax - (t + 1))) > fabs (d (imax - (t + 2))) ∧
          fabs (d (imax - (t + 1))) > fabs (d (imax - t)))).map
        (fun t => (uadd (imax - 2 - t) 1, fabs (d (imax - (t + 1))))) =
      peaksLeft d imax := by
    unfold peaksLeft
    have hf : ∀ t, t ∈ List.range (imax - 2) →
        decide (fabs (d (imax - (t + 1))) > fabs (d (imax - (t + 2))) ∧
          fabs (d (imax - (t + 1))) > fabs (d (imax - t))) = isPeak d (imax - 1 - t) := by
      intro t ht
      have ht' := List.mem_range.mp ht
      unfold isPeak
      rw [show imax - 1 - t + 1 = imax - t by omega,
        show imax - 1 - t - 1 = imax - (t + 2) by omega,
        show imax - 1 - t = imax - (t + 1) by omega]
      exact decide_eq_decide.mpr and_comm
    rw [List.filter_congr hf]
    apply List.map_congr_left
    intro t ht
    have ht' := List.mem_range.mp (List.mem_filter.mp ht).1
    rw [uadd_eq (by omega), show imax - (t + 1) = imax - 1 - t by omega,
      show imax - 2 - t + 1 = imax - 1 - t by omega]
  rw [← hlist]
  exact key

theorem lastPeakAbove_spec (absolutePeaks : List (Nat × ℚ)) (maxValue : ℚ) (target : Nat)
    (hne : absolutePeaks ≠ []) (hlen : absolutePeaks.length < U32) :
    ∃ r, lastPeakAbove absolutePeaks maxValue target = some r ∧
      LastAbove absolutePeaks maxValue target r := by
  have hpos : 0 < absolutePeaks.length := List.length_pos.mpr hne
  have hstart : usub (absolutePeaks.length % U32) 1 = absolutePeaks.length - 1 := by
    rw [Nat.mod_eq_of_lt hlen, usub_eq hpos hlen]
  unfold lastPeakAbove
  rw [hstart]
  refine forLoop_total
    (fun i t => i < absolutePeaks.length ∧ t = target ∧
      ∀ i', i < i' → i' < absolutePeaks.length →
        ¬ (absolutePeaks.getD i' (0, 0)).2 > maxValue / 2)
    (fun r => LastAbove absolutePeaks maxValue target r) (fun i => i) ?_ ?_ U32
    (absolutePeaks.length - 1) target ⟨by omega, rfl, fun i' h1 h2 => by omega⟩
    (show absolutePeaks.length - 1 < U32 by omega)
  · intro i t ⟨hi, ht, hall⟩ hc
    have hi0 : 0 < i := by simpa using hc
    by_cases hq : (absolutePeaks.getD i (0, 0)).2 > maxValue / 2
    · right
      refine ⟨(absolutePeaks.getD i (0, 0)).1, ?_, Or.inl ⟨i, hi0, hi, hq, hall, rfl⟩⟩
      show (if (absolutePeaks.getD i (0, 0)).2 > maxValue / 2 then _ else _) = _
      rw [if_pos hq]
    · left
      have hs : usub i 1 = i - 1 := usub_eq hi0 (by omega)
      refine ⟨t, ?_, ⟨?_, ht, ?_⟩, ?_⟩
      · show (if (absolutePeaks.getD i (0, 0)).2 > maxValue / 2 then _ else _) = _
        rw [if_neg hq]
      · show usub i 1 < absolutePeaks.length
        rw [hs]; omega
      · intro i' h1 h2
        have h1' : i - 1 < i' := by
          have : usub i 1 < i' := h1
          rw [hs] at this; exact this
        rcases Nat.lt_or_ge i i' with hlt | hge
        · exact hall i' hlt h2
        · have : i' = i := by omega
          rw [this]; exact hq
      · show usub i 1 < i
        rw [hs]; omega
  · intro i t ⟨_, ht, hall⟩ hc
    have hi0 : i = 0 := by
      have : ¬ i > 0 := by simpa using hc
      omega
    right
    refine ⟨fun i' h1 h2 => hall i' (by omega) h2, ht⟩

theorem peaksRight_length (d : Nat → ℚ) (n imax : Nat) :
    (peaksRight d n imax).length ≤ n := by
  unfold peaksRight
  rw [List.length_map]
  refine le_trans (List.length_filter_le _ _) ?_
  rw [List.length_range]
  omega

theorem peaksLeft_length (d : Nat → ℚ) (imax : Nat) : (peaksLeft d imax).length ≤ imax := by
  unfold peaksLeft
  rw [List.length_map]
  refine le_trans (List.length_filter_le _ _) ?_
  rw [List.length_range]
  omega

theorem sustainFallback_spec (ch_data : Nat → ℚ) (n imax first second : Nat)
    (h2 : 2 ≤ imax) (hidx : imax < n) (hn : n < 2147483648) :
    ∃ r, sustainFallback ch_data n (fabs (ch_data imax)) imax first second = some r ∧
      ((peaksRight ch_data n imax = [] ∨ peaksLeft ch_data imax = []) → r = (0, 0)) ∧
      (peaksRight ch_data n imax ≠ [] → peaksLeft ch_data imax ≠ [] →
        ∃ s e, LastAbove (peaksLeft ch_data imax) (fabs (ch_data imax)) first s ∧
          LastAbove (peaksRight ch_data n imax) (fabs (ch_data imax)) second e ∧
          r = if s < e then (s, e) else (0, 0)) := by
  have hU : n < U32 := by unfold U32; omega
  obtain ⟨a, b, hR⟩ := collectPeaks_right ch_data n imax hU (by unfold U32; omega)
  obtain ⟨a', b', hL⟩ := collectPeaks_left ch_data imax h2 (by omega)
  unfold sustainFallback
  rw [hR, Option.some_bind]
  by_cases hRe : peaksRight ch_data n imax = []
  · have hc : ¬ ((a, b, peaksRight ch_data n imax).2.2.isEmpty = false) := by
      show ¬ ((peaksRight ch_data n imax).isEmpty = false)
      rw [hRe]; simp
    rw [if_neg hc]
    exact ⟨(0, 0), rfl, fun _ => rfl, fun h => absurd hRe h⟩
  · have hc : (a, b, peaksRight ch_data n imax).2.2.isEmpty = false :=
      List.isEmpty_eq_false.mpr hRe
    rw [if_pos hc]
    obtain ⟨e, he, hLe⟩ := lastPeakAbove_spec (peaksRight ch_data n imax)
      (fabs (ch_data imax)) second hRe
      (lt_of_le_of_lt (peaksRight_length ch_data n imax) hU)
    have he' : lastPeakAbove (a, b, peaksRight ch_data n imax).2.2 (fabs (ch_data imax))
        second = some e := he
    rw [he', Option.some_bind, hL, Option.some_bind]
    by_cases hLe0 : peaksLeft ch_data imax = []
    · have hc2 : ¬ ((a', b', peaksLeft ch_data imax).2.2.isEmpty = false) := by
        show ¬ ((peaksLeft ch_data imax).isEmpty = false)
        rw [hLe0]; simp
      rw [if_neg hc2]
      exact ⟨(0, 0), rfl, fun _ => rfl, fun _ h => absurd hLe0 h⟩
    · have hc2 : (a', b', peaksLeft ch_data imax).2.2.isEmpty = false :=
        List.isEmpty_eq_false.mpr hLe0
      rw [if_pos hc2]
      obtain ⟨s, hs, hLs⟩ := lastPeakAbove_spec (peaksLeft ch_data imax)
        (fabs (ch_data imax)) first hLe0
        (lt_of_le_of_lt (peaksLeft_length ch_data imax) (by omega))
      have hs' : lastPeakAbove (a', b', peaksLeft ch_data imax).2.2 (fabs (ch_data imax))
          first = some s := hs
      rw [hs', Option.some_bind]
      refine ⟨if s < e then (s, e) else (0, 0), ?_, ?_, ?_⟩
      · by_cases hlt : s < e
        · rw [if_pos hlt, if_pos hlt]
        · rw [if_neg hlt, if_neg hlt]
      · rintro (h | h)
        · exact absurd h hRe
        · exact absurd h hLe0
      · intro _ _
        exact ⟨s, e, hLs, hLe, rfl⟩

theorem findStrongestValue_value (ch_data : Nat → ℚ) (n : Nat) (hn : 0 < n) (r : ℚ × Nat)
    (h : findStrongestValue ch_data n = some r) : r.1 = fabs (ch_data r.2) := by
  unfold findStrongestValue at h
  refine forLoop_inv
    (fun idx st => st.1 = fabs (ch_data st.2) ∨ (idx = 0 ∧ st = (0, 0)))
    (fun r => r.1 = fabs (ch_data r.2)) ?_ ?_ ?_ U32 0 (0, 0) r (Or.inr ⟨rfl, rfl⟩) h
  · intro idx st s' hP _ hb
    by_cases hgt : fabs (ch_data idx) > st.1
    · have hb' : some (Step.next (fabs (ch_data idx), idx)) = some (Step.next s') := by
        rw [← hb]; exact (if_pos hgt).symm
      simp only [Option.some.injEq, Step.next.injEq] at hb'
      subst hb'
      exact Or.inl rfl
    · have hb' : some (Step.next st) = some (Step.next s') := by
        rw [← hb]; exact (if_neg hgt).symm
      simp only [Option.some.injEq, Step.next.injEq] at hb'
      subst hb'
      rcases hP with hP | ⟨h0, hst⟩
      · exact Or.inl hP
      · left
        subst h0
        rw [hst] at hgt ⊢
        exact le_antisymm (fabs_nonneg _) (not_lt.mp hgt)
  · intro idx st s' _ _ hb
    by_cases hgt : fabs (ch_data idx) > st.1
    · have hb' : some (Step.next (fabs (ch_data idx), idx)) = some (Step.brk s') := by
        rw [← hb]; exact (if_pos hgt).symm
      simp at hb'
    · have hb' : some (Step.next st) = some (Step.brk s') := by
        rw [← hb]; exact (if_neg hgt).symm
      simp at hb'
  · intro idx st hP hc
    rcases hP with hP | ⟨h0, _⟩
    · exact hP
    · subst h0
      have : ¬ 0 < n := by simpa using hc
      exact absurd hn this

theorem LastAbove_farthest (peaks : List (Nat × ℚ)) (maxValue : ℚ) (dflt r : Nat)
    (h : LastAbove peaks maxValue dflt r)
    (hq : ∃ i, 1 ≤ i ∧ i < peaks.length ∧ (peaks.getD i (0, 0)).2 > maxValue / 2) :
    FarthestAbove peaks maxValue r := by
  rcases h with ⟨i, _, hi, hgt, hall, hr⟩ | ⟨hnone, _⟩
  · exact ⟨i, hi, hgt, hall, hr⟩
  · obtain ⟨i, h1, h2, h3⟩ := hq
    exact absurd h3 (hnone i h1 h2)

theorem peaksRight_pos (d : Nat → ℚ) (n imax i : Nat) (hi : i < (peaksRight d n imax).length) :
    imax < ((peaksRight d n imax).getD i (0, 0)).1 := by
  rw [List.getD_eq_getElem _ _ hi]
  have hmem := List.getElem_mem hi
  unfold peaksRight at hmem
  rw [List.mem_map] at hmem
  obtain ⟨t, _, ht⟩ := hmem
  have h : (imax + 1 + t, fabs (d (imax + 1 + t))) = (peaksRight d n imax)[i] := ht
  rw [← h]
  show imax < imax + 1 + t
  omega

theorem peaksLeft_pos (d : Nat → ℚ) (imax i : Nat) (h1 : 1 ≤ imax)
    (hi : i < (peaksLeft d imax).length) :
    ((peaksLeft d imax).getD i (0, 0)).1 < imax := by
  rw [List.getD_eq_getElem _ _ hi]
  have hmem := List.getElem_mem hi
  unfold peaksLeft at hmem
  rw [List.mem_map] at hmem
  obtain ⟨t, _, ht⟩ := hmem
  have h : (imax - 1 - t, fabs (d (imax - 1 - t))) = (peaksLeft d imax)[i] := ht
  rw [← h]
  show imax - 1 - t < imax
  omega

/-- C25 (amended). The fallback branch of `GetSustainStartAndEnd`, for a global peak at
index `imax >= 2`. The local peaks on either side are collected nearest first. When a side
has no local peak at all the result is `(0, 0)`. When on each side some peak other than the
nearest one exceeds half the global peak, the result is `(s, e)`, where `e` is the position
of the farthest right peak that exceeds half the global peak and `s` the position of the
farthest such left peak; `s` lies before the global peak and `e` behind it. -/
theorem fallback_takes_farthest_peaks (fh : FileHandling) (ch_data : Nat → ℚ)
    (strongest fwd bwd : ℚ × Nat)
    (hmax : findStrongestValue ch_data fh.numberOfSamples = some strongest)
    (hfwd : scanSustainStart ch_data fh.numberOfSamples (fh.m_samplerate / 20) = some fwd)
    (hbwd : scanSustainEnd ch_data fh.numberOfSamples (fh.m_samplerate / 20) strongest.1 =
      some bwd)
    (hfall : removeOffset (uadd fwd.2 (fh.m_samplerate / 4)) bwd.2 fh.m_samplerate <
      uadd fwd.2 (fh.m_samplerate / 4))
    (h2 : 2 ≤ strongest.2) (hn : fh.numberOfSamples < 2147483648) :
    ((peaksRight ch_data fh.numberOfSamples strongest.2 = [] ∨
        peaksLeft ch_data strongest.2 = []) →
      GetSustainStartAndEnd fh ch_data = some (0, 0)) ∧
    ((∃ i, 1 ≤ i ∧ i < (peaksRight ch_data fh.numberOfSamples strongest.2).length ∧
        ((peaksRight ch_data fh.numberOfSamples strongest.2).getD i (0, 0)).2 >
          strongest.1 / 2) →
      (∃ i, 1 ≤ i ∧ i < (peaksLeft ch_data strongest.2).length ∧
        ((peaksLeft ch_data strongest.2).getD i (0, 0)).2 > strongest.1 / 2) →
      ∃ s e, FarthestAbove (peaksLeft ch_data strongest.2) strongest.1 s ∧
        FarthestAbove (peaksRight ch_data fh.numberOfSamples strongest.2) strongest.1 e ∧
        s < strongest.2 ∧ strongest.2 < e ∧
        GetSustainStartAndEnd fh ch_data = some (s, e)) := by
  have hpos : 0 < fh.numberOfSamples := by
    rcases Nat.eq_zero_or_pos fh.numberOfSamples with h0 | h0
    · exfalso
      rw [h0] at hmax
      have : strongest = (0, 0) := by
        have h := hmax
        unfold findStrongestValue at h
        have hexit := forLoop_iter (fun idx => decide (idx < 0)) (fun idx => uadd idx 1)
          (fun idx (st : ℚ × Nat) =>
            if fabs (ch_data idx) > st.1 then some (Step.next (fabs (ch_data idx), idx))
            else some (Step.next st))
          (fun _ => 0) (fun _ => ((0 : ℚ), 0)) 0
          (fun t ht => absurd ht (Nat.not_lt_zero t)) rfl U32 0 (le_refl 0)
          (by unfold U32; omega)
        rw [hexit] at h
        exact (Option.some.inj h).symm
      rw [this] at h2
      exact absurd h2 (by decide)
    · exact h0
  have hidx := findStrongestValue_index_lt ch_data _ hpos _ hmax
  have hval := findStrongestValue_value ch_data _ hpos _ hmax
  have hrun : GetSustainStartAndEnd fh ch_data =
      sustainFallback ch_data fh.numberOfSamples strongest.1 strongest.2
        (uadd fwd.2 (fh.m_samplerate / 4))
        (removeOffset (uadd fwd.2 (fh.m_samplerate / 4)) bwd.2 fh.m_samplerate) := by
    unfold GetSustainStartAndEnd
    rw [hmax, Option.some_bind, hfwd, Option.some_bind, hbwd, Option.some_bind]
    unfold sustainDecision
    rw [if_pos hfall]
  rw [hrun, hval]
  obtain ⟨r, hr, hzero, hboth⟩ := sustainFallback_spec ch_data fh.numberOfSamples strongest.2
    (uadd fwd.2 (fh.m_samplerate / 4))
    (removeOffset (uadd fwd.2 (fh.m_samplerate / 4)) bwd.2 fh.m_samplerate) h2 hidx hn
  rw [hr]
  refine ⟨fun h => by rw [hzero h], ?_⟩
  intro hR hL
  have hRne : peaksRight ch_data fh.numberOfSamples strongest.2 ≠ [] := by
    obtain ⟨i, _, hi, _⟩ := hR
    intro h
    rw [h] at hi
    exact absurd hi (Nat.not_lt_zero i)
  have hLne : peaksLeft ch_data strongest.2 ≠ [] := by
    obtain ⟨i, _, hi, _⟩ := hL
    intro h
    rw [h] at hi
    exact absurd hi (Nat.not_lt_zero i)
  obtain ⟨s, e, hs, he, hres⟩ := hboth hRne hLne
  have hs' := LastAbove_farthest _ _ _ _ hs hL
  have he' := LastAbove_farthest _ _ _ _ he hR
  have hsl : s < strongest.2 := by
    obtain ⟨i, hi, _, _, hr'⟩ := hs'
    rw [hr']
    exact peaksLeft_pos ch_data strongest.2 i (by omega) hi
  have hel : strongest.2 < e := by
    obtain ⟨i, hi, _, _, hr'⟩ := he'
    rw [hr']
    exact peaksRight_pos ch_data fh.numberOfSamples strongest.2 i hi
  refine ⟨s, e, hs', he', hsl, hel, ?_⟩
  rw [hres, if_pos (by omega)]

/-- Witness for `fallback_takes_farthest_peaks`: sixteen samples at rate 40 with the global
peak 10 at index 8 and three local peaks on either side, all above half the global peak;
the envelope scans give the start 12 and the end 7, and the fallback returns `(2, 14)`. -/
theorem fallback_takes_farthest_peaks_witness :
    (∃ i, 1 ≤ i ∧
      i < (peaksRight (bufferOf [0, 0, 6, 1, 7, 1, 8, 1, 10, 1, 8, 1, 7, 1, 6, 0])
        (FileHandling.mk 16 1 40).numberOfSamples ((10 : ℚ), 8).2).length ∧
      ((peaksRight (bufferOf [0, 0, 6, 1, 7, 1, 8, 1, 10, 1, 8, 1, 7, 1, 6, 0])
        (FileHandling.mk 16 1 40).numberOfSamples ((10 : ℚ), 8).2).getD i (0, 0)).2 >
          ((10 : ℚ), 8).1 / 2) ∧
    ∃ s e,
      FarthestAbove (peaksLeft (bufferOf [0, 0, 6, 1, 7, 1, 8, 1, 10, 1, 8, 1, 7, 1, 6, 0])
        ((10 : ℚ), 8).2) ((10 : ℚ), 8).1 s ∧
      FarthestAbove (peaksRight (bufferOf [0, 0, 6, 1, 7, 1, 8, 1, 10, 1, 8, 1, 7, 1, 6, 0])
        (FileHandling.mk 16 1 40).numberOfSamples ((10 : ℚ), 8).2) ((10 : ℚ), 8).1 e ∧
      s < ((10 : ℚ), 8).2 ∧ ((10 : ℚ), 8).2 < e ∧
      GetSustainStartAndEnd ⟨16, 1, 40⟩
        (bufferOf [0, 0, 6, 1, 7, 1, 8, 1, 10, 1, 8, 1, 7, 1, 6, 0]) = some (s, e) :=
  ⟨⟨1, by decide, by decide!, by decide!⟩,
    (fallback_takes_farthest_peaks ⟨16, 1, 40⟩
      (bufferOf [0, 0, 6, 1, 7, 1, 8, 1, 10, 1, 8, 1, 7, 1, 6, 0]) (10, 8) (0, 2) (10, 7)
      (by decide!) (by decide!) (by decide!) (by decide!) (by decide) (by decide)).2
      ⟨1, by decide, by decide!, by decide!⟩ ⟨1, by decide, by decide!, by decide!⟩⟩

/-- Counterexample to C25 as stated. Sixteen samples at rate 40 with the global peak 10 at
index 8 and the local peaks 8, 7, 6 at the indices 10, 12, 14 and 6, 4, 2, all above half
the global peak: the fallback returns `(2, 14)`, the farthest peaks, while the nearest ones
are at 6 and 10. -/
theorem fallback_not_nearest_peak :
    GetSustainStartAndEnd ⟨16, 1, 40⟩
      (bufferOf [0, 0, 6, 1, 7, 1, 8, 1, 10, 1, 8, 1, 7, 1, 6, 0]) = some (2, 14) ∧
    peaksRight (bufferOf [0, 0, 6, 1, 7, 1, 8, 1, 10, 1, 8, 1, 7, 1, 6, 0]) 16 8 =
      [(10, 8), (12, 7), (14, 6)] ∧
    peaksLeft (bufferOf [0, 0, 6, 1, 7, 1, 8, 1, 10, 1, 8, 1, 7, 1, 6, 0]) 8 =
      [(6, 8), (4, 7), (2, 6)] := by
  decide!

/-- The first entry of the vector of peaks is never examined (the loop runs while `i > 0`):
with the single right peak at index 10 (magnitude 8, above half the global peak 10) the end
keeps the value 7 of the envelope scan, and the result is `(2, 7)`. -/
theorem fallback_skips_nearest_peak :
    GetSustainStartAndEnd ⟨16, 1, 40⟩
      (bufferOf [0, 0, 6, 1, 7, 1, 8, 1, 10, 1, 8, 1, 1, 1, 1, 0]) = some (2, 7) ∧
    peaksRight (bufferOf [0, 0, 6, 1, 7, 1, 8, 1, 10, 1, 8, 1, 1, 1, 1, 0]) 16 8 =
      [(10, 8)] := by
  decide!

/-! ## The harmonic product in general -/

theorem leadBin_le (v : Nat → ℚ) (t : Nat) : leadBin v t ≤ t := by
  induction t with
  | zero => exact le_refl 0
  | succ t ih =>
    show (if v t > v (leadBin v t) then t else leadBin v t) ≤ t + 1
    split
    · omega
    · omega

theorem leadBin_spec (v : Nat → ℚ) (t : Nat) :
    (∀ x, x < t → v x ≤ v (leadBin v t)) ∧ (∀ x, x < leadBin v t → v x < v (leadBin v t)) ∧
      (0 < t → leadBin v t < t) := by
  induction t with
  | zero =>
    exact ⟨fun x hx => absurd hx (Nat.not_lt_zero x), fun x hx => absurd hx (Nat.not_lt_zero x),
      fun h => absurd h (lt_irrefl 0)⟩
  | succ t ih =>
    obtain ⟨h1, h2, h3⟩ := ih
    have hle := leadBin_le v t
    show (∀ x, x < t + 1 → v x ≤ v (if v t > v (leadBin v t) then t else leadBin v t)) ∧
      (∀ x, x < (if v t > v (leadBin v t) then t else leadBin v t) →
        v x < v (if v t > v (leadBin v t) then t else leadBin v t)) ∧
      (0 < t + 1 → (if v t > v (leadBin v t) then t else leadBin v t) < t + 1)
    by_cases hgt : v t > v (leadBin v t)
    · rw [if_pos hgt]
      refine ⟨?_, ?_, fun _ => Nat.lt_succ_self t⟩
      · intro x hx
        rcases Nat.lt_succ_iff_lt_or_eq.mp hx with hlt | heq
        · exact le_trans (h1 x hlt) (le_of_lt hgt)
        · rw [heq]
      · intro x hx
        exact lt_of_le_of_lt (h1 x hx) hgt
    · rw [if_neg hgt]
      refine ⟨?_, h2, fun _ => by omega⟩
      intro x hx
      rcases Nat.lt_succ_iff_lt_or_eq.mp hx with hlt | heq
      · exact h1 x hlt
      · rw [heq]; exact not_lt.mp hgt

theorem harmonicRound (h : Nat → ℚ) (i : Nat) :
    ∃ h', forLoop (fun j => decide (j ≤ 4)) (fun j => j + 1)
        (fun j (h : Nat → ℚ) => some (Step.next (Function.update h i (h i * h (i * j)))))
        U32 2 h = some h' ∧
      (∀ x, x ≠ i → h' x = h x) ∧
      (1 ≤ i → h' i = h i * h (i * 2) * h (i * 3) * h (i * 4)) ∧
      (i = 0 → h' 0 = h 0 ^ 8) := by
  have key := forLoop_iter (fun j => decide (j ≤ 4)) (fun j => j + 1)
    (fun j (h : Nat → ℚ) => some (Step.next (Function.update h i (h i * h (i * j)))))
    (fun t => 2 + t)
    (fun t => Nat.rec h (fun u s => Function.update s i (s i * s (i * (2 + u)))) t) 3
    (by
      intro t ht
      refine ⟨decide_eq_true (show 2 + t ≤ 4 by omega), rfl, rfl⟩)
    (by decide) U32 0 (Nat.zero_le _) (by decide)
  refine ⟨_, key, ?_, ?_, ?_⟩
  · intro x hx
    show Function.update (Function.update (Function.update h i _) i _) i _ x = h x
    rw [Function.update_noteq hx, Function.update_noteq hx, Function.update_noteq hx]
  · intro hi
    have h2 : i * 2 ≠ i := by omega
    have h3 : i * 3 ≠ i := by omega
    have h4 : i * 4 ≠ i := by omega
    show Function.update (Function.update (Function.update h i _) i _) i _ i = _
    rw [Function.update_same]
    show Function.update (Function.update h i _) i _ i *
      Function.update (Function.update h i _) i _ (i * (2 + 2)) = _
    rw [Function.update_same, Function.update_noteq h4, Function.update_noteq h4]
    show Function.update h i _ i * Function.update h i _ (i * (2 + 1)) * _ = _
    rw [Function.update_same, Function.update_noteq h3]
  · intro hi
    subst hi
    show Function.update (Function.update (Function.update h 0 _) 0 _) 0 _ 0 = _
    rw [Function.update_same]
    show Function.update (Function.update h 0 _) 0 _ 0 *
      Function.update (Function.update h 0 _) 0 _ (0 * (2 + 2)) = _
    rw [Nat.zero_mul, Function.update_same]
    show Function.update h 0 _ 0 * Function.update h 0 _ (0 * (2 + 1)) *
      (Function.update h 0 _ 0 * Function.update h 0 _ (0 * (2 + 1))) = _
    rw [Nat.zero_mul, Function.update_same]
    show h 0 * h (0 * (2 + 0)) * (h 0 * h (0 * (2 + 0))) *
      (h 0 * h (0 * (2 + 0)) * (h 0 * h (0 * (2 + 0)))) = _
    rw [Nat.zero_mul]
    ring

theorem harmonicProductLoop_spec (P : Nat → ℚ) (N : Nat) (hN : N / 4 < U32) :
    harmonicProductLoop P N =
      some (fun x => if x < N / 4 then hpsValue P x else P x,
        leadBin (hpsValue P) (N / 4)) := by
  unfold harmonicProductLoop
  obtain ⟨r, hr, hQ⟩ := forLoop_count (N / 4)
    (fun i (st : (Nat → ℚ) × Nat) =>
      (forLoop (fun j => j ≤ 4) (fun j => j + 1)
        (fun j (h : Nat → ℚ) => some (Step.next (Function.update h i (h i * h (i * j)))))
        U32 2 st.1).map fun h => Step.next (h, if h i > h st.2 then i else st.2))
    (fun i st => i ≤ N / 4 ∧
      st = (fun x => if x < i then hpsValue P x else P x, leadBin (hpsValue P) i))
    (fun r => r = (fun x => if x < N / 4 then hpsValue P x else P x,
      leadBin (hpsValue P) (N / 4)))
    (by
      intro i st ⟨_, hst⟩ hi
      left
      subst hst
      obtain ⟨h', hrun, hother, hpos, hzero⟩ :=
        harmonicRound (fun x => if x < i then hpsValue P x else P x) i
      have hh : h' = fun x => if x < i + 1 then hpsValue P x else P x := by
        funext x
        rcases Nat.lt_trichotomy x i with hlt | heq | hgt
        · rw [hother x (by omega)]
          show (if x < i then _ else _) = if x < i + 1 then _ else _
          rw [if_pos hlt, if_pos (by omega)]
        · subst heq
          show h' x = if x < x + 1 then _ else _
          rw [if_pos (Nat.lt_succ_self x)]
          rcases Nat.eq_zero_or_pos x with h0 | hp
          · subst h0
            rw [hzero rfl]
            show (if 0 < 0 then _ else P 0) ^ 8 = hpsValue P 0
            rw [if_neg (lt_irrefl 0)]
            rfl
          · rw [hpos hp]
            show (if x < x then _ else P x) * (if x * 2 < x then _ else P (x * 2)) *
              (if x * 3 < x then _ else P (x * 3)) * (if x * 4 < x then _ else P (x * 4)) = _
            rw [if_neg (lt_irrefl x), if_neg (by omega), if_neg (by omega), if_neg (by omega)]
            unfold hpsValue
            rw [if_neg (by omega)]
        · rw [hother x (by omega)]
          show (if x < i then _ else _) = if x < i + 1 then _ else _
          rw [if_neg (by omega), if_neg (by omega)]
      have hlead := leadBin_le (hpsValue P) i
      refine ⟨(fun x => if x < i + 1 then hpsValue P x else P x, leadBin (hpsValue P) (i + 1)),
        ?_, by omega, rfl⟩
      show Option.map _ (forLoop (fun j => decide (j ≤ 4)) (fun j => j + 1) _ U32 2
        (fun x => if x < i then hpsValue P x else P x)) = _
      rw [hrun, Option.map_some', hh]
      show some (Step.next (_, if (if i < i + 1 then hpsValue P i else P i) >
          (if leadBin (hpsValue P) i < i + 1 then hpsValue P (leadBin (hpsValue P) i)
            else P (leadBin (hpsValue P) i)) then i else leadBin (hpsValue P) i)) = _
      rw [if_pos (Nat.lt_succ_self i), if_pos (show leadBin (hpsValue P) i < i + 1 by omega)]
      rfl)
    (by
      intro i st ⟨hle, hst⟩ hge
      have : i = N / 4 := by omega
      rw [hst, this])
    hN 0 (P, 0) ⟨Nat.zero_le _, rfl⟩
  rw [← hQ]
  exact hr

/-! ## The ranking sort, the peak interpolation and reads outside the buffer -/

/-- C31 (amended). For every list of accepted loops the ranking sort of `AutoFindLoops`
returns a permutation of the list in ascending order of the quality score. (It is a
selection sort by exchange and does not keep the order of acceptance among loops of equal
score.) -/
theorem ranking_sort_ascending (foundLoops : List LoopCandidate)
    (hlen : foundLoops.length < U32) :
    ∃ sorted, sortLoops foundLoops = some sorted ∧ sorted.Perm foundLoops ∧
      sorted.Pairwise (fun x y => x.2 ≤ y.2) := by
  obtain ⟨sorted, hs⟩ := sortLoops_total foundLoops hlen
  obtain ⟨hperm, _, hpair⟩ := sortLoops_spec foundLoops sorted hs
  exact ⟨sorted, hs, hperm, hpair⟩

/-- Witness for `ranking_sort_ascending`: three accepted loops, two of them of equal
score. -/
theorem ranking_sort_ascending_witness :
    ∃ sorted, sortLoops [((0, 1), 2), ((5, 6), 2), ((9, 10), 1)] = some sorted ∧
      sorted.Perm [((0, 1), 2), ((5, 6), 2), ((9, 10), 1)] ∧
      sorted.Pairwise (fun x y => x.2 ≤ y.2) :=
  ranking_sort_ascending [((0, 1), 2), ((5, 6), 2), ((9, 10), 1)] (by decide)

/-- Counterexample to C31 as stated: of the loops `(0, 1)` and `(5, 6)`, both of score 2
and accepted in this order, the sort puts `(5, 6)` first: in its first round it exchanges
`(0, 1)` with the best loop `(9, 10)`, which stands behind `(5, 6)`. -/
theorem ranking_sort_not_stable :
    sortLoops [((0, 1), 2), ((5, 6), 2), ((9, 10), 1)] =
      some [((9, 10), 1), ((5, 6), 2), ((0, 1), 2)] := by
  decide!

theorem rnd_half_shift (n : Int) (hn : |n| < 2 ^ 52) (s : ℚ) (hs : s = 1 / 2 ∨ s = -1 / 2) :
    rnd ((n : ℚ) + s) = (n : ℚ) + s := by
  rcases hs with h | h
  · have e : (n : ℚ) + s = ((2 * n + 1 : Int) : ℚ) * 2 ^ (-1 : Int) := by
      rw [h]; push_cast; norm_num; ring
    rw [e]
    apply rnd_exact _ _ _ (by norm_num)
    have := abs_lt.mp hn
    rw [abs_lt]
    constructor <;> omega
  · have e : (n : ℚ) + s = ((2 * n - 1 : Int) : ℚ) * 2 ^ (-1 : Int) := by
      rw [h]; push_cast; norm_num; ring
    rw [e]
    apply rnd_exact _ _ _ (by norm_num)
    have := abs_lt.mp hn
    rw [abs_lt]
    constructor <;> omega

/-- C33 (amended). `TranslateIndexToPitch` computes `(bin + d) * sampleRate / windowSize`
with `d = (right - left) / (2 * (2 * center - left - right))` in `double`s, every operation
rounded. Take finite values (magnitudes up to `2 ^ 1000`) with `center` a `double` not
below `left` and `right`, not all three equal, whose differences `right - left`,
`2 * center - left` and `2 * center - left - right` are `double`s, so that numerator and
denominator carry no rounding error, and a bin from 1 on. Then `d` is the `double` nearest
to the exact quotient and `|d| <= 1/2`; the result is a number between the `double` values
of `(bin - 1/2) * sampleRate / windowSize` and `(bin + 1/2) * sampleRate / windowSize`; and
when `left = right` it is the `double` value of `bin * sampleRate / windowSize`. -/
theorem TranslateIndexToPitch_spec (fh : FileHandling) (bin : Int) (left center right : F64)
    (vl vc vr : ℚ) (wSize : Nat)
    (hleft : F64.IsNumber left vl) (hcenter : F64.IsNumber center vc)
    (hright : F64.IsNumber right vr)
    (hml : |vl| ≤ 2 ^ 1000) (hmc : |vc| ≤ 2 ^ 1000) (hmr : |vr| ≤ 2 ^ 1000)
    (hl : vl ≤ vc) (hr : vr ≤ vc) (hne : ¬ (vl = vc ∧ vr = vc))
    (hcd : rnd vc = vc) (hx1 : rnd (vr - vl) = vr - vl)
    (hx2 : rnd (2 * vc - vl) = 2 * vc - vl)
    (hx3 : rnd (2 * vc - vl - vr) = 2 * vc - vl - vr)
    (hbin1 : 1 ≤ bin) (hbin : bin < 2147483648) (hw : 0 < wSize) (hw2 : wSize < 4294967296)
    (hsr : 0 < fh.m_samplerate) (hsr2 : fh.m_samplerate < 2147483648) :
    F64.IsNumber (centerPeakBin left center right)
      (rnd ((vr - vl) / (2 * (2 * vc - vl - vr)))) ∧
    |rnd ((vr - vl) / (2 * (2 * vc - vl - vr)))| ≤ 1 / 2 ∧
    F64.IsNumber (TranslateIndexToPitch fh bin left center right wSize)
      (rnd (rnd (rnd ((bin : ℚ) + rnd ((vr - vl) / (2 * (2 * vc - vl - vr)))) *
        (fh.m_samplerate : ℚ)) / (wSize : ℚ))) ∧
    rnd (rnd (((bin : ℚ) - 1 / 2) * (fh.m_samplerate : ℚ)) / (wSize : ℚ)) ≤
      rnd (rnd (rnd ((bin : ℚ) + rnd ((vr - vl) / (2 * (2 * vc - vl - vr)))) *
        (fh.m_samplerate : ℚ)) / (wSize : ℚ)) ∧
    rnd (rnd (rnd ((bin : ℚ) + rnd ((vr - vl) / (2 * (2 * vc - vl - vr)))) *
        (fh.m_samplerate : ℚ)) / (wSize : ℚ)) ≤
      rnd (rnd (((bin : ℚ) + 1 / 2) * (fh.m_samplerate : ℚ)) / (wSize : ℚ)) ∧
    (vl = vr →
      rnd (rnd (rnd ((bin : ℚ) + rnd ((vr - vl) / (2 * (2 * vc - vl - vr)))) *
        (fh.m_samplerate : ℚ)) / (wSize : ℚ)) =
      rnd (rnd ((bin : ℚ) * (fh.m_samplerate : ℚ)) / (wSize : ℚ))) := by
  -- numerator and denominator are computed without error
  have hB : (8 : ℚ) * 2 ^ 1000 < 2 ^ (1024 : Nat) := by
    have e : (8 : ℚ) * 2 ^ 1000 = 2 ^ 1003 := by
      rw [show (8 : ℚ) = 2 ^ 3 by norm_num, ← pow_add]
    rw [e]
    exact two_pow_lt_big 1003 (by norm_num)
  generalize (2 : ℚ) ^ 1000 = B at hml hmc hmr hB
  have hB0 : 0 ≤ B := le_trans (abs_nonneg _) hml
  obtain ⟨l1, l2⟩ := abs_le.mp hml
  obtain ⟨c1, c2⟩ := abs_le.mp hmc
  obtain ⟨r1, r2⟩ := abs_le.mp hmr
  have h2E : rnd (2 : ℚ) = 2 := by
    have := rnd_natCast 2 (by norm_num)
    simpa using this
  have h2N : F64.IsNumber (F64.ofRat 2) 2 := by
    have := isNumber_ofRat 2 (by
      rw [h2E, abs_of_pos (by norm_num)]
      linarith)
    rw [h2E] at this
    exact this
  have hnum : F64.IsNumber (F64.sub right left) (vr - vl) := by
    have := isNumber_sub hright hleft (by
      rw [hx1]
      refine lt_of_le_of_lt ?_ hB
      rw [abs_le]
      constructor <;> linarith)
    rw [hx1] at this
    exact this
  have hy1 : F64.IsNumber (F64.mul (F64.ofRat 2) center) (2 * vc) := by
    have := isNumber_mul h2N hcenter (by
      rw [rnd_two_mul vc hcd]
      refine lt_of_le_of_lt ?_ hB
      rw [abs_le]
      constructor <;> linarith)
    rw [rnd_two_mul vc hcd] at this
    exact this
  have hy2 : F64.IsNumber (F64.sub (F64.mul (F64.ofRat 2) center) left) (2 * vc - vl) := by
    have := isNumber_sub hy1 hleft (by
      rw [hx2]
      refine lt_of_le_of_lt ?_ hB
      rw [abs_le]
      constructor <;> linarith)
    rw [hx2] at this
    exact this
  have hy3 : F64.IsNumber (F64.sub (F64.sub (F64.mul (F64.ofRat 2) center) left) right)
      (2 * vc - vl - vr) := by
    have := isNumber_sub hy2 hright (by
      rw [hx3]
      refine lt_of_le_of_lt ?_ hB
      rw [abs_le]
      constructor <;> linarith)
    rw [hx3] at this
    exact this
  have hden : F64.IsNumber
      (F64.mul (F64.ofRat 2)
        (F64.sub (F64.sub (F64.mul (F64.ofRat 2) center) left) right))
      (2 * (2 * vc - vl - vr)) := by
    have := isNumber_mul h2N hy3 (by
      rw [rnd_two_mul _ hx3]
      refine lt_of_le_of_lt ?_ hB
      rw [abs_le]
      constructor <;> linarith)
    rw [rnd_two_mul _ hx3] at this
    exact this
  clear hB hB0 l1 l2 c1 c2 r1 r2 hml hmc hmr
  have hden0 : 0 < 2 * (2 * vc - vl - vr) := by
    have h1 : 0 ≤ vc - vl := sub_nonneg.mpr hl
    have h2 : 0 ≤ vc - vr := sub_nonneg.mpr hr
    have h3 : vc - vl ≠ 0 ∨ vc - vr ≠ 0 := by
      by_contra hcon
      push_neg at hcon
      exact hne ⟨(sub_eq_zero.mp hcon.1).symm, (sub_eq_zero.mp hcon.2).symm⟩
    rcases h3 with h3 | h3
    · have : 0 < vc - vl := lt_of_le_of_ne h1 (Ne.symm h3)
      linarith
    · have : 0 < vc - vr := lt_of_le_of_ne h2 (Ne.symm h3)
      linarith
  have hq : |(vr - vl) / (2 * (2 * vc - vl - vr))| ≤ 1 / 2 := by
    rw [abs_div, abs_of_pos hden0, div_le_iff₀ hden0, abs_le]
    constructor <;> linarith
  have hhalf : rnd ((1 : ℚ) / 2) = 1 / 2 := by
    have := rnd_exact 1 (-1) (by norm_num) (by norm_num)
    simpa using this
  have hd : |rnd ((vr - vl) / (2 * (2 * vc - vl - vr)))| ≤ 1 / 2 := by
    rw [← rnd_abs, ← hhalf]
    exact rnd_mono hq
  generalize hdq : rnd ((vr - vl) / (2 * (2 * vc - vl - vr))) = d at hd ⊢
  obtain ⟨hd1, hd2⟩ := abs_le.mp hd
  have hbig10 := two_pow_lt_big 10 (by norm_num)
  have hbig40 := two_pow_lt_big 40 (by norm_num)
  have hbig80 := two_pow_lt_big 80 (by norm_num)
  -- the local `centerPeakBin`
  have hcpb : F64.IsNumber (centerPeakBin left center right) d := by
    unfold centerPeakBin
    rw [← hdq]
    apply isNumber_div hnum hden (ne_of_gt hden0)
    rw [hdq]
    refine lt_of_le_of_lt hd ?_
    exact lt_trans (by norm_num) hbig10
  -- the sizes as numbers
  have hbinq : (1 : ℚ) ≤ (bin : ℚ) := by exact_mod_cast hbin1
  have hbinq2 : (bin : ℚ) < 2147483648 := by exact_mod_cast hbin
  have hsrq : (0 : ℚ) < (fh.m_samplerate : ℚ) := by exact_mod_cast hsr
  have hsrq2 : (fh.m_samplerate : ℚ) < 2147483648 := by exact_mod_cast hsr2
  have hwq : (1 : ℚ) ≤ (wSize : ℚ) := by exact_mod_cast hw
  have hbinE : rnd (bin : ℚ) = (bin : ℚ) :=
    rnd_intCast bin (by rw [abs_lt]; constructor <;> omega)
  have hsrE : rnd ((fh.m_samplerate : Nat) : ℚ) = (fh.m_samplerate : ℚ) :=
    rnd_natCast _ (by omega)
  have hbinN : F64.IsNumber (F64.ofRat (bin : ℚ)) (bin : ℚ) := by
    have := isNumber_ofRat (bin : ℚ) (by
      rw [hbinE, abs_of_pos (by linarith)]
      exact lt_trans (lt_trans hbinq2 (by norm_num)) hbig40)
    rw [hbinE] at this
    exact this
  have hsrN : F64.IsNumber (F64.ofRat (fh.m_samplerate : ℚ)) (fh.m_samplerate : ℚ) := by
    have := isNumber_ofRat (fh.m_samplerate : ℚ) (by
      rw [hsrE, abs_of_pos hsrq]
      exact lt_trans (lt_trans hsrq2 (by norm_num)) hbig40)
    rw [hsrE] at this
    exact this
  -- `idxAtPeak + centerPeakBin`
  have hsum_abs : |(bin : ℚ) + d| ≤ (2 : ℚ) ^ 40 := by
    rw [abs_le]
    constructor <;> norm_num <;> linarith
  have hs1 := rnd_abs_le_two_pow _ 40 hsum_abs
  have hsumN : F64.IsNumber
      (F64.add (F64.ofRat (bin : ℚ)) (centerPeakBin left center right))
      (rnd ((bin : ℚ) + d)) := isNumber_add hbinN hcpb (lt_of_le_of_lt hs1 hbig40)
  have hlo : (bin : ℚ) - 1 / 2 ≤ rnd ((bin : ℚ) + d) := by
    have := rnd_mono (show (bin : ℚ) + (-1 / 2) ≤ (bin : ℚ) + d by linarith)
    rw [rnd_half_shift bin (by rw [abs_lt]; constructor <;> omega) _ (Or.inr rfl)] at this
    linarith
  have hhi : rnd ((bin : ℚ) + d) ≤ (bin : ℚ) + 1 / 2 := by
    have := rnd_mono (show (bin : ℚ) + d ≤ (bin : ℚ) + 1 / 2 by linarith)
    rw [rnd_half_shift bin (by rw [abs_lt]; constructor <;> omega) _ (Or.inl rfl)] at this
    exact this
  -- the product with the sample rate
  have hprod_abs : |rnd ((bin : ℚ) + d) * (fh.m_samplerate : ℚ)| ≤ (2 : ℚ) ^ 80 := by
    rw [abs_mul, abs_of_pos hsrq]
    calc |rnd ((bin : ℚ) + d)| * (fh.m_samplerate : ℚ)
        ≤ (2 : ℚ) ^ 40 * (2 : ℚ) ^ 40 :=
          mul_le_mul hs1 (by norm_num; linarith) (le_of_lt hsrq) (by norm_num)
      _ = (2 : ℚ) ^ 80 := by norm_num
  have hp1 := rnd_abs_le_two_pow _ 80 hprod_abs
  have hprodN := isNumber_mul hsumN hsrN (lt_of_le_of_lt hp1 hbig80)
  -- the division by the window size
  have hwq2 : (wSize : ℚ) < 4294967296 := by exact_mod_cast hw2
  have hwE : rnd ((wSize : Nat) : ℚ) = (wSize : ℚ) := rnd_natCast _ (by omega)
  have hwN : F64.IsNumber (F64.ofRat (wSize : ℚ)) (wSize : ℚ) := by
    have := isNumber_ofRat (wSize : ℚ) (by
      rw [hwE, abs_of_pos (by linarith)]
      exact lt_trans (lt_trans hwq2 (by norm_num)) hbig40)
    rw [hwE] at this
    exact this
  have hquot_abs : |rnd (rnd ((bin : ℚ) + d) * (fh.m_samplerate : ℚ)) / (wSize : ℚ)| ≤
      (2 : ℚ) ^ 80 := by
    rw [abs_div, abs_of_pos (show (0 : ℚ) < (wSize : ℚ) by linarith)]
    exact le_trans (div_le_self (abs_nonneg _) hwq) hp1
  have hq1 := rnd_abs_le_two_pow _ 80 hquot_abs
  have hresN := isNumber_div hprodN hwN (ne_of_gt (show (0 : ℚ) < (wSize : ℚ) by linarith))
    (lt_of_le_of_lt hq1 hbig80)
  have hwpos : (0 : ℚ) ≤ (wSize : ℚ) := by linarith
  refine ⟨hcpb, hd, hresN, ?_, ?_, ?_⟩
  · apply rnd_mono
    apply div_le_div_of_nonneg_right _ hwpos
    apply rnd_mono
    exact mul_le_mul_of_nonneg_right hlo (le_of_lt hsrq)
  · apply rnd_mono
    apply div_le_div_of_nonneg_right _ hwpos
    apply rnd_mono
    exact mul_le_mul_of_nonneg_right hhi (le_of_lt hsrq)
  · intro heq
    have hd0 : d = 0 := by
      rw [← hdq, heq, sub_self, zero_div, rnd_zero]
    rw [hd0, add_zero, hbinE]

/-- Witness for `TranslateIndexToPitch_spec`: bin 10 with the values 1, 4, 2 around the
peak, rate 44100, window 4096; `d` is the `double` nearest to `1 / 10` and the result is
`222705 / 2048`. -/
theorem TranslateIndexToPitch_spec_witness :
    TranslateIndexToPitch ⟨0, 1, 44100⟩ 10 (F64.fin false 1) (F64.fin false 4)
      (F64.fin false 2) 4096 = F64.fin false (222705 / 2048) ∧
    F64.IsNumber (centerPeakBin (F64.fin false 1) (F64.fin false 4) (F64.fin false 2))
      (rnd (((2 : ℚ) - 1) / (2 * (2 * 4 - 1 - 2)))) ∧
    |rnd (((2 : ℚ) - 1) / (2 * (2 * 4 - 1 - 2)))| ≤ 1 / 2 ∧
    F64.IsNumber (TranslateIndexToPitch ⟨0, 1, 44100⟩ 10 (F64.fin false 1) (F64.fin false 4)
        (F64.fin false 2) 4096)
      (rnd (rnd (rnd (((10 : Int) : ℚ) + rnd (((2 : ℚ) - 1) / (2 * (2 * 4 - 1 - 2)))) *
        ((FileHandling.mk 0 1 44100).m_samplerate : ℚ)) / ((4096 : Nat) : ℚ))) ∧
    rnd (rnd ((((10 : Int) : ℚ) - 1 / 2) * ((FileHandling.mk 0 1 44100).m_samplerate : ℚ)) /
        ((4096 : Nat) : ℚ)) ≤
      rnd (rnd (rnd (((10 : Int) : ℚ) + rnd (((2 : ℚ) - 1) / (2 * (2 * 4 - 1 - 2)))) *
        ((FileHandling.mk 0 1 44100).m_samplerate : ℚ)) / ((4096 : Nat) : ℚ)) ∧
    rnd (rnd (rnd (((10 : Int) : ℚ) + rnd (((2 : ℚ) - 1) / (2 * (2 * 4 - 1 - 2)))) *
        ((FileHandling.mk 0 1 44100).m_samplerate : ℚ)) / ((4096 : Nat) : ℚ)) ≤
      rnd (rnd ((((10 : Int) : ℚ) + 1 / 2) * ((FileHandling.mk 0 1 44100).m_samplerate : ℚ)) /
        ((4096 : Nat) : ℚ)) ∧
    ((1 : ℚ) = 2 →
      rnd (rnd (rnd (((10 : Int) : ℚ) + rnd (((2 : ℚ) - 1) / (2 * (2 * 4 - 1 - 2)))) *
        ((FileHandling.mk 0 1 44100).m_samplerate : ℚ)) / ((4096 : Nat) : ℚ)) =
      rnd (rnd (((10 : Int) : ℚ) * ((FileHandling.mk 0 1 44100).m_samplerate : ℚ)) /
        ((4096 : Nat) : ℚ))) :=
  ⟨by decide!,
    TranslateIndexToPitch_spec ⟨0, 1, 44100⟩ 10 (F64.fin false 1) (F64.fin false 4)
      (F64.fin false 2) 1 4 2 4096 ⟨false, 1, rfl, rfl⟩ ⟨false, 4, rfl, rfl⟩
      ⟨false, 2, rfl, rfl⟩
      (le_trans (by norm_num : |(1 : ℚ)| ≤ 2 ^ 2) (pow_le_pow_right₀ (by norm_num) (by norm_num)))
      (le_trans (by norm_num : |(4 : ℚ)| ≤ 2 ^ 2) (pow_le_pow_right₀ (by norm_num) (by norm_num)))
      (le_trans (by norm_num : |(2 : ℚ)| ≤ 2 ^ 2) (pow_le_pow_right₀ (by norm_num) (by norm_num)))
      (by norm_num) (by norm_num) (by norm_num) (by decide!) (by decide!) (by decide!)
      (by decide!) (by decide) (by decide) (by decide) (by decide) (by decide) (by decide)⟩

/-- C33 at counterexamples, all with `center` not below `left` and `right` and the three
values not all equal. With `center = right = 1` and `left` the `double` next below 1, the
denominator is rounded to zero: `d` is infinite, and so is the result. With the values
`0x1.c8139b0c9903ep-3`, `0x1.fb5355e16737ap-2`, `0x1.fb5355e16737ap-2` the `double` `d` is
`1/2 + 2 ^ -53`, above `1/2`. With the values 0, 1 and `2 ^ -60` at bin 100, `left` and
`right` differ and `d` is `2 ^ -62`, but the sum `100 + d` is rounded to 100 and the result
is the `double` value of `bin * sampleRate / windowSize`. -/
theorem centerPeakBin_not_bounded :
    rnd ((1 : ℚ) - 1 / 2 ^ 53) = 1 - 1 / 2 ^ 53 ∧
    centerPeakBin (F64.fin false (1 - 1 / 2 ^ 53)) (F64.fin false 1) (F64.fin false 1) =
      F64.inf false ∧
    TranslateIndexToPitch ⟨0, 1, 44100⟩ 10 (F64.fin false (1 - 1 / 2 ^ 53)) (F64.fin false 1)
      (F64.fin false 1) 4096 = F64.inf false ∧
    rnd ((8023384127017022 : ℚ) / 2 ^ 55) = 8023384127017022 / 2 ^ 55 ∧
    rnd ((8924965094454138 : ℚ) / 2 ^ 54) = 8924965094454138 / 2 ^ 54 ∧
    (8023384127017022 : ℚ) / 2 ^ 55 ≤ 8924965094454138 / 2 ^ 54 ∧
    centerPeakBin (F64.fin false (8023384127017022 / 2 ^ 55))
      (F64.fin false (8924965094454138 / 2 ^ 54))
      (F64.fin false (8924965094454138 / 2 ^ 54)) =
      F64.fin false (1 / 2 + 1 / 2 ^ 53) ∧
    centerPeakBin (F64.fin false 0) (F64.fin false 1) (F64.fin false (1 / 2 ^ 60)) =
      F64.fin false (1 / 2 ^ 62) ∧
    TranslateIndexToPitch ⟨0, 1, 44100⟩ 100 (F64.fin false 0) (F64.fin false 1)
      (F64.fin false (1 / 2 ^ 60)) 4096 =
      F64.div (F64.mul (F64.ofRat 100) (F64.ofRat 44100)) (F64.ofRat 4096) := by
  refine ⟨by decide!, by decide!, by decide!, by decide!, by decide!, by decide!, by decide!,
    by decide!, by decide!⟩

/-- C34 at two failing inputs, both a mono buffer of 10 samples holding 100, 101, ..., 109
in the `double` array. With the highest loop end at frame 4 and cues at the frames 6 and 9,
the count `samplesToRemove = (6 - 1) - (4 + 3)` wraps below zero: the buffer grows to 12
samples (the frames 5 and 6 appear twice) and the cues move later, to 8 and 11. With the
highest loop end at frame 8 and no cue, the head of `(8 + 3)` frames is copied: the
buffer grows to 11 samples, and the last of them is read from index 10, behind the old
buffer (where the model holds 110). -/
theorem trim_excess_grows :
    (TrimExcessData ⟨fun _ => 0, fun _ => 0, fun _ => 0, fun _ => 0, fun _ => 0, fun _ => 0⟩
      ⟨10, 1, 1000, SF_FORMAT_DOUBLE, fun i => (i : ℚ) + 100, fun _ => 0, fun _ => 0,
        [⟨1, 4⟩], [⟨6⟩, ⟨9⟩]⟩).map
      (fun s => (s.ArrayLength, s.m_cues.map (fun q => q.dwSampleOffset),
        (List.range 12).map s.doubleAudioData)) =
      some (12, [8, 11], [100, 101, 102, 103, 104, 105, 106, 105, 106, 107, 108, 109]) ∧
    (TrimExcessData ⟨fun _ => 0, fun _ => 0, fun _ => 0, fun _ => 0, fun _ => 0, fun _ => 0⟩
      ⟨10, 1, 1000, SF_FORMAT_DOUBLE, fun i => (i : ℚ) + 100, fun _ => 0, fun _ => 0,
        [⟨1, 8⟩], []⟩).map
      (fun s => (s.ArrayLength, s.m_cues.map (fun q => q.dwSampleOffset),
        (List.range 11).map s.doubleAudioData)) =
      some (11, [], [100, 101, 102, 103, 104, 105, 106, 107, 108, 109, 110]) := by
  decide!

/-- C35 at three failing inputs: pairs of buffers that agree on every index below
`arrayLength` and on which `AutoFindLoops` behaves differently, so that it reads outside the
buffer. Auto-sustain mode, 60 samples: the backward scan starts with `i = arrayLength` and
reads `data[60]`; the search range ends at 56 or at 58. Percentage mode from 0 to 100, 24
samples: for the start candidate 0 the window starts at `0 - 2`, which wraps; the loop
found is `(0, 3)` or `(2, 5)`. Percentage mode from 10 to 100, 24 samples: the window of
the end candidate 22 is `data[20 .. 24]`; the loop `(2, 21)` is found or none. -/
theorem reads_outside_buffer :
    (∀ i, i < 60 →
      (fun i => if i < 59 then 1 else if i = 59 then 1 / 2 else (0 : ℚ)) i =
        (fun i => if i < 59 then 1 else if i = 59 then 1 / 2 else (5 : ℚ)) i) ∧
    searchRange (fun i => if i < 59 then 1 else if i = 59 then 1 / 2 else 0) 60 1 40 1
      ⟨0, 0, 0, 0⟩ true 0 0 = some (some (14, 56)) ∧
    searchRange (fun i => if i < 59 then 1 else if i = 59 then 1 / 2 else 5) 60 1 40 1
      ⟨0, 0, 0, 0⟩ true 0 0 = some (some (14, 58)) ∧
    (∀ i, i < 24 → (fun i => if i % 4 < 2 then (0 : ℚ) else 1) i =
      (fun i => if i < 24 then (if i % 4 < 2 then (0 : ℚ) else 1) else 0) i) ∧
    AutoFindLoops ⟨1/2, 1, 0, 1000, 100, 1, 1⟩ (fun x => x) ⟨0, 0, 0, 0⟩
      (fun i => if i % 4 < 2 then 0 else 1) 24 1 4 [] false 0 100 =
      some (true, [((0, 3), 0)]) ∧
    AutoFindLoops ⟨1/2, 1, 0, 1000, 100, 1, 1⟩ (fun x => x) ⟨0, 0, 0, 0⟩
      (fun i => if i < 24 then (if i % 4 < 2 then 0 else 1) else 0) 24 1 4 [] false 0 100 =
      some (true, [((2, 5), 0)]) ∧
    (∀ i, i < 24 →
      (fun i => if i < 24 then (if 5 ≤ i ∧ i < 18 ∧ i % 2 = 1 then (5 : ℚ) else 0) else 0) i =
        (fun i => if i < 24 then (if 5 ≤ i ∧ i < 18 ∧ i % 2 = 1 then (5 : ℚ) else 0)
          else 9) i) ∧
    AutoFindLoops ⟨1/2, 5, 0, 1000, 100, 1, 1⟩ (fun x => x) ⟨0, 0, 0, 0⟩
      (fun i => if i < 24 then (if 5 ≤ i ∧ i < 18 ∧ i % 2 = 1 then 5 else 0) else 0)
      24 1 4 [] false 10 100 = some (true, [((2, 21), 0)]) ∧
    AutoFindLoops ⟨1/2, 5, 0, 1000, 100, 1, 1⟩ (fun x => x) ⟨0, 0, 0, 0⟩
      (fun i => if i < 24 then (if 5 ≤ i ∧ i < 18 ∧ i % 2 = 1 then 5 else 0) else 9)
      24 1 4 [] false 10 100 = some (false, []) := by
  refine ⟨by decide!, by decide!, by decide!, by decide!, by decide!, by decide!, by decide!,
    by decide!, by decide!⟩

/-! ## The reduced candidate list and trimming twice -/

theorem stride_inside (i S C : Nat) (hi : i < C) (hSC : C < S) : i * S / C < S - 1 := by
  have hC : 0 < C := by omega
  rw [Nat.div_lt_iff_lt_mul hC]
  have h1 : i * S ≤ (C - 1) * S := Nat.mul_le_mul_right S (by omega)
  have h2 : (C - 1) * S + S = C * S := by
    rw [← Nat.succ_mul]
    congr 1
    omega
  have h3 : (S - 1) * C + C = S * C := by
    rw [← Nat.succ_mul]
    congr 1
    omega
  have h4 : C * S = S * C := Nat.mul_comm C S
  omega

theorem stride_increasing (i S C : Nat) (hC : 0 < C) (hSC : C < S) :
    i * S / C < (i + 1) * S / C := by
  have h1 : i * S / C + 1 = (i * S + C) / C := (Nat.add_div_right (i * S) hC).symm
  have h2 : (i * S + C) / C ≤ (i + 1) * S / C := by
    apply Nat.div_le_div_right
    rw [Nat.add_mul, Nat.one_mul]
    omega
  omega

/-- The index `indexToUse` is the exact quotient `i * S / C` rounded down, or one less than
it when `C` divides `i * S`; for `1 ≤ C` and `i * S < 2 ^ 51`. -/
theorem indexToUse_count (S C i : Nat) (hC1 : 1 ≤ C) (hC : C < 2147483648)
    (hv : i * S < 2 ^ 51) :
    (indexToUse S (C : Int) i).toNat = i * S / C ∨
      (C ∣ i * S ∧ (indexToUse S (C : Int) i).toNat + 1 = i * S / C) := by
  obtain ⟨h1, h2, h3⟩ := scaled_count S i C hC1 (by omega) (by rw [Nat.mul_comm]; exact hv)
  have e : indexToUse S (C : Int) i = ⌊rnd (rnd ((S : ℚ) / (C : ℚ)) * (i : ℚ))⌋ := by
    unfold indexToUse
    rw [mul_comm, Int.cast_natCast]
  rw [e, Nat.mul_comm i S]
  by_cases hd : C ∣ S * i
  · rcases Nat.lt_or_ge (⌊rnd (rnd ((S : ℚ) / (C : ℚ)) * (i : ℚ))⌋).toNat (S * i / C) with
      hlt | hge
    · exact Or.inr ⟨hd, by omega⟩
    · exact Or.inl (by omega)
  · exact Or.inl (h3 hd)

/-- C32 (amended). When the list of flat candidates has more than `C >= 1` entries, and
`C * S < 2 ^ 51` for its size `S`, the reduced list of `AutoFindLoops` has exactly `C`
entries, entry `i` being `flat[indexToUse i]` for the index that the code computes in
`double`s: it is `floor(i * S / C)`, or one less than that, which happens only when `C`
divides `i * S`. These indices are strictly increasing, begin with 0 and stay below `S - 1`.
When `S <= C` the reduced list is the flat list. -/
theorem reduceCandidates_even (C : Nat) (flat : List Nat) (hC1 : 1 ≤ C)
    (hC : C < 2147483648) :
    (C < flat.length → C * flat.length < 2 ^ 51 →
      reduceCandidates (C : Int) flat =
        some ((List.range C).map fun i =>
          flat.getD (indexToUse flat.length (C : Int) i).toNat 0) ∧
      ((List.range C).map fun i =>
        flat.getD (indexToUse flat.length (C : Int) i).toNat 0).length = C ∧
      ((List.range C).map fun i =>
        flat.getD (indexToUse flat.length (C : Int) i).toNat 0).getD 0 0 = flat.getD 0 0 ∧
      (∀ i, i < C →
        (indexToUse flat.length (C : Int) i).toNat = i * flat.length / C ∨
        (C ∣ i * flat.length ∧
          (indexToUse flat.length (C : Int) i).toNat + 1 = i * flat.length / C)) ∧
      (∀ i, i + 1 < C → (indexToUse flat.length (C : Int) i).toNat <
        (indexToUse flat.length (C : Int) (i + 1)).toNat) ∧
      ∀ i, i < C → (indexToUse flat.length (C : Int) i).toNat < flat.length - 1) ∧
    (flat.length ≤ C → reduceCandidates (C : Int) flat = some flat) := by
  have hsize : toSizeT (C : Int) = C := by
    have h := toSizeT_eq (Int.natCast_nonneg C) (by exact_mod_cast hC)
    exact_mod_cast h
  constructor
  · intro hSC hCS
    have hv : ∀ i, i < C → i * flat.length < 2 ^ 51 := by
      intro i hi
      exact lt_of_le_of_lt (Nat.mul_le_mul_right _ (le_of_lt hi)) hCS
    have hcount : ∀ i, i < C →
        (indexToUse flat.length (C : Int) i).toNat = i * flat.length / C ∨
        (C ∣ i * flat.length ∧
          (indexToUse flat.length (C : Int) i).toNat + 1 = i * flat.length / C) :=
      fun i hi => indexToUse_count flat.length C i hC1 hC (hv i hi)
    have hinside : ∀ i, i < C →
        (indexToUse flat.length (C : Int) i).toNat < flat.length - 1 := by
      intro i hi
      have h1 := stride_inside i flat.length C hi hSC
      rcases hcount i hi with h | ⟨_, h⟩ <;> omega
    have hnonneg : ∀ i, 0 ≤ indexToUse flat.length (C : Int) i := fun i =>
      (indexToUse_step flat.length (C : Int) (by exact_mod_cast hC1)
        (by exact_mod_cast hSC) i).1
    refine ⟨?_, ?_, ?_, hcount, ?_, hinside⟩
    · unfold reduceCandidates
      rw [hsize, if_pos hSC]
      have hround : ∀ t, t < C →
          decide ((t : Int) < (C : Int)) = true ∧
          (fun i (loopCandidates : List Nat) =>
            if indexToUse flat.length (C : Int) i < (flat.length : Int) - 1 then
              some (Step.next (loopCandidates ++ [flat.getD
                (indexToUse flat.length (C : Int) i).toNat 0]))
            else some (Step.next loopCandidates)) t
            ((List.range t).map fun i =>
              flat.getD (indexToUse flat.length (C : Int) i).toNat 0) =
            some (Step.next ((List.range (t + 1)).map
              fun i => flat.getD (indexToUse flat.length (C : Int) i).toNat 0)) ∧
          t + 1 = t + 1 := by
        intro t ht
        refine ⟨decide_eq_true (by exact_mod_cast ht), ?_, rfl⟩
        have hin := hinside t ht
        have hnn := hnonneg t
        show (if indexToUse flat.length (C : Int) t < (flat.length : Int) - 1 then _
          else _) = _
        rw [if_pos (by omega), List.range_succ, List.map_append]
        rfl
      have key : forLoop (fun i => decide ((i : Int) < (C : Int))) (fun i => i + 1)
          (fun i (loopCandidates : List Nat) =>
            if indexToUse flat.length (C : Int) i < (flat.length : Int) - 1 then
              some (Step.next (loopCandidates ++ [flat.getD
                (indexToUse flat.length (C : Int) i).toNat 0]))
            else some (Step.next loopCandidates))
          U32 0 ((List.range 0).map fun i =>
            flat.getD (indexToUse flat.length (C : Int) i).toNat 0) =
          some ((List.range C).map fun i =>
            flat.getD (indexToUse flat.length (C : Int) i).toNat 0) :=
        forLoop_iter _ _ _ (fun t => t)
          (fun t => (List.range t).map fun i =>
            flat.getD (indexToUse flat.length (C : Int) i).toNat 0) C hround
          (decide_eq_false (by exact_mod_cast (Nat.lt_irrefl C))) U32 0 (Nat.zero_le _)
          (by unfold U32; omega)
      exact key
    · rw [List.length_map, List.length_range]
    · have h0 : (indexToUse flat.length (C : Int) 0).toNat = 0 := by
        rcases hcount 0 (by omega) with h | ⟨_, h⟩
        · rw [h]; simp
        · simp at h
      obtain ⟨c, rfl⟩ : ∃ c, C = c + 1 := ⟨C - 1, by omega⟩
      rw [List.range_succ_eq_map]
      simp only [List.map_cons, List.getD_cons_zero]
      rw [h0]
    · intro i hi
      have hinc := stride_increasing i flat.length C hC1 hSC
      rcases hcount (i + 1) hi with h1 | ⟨hd, h1⟩
      · rcases hcount i (by omega) with h0 | ⟨_, h0⟩ <;> omega
      · obtain ⟨b, hb⟩ := hd
        have hbq : (i + 1) * flat.length / C = b := by
          rw [hb]
          exact Nat.mul_div_cancel_left b hC1
        have hlt : i * flat.length / C < b - 1 := by
          rw [Nat.div_lt_iff_lt_mul hC1]
          have e1 : (i + 1) * flat.length = i * flat.length + flat.length := by ring
          have hb1 : 1 ≤ b := by
            rcases Nat.eq_zero_or_pos b with h0 | h0
            · rw [h0, Nat.mul_zero] at hb
              rw [e1] at hb
              omega
            · exact h0
          have e2 : (b - 1) * C + C = C * b := by
            rw [← Nat.succ_mul, Nat.mul_comm]
            congr 1
            omega
          omega
        rcases hcount i (by omega) with h0 | ⟨_, h0⟩ <;> omega
  · intro hle
    unfold reduceCandidates
    rw [hsize, if_neg (by omega)]

/-- Witness for `reduceCandidates_even`: seven flat candidates and the cap 3; the reduced
list holds the entries 0, 2 and 4. -/
theorem reduceCandidates_even_witness :
    3 < [10, 11, 12, 13, 14, 15, 16].length ∧
    reduceCandidates ((3 : Nat) : Int) [10, 11, 12, 13, 14, 15, 16] =
      some ((List.range 3).map fun i =>
        [10, 11, 12, 13, 14, 15, 16].getD
          (indexToUse [10, 11, 12, 13, 14, 15, 16].length ((3 : Nat) : Int) i).toNat 0) ∧
    ((List.range 3).map fun i =>
      [10, 11, 12, 13, 14, 15, 16].getD
        (indexToUse [10, 11, 12, 13, 14, 15, 16].length ((3 : Nat) : Int) i).toNat 0) =
      [10, 12, 14] :=
  ⟨by decide,
    ((reduceCandidates_even 3 [10, 11, 12, 13, 14, 15, 16] (by decide) (by decide)).1
      (by decide) (by decide)).1, by decide!⟩

/-- C32 at a counterexample: 30 flat candidates `0, 1, .., 29` and the cap 22. Entry 11 of
the reduced list is `flat[14]`, where `floor(11 * 30 / 22) = 15`: the product of 11 and the
`double` nearest to `30 / 22` lies below 15. -/
theorem reduceCandidates_not_floor :
    reduceCandidates 22 (List.range 30) =
      some [0, 1, 2, 4, 5, 6, 8, 9, 10, 12, 13, 14, 16, 17, 19, 20, 21, 23, 24, 25, 27, 28] ∧
    (reduceCandidates 22 (List.range 30)).map (fun l => l.getD 11 0) = some 14 ∧
    (List.range 30).getD (11 * 30 / 22) 0 = 15 ∧
    indexToUse 30 22 11 = 14 := by
  refine ⟨by decide!, by decide!, by decide!, by decide!⟩

theorem SampleEq_refl (st st' : FileHandlingMembers) (i : Nat)
    (h : st'.doubleAudioData i = st.doubleAudioData i ∧
      st'.shortAudioData i = st.shortAudioData i ∧ st'.intAudioData i = st.intAudioData i) :
    SampleEq st st' i i := by
  unfold SampleEq
  split
  · exact h.1
  · split
    · exact h.2.1
    · exact h.2.2

theorem mem_GetCuePoint (cues : List CUEPOINT) (q : CUEPOINT) (h : q ∈ cues) :
    ∃ k, k < cues.length ∧ GetCuePoint cues k = q := by
  obtain ⟨k, hk, hq⟩ := List.mem_iff_getElem.mp h
  exact ⟨k, hk, by unfold GetCuePoint; rw [List.getD_eq_getElem cues _ hk]; exact hq⟩

theorem GetCuePoint_mem (cues : List CUEPOINT) (k : Nat) (hk : k < cues.length) :
    GetCuePoint cues k ∈ cues := by
  unfold GetCuePoint
  rw [List.getD_eq_getElem cues _ hk]
  exact List.getElem_mem hk

theorem cues_ext (a b : List CUEPOINT) (hlen : a.length = b.length)
    (h : ∀ k, k < b.length →
      (GetCuePoint a k).dwSampleOffset = (GetCuePoint b k).dwSampleOffset) : a = b := by
  apply List.ext_getElem hlen
  intro k h1 h2
  have hk := h k h2
  unfold GetCuePoint at hk
  rw [List.getD_eq_getElem a _ h1, List.getD_eq_getElem b _ h2] at hk
  cases ha : a[k] with
  | mk x =>
    cases hb : b[k] with
    | mk y =>
      rw [ha, hb] at hk
      exact congrArg CUEPOINT.mk hk

theorem moved_cue (q c E : Nat) (hc : E < c) (hqc : c ≤ q) (hq : q + 4 < U32) :
    usub q (usub (usub c 1) (uadd E 3)) = q - c + (E + 4) := by
  unfold usub uadd U32 at *
  omega

theorem firstCuePosAfter_facts (m_cues : List CUEPOINT) (E c : Nat)
    (hlen : m_cues.length < U32) (h : firstCuePosAfter m_cues E = some c) :
    (c = 0 → ∀ q, q ∈ m_cues → q.dwSampleOffset ≤ E) ∧ (c ≠ 0 → E < c) ∧
      (∀ q, q ∈ m_cues → c ≠ 0 → E < q.dwSampleOffset → c ≤ q.dwSampleOffset) ∧
      ∃ q0 : CUEPOINT, c ≠ 0 → q0 ∈ m_cues ∧ q0.dwSampleOffset = c := by
  obtain ⟨c', hc', hzero, hne⟩ := firstCuePosAfter_spec m_cues E hlen
  have hcc : c' = c := Option.some.inj (hc'.symm.trans h)
  subst hcc
  refine ⟨hzero, fun hc => (hne hc).1, fun q hq hc hgt => (hne hc).2.2 q hq hgt, ?_⟩
  by_cases hc : c' = 0
  · exact ⟨⟨0⟩, fun h => absurd hc h⟩
  · obtain ⟨_, ⟨q, h1, h2⟩, _⟩ := hne hc
    exact ⟨q, fun _ => ⟨h1, h2⟩⟩

theorem lastEndSample_facts (m_loops : List LOOPDATA) (E : Nat) (hlen : m_loops.length < U32)
    (h : lastEndSample m_loops = some E) (hE : E ≠ 0) :
    ∃ l, l ∈ m_loops ∧ l.dwEnd = E := by
  obtain ⟨E', hE', _, hex⟩ := lastEndSample_spec m_loops hlen
  have hEE : E' = E := Option.some.inj (hE'.symm.trans h)
  subst hEE
  rcases hex with h0 | hex
  · exact absurd h0 hE
  · exact hex

/-- C36. In a state whose loops all end at least 3 frames before the end of the buffer and
whose cues all lie inside the buffer, a second `TrimExcessData` changes nothing: it returns
the `ArrayLength`, the cues, the loops and the samples that the first call produced. -/
theorem TrimExcessData_twice (fresh fresh2 : Fresh) (st : FileHandlingMembers)
    (hch : 1 ≤ st.m_channels) (hfit : 2 * st.ArrayLength + 3 * st.m_channels < U32)
    (hloops : st.m_loops.length < U32) (hcues : st.m_cues.length < U32)
    (hE : ∀ l, l ∈ st.m_loops → (l.dwEnd + 3) * st.m_channels ≤ st.ArrayLength)
    (hq : ∀ q, q ∈ st.m_cues → (q.dwSampleOffset - 1) * st.m_channels ≤ st.ArrayLength) :
    ∃ st1 st2, TrimExcessData fresh st = some st1 ∧ TrimExcessData fresh2 st1 = some st2 ∧
      st2.ArrayLength = st1.ArrayLength ∧ st2.m_cues = st1.m_cues ∧
      st2.m_loops = st1.m_loops ∧ ∀ i, i < st1.ArrayLength → SampleEq st1 st2 i i := by
  have hAL : st.ArrayLength < U32 := by omega
  have hE' : ∀ l, l ∈ st.m_loops → (l.dwEnd + 3) * st.m_channels + st.ArrayLength < U32 :=
    fun l hl => by have := hE l hl; omega
  obtain ⟨E, c, st1, hlast, hfirst, hrun1, hE0, hEne⟩ :=
    TrimExcessData_run fresh st hch hAL hloops hcues hE' hq
  by_cases hz : E = 0
  · have h1 := hE0 hz
    subst h1
    obtain ⟨E', c', st2, hlast', _, hrun2, hE0', _⟩ :=
      TrimExcessData_run fresh2 st1 hch hAL hloops hcues hE' hq
    have hEE : E' = E := Option.some.inj (hlast'.symm.trans hlast)
    have h2 := hE0' (by rw [hEE]; exact hz)
    subst h2
    exact ⟨st2, st2, hrun1, hrun2, rfl, rfl, rfl,
      fun i _ => SampleEq_refl st2 st2 i ⟨rfl, rfl, rfl⟩⟩
  · obtain ⟨hL1, hch1, hloops1, hclen1, hc0, hcne, hhead1, htail1⟩ := hEne hz
    clear hEne hE0 hhead1 htail1
    have hEL : (E + 3) * st.m_channels ≤ st.ArrayLength := by
      obtain ⟨l, hl, hle⟩ := lastEndSample_facts st.m_loops E hloops hlast hz
      rw [← hle]; exact hE l hl
    obtain ⟨hzero, hEc, hmin, q0, hq0⟩ := firstCuePosAfter_facts st.m_cues E c hcues hfirst
    have hEmul : (E + 3) * st.m_channels = E * st.m_channels + 3 * st.m_channels :=
      Nat.add_mul _ _ _
    have hH : (E + 3) * st.m_channels < U32 := by omega
    have hT : c ≠ 0 → (c - 1) * st.m_channels ≤ st.ArrayLength := by
      intro hc
      rw [← (hq0 hc).2]; exact hq q0 (hq0 hc).1
    have hLen1 := excessLength_eq st E c hch hAL hH hT
    rw [hLen1] at hL1
    have hcE : c ≠ 0 → E * st.m_channels ≤ (c - 1) * st.m_channels := by
      intro hc
      have := hEc hc
      exact Nat.mul_le_mul_right _ (by omega)
    have hL1c : c ≠ 0 → st1.ArrayLength =
        (E + 3) * st.m_channels + (st.ArrayLength - (c - 1) * st.m_channels) :=
      fun hc => by rw [hL1, if_pos hc]
    have hL1z : c = 0 → st1.ArrayLength = (E + 3) * st.m_channels :=
      fun hc => by rw [hL1, if_neg (not_not.mpr hc)]
    clear hL1 hLen1
    have hN1ge : (E + 3) * st.m_channels ≤ st1.ArrayLength := by
      by_cases hc : c = 0
      · rw [hL1z hc]
      · rw [hL1c hc]; exact Nat.le_add_right _ _
    have hN1le : st1.ArrayLength ≤ st.ArrayLength + 3 * st.m_channels := by
      by_cases hc : c = 0
      · rw [hL1z hc]; omega
      · rw [hL1c hc]
        have h1 := hcE hc
        have h2 := hT hc
        omega
    have hchpos : 4 ≤ st.ArrayLength := by
      have h0 : 1 ≤ E := Nat.pos_of_ne_zero hz
      have h1 : 1 * st.m_channels ≤ E * st.m_channels := Nat.mul_le_mul_right _ h0
      omega
    have hqoff : ∀ q, q ∈ st.m_cues → q.dwSampleOffset ≤ st.ArrayLength + 1 := by
      intro q hqm
      have h1 := hq q hqm
      have h2 : (q.dwSampleOffset - 1) * 1 ≤ (q.dwSampleOffset - 1) * st.m_channels :=
        Nat.mul_le_mul_left _ hch
      omega
    -- the cues of the state after the first call
    have hoff1 : ∀ k, k < st.m_cues.length →
        (GetCuePoint st1.m_cues k).dwSampleOffset =
          if (GetCuePoint st.m_cues k).dwSampleOffset > E then
            (GetCuePoint st.m_cues k).dwSampleOffset - c + (E + 4)
          else (GetCuePoint st.m_cues k).dwSampleOffset := by
      intro k hk
      have hm := GetCuePoint_mem st.m_cues k hk
      by_cases hc : c = 0
      · rw [hc0 hc]
        have hall' := hzero hc _ hm
        rw [if_neg (Nat.not_lt.mpr hall')]
      · rw [hcne hc k hk]
        by_cases hgt : (GetCuePoint st.m_cues k).dwSampleOffset > E
        · rw [if_pos hgt, if_pos hgt]
          have h4 := hqoff _ hm
          exact moved_cue _ c E (hEc hc) (hmin _ hm hc hgt) (by omega)
        · rw [if_neg hgt, if_neg hgt]
    have hq1 : ∀ q, q ∈ st1.m_cues →
        (q.dwSampleOffset - 1) * st1.m_channels ≤ st1.ArrayLength := by
      intro q hqm
      obtain ⟨k, hk, hqk⟩ := mem_GetCuePoint st1.m_cues q hqm
      rw [hclen1] at hk
      rw [← hqk, hoff1 k hk, hch1]
      have hm := GetCuePoint_mem st.m_cues k hk
      by_cases hgt : (GetCuePoint st.m_cues k).dwSampleOffset > E
      · rw [if_pos hgt]
        have hc : c ≠ 0 := by
          intro hc
          have := hzero hc _ hm
          omega
        have hcq := hmin _ hm hc hgt
        have hEc' := hEc hc
        have hsplit : (GetCuePoint st.m_cues k).dwSampleOffset - c + (E + 4) - 1 =
            ((GetCuePoint st.m_cues k).dwSampleOffset - 1 - (c - 1)) + (E + 3) := by omega
        rw [hsplit, Nat.add_mul, Nat.sub_mul, hL1c hc]
        have h1 := hq _ hm
        have h2 : (c - 1) * st.m_channels ≤
            ((GetCuePoint st.m_cues k).dwSampleOffset - 1) * st.m_channels :=
          Nat.mul_le_mul_right _ (by omega)
        omega
      · rw [if_neg hgt]
        have h2 : ((GetCuePoint st.m_cues k).dwSampleOffset - 1) * st.m_channels ≤
            E * st.m_channels := Nat.mul_le_mul_right _ (by omega)
        omega
    have hE1 : ∀ l, l ∈ st1.m_loops →
        (l.dwEnd + 3) * st1.m_channels + st1.ArrayLength < U32 := by
      intro l hl
      rw [hloops1] at hl
      rw [hch1]
      have := hE l hl
      omega
    obtain ⟨E2, c2, st2, hlast2, hfirst2, hrun2, hE02, hEne2⟩ :=
      TrimExcessData_run fresh2 st1 (by rw [hch1]; exact hch) (by omega)
        (by rw [hloops1]; exact hloops) (by rw [hclen1]; exact hcues) hE1 hq1
    have hE2 : E2 = E := by
      rw [hloops1] at hlast2
      exact Option.some.inj (hlast2.symm.trans hlast)
    subst hE2
    obtain ⟨hL2, _, hloops2, hclen2, hc02, hcne2, hhead2, htail2⟩ := hEne2 hz
    clear hEne2 hE02
    obtain ⟨hzero2, hEc2, hmin2, q1, hq1c⟩ :=
      firstCuePosAfter_facts st1.m_cues E2 c2 (by rw [hclen1]; exact hcues) hfirst2
    have hH1 : (E2 + 3) * st1.m_channels < U32 := by rw [hch1]; exact hH
    by_cases hc : c = 0
    · -- no cue behind the last loop end
      have hcues1 := hc0 hc
      have hc2 : c2 = 0 := by
        rw [hcues1] at hfirst2
        have := Option.some.inj (hfirst2.symm.trans hfirst)
        rw [this]; exact hc
      have hLen2 := excessLength_eq st1 E2 c2 (by rw [hch1]; exact hch) (by omega) hH1
        (fun h => absurd hc2 h)
      have hLL : st2.ArrayLength = st1.ArrayLength := by
        rw [hL2, hLen2, if_neg (not_not.mpr hc2), hch1, hL1z hc]
      refine ⟨st1, st2, hrun1, hrun2, hLL, hc02 hc2, hloops2, ?_⟩
      intro i hi
      exact hhead2 i (by rw [← hL2, hLL]; exact hi)
        (by rw [hch1, ← hL1z hc]; exact hi)
    · -- the first cue behind the last loop end is now at frame `E + 4`
      obtain ⟨hq0m, hq0c⟩ := hq0 hc
      have hEcc := hEc hc
      obtain ⟨k0, hk0, hk0q⟩ := mem_GetCuePoint st.m_cues q0 hq0m
      have hoffk0 : (GetCuePoint st1.m_cues k0).dwSampleOffset = E2 + 4 := by
        rw [hoff1 k0 hk0, hk0q, hq0c, if_pos hEcc]
        omega
      have hk0mem := GetCuePoint_mem st1.m_cues k0 (by rw [hclen1]; exact hk0)
      have hc2ne : c2 ≠ 0 := by
        intro h0
        have := hzero2 h0 _ hk0mem
        omega
      have hc2le : c2 ≤ E2 + 4 := by
        have := hmin2 _ hk0mem hc2ne (by omega)
        omega
      have hc2ge : E2 + 4 ≤ c2 := by
        obtain ⟨hq1m, hq1e⟩ := hq1c hc2ne
        have hgt2 := hEc2 hc2ne
        obtain ⟨k1, hk1, hk1q⟩ := mem_GetCuePoint st1.m_cues q1 hq1m
        rw [hclen1] at hk1
        have h1 := hoff1 k1 hk1
        rw [hk1q, hq1e] at h1
        by_cases hgt : (GetCuePoint st.m_cues k1).dwSampleOffset > E2
        · rw [if_pos hgt] at h1
          have := hmin _ (GetCuePoint_mem st.m_cues k1 hk1) hc hgt
          omega
        · rw [if_neg hgt] at h1
          omega
      have hc2 : c2 = E2 + 4 := by omega
      have hT1 : c2 ≠ 0 → (c2 - 1) * st1.m_channels ≤ st1.ArrayLength := by
        intro _
        rw [hc2, hch1]
        exact hN1ge
      have hLen2 := excessLength_eq st1 E2 c2 (by rw [hch1]; exact hch) (by omega) hH1 hT1
      have h43 : E2 + 4 - 1 = E2 + 3 := by omega
      have hLL : st2.ArrayLength = st1.ArrayLength := by
        rw [hL2, hLen2, if_pos hc2ne, hc2, hch1, h43]
        omega
      refine ⟨st1, st2, hrun1, hrun2, hLL, ?_, hloops2, ?_⟩
      · apply cues_ext _ _ hclen2
        intro k hk
        rw [hcne2 hc2ne k hk]
        have hR : usub (usub c2 1) (uadd E2 3) = 0 := by
          rw [hc2]; unfold usub uadd U32 at *; omega
        rw [hR]
        have hlt : (GetCuePoint st1.m_cues k).dwSampleOffset < U32 := by
          have hk' : k < st.m_cues.length := by rw [← hclen1]; exact hk
          rw [hoff1 k hk']
          have := hqoff _ (GetCuePoint_mem st.m_cues k hk')
          by_cases hgt : (GetCuePoint st.m_cues k).dwSampleOffset > E2
          · rw [if_pos hgt]; omega
          · rw [if_neg hgt]; omega
        have h0 : usub (GetCuePoint st1.m_cues k).dwSampleOffset 0 =
            (GetCuePoint st1.m_cues k).dwSampleOffset := usub_eq (Nat.zero_le _) hlt
        rw [h0]
        by_cases hgt : (GetCuePoint st1.m_cues k).dwSampleOffset > E2
        · rw [if_pos hgt]
        · rw [if_neg hgt]
      · intro i hi
        by_cases hlt : i < (E2 + 3) * st1.m_channels
        · exact hhead2 i (by rw [← hL2, hLL]; exact hi) hlt
        · have h := htail2 hc2ne i (by rw [← hL2, hLL]; exact hi) (by omega)
          have hidx : (c2 - 1) * st1.m_channels + (i - (E2 + 3) * st1.m_channels) = i := by
            rw [hc2, h43]
            omega
          rw [hidx] at h
          exact h

theorem TrimExcessData_twice_witness :
    (∀ l, l ∈ [(⟨1, 4⟩ : LOOPDATA)] → (l.dwEnd + 3) * 1 ≤ 20) ∧
    (∀ q, q ∈ [(⟨3⟩ : CUEPOINT), ⟨12⟩] → (q.dwSampleOffset - 1) * 1 ≤ 20) ∧
    ∃ st1 st2,
      TrimExcessData ⟨fun _ => 0, fun _ => 0, fun _ => 0, fun _ => 0, fun _ => 0, fun _ => 0⟩
        ⟨20, 1, 1000, SF_FORMAT_DOUBLE, fun i => (i : ℚ) + 100, fun _ => 0, fun _ => 0,
          [⟨1, 4⟩], [⟨3⟩, ⟨12⟩]⟩ = some st1 ∧
      TrimExcessData ⟨fun _ => 0, fun _ => 0, fun _ => 0, fun _ => 0, fun _ => 0, fun _ => 0⟩
        st1 = some st2 ∧
      st2.ArrayLength = st1.ArrayLength ∧ st2.m_cues = st1.m_cues ∧
      st2.m_loops = st1.m_loops ∧ ∀ i, i < st1.ArrayLength → SampleEq st1 st2 i i :=
  ⟨by decide, by decide,
    TrimExcessData_twice
      ⟨fun _ => 0, fun _ => 0, fun _ => 0, fun _ => 0, fun _ => 0, fun _ => 0⟩
      ⟨fun _ => 0, fun _ => 0, fun _ => 0, fun _ => 0, fun _ => 0, fun _ => 0⟩
      ⟨20, 1, 1000, SF_FORMAT_DOUBLE, fun i => (i : ℚ) + 100, fun _ => 0, fun _ => 0,
        [⟨1, 4⟩], [⟨3⟩, ⟨12⟩]⟩
      (by decide) (by decide) (by decide) (by decide) (by decide) (by decide)⟩

/-! ## The periods accepted by the time domain detector -/

/-- Every range other than `(0, 0)` that the sustain detection returns lies inside the
buffer, start before end. -/
theorem sustain_range_inside (fh : FileHandling) (ch_data : Nat → ℚ) (s e : Nat)
    (hwin : fh.m_samplerate / 20 < fh.numberOfSamples)
    (hn : fh.numberOfSamples < 2147483648) (hsr : fh.m_samplerate < 2147483648)
    (hres : GetSustainStartAndEnd fh ch_data = some (s, e)) (hne : (s, e) ≠ (0, 0)) :
    s < e ∧ s < fh.numberOfSamples ∧ e < fh.numberOfSamples := by
  have hpos : 0 < fh.numberOfSamples := by omega
  have hU : fh.numberOfSamples < U32 := by unfold U32; omega
  suffices hmain : s < e ∧ e < fh.numberOfSamples by
    exact ⟨hmain.1, by omega, hmain.2⟩
  unfold GetSustainStartAndEnd at hres
  rw [Option.bind_eq_some] at hres
  obtain ⟨strongest, hmax, hres⟩ := hres
  rw [Option.bind_eq_some] at hres
  obtain ⟨fwd, hfwd, hres⟩ := hres
  rw [Option.bind_eq_some] at hres
  obtain ⟨bwd, hbwd, hres⟩ := hres
  have hidx := findStrongestValue_index_lt ch_data _ hpos _ hmax
  have hf0 := scanSustainStart_lt ch_data _ _ hwin hU _ hfwd
  have hs0 := scanSustainEnd_lt ch_data _ _ strongest.1 hpos hU _ hbwd
  have hfirst_eq : uadd fwd.2 (fh.m_samplerate / 4) = fwd.2 + fh.m_samplerate / 4 :=
    uadd_eq (by unfold U32; omega)
  rw [hfirst_eq] at hres
  have hsecond_lt : removeOffset (fwd.2 + fh.m_samplerate / 4) bwd.2 fh.m_samplerate <
      fh.numberOfSamples := by
    unfold removeOffset
    split
    · rename_i hgt
      rw [usub_eq (by omega) (by unfold U32; omega)]
      omega
    · exact hs0
  unfold sustainDecision at hres
  by_cases hlt : removeOffset (fwd.2 + fh.m_samplerate / 4) bwd.2 fh.m_samplerate <
      fwd.2 + fh.m_samplerate / 4
  · rw [if_pos hlt] at hres
    exact sustainFallback_valid ch_data _ strongest.1 strongest.2 _ _ hn hidx
      hsecond_lt s e hres hne
  · rw [if_neg hlt] at hres
    by_cases hlt' : fwd.2 + fh.m_samplerate / 4 <
        removeOffset (fwd.2 + fh.m_samplerate / 4) bwd.2 fh.m_samplerate
    · rw [if_pos hlt'] at hres
      simp only [Option.some.injEq, Prod.mk.injEq] at hres
      obtain ⟨h2, h3⟩ := hres
      rw [← h2, ← h3]
      exact ⟨hlt', hsecond_lt⟩
    · rw [if_neg hlt'] at hres
      simp only [Option.some.injEq, Prod.mk.injEq] at hres
      obtain ⟨h2, h3⟩ := hres
      exact absurd (by rw [← h2, ← h3]) hne

theorem crossingStep_no_crossing (sqrt : ℚ → ℚ) (m_samplerate : Nat)
    (channel_data : Nat → ℚ) (i : Nat) (st : ℚ × Nat × List ℚ)
    (h : ¬ (channel_data i > 0 ∧ st.1 ≤ 0)) :
    crossingStep sqrt m_samplerate channel_data i st =
      some (Step.next (channel_data i, st.2.1, st.2.2)) := by
  unfold crossingStep
  show (if channel_data i > 0 ∧ st.1 ≤ 0 then _ else
    some (Step.next (channel_data i, st.2.1, st.2.2))) = _
  rw [if_neg h]

theorem crossingStep_first_crossing (sqrt : ℚ → ℚ) (m_samplerate : Nat)
    (channel_data : Nat → ℚ) (i : Nat) (st : ℚ × Nat × List ℚ)
    (h : channel_data i > 0 ∧ st.1 ≤ 0) (he : st.2.1 = 0) :
    crossingStep sqrt m_samplerate channel_data i st =
      some (Step.next (channel_data i, i, st.2.2)) := by
  unfold crossingStep
  show (if channel_data i > 0 ∧ st.1 ≤ 0 then
      if st.2.1 = 0 then some (Step.next (channel_data i, i, st.2.2)) else _
    else _) = _
  rw [if_pos h, if_pos he]

theorem crossingStep_long_period (sqrt : ℚ → ℚ) (m_samplerate : Nat)
    (channel_data : Nat → ℚ) (i : Nat) (st : ℚ × Nat × List ℚ)
    (h : channel_data i > 0 ∧ st.1 ≤ 0) (he : st.2.1 ≠ 0) (hlen : ¬ i > usub st.2.1 i) :
    crossingStep sqrt m_samplerate channel_data i st =
      some (Step.next (channel_data i, st.2.1, st.2.2)) := by
  unfold crossingStep
  show (if channel_data i > 0 ∧ st.1 ≤ 0 then
      if st.2.1 = 0 then _
      else
        if i > usub st.2.1 i then _
        else some (Step.next (channel_data i, st.2.1, st.2.2))
    else _) = _
  rw [if_pos h, if_neg he, if_neg hlen]

/-- A round of the zero crossing loop never fails and never leaves the loop, and it keeps
`CrossingInv`. -/
theorem crossingStep_inv (sqrt : ℚ → ℚ) (m_samplerate : Nat) (channel_data : Nat → ℚ)
    (first second i : Nat) (st : ℚ × Nat × List ℚ) (hU : second < U32) (hi : first < i)
    (hP : CrossingInv sqrt m_samplerate channel_data first second i st) :
    ∃ s', crossingStep sqrt m_samplerate channel_data i st = some (Step.next s') ∧
      CrossingInv sqrt m_samplerate channel_data first second (i - 1) s' := by
  obtain ⟨hi2, hend, hrec⟩ := hP
  by_cases hcross : channel_data i > 0 ∧ st.1 ≤ 0
  · by_cases he : st.2.1 = 0
    · refine ⟨_, crossingStep_first_crossing sqrt m_samplerate channel_data i st hcross he,
        ?_, Or.inr ⟨?_, hi2, fun _ => hcross.1⟩, hrec⟩
      · show i - 1 + 2 ≤ second
        omega
      · show i - 1 < i
        omega
    · have hend' : i < st.2.1 ∧ st.2.1 + 2 ≤ second ∧ (st.2.1 = i + 1 → 0 < st.1) := by
        rcases hend with h0 | h1
        · exact absurd h0 he
        · exact h1
      obtain ⟨hie, he2, hadj⟩ := hend'
      have hne1 : st.2.1 ≠ i + 1 := fun h => absurd (hadj h) (not_lt.mpr hcross.2)
      have hl : usub st.2.1 i = st.2.1 - i := usub_eq (le_of_lt hie) (by omega)
      have keep : CrossingInv sqrt m_samplerate channel_data first second (i - 1)
          (channel_data i, st.2.1, st.2.2) := by
        refine ⟨?_, Or.inr ⟨?_, he2, ?_⟩, hrec⟩
        · show i - 1 + 2 ≤ second
          omega
        · show i - 1 < st.2.1
          omega
        · intro h
          have h' : st.2.1 = i - 1 + 1 := h
          omega
      by_cases hgt : i > usub st.2.1 i
      · have hlen : st.2.1 - i < i := by rw [← hl]; exact hgt
        have hp : usub i (st.2.1 - i) = i - (st.2.1 - i) :=
          usub_eq (le_of_lt hlen) (by omega)
        have hpe := periodError_eq channel_data (i - (st.2.1 - i)) i (st.2.1 - i) (by omega)
          (by omega) (by omega)
        have hstep := crossingStep_of_error sqrt m_samplerate channel_data i st _ _ hcross.1
          hcross.2 he hgt (by rw [hl, hp]; exact hpe)
        rw [hl] at hstep
        by_cases h12 : meanSquare (fun j => channel_data (j + (i - (st.2.1 - i))) -
            channel_data (j + i)) (st.2.1 - i) > 0 ∧
            meanSquare (fun j => channel_data (j + (i - (st.2.1 - i)))) (st.2.1 - i) > 0
        · by_cases h3 : sqrt (meanSquare (fun j => channel_data (j + (i - (st.2.1 - i))) -
              channel_data (j + i)) (st.2.1 - i)) /
              sqrt (meanSquare (fun j => channel_data (j + (i - (st.2.1 - i))))
                (st.2.1 - i)) < 0.55
          · rw [if_pos h12, if_pos h3] at hstep
            refine ⟨_, hstep, ?_, Or.inr ⟨?_, hi2, fun _ => hcross.1⟩, ?_⟩
            · show i - 1 + 2 ≤ second
              omega
            · show i - 1 < i
              omega
            · intro p hp'
              have hp'' : p ∈ st.2.2 ++ [(m_samplerate : ℚ) / ((st.2.1 - i : Nat) : ℚ)] := hp'
              rw [List.mem_append, List.mem_singleton] at hp''
              rcases hp'' with hin | heq
              · exact hrec p hin
              · exact ⟨i, st.2.1 - i, heq, by omega, hi, hlen, by omega, h12.1, h12.2, h3⟩
          · rw [if_pos h12, if_neg h3] at hstep
            exact ⟨_, hstep, keep⟩
        · rw [if_neg h12] at hstep
          exact ⟨_, hstep, keep⟩
      · exact ⟨_, crossingStep_long_period sqrt m_samplerate channel_data i st hcross he hgt,
          keep⟩
  · refine ⟨_, crossingStep_no_crossing sqrt m_samplerate channel_data i st hcross, ?_, ?_,
      hrec⟩
    · show i - 1 + 2 ≤ second
      omega
    · rcases hend with h0 | ⟨hie, he2, _⟩
      · exact Or.inl h0
      · refine Or.inr ⟨?_, he2, ?_⟩
        · show i - 1 < st.2.1
          omega
        · intro h
          have h' : st.2.1 = i - 1 + 1 := h
          omega

/-- The zero crossing loop over a span of at least two samples returns, and every pitch in
its list is a `RecordedPeriod`. -/
theorem crossingLoop_records (sqrt : ℚ → ℚ) (m_samplerate : Nat) (channel_data : Nat → ℚ)
    (first second : Nat) (hU : second < U32) (hspan : first + 2 ≤ second) :
    ∃ st, crossingLoop sqrt m_samplerate channel_data first second = some st ∧
      ∀ p, p ∈ st.2.2 → RecordedPeriod sqrt m_samplerate channel_data first second p := by
  rw [crossingLoop_eq_step]
  have h2 : usub second 2 = second - 2 := usub_eq (by omega) hU
  rw [h2]
  refine forLoop_total
    (fun i st => CrossingInv sqrt m_samplerate channel_data first second i st)
    (fun st => ∀ p, p ∈ st.2.2 → RecordedPeriod sqrt m_samplerate channel_data first second p)
    (fun i => i) ?_ ?_ U32 (second - 2) (channel_data second, 0, []) ?_
    (show second - 2 < U32 by omega)
  · intro i st hP hc
    have hi : first < i := by simpa using hc
    obtain ⟨s', hs', hP'⟩ := crossingStep_inv sqrt m_samplerate channel_data first second i st
      hU hi hP
    have hdec : usub i 1 = i - 1 := usub_eq (by omega) (by have := hP.1; omega)
    refine Or.inl ⟨s', hs', ?_, ?_⟩
    · show CrossingInv sqrt m_samplerate channel_data first second (usub i 1) s'
      rw [hdec]; exact hP'
    · show usub i 1 < i
      rw [hdec]; omega
  · intro i st hP _
    exact hP.2.2
  · refine ⟨?_, Or.inl rfl, ?_⟩
    · show second - 2 + 2 ≤ second
      omega
    · intro p hp
      exact absurd hp (List.not_mem_nil p)

/-- The mean of a non-empty list lies between any bounds of its entries. -/
theorem list_mean_bounds (l : List ℚ) (lo hi : ℚ) (hne : l ≠ [])
    (h : ∀ p, p ∈ l → lo < p ∧ p ≤ hi) :
    lo < l.sum / (l.length : ℚ) ∧ l.sum / (l.length : ℚ) ≤ hi := by
  have hsum : ∀ l : List ℚ, (∀ p, p ∈ l → lo < p ∧ p ≤ hi) →
      (l ≠ [] → lo * (l.length : ℚ) < l.sum) ∧ l.sum ≤ hi * (l.length : ℚ) := by
    intro l
    induction l with
    | nil => intro _; exact ⟨fun h => absurd rfl h, by simp⟩
    | cons a t ih =>
      intro ht
      have ha := ht a (List.mem_cons_self a t)
      have iht := ih (fun p hp => ht p (List.mem_cons_of_mem a hp))
      have hlo : lo * (t.length : ℚ) ≤ t.sum := by
        by_cases hnil : t = []
        · subst hnil; simp
        · exact le_of_lt (iht.1 hnil)
      refine ⟨fun _ => ?_, ?_⟩
      · rw [List.sum_cons, List.length_cons]
        push_cast
        linarith [ha.1]
      · rw [List.sum_cons, List.length_cons]
        push_cast
        linarith [ha.2, iht.2]
  have hlen : (0 : ℚ) < (l.length : ℚ) := by
    have : 0 < l.length := List.length_pos.mpr hne
    exact_mod_cast this
  obtain ⟨h1, h2⟩ := hsum l h
  exact ⟨(lt_div_iff₀ hlen).mpr (h1 hne), (div_le_iff₀ hlen).mpr h2⟩

/-- The span that the zero crossing loop analyses: it ends inside the sustain range, at
most two seconds and at least two samples after its start. -/
theorem clampSpan_bounds (first second m_samplerate : Nat) (hsr0 : 0 < m_samplerate)
    (hsr : m_samplerate < 2147483648) (hs : second < 2147483648)
    (hspan : first + 2 ≤ second) :
    first + 2 ≤ clampSpan first second m_samplerate ∧
      clampSpan first second m_samplerate ≤ second ∧
      clampSpan first second m_samplerate ≤ first + 2 * m_samplerate := by
  have h1 : usub second first = second - first := usub_eq (by omega) (by unfold U32; omega)
  have h2 : umul m_samplerate 2 = m_samplerate * 2 := umul_eq (by unfold U32; omega)
  unfold clampSpan
  rw [h1, h2]
  by_cases hgt : second - first > m_samplerate * 2
  · rw [if_pos hgt, uadd_eq (by unfold U32; omega)]
    omega
  · rw [if_neg hgt]
    omega

/-- A recorded pitch of a span of at most two seconds lies above 0.5 Hz and is at most half
the sample rate; the period is shorter than two seconds. -/
theorem RecordedPeriod_bounds (sqrt : ℚ → ℚ) (m_samplerate : Nat) (channel_data : Nat → ℚ)
    (first second : Nat) (p : ℚ) (hspan : second ≤ first + 2 * m_samplerate)
    (h : RecordedPeriod sqrt m_samplerate channel_data first second p) :
    ∃ i len : Nat, p = (m_samplerate : ℚ) / (len : ℚ) ∧ 2 ≤ len ∧ len < 2 * m_samplerate ∧
      first < i ∧ PeriodAccepted sqrt channel_data i len ∧
      (∀ j, j < len → 1 ≤ j + (i - len) ∧ j + (i - len) < second ∧ 1 ≤ j + i ∧
        j + i < second) ∧
      1 / 2 < p ∧ p ≤ (m_samplerate : ℚ) / 2 := by
  obtain ⟨i, len, hp, h2, hfi, hli, hend, hacc⟩ := h
  have hlen : len < 2 * m_samplerate := by omega
  have hlq : (2 : ℚ) ≤ (len : ℚ) := by exact_mod_cast h2
  have hlq' : (len : ℚ) < 2 * (m_samplerate : ℚ) := by exact_mod_cast hlen
  have hpos : (0 : ℚ) < (len : ℚ) := by linarith
  have hsrq : (0 : ℚ) ≤ (m_samplerate : ℚ) := Nat.cast_nonneg _
  refine ⟨i, len, hp, h2, hlen, hfi, hacc, fun j hj => ⟨by omega, by omega, by omega, by omega⟩,
    ?_, ?_⟩
  · rw [hp, lt_div_iff₀ hpos]
    linarith
  · rw [hp]
    exact div_le_div_of_nonneg_left hsrq (by norm_num) hlq

/-- C37. Whenever `DetectPitchInTimeDomain` returns `true` (sample rate positive, sizes in
the range of `int`, the buffer longer than the `m_samplerate / 20` window), the zero
crossing loop has returned a non-empty list of pitches of which the result is the mean; every
entry is `m_samplerate / len` for a period accepted at a crossing `i` with
`2 <= len < 2 * m_samplerate`; the samples compared for it, at `j + (i - len)` and `j + i`
for `j < len`, lie at indices from 1 on and before the end of the analysed span, which is
inside the buffer; and the pitch is greater than 0.5 Hz and at most `m_samplerate / 2`. -/
theorem time_domain_pitch_bounds (sqrt : ℚ → ℚ) (fh : FileHandling) (junk audio : Nat → ℚ)
    (pitch : ℚ) (hwin : fh.m_samplerate / 20 < fh.numberOfSamples)
    (hn : fh.numberOfSamples < 2147483648) (hsr : fh.m_samplerate < 2147483648)
    (hsr0 : 0 < fh.m_samplerate)
    (h : DetectPitchInTimeDomain sqrt fh junk audio = some (some pitch)) :
    ∃ channel_data first second st,
      prepareChannelData fh junk audio = some channel_data ∧
      GetSustainStartAndEnd fh channel_data = some (first, second) ∧
      clampSpan first second fh.m_samplerate < fh.numberOfSamples ∧
      crossingLoop sqrt fh.m_samplerate channel_data first
        (clampSpan first second fh.m_samplerate) = some st ∧
      st.2.2 ≠ [] ∧ pitch = st.2.2.sum / (st.2.2.length : ℚ) ∧
      (∀ p, p ∈ st.2.2 → ∃ i len : Nat, p = (fh.m_samplerate : ℚ) / (len : ℚ) ∧ 2 ≤ len ∧
        len < 2 * fh.m_samplerate ∧ first < i ∧ PeriodAccepted sqrt channel_data i len ∧
        (∀ j, j < len → 1 ≤ j + (i - len) ∧
          j + (i - len) < clampSpan first second fh.m_samplerate ∧ 1 ≤ j + i ∧
          j + i < clampSpan first second fh.m_samplerate) ∧
        1 / 2 < p ∧ p ≤ (fh.m_samplerate : ℚ) / 2) ∧
      1 / 2 < pitch ∧ pitch ≤ (fh.m_samplerate : ℚ) / 2 := by
  unfold DetectPitchInTimeDomain at h
  rw [Option.bind_eq_some] at h
  obtain ⟨channel_data, hprep, h⟩ := h
  rw [Option.bind_eq_some] at h
  obtain ⟨⟨first, second⟩, hsus, h⟩ := h
  by_cases hz : first = 0 ∧ second = 0
  · rw [if_pos hz] at h
    exact absurd (Option.some.inj h) (by simp)
  · rw [if_neg hz] at h
    have hne : (first, second) ≠ (0, 0) := by
      intro hp
      exact hz ⟨congrArg Prod.fst hp, congrArg Prod.snd hp⟩
    obtain ⟨hlt, _, hsn⟩ := sustain_range_inside fh channel_data first second hwin hn hsr
      hsus hne
    have hsub : usub second first = second - first :=
      usub_eq (le_of_lt hlt) (by unfold U32; omega)
    by_cases hshort : usub second first < 2
    · rw [if_pos hshort] at h
      exact absurd (Option.some.inj h) (by simp)
    · rw [if_neg hshort] at h
      rw [hsub] at hshort
      obtain ⟨hc1, hc2, hc3⟩ := clampSpan_bounds first second fh.m_samplerate hsr0 hsr
        (by omega) (by omega)
      obtain ⟨st, hloop, hrec⟩ := crossingLoop_records sqrt fh.m_samplerate channel_data
        first (clampSpan first second fh.m_samplerate) (by unfold U32; omega) hc1
      rw [hloop, Option.some_bind] at h
      have havg : averagePeriods st.2.2 = some pitch := Option.some.inj h
      unfold averagePeriods at havg
      by_cases hemp : st.2.2.isEmpty = false
      · rw [if_pos hemp] at havg
        have hpitch : pitch = st.2.2.sum / (st.2.2.length : ℚ) := (Option.some.inj havg).symm
        have hnil : st.2.2 ≠ [] := by
          intro hnil
          rw [hnil] at hemp
          exact absurd hemp (by simp)
        have hall := fun p (hp : p ∈ st.2.2) =>
          RecordedPeriod_bounds sqrt fh.m_samplerate channel_data first
            (clampSpan first second fh.m_samplerate) p hc3 (hrec p hp)
        have hmean := list_mean_bounds st.2.2 (1 / 2) ((fh.m_samplerate : ℚ) / 2) hnil
          (fun p hp => by
            obtain ⟨_, _, _, _, _, _, _, _, h1, h2⟩ := hall p hp
            exact ⟨h1, h2⟩)
        refine ⟨channel_data, first, second, st, hprep, hsus, by omega, hloop, hnil, hpitch,
          hall, ?_, ?_⟩
        · rw [hpitch]; exact hmean.1
        · rw [hpitch]; exact hmean.2
      · rw [if_neg hemp] at havg
        exact absurd havg (by simp)

/-- Witness for `time_domain_pitch_bounds`: a mono wave of period 4 with one sample changed,
60 samples at rate 40; the detector returns the pitch 10 = 40 / 4. -/
theorem time_domain_pitch_bounds_witness :
    DetectPitchInTimeDomain (fun x => x) ⟨60, 1, 40⟩ (fun _ => 0)
      (fun i => if i = 38 then -1 / 2 else if i % 4 < 2 then 1 else -1) = some (some 10) ∧
    ∃ channel_data first second st,
      prepareChannelData ⟨60, 1, 40⟩ (fun _ => 0)
        (fun i => if i = 38 then -1 / 2 else if i % 4 < 2 then 1 else -1) =
        some channel_data ∧
      GetSustainStartAndEnd ⟨60, 1, 40⟩ channel_data = some (first, second) ∧
      clampSpan first second 40 < (FileHandling.mk 60 1 40).numberOfSamples ∧
      crossingLoop (fun x => x) 40 channel_data first (clampSpan first second 40) = some st ∧
      st.2.2 ≠ [] ∧ (10 : ℚ) = st.2.2.sum / (st.2.2.length : ℚ) ∧
      (∀ p, p ∈ st.2.2 → ∃ i len : Nat, p = ((40 : Nat) : ℚ) / (len : ℚ) ∧ 2 ≤ len ∧
        len < 2 * 40 ∧ first < i ∧ PeriodAccepted (fun x => x) channel_data i len ∧
        (∀ j, j < len → 1 ≤ j + (i - len) ∧ j + (i - len) < clampSpan first second 40 ∧
          1 ≤ j + i ∧ j + i < clampSpan first second 40) ∧
        1 / 2 < p ∧ p ≤ ((40 : Nat) : ℚ) / 2) ∧
      1 / 2 < (10 : ℚ) ∧ (10 : ℚ) ≤ ((40 : Nat) : ℚ) / 2 :=
  ⟨by decide!,
    time_domain_pitch_bounds (fun x => x) ⟨60, 1, 40⟩ (fun _ => 0)
      (fun i => if i = 38 then -1 / 2 else if i % 4 < 2 then 1 else -1) 10
      (by decide) (by decide) (by decide) (by decide) (by decide!)⟩

end LoopAuditioneer
